import Mathlib

/-!
# efp-lang: the recursive-descent parser of `src/src/parser.cpp`

A shallow embedding of `Parser` (declared in `src/include/parser.h`).

* The source text is immutable and the parser only ever reads at or after
  its cursor `iter`, so a cursor is represented by the text that remains from
  it to `input.end()`: `iter == input.end()` is `iter = []`, `*iter` is the
  head, `++iter` is the tail, and two iterators into the same input are equal
  exactly when the remaining texts have the same length.
* C++ exceptions are explicit: a rule returns `Res.ok` with the value and the
  cursor, or `Res.thrown` with the `ParserError` and the cursor the exception
  leaves behind (`iter` is a member of `Parser`, a `throw` does not restore it).
* `Res.undefined` is the one place where the source leaves defined behaviour:
  the scanning loop of `parse_string` increments `iter` at `input.end()`.
* The grammar rules are mutually recursive; they are defined by structural
  recursion on a fuel argument that every call decrements. `Res.timeout` means
  that the fuel ran out, it is not a behaviour of the program.
* `ExprNumber` keeps the text `sw` handed to `std::from_chars`; the `float`
  of the source is a function of that text.
-/

namespace Efp

/-- The read position `iter`: the input from the position to its end. -/
abbrev Cursor := List Char

/-- The four operator tags, `enum class Operator`. -/
inductive Operator where
  | Add
  | Sub
  | Mul
  | Div
deriving DecidableEq, Repr

/-- The AST, `using Expr = std::variant<...>` with the seven `Expr*` structs.
A `MatchBranch` is the pair (pattern, value). -/
inductive Expr where
  | ExprNumber (value : List Char)
  | ExprString (value : List Char)
  | ExprSymbol (value : List Char)
  | ExprFnCall (name : List Char) (args : List Expr)
  | ExprOperation (left : Expr) (right : Expr) (op : Operator)
  | ExprFnDecl (name : List Char) (args : List (List Char × List Char))
      (ret_type : List Char) (body : Expr)
  | ExprMatch (value : Expr) (branches : List (Expr × Expr))
deriving Repr

/-- A match arm, `struct MatchBranch`: pattern and value. -/
abbrev MatchBranch := Expr × Expr

/-- The error kinds, `enum class ParserError`. -/
inductive ParserError where
  | FailTry
  | UnclosedQuote
  | UnknownExpression
  | UnclosedParens
  | ExpectedBlock
  | UnclosedCurlies
  | ExpectedReturn
deriving DecidableEq, Repr

/-- Outcome of running a grammar rule. -/
inductive Res (α : Type) where
  | ok (val : α) (iter : Cursor)
  | thrown (e : ParserError) (iter : Cursor)
  | undefined
  | timeout
deriving Repr

/-- The double quote character. -/
def dquote : Char := Char.ofNat 34

/-- Source: `is_digit`. -/
def is_digit (c : Char) : Bool := decide ('0' ≤ c) && decide (c ≤ '9')

/-- Source: `is_ws`. -/
def is_ws (c : Char) : Bool :=
  c == ' ' || c == '\n' || c == '\t' || c == Char.ofNat 12 || c == Char.ofNat 11 ||
    c == '\r'

/-- Source: `is_symbol`. -/
def is_symbol (c : Char) : Bool :=
  (decide ('a' ≤ c) && decide (c ≤ 'z')) || (decide ('A' ≤ c) && decide (c ≤ 'Z')) ||
    (decide ('0' ≤ c) && decide (c ≤ '9')) || c == '_'

/-- Source: `Parser::expect(const std::function<bool(char)> &&fn)`. -/
def expect (fn : Char → Bool) (iter : Cursor) : Bool :=
  match iter with
  | [] => false
  | c :: _ => fn c

/-- Source: `Parser::expect(const char &&c)`. -/
def expect_char (c : Char) (iter : Cursor) : Bool :=
  match iter with
  | [] => false
  | d :: _ => c == d

/-- Source: `Parser::expect(const std::string &&str)`. -/
def expect_str (str : List Char) (iter : Cursor) : Bool :=
  match str, iter with
  | [], _ => true
  | _ :: _, [] => false
  | c :: cs, d :: ds => if c != d then false else expect_str cs ds

/-- Source: `Parser::trim`. -/
def trim : Cursor → Cursor
  | [] => []
  | c :: cs => if is_ws c then trim cs else c :: cs

/-- The loop `while (expect(fn)) ++iter;`: the characters stepped over and the
cursor at which the loop stops. -/
def scan (fn : Char → Bool) : Cursor → List Char × Cursor
  | [] => ([], [])
  | c :: cs => if fn c then ((scan fn cs).1.cons c, (scan fn cs).2) else ([], c :: cs)

/-- Source: `Parser::parse_number`. The value is the text `sw` from `start` to
`iter` that `std::from_chars` converts. -/
def parse_number (iter : Cursor) : Res Expr :=
  let iter := trim iter
  if !expect is_digit iter then .thrown .FailTry iter
  else
    let ip := scan is_digit iter
    if expect_char '.' ip.2 then
      let fp := scan is_digit ip.2.tail
      .ok (.ExprNumber (ip.1 ++ '.' :: fp.1)) fp.2
    else .ok (.ExprNumber ip.1) ip.2

/-- The loop `while (!expect(dquote)) ++iter;` of `parse_string`. At
`input.end()` `expect` is false, so the body runs and increments the
past-the-end iterator: `none`. Otherwise the characters stepped over and the
cursor, which is on a quote. -/
def scan_string : Cursor → Option (List Char × Cursor)
  | [] => none
  | c :: cs =>
    if expect_char dquote (c :: cs) then some ([], c :: cs)
    else match scan_string cs with
      | none => none
      | some r => some (c :: r.1, r.2)

/-- Source: `Parser::parse_string`. -/
def parse_string (iter : Cursor) : Res Expr :=
  let iter := trim iter
  if !expect_char dquote iter then .thrown .FailTry iter
  else
    match scan_string iter.tail with
    | none => .undefined
    | some r =>
      if r.2.isEmpty then .thrown .UnclosedQuote r.2
      else .ok (.ExprString r.1) r.2.tail

/-- Source: `Parser::parse_symbol`. -/
def parse_symbol (iter : Cursor) : Res (List Char) :=
  if !expect is_symbol iter then .thrown .FailTry iter
  else .ok (scan is_symbol iter).1 (scan is_symbol iter).2

/-- The loop of `find_braces`, from cursor `rparen` with the current `depth`.
`depth` is an `int` in the source; an input of fewer than 2^31 characters
cannot overflow it, and it is an unbounded integer here. -/
def find_braces_loop (left right : Char) : Cursor → Int → Cursor
  | [], _ => []
  | c :: cs, depth =>
    let depth := if c == left then depth + 1 else depth
    if c == right then
      if depth - 1 == 0 then c :: cs
      else find_braces_loop left right cs (depth - 1)
    else find_braces_loop left right cs depth

/-- Source: `Parser::find_braces`. -/
def find_braces (left right : Char) (iter : Cursor) : Cursor :=
  find_braces_loop left right iter 0

/-- The parameter loop of `parse_fndecl` (`while (iter != close)`), then the
check `if (iter != close) throw UnknownExpression`. -/
def parse_fndecl_args : Nat → Cursor → Cursor → List (List Char × List Char) →
    Res (List (List Char × List Char))
  | 0, _, _, _ => .timeout
  | fuel + 1, close, iter, args =>
    if iter.length != close.length then
      let iter := trim iter
      match parse_symbol iter with
      | .ok arg iter =>
        let iter := trim iter
        match parse_symbol iter with
        | .ok type iter =>
          let args := args ++ [(arg, type)]
          let iter := trim iter
          if !expect_char ',' iter then
            if iter.length != close.length then .thrown .UnknownExpression iter
            else .ok args iter
          else parse_fndecl_args fuel close iter.tail args
        | .thrown e iter => .thrown e iter
        | .undefined => .undefined
        | .timeout => .timeout
      | .thrown e iter => .thrown e iter
      | .undefined => .undefined
      | .timeout => .timeout
    else .ok args iter

/-- Source: `Parser::parse_fndecl`, from `bkup = iter` to the check
`if (iter != close) throw UnknownExpression`: the keyword, the name and the
parameter list. On success the cursor is on the closing parenthesis. -/
def parse_fndecl_head (fuel : Nat) (iter : Cursor) :
    Res (List Char × List (List Char × List Char)) :=
  let bkup := iter
  match parse_symbol iter with
  | .ok kwfunc iter =>
    if kwfunc != "func".toList then .thrown .FailTry bkup
    else
      let iter := trim iter
      match parse_symbol iter with
      | .ok name iter =>
        let iter := trim iter
        if !expect_char '(' iter then .thrown .UnclosedParens iter
        else
          let close := find_braces '(' ')' iter
          if close.isEmpty then .thrown .UnclosedParens iter
          else
            match parse_fndecl_args fuel close iter.tail [] with
            | .ok args iter => .ok (name, args) iter
            | .thrown e iter => .thrown e iter
            | .undefined => .undefined
            | .timeout => .timeout
      | .thrown e iter => .thrown e iter
      | .undefined => .undefined
      | .timeout => .timeout
  | .thrown e iter => .thrown e iter
  | .undefined => .undefined
  | .timeout => .timeout

mutual

/-- Source: `Parser::parse_expr`. -/
def parse_expr : Nat → Cursor → Res Expr
  | 0, _ => .timeout
  | fuel + 1, iter =>
    let iter := trim iter
    match parse_fndecl fuel iter with
    | .thrown .FailTry iter =>
      match parse_operation fuel iter with
      | .thrown .FailTry iter => .thrown .UnknownExpression iter
      | r => r
    | r => r

/-- Source: `Parser::parse_operation`. -/
def parse_operation : Nat → Cursor → Res Expr
  | 0, _ => .timeout
  | fuel + 1, iter =>
    let iter := trim iter
    match parse_op0 fuel iter with
    | .thrown .FailTry iter =>
      match parse_op1 fuel iter with
      | .thrown .FailTry iter => .thrown .FailTry iter
      | r => r
    | r => r

/-- Source: `Parser::parse_op0`. -/
def parse_op0 : Nat → Cursor → Res Expr
  | 0, _ => .timeout
  | fuel + 1, iter =>
    match parse_op1 fuel iter with
    | .ok left iter => parse_op0_loop fuel left (trim iter)
    | r => r

/-- The `while (1)` loop of `parse_op0`, entered with `left` and the cursor. -/
def parse_op0_loop : Nat → Expr → Cursor → Res Expr
  | 0, _, _ => .timeout
  | fuel + 1, left, iter =>
    if expect_char '+' iter then
      match parse_op1 fuel iter.tail with
      | .ok right iter => parse_op0_loop fuel (.ExprOperation left right .Add) (trim iter)
      | r => r
    else if expect_char '-' iter then
      match parse_op1 fuel iter.tail with
      | .ok right iter => parse_op0_loop fuel (.ExprOperation left right .Sub) (trim iter)
      | r => r
    else .ok left iter

/-- Source: `Parser::parse_op1`. -/
def parse_op1 : Nat → Cursor → Res Expr
  | 0, _ => .timeout
  | fuel + 1, iter =>
    match parse_atom fuel iter with
    | .ok left iter => parse_op1_loop fuel left (trim iter)
    | r => r

/-- The `while (1)` loop of `parse_op1`, entered with `left` and the cursor. -/
def parse_op1_loop : Nat → Expr → Cursor → Res Expr
  | 0, _, _ => .timeout
  | fuel + 1, left, iter =>
    if expect_char '*' iter then
      match parse_atom fuel iter.tail with
      | .ok right iter => parse_op1_loop fuel (.ExprOperation left right .Mul) (trim iter)
      | r => r
    else if expect_char '/' iter then
      match parse_atom fuel iter.tail with
      | .ok right iter => parse_op1_loop fuel (.ExprOperation left right .Div) (trim iter)
      | r => r
    else .ok left iter

/-- Source: `Parser::parse_atom`. -/
def parse_atom : Nat → Cursor → Res Expr
  | 0, _ => .timeout
  | fuel + 1, iter =>
    let iter := trim iter
    match parse_number iter with
    | .thrown .FailTry iter =>
      match parse_match fuel iter with
      | .thrown .FailTry iter =>
        match parse_fncall fuel iter with
        | .thrown .FailTry iter =>
          match parse_string iter with
          | .thrown .FailTry iter => .thrown .FailTry iter
          | r => r
        | r => r
      | r => r
    | r => r

/-- Source: `Parser::parse_fncall`. -/
def parse_fncall : Nat → Cursor → Res Expr
  | 0, _ => .timeout
  | fuel + 1, iter =>
    match parse_symbol iter with
    | .ok sym iter =>
      let iter := trim iter
      if !expect_char '(' iter then .ok (.ExprSymbol sym) iter
      else
        let close := find_braces '(' ')' iter
        if close.isEmpty then .thrown .UnclosedParens iter
        else
          match parse_fncall_args fuel close iter.tail [] with
          | .ok args iter => .ok (.ExprFnCall sym args) iter.tail
          | .thrown e iter => .thrown e iter
          | .undefined => .undefined
          | .timeout => .timeout
    | .thrown e iter => .thrown e iter
    | .undefined => .undefined
    | .timeout => .timeout

/-- The argument loop of `parse_fncall` (`while (iter != close)`), then the
check `if (iter != close) throw UnknownExpression`. -/
def parse_fncall_args : Nat → Cursor → Cursor → List Expr → Res (List Expr)
  | 0, _, _, _ => .timeout
  | fuel + 1, close, iter, args =>
    if iter.length != close.length then
      match parse_expr fuel (trim iter) with
      | .ok arg iter =>
        let args := args ++ [arg]
        let iter := trim iter
        if !expect_char ',' iter then
          if iter.length != close.length then .thrown .UnknownExpression iter
          else .ok args iter
        else parse_fncall_args fuel close iter.tail args
      | .thrown e iter => .thrown e iter
      | .undefined => .undefined
      | .timeout => .timeout
    else .ok args iter

/-- Source: `Parser::parse_fndecl`. After the head (keyword, name, parameter
list): `++iter` over the closing parenthesis, the arrow, the return type and
the body in braces. -/
def parse_fndecl : Nat → Cursor → Res Expr
  | 0, _ => .timeout
  | fuel + 1, iter =>
    match parse_fndecl_head fuel iter with
    | .ok head iter =>
      let iter := trim iter.tail
      if !expect_str "->".toList iter then .thrown .ExpectedReturn iter
      else
        let iter := trim (iter.drop 2)
        match parse_symbol iter with
        | .ok ret iter =>
          let iter := trim iter
          if !expect_char '{' iter then .thrown .ExpectedBlock iter
          else
            match parse_expr fuel iter.tail with
            | .ok body iter =>
              if !expect_char '}' iter then .thrown .UnclosedCurlies iter
              else .ok (.ExprFnDecl head.1 head.2 ret body) iter.tail
            | r => r
        | .thrown e iter => .thrown e iter
        | .undefined => .undefined
        | .timeout => .timeout
    | .thrown e iter => .thrown e iter
    | .undefined => .undefined
    | .timeout => .timeout

/-- Source: `Parser::parse_branch`. -/
def parse_branch : Nat → Cursor → Res MatchBranch
  | 0, _ => .timeout
  | fuel + 1, iter =>
    match parse_atom fuel (trim iter) with
    | .ok pattern iter =>
      let iter := trim iter
      if !expect_str "->".toList iter then .thrown .ExpectedReturn iter
      else
        let iter := trim (iter.drop 2)
        if !expect_char '{' iter then .thrown .ExpectedBlock iter
        else
          match parse_expr fuel (trim iter.tail) with
          | .ok expr iter =>
            let iter := trim iter
            if !expect_char '}' iter then .thrown .ExpectedBlock iter
            else .ok (pattern, expr) iter.tail
          | .thrown e iter => .thrown e iter
          | .undefined => .undefined
          | .timeout => .timeout
    | .thrown e iter => .thrown e iter
    | .undefined => .undefined
    | .timeout => .timeout

/-- Source: `Parser::parse_match`. -/
def parse_match : Nat → Cursor → Res Expr
  | 0, _ => .timeout
  | fuel + 1, iter =>
    let bkup := iter
    match parse_symbol iter with
    | .ok kwmatch iter =>
      if kwmatch != "match".toList then .thrown .FailTry bkup
      else
        match parse_expr fuel (trim iter) with
        | .ok expr iter =>
          let iter := trim iter
          if !expect_char '{' iter then .thrown .ExpectedBlock iter
          else
            let close := find_braces '{' '}' iter
            if close.isEmpty then .thrown .UnclosedCurlies iter
            else
              match parse_match_branches fuel close iter.tail [] with
              | .ok branches iter => .ok (.ExprMatch expr branches) iter.tail
              | .thrown e iter => .thrown e iter
              | .undefined => .undefined
              | .timeout => .timeout
        | r => r
    | .thrown e iter => .thrown e iter
    | .undefined => .undefined
    | .timeout => .timeout

/-- The branch loop of `parse_match` (`while (iter != close)`), then `trim()`
and the check `if (iter != close) throw UnknownExpression`. -/
def parse_match_branches : Nat → Cursor → Cursor → List MatchBranch →
    Res (List MatchBranch)
  | 0, _, _, _ => .timeout
  | fuel + 1, close, iter, branches =>
    if iter.length != close.length then
      match parse_branch fuel (trim iter) with
      | .ok branch iter =>
        let branches := branches ++ [branch]
        let iter := trim iter
        if !expect_char ',' iter then
          let iter := trim iter
          if iter.length != close.length then .thrown .UnknownExpression iter
          else .ok branches iter
        else parse_match_branches fuel close iter.tail branches
      | .thrown e iter => .thrown e iter
      | .undefined => .undefined
      | .timeout => .timeout
    else
      let iter := trim iter
      if iter.length != close.length then .thrown .UnknownExpression iter
      else .ok branches iter

end

/-- Source: `Parser::parse_all`, with the `output` collected so far. -/
def parse_all : Nat → Cursor → List Expr → Res (List Expr)
  | 0, _, _ => .timeout
  | fuel + 1, iter, output =>
    if iter.isEmpty then .ok output iter
    else
      match parse_expr fuel iter with
      | .ok e iter => parse_all fuel iter (output ++ [e])
      | .thrown e iter => .thrown e iter
      | .undefined => .undefined
      | .timeout => .timeout

/-! ## Source texts used in the statements -/

/-- The character of an operator, as `print_binop` writes it and as
`parse_op0` and `parse_op1` read it. -/
def opchar : Operator → Char
  | .Add => '+'
  | .Sub => '-'
  | .Mul => '*'
  | .Div => '/'

/-- The operators of level 0, read by `parse_op0`. -/
def is_op0 : Operator → Bool
  | .Add => true
  | .Sub => true
  | _ => false

/-- The operators of level 1, read by `parse_op1`. -/
def is_op1 : Operator → Bool
  | .Mul => true
  | .Div => true
  | _ => false

/-- A number literal: digits, optionally followed by `.` and digits. -/
def isNumLit (t : List Char) : Bool :=
  !(scan is_digit t).1.isEmpty &&
    ((scan is_digit t).2.isEmpty ||
      (expect_char '.' (scan is_digit t).2 && !(scan is_digit t).2.tail.isEmpty &&
        (scan is_digit t).2.tail.all is_digit))

/-- An identifier: characters of `is_symbol`, the first one a letter or an
underscore, other than the keywords `func` and `match`. -/
def isIdent (t : List Char) : Bool :=
  expect is_symbol t && !expect is_digit t && t.all is_symbol &&
    decide (t ≠ "func".toList) && decide (t ≠ "match".toList)

/-- The atoms of the statements: number literals and identifiers. -/
def isAtom (t : List Char) : Bool := isNumLit t || isIdent t

/-- The node an atom denotes: `ExprNumber` of the literal, `ExprSymbol` of the
identifier. -/
def atomExpr (t : List Char) : Expr :=
  if expect is_digit t then .ExprNumber t else .ExprSymbol t

/-- The text ` o1 a1 o2 a2 ...`: each operator between single spaces, followed
by its right operand. -/
def opsText : List (Operator × List Char) → List Char
  | [] => []
  | p :: ps => ' ' :: opchar p.1 :: ' ' :: (p.2 ++ opsText ps)

/-- The left fold of atoms `a1, a2, ...` onto `left` with their operators. -/
def foldOps (left : Expr) (ps : List (Operator × List Char)) : Expr :=
  ps.foldl (fun l p => .ExprOperation l (atomExpr p.2) p.1) left

/-- The text ` o1 t1 o2 t2 ...` where every operand `t` is a product: an atom
followed by `opsText` of its factors. -/
def termsText : List (Operator × List Char × List (Operator × List Char)) → List Char
  | [] => []
  | t :: ts => ' ' :: opchar t.1 :: ' ' :: (t.2.1 ++ opsText t.2.2 ++ termsText ts)

/-- The left fold of the products onto `left`. -/
def foldTerms (left : Expr)
    (ts : List (Operator × List Char × List (Operator × List Char))) : Expr :=
  ts.foldl (fun l t => .ExprOperation l (foldOps (atomExpr t.2.1) t.2.2) t.1) left

/-- The number of operators in the products of `ts`, one more for each. -/
def termsSize : List (Operator × List Char × List (Operator × List Char)) → Nat
  | [] => 0
  | t :: ts => t.2.2.length + 1 + termsSize ts

/-- The text `, b1, b2, ...`: each item after a comma and a space. -/
def commaText : List (List Char) → List Char
  | [] => []
  | b :: r => ',' :: ' ' :: (b ++ commaText r)

/-- The texts `a1, a2, ..., an` joined by a comma and a space. -/
def argsText : List (List Char) → List Char
  | [] => []
  | a :: r => a ++ commaText r

/-- What may stand after an atom for the atom to end there: no character of
`is_symbol`, no `.` and, after whitespace, no `(`. -/
def AtomEnd (rest : List Char) : Prop :=
  expect is_symbol rest = false ∧ expect_char '.' rest = false ∧
    expect_char '(' (trim rest) = false

/-- After whitespace no operator of level 1 follows. -/
def Op1End (rest : List Char) : Prop :=
  AtomEnd rest ∧ expect_char '*' (trim rest) = false ∧ expect_char '/' (trim rest) = false

/-- After whitespace no operator of either level follows. -/
def Op0End (rest : List Char) : Prop :=
  Op1End rest ∧ expect_char '+' (trim rest) = false ∧ expect_char '-' (trim rest) = false

/-- The depth of a text for a pair of delimiters: the number of `left`
characters minus the number of `right` characters. -/
def brace_depth (left right : Char) (t : List Char) : Int :=
  (t.count left : Int) - (t.count right : Int)

/-- An operand written as a literal: an atom (number literal or identifier),
or a string literal given by the text between its quotes. -/
inductive Lit where
  | atom (t : List Char)
  | str (body : List Char)

/-- The source text of a literal operand. -/
def Lit.text : Lit → List Char
  | .atom t => t
  | .str body => dquote :: (body ++ [dquote])

/-- The node a literal operand denotes. -/
def Lit.expr : Lit → Expr
  | .atom t => atomExpr t
  | .str body => .ExprString body

/-- The literal operands of the statements: atoms, and string literals with no
quote and no brace between the quotes. -/
def Lit.wf : Lit → Bool
  | .atom t => isAtom t
  | .str body => body.all fun c => c != dquote && c != '{' && c != '}'

/-- The text `pattern -> { value }` of a match arm. -/
def branchText (b : Lit × Lit) : List Char :=
  b.1.text ++ ' ' :: '-' :: '>' :: ' ' :: '{' :: ' ' :: (b.2.text ++ [' ', '}'])

/-- The text `, arm1, arm2, ...`: each arm after a comma and a space. -/
def commaBranches : List (Lit × Lit) → List Char
  | [] => []
  | b :: r => ',' :: ' ' :: (branchText b ++ commaBranches r)

/-- The arms joined by a comma and a space. -/
def branchesText : List (Lit × Lit) → List Char
  | [] => []
  | b :: r => branchText b ++ commaBranches r

/-- The text `match scrutinee { arm1, ..., armn }`. -/
def matchText (s : Lit) (bs : List (Lit × Lit)) : List Char :=
  "match ".toList ++ (s.text ++ ' ' :: '{' :: ' ' :: (branchesText bs ++ [' ', '}']))

/-- The text `match scrutinee { arm1, ..., armn,}`: a comma after the last arm,
directly before the closing brace. -/
def matchTextComma (s : Lit) (bs : List (Lit × Lit)) : List Char :=
  "match ".toList ++ (s.text ++ ' ' :: '{' :: ' ' :: (branchesText bs ++ [',', '}']))

/-- Position `k` of the text `t` closes the delimiter: the character at `k`
is `right`, and the characters of `t` up to and including position `k` hold as
many `left` as `right` characters. -/
def closes (left right : Char) (t : List Char) (k : Nat) : Bool :=
  t[k]? == some right && brace_depth left right (t.take (k + 1)) == 0

/-! ## The printer

`print_expr` and `print_binop` write to `std::cout`; here they return the text
they write. `show_float` stands for `std::cout << arg.value` on an
`ExprNumber`: the text that `operator<<` writes for the `float` converted from
the literal text. -/

/-- The loop `for (auto &e : arg.args)` of `print_expr` on a declaration: it
appends the name, a colon and a space, the type, a comma and a space. -/
def print_decl_args : List (List Char × List Char) → List Char
  | [] => []
  | e :: r => e.1 ++ (':' :: ' ' :: (e.2 ++ (',' :: ' ' :: print_decl_args r)))

/-- The test `std::is_same_v<T, ExprOperation>` of the visitors in
`print_binop`. -/
def is_operation : Expr → Bool
  | .ExprOperation _ _ _ => true
  | _ => false

mutual

/-- Source: `print_binop`. The argument is the `ExprOperation` node. -/
def print_binop (show_float : List Char → List Char) : Expr → List Char
  | .ExprOperation left right op =>
    (match op with
      | .Add => ['(', '+', ' ']
      | .Sub => ['(', '-', ' ']
      | .Mul => ['(', '*', ' ']
      | .Div => ['(', '/', ' ']) ++
    (if is_operation left then print_binop show_float left
      else print_expr show_float left) ++
    [' '] ++
    (if is_operation right then print_binop show_float right
      else print_expr show_float right) ++
    [')']
  | _ => []
termination_by e => 2 * sizeOf e

/-- Source: `print_expr`. -/
def print_expr (show_float : List Char → List Char) : Expr → List Char
  | .ExprNumber value => show_float value
  | .ExprString value => dquote :: (value ++ [dquote])
  | .ExprSymbol value => value
  | .ExprFnCall name args => '(' :: (name ++ (print_call_args show_float args ++ [')']))
  | .ExprFnDecl name args ret_type body =>
    "(func ".toList ++ name ++ ['('] ++
      (if args.length > 0 then (print_decl_args args).dropLast.dropLast
        else print_decl_args args) ++
      ") -> ".toList ++ ret_type ++ [' '] ++ print_expr show_float body ++ [')']
  | .ExprOperation left right op => print_binop show_float (.ExprOperation left right op)
  | .ExprMatch value branches =>
    "(match ".toList ++ print_expr show_float value ++
      (print_match_branches show_float branches ++ [')'])
termination_by e => 2 * sizeOf e + 1

/-- The loop `for (auto e : arg.args)` of `print_expr` on a call. -/
def print_call_args (show_float : List Char → List Char) : List Expr → List Char
  | [] => []
  | e :: r => ' ' :: (print_expr show_float e ++ print_call_args show_float r)
termination_by args => 2 * sizeOf args + 1

/-- The loop `for (auto branch : arg.branches)` of `print_expr` on a match. -/
def print_match_branches (show_float : List Char → List Char) :
    List (Expr × Expr) → List Char
  | [] => []
  | (pattern, value) :: r =>
    ' ' :: '(' :: (print_expr show_float pattern ++ " -> ".toList ++
      print_expr show_float value ++ [')'] ++ print_match_branches show_float r)
termination_by branches => 2 * sizeOf branches + 1

end

/-- The parameters of a declaration as the printer shows them: the entries
`p: t` joined by a comma and a space. -/
def paramsText (ps : List (List Char × List Char)) : List Char :=
  argsText (ps.map fun e => e.1 ++ ':' :: ' ' :: e.2)

/-! ## Single-entry precedence climbing -/

/-- The expression rule as the specification describes it: whitespace is
skipped and the loosest level `parse_op0` is the only entry; there is no
second attempt with the tight level. -/
def parse_operation_spec (fuel : Nat) (iter : Cursor) : Res Expr :=
  parse_op0 fuel (trim iter)

/-- A position at which no atom starts: no leading whitespace, no character
of `is_symbol` (so no digit either) and no double quote. -/
def NoAtom (p : Cursor) : Prop :=
  trim p = p ∧ expect is_symbol p = false ∧ expect_char dquote p = false

/-! ## The same input followed by more text -/

/-- The cursor `e` into the input followed by the text `w` stands where the
cursor `r` into the input stands: at the same position, or both have reached
the end of their input. -/
def Ext (w : List Char) (r e : Cursor) : Prop :=
  e = r ++ w ∨ (r = [] ∧ e = [])

/-- The outcome `y` on the input followed by `w` is the outcome `x` on the
input: the same value or error, with cursors that correspond. Nothing is said
when `x` is the end of the fuel. -/
def Res.Ext {α : Type} (w : List Char) : Res α → Res α → Prop
  | .ok v r, .ok v2 e => v = v2 ∧ Efp.Ext w r e
  | .thrown x r, .thrown x2 e => x = x2 ∧ Efp.Ext w r e
  | .undefined, .undefined => True
  | .timeout, _ => True
  | _, _ => False

/-- The test for an `ExprFnDecl` node. -/
def is_fndecl : Expr → Bool
  | .ExprFnDecl _ _ _ _ => true
  | _ => false

/-! ## Progress of the cursor -/

/-- The outcome of a call at cursor `r` is in order: after a success the cursor
has advanced by at least `n` characters, an error leaves it at `r` or after
it, and the fuel of the embedding runs out only when `enough` fails. -/
def Res.Fin {α : Type} (n : Nat) (r : Cursor) (enough : Prop) : Res α → Prop
  | .ok _ q => q.length + n ≤ r.length
  | .thrown _ q => q.length ≤ r.length
  | .undefined => True
  | .timeout => ¬ enough

/-- The nodes that `print_expr` writes without parentheses: numbers, strings
and symbols. -/
def is_leaf : Expr → Bool
  | .ExprNumber _ => true
  | .ExprString _ => true
  | .ExprSymbol _ => true
  | _ => false

/-! ## The value of a number node

`parse_number` ends with `float val{}; auto _ = std::from_chars(sw.data(),
sw.data() + sw.size(), val); return ExprNumber{.value = val};`. `ExprNumber`
keeps the text `sw`; the `float` stored in the node of the source is
`number_value` of that text. `std::from_chars` is library code: it is modelled
from the C++ standard ([charconv.from.chars]): when the parsed value is not in
the range of the type, `value` is unmodified and the result reports
`result_out_of_range`; otherwise `value` is set to the parsed value rounded to
nearest. Values are rational numbers, the rounding of a value in range is the
parameter `nearest`. -/

/-- The value of a decimal digit. -/
def digit_val (c : Char) : Nat := c.toNat - '0'.toNat

/-- The natural number that a run of digits denotes. -/
def digits_val (ds : List Char) : Nat := ds.foldl (fun n c => 10 * n + digit_val c) 0

/-- The decimal number that the text of a literal denotes, as its digits read
as one natural number and the count of digits after the point: `3.14` is
`(314, 2)`. -/
def decimal (sw : List Char) : Nat × Nat :=
  let ip := scan is_digit sw
  if expect_char '.' ip.2 then
    let fp := scan is_digit ip.2.tail
    (digits_val (ip.1 ++ fp.1), fp.1.length)
  else (digits_val ip.1, 0)

/-- The decimal number that the text of a literal denotes. -/
def decimal_value (sw : List Char) : ℚ := ((decimal sw).1 : ℚ) / 10 ^ (decimal sw).2

/-- The largest finite `float`, `FLT_MAX = (2^24 - 1) * 2^104`. -/
def FLT_MAX : Nat := (2 ^ 24 - 1) * 2 ^ 104

/-- The least number that rounds to no finite `float`: halfway between
`FLT_MAX` and `2^128`. -/
def FLT_OVERFLOW : Nat := 2 ^ 128 - 2 ^ 103

/-- Library, modelled from the C++ standard: `std::from_chars` on the text of
a literal. `none` is `result_out_of_range`, with `value` unmodified; `some v`
sets `value` to `v`. Numbers too small for a `float` are not told apart from
those in range: there `nearest` stands for what the library leaves in `value`. -/
def from_chars (nearest : ℚ → ℚ) (sw : List Char) : Option ℚ :=
  if (decimal sw).1 < FLT_OVERFLOW * 10 ^ (decimal sw).2 then some (nearest (decimal_value sw))
  else none

/-- Source: the end of `Parser::parse_number`. `val` is initialised to zero,
`std::from_chars` writes it or leaves it, its result is discarded, and `val`
is the `value` of the node. -/
def number_value (nearest : ℚ → ℚ) (sw : List Char) : ℚ :=
  match from_chars nearest sw with
  | some v => v
  | none => 0

/-! ## The same input followed by any text -/

/-- The outcome with the text `w` appended to its cursor: the outcome of the
same run on the input followed by `w`. -/
def Res.app {α : Type} (w : List Char) : Res α → Res α
  | .ok v q => .ok v (q ++ w)
  | .thrown e q => .thrown e (q ++ w)
  | .undefined => .undefined
  | .timeout => .timeout

/-- A success or a soft failure that leaves the cursor before the end of the
input: the run has not seen the end of the input. -/
def Res.live {α : Type} : Res α → Prop
  | .ok _ q => 0 < q.length
  | .thrown .FailTry q => 0 < q.length
  | _ => False

/-! ## Match expressions over any operands -/

/-- An arm `pattern -> { value }` of a match expression: the text of its
pattern and the text of its value, each with the whitespace around it, the
whitespace between the arrow and the opening brace, the whitespace after the
closing brace, and the nodes the pattern and the value are read as. -/
structure Arm where
  pat : List Char
  gap : List Char
  val : List Char
  trail : List Char
  p : Expr
  v : Expr

/-- The text of an arm: pattern, arrow, gap, opening brace, value, closing
brace, trailing whitespace. -/
def Arm.text (a : Arm) : List Char :=
  a.pat ++ '-' :: '>' :: (a.gap ++ '{' :: (a.val ++ '}' :: a.trail))

/-- The arms of a match expression, separated by commas. -/
def armsText : List Arm → List Char
  | [] => []
  | [a] => a.text
  | a :: b :: r => a.text ++ ',' :: armsText (b :: r)

/-- The text of a match expression: the keyword, the scrutinee, the opening
brace, the arms, the closing brace. -/
def matchSource (s : List Char) (arms : List Arm) : List Char :=
  "match".toList ++ (s ++ '{' :: (armsText arms ++ '}' :: []))

/-- With the given fuel, `parse_atom` reads the pattern of the arm as the node
`p` and stops in front of the arrow that follows it, `parse_expr` reads the
value of the arm as the node `v` and stops in front of the closing brace that
follows it, and the two gaps of the arm are whitespace. -/
def Arm.reads (f : Nat) (a : Arm) : Prop :=
  a.gap.all is_ws = true ∧ a.trail.all is_ws = true ∧
    (∃ q, parse_atom f (a.pat ++ '-' :: '>' :: []) = .ok a.p q ∧ trim q = '-' :: '>' :: []) ∧
    (∃ q, parse_expr f (a.val ++ '}' :: []) = .ok a.v q ∧ trim q = '}' :: [])

/-- With the given fuel, `parse_expr` reads the text `s`, which does not start
with an identifier character, as the node `e` and stops in front of the
opening brace that follows it. -/
def reads_scrutinee (f : Nat) (s : List Char) (e : Expr) : Prop :=
  expect is_symbol s = false ∧
    ∃ q, parse_expr f (s ++ '{' :: []) = .ok e q ∧ trim q = '{' :: []

/-! ## Characters -/

theorem is_ws_cases {c : Char} (h : is_ws c = true) :
    c = ' ' ∨ c = '\n' ∨ c = '\t' ∨ c = Char.ofNat 12 ∨ c = Char.ofNat 11 ∨ c = '\r' := by
  simpa [is_ws, or_assoc] using h

theorem is_symbol_not_ws {c : Char} (h : is_symbol c = true) : is_ws c = false := by
  cases hw : is_ws c with
  | false => rfl
  | true =>
    exfalso
    rcases is_ws_cases hw with rfl | rfl | rfl | rfl | rfl | rfl <;> revert h <;> decide

theorem is_digit_is_symbol {c : Char} (h : is_digit c = true) : is_symbol c = true := by
  simp only [is_digit, Bool.and_eq_true] at h
  simp only [is_symbol, Bool.or_eq_true, Bool.and_eq_true]
  exact Or.inl (Or.inr h)

theorem is_digit_not_ws {c : Char} (h : is_digit c = true) : is_ws c = false :=
  is_symbol_not_ws (is_digit_is_symbol h)

theorem opchar_not_ws (o : Operator) : is_ws (opchar o) = false := by
  cases o <;> decide

theorem opchar_not_symbol (o : Operator) : is_symbol (opchar o) = false := by
  cases o <;> decide

/-! ## The cursor primitives -/

theorem trim_cons_of_not_ws {c : Char} {cs : Cursor} (h : is_ws c = false) :
    trim (c :: cs) = c :: cs := by
  simp [trim, h]

theorem trim_space (cs : Cursor) : trim (' ' :: cs) = trim cs := by
  have : is_ws ' ' = true := by decide
  simp [trim, this]

theorem trim_trim (x : Cursor) : trim (trim x) = trim x := by
  induction x with
  | nil => rfl
  | cons c cs ih =>
    by_cases h : is_ws c = true
    · simp [trim, h, ih]
    · simp [trim, h]

theorem trim_of_expect_symbol {x : Cursor} (h : expect is_symbol x = true) : trim x = x := by
  cases x with
  | nil => rfl
  | cons c cs =>
    simp only [expect] at h
    exact trim_cons_of_not_ws (is_symbol_not_ws h)

theorem expect_append {fn : Char → Bool} {t : List Char} (rest : List Char)
    (h : expect fn t = true) : expect fn (t ++ rest) = true := by
  cases t with
  | nil => simp [expect] at h
  | cons c cs => simpa [expect] using h

theorem expect_append_false {fn : Char → Bool} {t : List Char} (rest : List Char)
    (hne : t ≠ []) (h : expect fn t = false) : expect fn (t ++ rest) = false := by
  cases t with
  | nil => exact absurd rfl hne
  | cons c cs => simpa [expect] using h

theorem scan_all (fn : Char → Bool) (s rest : List Char) (hs : ∀ c ∈ s, fn c = true)
    (hr : expect fn rest = false) : scan fn (s ++ rest) = (s, rest) := by
  induction s with
  | nil =>
    cases rest with
    | nil => rfl
    | cons c cs =>
      simp only [expect] at hr
      simp [scan, hr]
  | cons c cs ih =>
    have hc : fn c = true := hs c (List.mem_cons_self _ _)
    have ih2 := ih (fun d hd => hs d (List.mem_cons_of_mem _ hd))
    simp [scan, hc, ih2]

theorem scan_spec (fn : Char → Bool) (t : List Char) :
    t = (scan fn t).1 ++ (scan fn t).2 ∧ (∀ c ∈ (scan fn t).1, fn c = true) ∧
      expect fn (scan fn t).2 = false := by
  induction t with
  | nil => simp [scan, expect]
  | cons c cs ih =>
    by_cases hc : fn c = true
    · obtain ⟨h1, h2, h3⟩ := ih
      simp only [scan, hc, if_true, List.cons_append]
      refine ⟨by rw [← h1], ?_, h3⟩
      intro d hd
      rcases List.mem_cons.mp hd with rfl | hd
      · exact hc
      · exact h2 d hd
    · simp [scan, hc, expect]

/-- The first component of a scan that starts on a character of the class
starts with that character. -/
theorem scan_fst_head (fn : Char → Bool) (c : Char) (cs : List Char) (h : fn c = true) :
    (scan fn (c :: cs)).1 = c :: (scan fn cs).1 := by
  simp [scan, h]

/-! ## Symbols and numbers -/

theorem parse_symbol_ok (t rest : List Char) (hne : t ≠ []) (ht : ∀ c ∈ t, is_symbol c = true)
    (hr : expect is_symbol rest = false) : parse_symbol (t ++ rest) = .ok t rest := by
  have he : expect is_symbol (t ++ rest) = true := by
    cases t with
    | nil => exact absurd rfl hne
    | cons c cs => simpa [expect] using ht c (List.mem_cons_self _ _)
  simp [parse_symbol, he, scan_all is_symbol t rest ht hr]

theorem parse_symbol_fail (x : Cursor) (h : expect is_symbol x = false) :
    parse_symbol x = .thrown .FailTry x := by
  simp [parse_symbol, h]

theorem isIdent_spec {t : List Char} (h : isIdent t = true) :
    t ≠ [] ∧ (∀ c ∈ t, is_symbol c = true) ∧ expect is_symbol t = true ∧
      expect is_digit t = false ∧ t ≠ "func".toList ∧ t ≠ "match".toList := by
  simp only [isIdent, Bool.and_eq_true, Bool.not_eq_true', decide_eq_true_eq,
    List.all_eq_true] at h
  obtain ⟨⟨⟨⟨h1, h2⟩, h3⟩, h4⟩, h5⟩ := h
  refine ⟨?_, h3, h1, h2, h4, h5⟩
  rintro rfl
  simp [expect] at h1

theorem isNumLit_spec {t : List Char} (h : isNumLit t = true) :
    ∃ ip : List Char, ip ≠ [] ∧ (∀ c ∈ ip, is_digit c = true) ∧
      (t = ip ∨ ∃ fp : List Char, fp ≠ [] ∧ (∀ c ∈ fp, is_digit c = true) ∧
        t = ip ++ '.' :: fp) := by
  obtain ⟨h1, h2, h3⟩ := scan_spec is_digit t
  simp only [isNumLit, Bool.and_eq_true, Bool.or_eq_true, Bool.not_eq_true',
    List.isEmpty_eq_false, List.isEmpty_iff, List.all_eq_true] at h
  obtain ⟨hne, hcase⟩ := h
  refine ⟨(scan is_digit t).1, ?_, h2, ?_⟩
  · intro h0
    simp [h0] at hne
  · rcases hcase with h0 | ⟨⟨hdot, hfne⟩, hall⟩
    · left
      rw [h0, List.append_nil] at h1
      exact h1
    · right
      cases hsn : (scan is_digit t).2 with
      | nil => simp [hsn, expect_char] at hdot
      | cons d ds =>
        rw [hsn] at hdot hfne hall h1
        simp only [expect_char, beq_iff_eq] at hdot
        subst hdot
        refine ⟨ds, ?_, hall, h1⟩
        intro h0
        simp [h0] at hfne

theorem parse_number_ok (t rest : List Char) (ht : isNumLit t = true)
    (hr : expect is_symbol rest = false) (hdot : expect_char '.' rest = false) :
    parse_number (t ++ rest) = .ok (.ExprNumber t) rest := by
  have hrd : expect is_digit rest = false := by
    cases rest with
    | nil => rfl
    | cons c cs =>
      simp only [expect] at hr ⊢
      cases hd : is_digit c with
      | false => rfl
      | true => rw [is_digit_is_symbol hd] at hr; exact absurd hr (by simp)
  obtain ⟨ip, hne, hip, hcase⟩ := isNumLit_spec ht
  obtain ⟨c, cs, rfl⟩ := List.exists_cons_of_ne_nil hne
  have hc : is_digit c = true := hip c (List.mem_cons_self _ _)
  rcases hcase with rfl | ⟨fp, hfne, hfp, rfl⟩
  · have htrim : trim ((c :: cs) ++ rest) = (c :: cs) ++ rest :=
      trim_cons_of_not_ws (is_digit_not_ws hc)
    have hs := scan_all is_digit (c :: cs) rest hip hrd
    simp only [parse_number, htrim]
    rw [hs]
    simp [expect, hc, hdot]
  · have htrim : trim ((c :: cs) ++ '.' :: fp ++ rest) = (c :: cs) ++ '.' :: fp ++ rest :=
      trim_cons_of_not_ws (is_digit_not_ws hc)
    have hs := scan_all is_digit (c :: cs) ('.' :: (fp ++ rest)) hip
      (by simp only [expect]; decide)
    have hs2 := scan_all is_digit fp rest hfp hrd
    simp only [parse_number, htrim]
    have e1 : (c :: cs) ++ '.' :: fp ++ rest = (c :: cs) ++ '.' :: (fp ++ rest) := by simp
    rw [e1, hs]
    simp [expect, hc, expect_char, hs2]

theorem parse_number_fail (x : Cursor) (h : expect is_digit x = false)
    (hx : trim x = x) : parse_number x = .thrown .FailTry x := by
  simp [parse_number, hx, h]

theorem isNumLit_head {t : List Char} (h : isNumLit t = true) : expect is_digit t = true := by
  obtain ⟨ip, hne, hip, hcase⟩ := isNumLit_spec h
  obtain ⟨c, cs, rfl⟩ := List.exists_cons_of_ne_nil hne
  have hc : is_digit c = true := hip c (List.mem_cons_self _ _)
  rcases hcase with rfl | ⟨fp, _, _, rfl⟩ <;> simpa [expect] using hc

theorem atomExpr_num {t : List Char} (h : isNumLit t = true) : atomExpr t = .ExprNumber t := by
  simp [atomExpr, isNumLit_head h]

theorem atomExpr_ident {t : List Char} (h : isIdent t = true) : atomExpr t = .ExprSymbol t := by
  simp [atomExpr, (isIdent_spec h).2.2.2.1]

theorem isAtom_head {t : List Char} (h : isAtom t = true) : expect is_symbol t = true := by
  simp only [isAtom, Bool.or_eq_true] at h
  rcases h with h | h
  · have hd := isNumLit_head h
    cases t with
    | nil => simp [expect] at hd
    | cons c cs => exact is_digit_is_symbol (by simpa [expect] using hd)
  · exact (isIdent_spec h).2.2.1

theorem isAtom_ne_nil {t : List Char} (h : isAtom t = true) : t ≠ [] := by
  rintro rfl
  have := isAtom_head h
  simp [expect] at this

/-! ## Keywords -/

theorem scan_symbol_digit_head {x : Cursor} (h : expect is_digit x = true) :
    (scan is_symbol x).1 ≠ "func".toList ∧ (scan is_symbol x).1 ≠ "match".toList := by
  cases x with
  | nil => simp [expect] at h
  | cons c cs =>
    simp only [expect] at h
    rw [scan_fst_head is_symbol c cs (is_digit_is_symbol h)]
    constructor
    · intro he
      have hc : c = 'f' := (List.cons.inj he).1
      rw [hc] at h
      revert h
      decide
    · intro he
      have hc : c = 'm' := (List.cons.inj he).1
      rw [hc] at h
      revert h
      decide

theorem atom_kw {t : List Char} (rest : List Char) (ht : isAtom t = true)
    (hr : expect is_symbol rest = false) :
    (scan is_symbol (t ++ rest)).1 ≠ "func".toList ∧
      (scan is_symbol (t ++ rest)).1 ≠ "match".toList := by
  simp only [isAtom, Bool.or_eq_true] at ht
  rcases ht with h | h
  · exact scan_symbol_digit_head (expect_append rest (isNumLit_head h))
  · obtain ⟨_, hall, _, _, hf, hm⟩ := isIdent_spec h
    rw [scan_all is_symbol t rest hall hr]
    exact ⟨hf, hm⟩

theorem parse_fndecl_head_soft (fuel : Nat) (x : Cursor)
    (h : expect is_symbol x = false ∨ (scan is_symbol x).1 ≠ "func".toList) :
    parse_fndecl_head fuel x = .thrown .FailTry x := by
  by_cases he : expect is_symbol x = true
  · rcases h with h | h
    · rw [he] at h; exact absurd h (by simp)
    · simp only [parse_fndecl_head, parse_symbol, he]
      simp only [Bool.not_true, Bool.false_eq_true, if_false, bne_iff_ne, ne_eq, h,
        not_false_eq_true, if_true]
  · simp only [Bool.not_eq_true] at he
    simp [parse_fndecl_head, parse_symbol, he]

theorem parse_fndecl_soft (fuel : Nat) (x : Cursor)
    (h : expect is_symbol x = false ∨ (scan is_symbol x).1 ≠ "func".toList) :
    parse_fndecl (fuel + 1) x = .thrown .FailTry x := by
  simp [parse_fndecl, parse_fndecl_head_soft fuel x h]

theorem parse_match_soft (fuel : Nat) (x : Cursor)
    (h : expect is_symbol x = false ∨ (scan is_symbol x).1 ≠ "match".toList) :
    parse_match (fuel + 1) x = .thrown .FailTry x := by
  by_cases he : expect is_symbol x = true
  · rcases h with h | h
    · rw [he] at h; exact absurd h (by simp)
    · simp only [parse_match, parse_symbol, he]
      simp only [Bool.not_true, Bool.false_eq_true, if_false, bne_iff_ne, ne_eq, h,
        not_false_eq_true, if_true]
  · simp only [Bool.not_eq_true] at he
    simp [parse_match, parse_symbol, he]

/-! ## Whitespace before a rule -/

theorem parse_atom_trim (fuel : Nat) (x : Cursor) :
    parse_atom fuel (trim x) = parse_atom fuel x := by
  cases fuel with
  | zero => simp [parse_atom]
  | succ f => simp only [parse_atom, trim_trim]

theorem parse_atom_space (fuel : Nat) (x : Cursor) :
    parse_atom fuel (' ' :: x) = parse_atom fuel x := by
  rw [← parse_atom_trim fuel (' ' :: x), trim_space, parse_atom_trim]

theorem parse_op1_trim (fuel : Nat) (x : Cursor) :
    parse_op1 fuel (trim x) = parse_op1 fuel x := by
  cases fuel with
  | zero => simp [parse_op1]
  | succ f => simp only [parse_op1, parse_atom_trim]

theorem parse_op1_space (fuel : Nat) (x : Cursor) :
    parse_op1 fuel (' ' :: x) = parse_op1 fuel x := by
  rw [← parse_op1_trim fuel (' ' :: x), trim_space, parse_op1_trim]

theorem parse_expr_trim (fuel : Nat) (x : Cursor) :
    parse_expr fuel (trim x) = parse_expr fuel x := by
  cases fuel with
  | zero => simp [parse_expr]
  | succ f => simp only [parse_expr, trim_trim]

theorem parse_expr_space (fuel : Nat) (x : Cursor) :
    parse_expr fuel (' ' :: x) = parse_expr fuel x := by
  rw [← parse_expr_trim fuel (' ' :: x), trim_space, parse_expr_trim]

/-! ## Atoms -/

theorem parse_atom_atom (t rest : List Char) (ht : isAtom t = true) (hr : AtomEnd rest)
    (fuel : Nat) (hf : 2 ≤ fuel) :
    ∃ r, parse_atom fuel (t ++ rest) = .ok (atomExpr t) r ∧ trim r = trim rest := by
  obtain ⟨f, rfl⟩ : ∃ f, fuel = f + 2 := ⟨fuel - 2, by omega⟩
  obtain ⟨hsym, hdot, hpar⟩ := hr
  have hhead := expect_append rest (isAtom_head ht)
  have htrim : trim (t ++ rest) = t ++ rest := trim_of_expect_symbol hhead
  have hkw := atom_kw rest ht hsym
  have ht2 := ht
  simp only [isAtom, Bool.or_eq_true] at ht2
  rcases ht2 with h | h
  · refine ⟨rest, ?_, rfl⟩
    simp only [parse_atom, htrim, parse_number_ok t rest h hsym hdot, atomExpr_num h]
  · obtain ⟨hne, hall, _, hdig, _, _⟩ := isIdent_spec h
    refine ⟨trim rest, ?_, trim_trim rest⟩
    have hnum := parse_number_fail (t ++ rest) (expect_append_false rest hne hdig) htrim
    have hmatch := parse_match_soft f (t ++ rest) (Or.inr hkw.2)
    simp only [parse_atom, htrim, hnum, hmatch, parse_fncall, parse_symbol_ok t rest hne hall hsym]
    simp [hpar, atomExpr_ident h]

/-! ## Operator chains -/

theorem trim_op_cons (o : Operator) (x : List Char) :
    trim (' ' :: opchar o :: x) = opchar o :: x := by
  rw [trim_space, trim_cons_of_not_ws (opchar_not_ws o)]

theorem AtomEnd_op (o : Operator) (x : List Char) : AtomEnd (' ' :: opchar o :: x) := by
  refine ⟨by simp only [expect]; decide, by simp only [expect_char]; decide, ?_⟩
  rw [trim_op_cons]
  cases o <;> simp only [expect_char, opchar] <;> decide

theorem AtomEnd_opsText (ps : List (Operator × List Char)) (rest : List Char)
    (hr : AtomEnd rest) : AtomEnd (opsText ps ++ rest) := by
  cases ps with
  | nil => simpa [opsText] using hr
  | cons p ps => exact AtomEnd_op p.1 _

theorem Op1End_termsText (ts : List (Operator × List Char × List (Operator × List Char)))
    (rest : List Char) (hts : ∀ t ∈ ts, is_op0 t.1 = true) (hr : Op1End rest) :
    Op1End (termsText ts ++ rest) := by
  cases ts with
  | nil => simpa [termsText] using hr
  | cons t ts =>
    have h0 := hts t (List.mem_cons_self _ _)
    refine ⟨AtomEnd_op t.1 _, ?_, ?_⟩
    · simp only [termsText, List.cons_append, trim_op_cons]
      revert h0
      cases t.1 <;> simp [is_op0, expect_char, opchar]
    · simp only [termsText, List.cons_append, trim_op_cons]
      revert h0
      cases t.1 <;> simp [is_op0, expect_char, opchar]

theorem parse_op1_loop_chain (ps : List (Operator × List Char)) (rest : List Char)
    (hps : ∀ p ∈ ps, is_op1 p.1 = true ∧ isAtom p.2 = true) (hr : Op1End rest) :
    ∀ (left : Expr) (fuel : Nat), ps.length + 3 ≤ fuel →
      parse_op1_loop fuel left (trim (opsText ps ++ rest)) =
        .ok (foldOps left ps) (trim rest) := by
  induction ps with
  | nil =>
    intro left fuel hf
    obtain ⟨f, rfl⟩ : ∃ f, fuel = f + 1 := ⟨fuel - 1, by simp at hf; omega⟩
    simp [opsText, parse_op1_loop, hr.2.1, hr.2.2, foldOps]
  | cons p ps ih =>
    intro left fuel hf
    obtain ⟨f, rfl⟩ : ∃ f, fuel = f + 1 := ⟨fuel - 1, by simp at hf; omega⟩
    have hf2 : ps.length + 3 ≤ f := by simp at hf; omega
    obtain ⟨hop, hat⟩ := hps p (List.mem_cons_self _ _)
    have ih2 := ih (fun q hq => hps q (List.mem_cons_of_mem _ hq))
    obtain ⟨r, hr1, hr2⟩ := parse_atom_atom p.2 (opsText ps ++ rest) hat
      (AtomEnd_opsText ps rest hr.1) f (by omega)
    have htxt : trim (opsText (p :: ps) ++ rest) =
        opchar p.1 :: ' ' :: (p.2 ++ (opsText ps ++ rest)) := by
      simp only [opsText, List.cons_append, trim_op_cons, List.append_assoc]
    rw [htxt]
    cases hp : p.1 with
    | Add => rw [hp] at hop; simp [is_op1] at hop
    | Sub => rw [hp] at hop; simp [is_op1] at hop
    | Mul =>
      have e : parse_op1_loop (f + 1) left ('*' :: ' ' :: (p.2 ++ (opsText ps ++ rest))) =
          parse_op1_loop f (.ExprOperation left (atomExpr p.2) .Mul) (trim r) := by
        simp only [parse_op1_loop, expect_char, beq_self_eq_true, if_true, List.tail_cons,
          parse_atom_space, hr1]
      simp only [opchar, e, hr2, ih2 _ f hf2, foldOps, List.foldl_cons, hp]
    | Div =>
      have e : parse_op1_loop (f + 1) left ('/' :: ' ' :: (p.2 ++ (opsText ps ++ rest))) =
          parse_op1_loop f (.ExprOperation left (atomExpr p.2) .Div) (trim r) := by
        have hne : ('*' == '/') = false := by decide
        simp only [parse_op1_loop, expect_char, hne, Bool.false_eq_true, if_false,
          beq_self_eq_true, if_true, List.tail_cons, parse_atom_space, hr1]
      simp only [opchar, e, hr2, ih2 _ f hf2, foldOps, List.foldl_cons, hp]

theorem parse_op1_chain (a : List Char) (ps : List (Operator × List Char)) (rest : List Char)
    (ha : isAtom a = true) (hps : ∀ p ∈ ps, is_op1 p.1 = true ∧ isAtom p.2 = true)
    (hr : Op1End rest) (fuel : Nat) (hf : ps.length + 4 ≤ fuel) :
    parse_op1 fuel (a ++ (opsText ps ++ rest)) =
      .ok (foldOps (atomExpr a) ps) (trim rest) := by
  obtain ⟨f, rfl⟩ : ∃ f, fuel = f + 1 := ⟨fuel - 1, by omega⟩
  obtain ⟨r, hr1, hr2⟩ := parse_atom_atom a (opsText ps ++ rest) ha
    (AtomEnd_opsText ps rest hr.1) f (by omega)
  simp only [parse_op1, hr1, hr2]
  exact parse_op1_loop_chain ps rest hps hr _ f (by omega)

theorem parse_op0_loop_chain (ts : List (Operator × List Char × List (Operator × List Char)))
    (rest : List Char)
    (hts : ∀ t ∈ ts, is_op0 t.1 = true ∧ isAtom t.2.1 = true ∧
      ∀ p ∈ t.2.2, is_op1 p.1 = true ∧ isAtom p.2 = true)
    (hr : Op0End rest) :
    ∀ (left : Expr) (fuel : Nat), termsSize ts + 5 ≤ fuel →
      parse_op0_loop fuel left (trim (termsText ts ++ rest)) =
        .ok (foldTerms left ts) (trim rest) := by
  induction ts with
  | nil =>
    intro left fuel hf
    obtain ⟨f, rfl⟩ : ∃ f, fuel = f + 1 := ⟨fuel - 1, by omega⟩
    simp [termsText, parse_op0_loop, hr.2.1, hr.2.2, foldTerms]
  | cons t ts ih =>
    intro left fuel hf
    obtain ⟨f, rfl⟩ : ∃ f, fuel = f + 1 := ⟨fuel - 1, by omega⟩
    simp only [termsSize] at hf
    obtain ⟨hop, hat, hps⟩ := hts t (List.mem_cons_self _ _)
    have hts2 := fun q hq => hts q (List.mem_cons_of_mem _ hq)
    have ih2 := ih hts2
    have h1 := parse_op1_chain t.2.1 t.2.2 (termsText ts ++ rest) hat hps
      (Op1End_termsText ts rest (fun q hq => (hts2 q hq).1) hr.1) f (by omega)
    have htxt : trim (termsText (t :: ts) ++ rest) =
        opchar t.1 :: ' ' :: (t.2.1 ++ (opsText t.2.2 ++ (termsText ts ++ rest))) := by
      simp only [termsText, List.cons_append, trim_op_cons, List.append_assoc]
    rw [htxt]
    cases hp : t.1 with
    | Mul => rw [hp] at hop; simp [is_op0] at hop
    | Div => rw [hp] at hop; simp [is_op0] at hop
    | Add =>
      have e : parse_op0_loop (f + 1) left
          ('+' :: ' ' :: (t.2.1 ++ (opsText t.2.2 ++ (termsText ts ++ rest)))) =
          parse_op0_loop f (.ExprOperation left (foldOps (atomExpr t.2.1) t.2.2) .Add)
            (trim (termsText ts ++ rest)) := by
        simp only [parse_op0_loop, expect_char, beq_self_eq_true, if_true, List.tail_cons,
          parse_op1_space, h1, trim_trim]
      simp only [opchar, e, ih2 _ f (by omega), foldTerms, List.foldl_cons, hp]
    | Sub =>
      have e : parse_op0_loop (f + 1) left
          ('-' :: ' ' :: (t.2.1 ++ (opsText t.2.2 ++ (termsText ts ++ rest)))) =
          parse_op0_loop f (.ExprOperation left (foldOps (atomExpr t.2.1) t.2.2) .Sub)
            (trim (termsText ts ++ rest)) := by
        have hne : ('+' == '-') = false := by decide
        simp only [parse_op0_loop, expect_char, hne, Bool.false_eq_true, if_false,
          beq_self_eq_true, if_true, List.tail_cons, parse_op1_space, h1, trim_trim]
      simp only [opchar, e, ih2 _ f (by omega), foldTerms, List.foldl_cons, hp]

/-- A flat arithmetic expression: a product followed by level 0 operators and
products. `parse_expr` folds each level to the left. -/
theorem parse_expr_flat (a : List Char) (ps : List (Operator × List Char))
    (ts : List (Operator × List Char × List (Operator × List Char))) (rest : List Char)
    (ha : isAtom a = true) (hps : ∀ p ∈ ps, is_op1 p.1 = true ∧ isAtom p.2 = true)
    (hts : ∀ t ∈ ts, is_op0 t.1 = true ∧ isAtom t.2.1 = true ∧
      ∀ p ∈ t.2.2, is_op1 p.1 = true ∧ isAtom p.2 = true)
    (hr : Op0End rest) (fuel : Nat) (hf : ps.length + termsSize ts + 8 ≤ fuel) :
    parse_expr fuel (a ++ (opsText ps ++ (termsText ts ++ rest))) =
      .ok (foldTerms (foldOps (atomExpr a) ps) ts) (trim rest) := by
  obtain ⟨f, rfl⟩ : ∃ f, fuel = f + 3 := ⟨fuel - 3, by omega⟩
  have hend1 := Op1End_termsText ts rest (fun q hq => (hts q hq).1) hr.1
  have hend := AtomEnd_opsText ps (termsText ts ++ rest) hend1.1
  have hhead := expect_append (opsText ps ++ (termsText ts ++ rest)) (isAtom_head ha)
  have htrim := trim_of_expect_symbol hhead
  have hkw := atom_kw (opsText ps ++ (termsText ts ++ rest)) ha hend.1
  have hdecl := parse_fndecl_soft (f + 1) _ (Or.inr hkw.1)
  have h1 := parse_op1_chain a ps (termsText ts ++ rest) ha hps hend1 f (by omega)
  have h0 := parse_op0_loop_chain ts rest hts hr (foldOps (atomExpr a) ps) f (by omega)
  simp only [parse_expr, htrim, hdecl, parse_operation, parse_op0, h1, trim_trim, h0]

theorem Op0End_nil : Op0End [] := by
  simp [Op0End, Op1End, AtomEnd, expect, expect_char, trim]

theorem termsText_single (ps : List (Operator × List Char)) :
    termsText (ps.map fun p => (p.1, p.2, [])) = opsText ps := by
  induction ps with
  | nil => rfl
  | cons p ps ih => simp [termsText, opsText, ih]

theorem foldTerms_single (ps : List (Operator × List Char)) (left : Expr) :
    foldTerms left (ps.map fun p => (p.1, p.2, [])) = foldOps left ps := by
  induction ps generalizing left with
  | nil => rfl
  | cons p ps ih =>
    simp only [foldTerms, foldOps, List.map_cons, List.foldl_cons] at ih ⊢
    exact ih _

theorem termsSize_single (ps : List (Operator × List Char)) :
    termsSize (ps.map fun p => (p.1, p.2, [])) = ps.length := by
  induction ps with
  | nil => rfl
  | cons p ps ih => simp [termsSize, ih]; omega

/-- C1: multiplication-level operators bind tighter than addition-level
operators. For atoms `a`, `b`, `c` (number literals or identifiers), `op0` one
of `+`, `-` and `op1` one of `*`, `/`, `parse_expr` on `a op0 b op1 c` returns
`Operation(op0, A, Operation(op1, B, C))` and on `a op1 b op0 c` returns
`Operation(op0, Operation(op1, A, B), C)`, with the input consumed. -/
theorem C1_mul_binds_tighter (a b c : List Char) (op0 op1 : Operator)
    (ha : isAtom a = true) (hb : isAtom b = true) (hc : isAtom c = true)
    (h0 : is_op0 op0 = true) (h1 : is_op1 op1 = true) (fuel : Nat) (hf : 10 ≤ fuel) :
    parse_expr fuel (a ++ ' ' :: opchar op0 :: ' ' :: (b ++ ' ' :: opchar op1 :: ' ' :: c)) =
        .ok (.ExprOperation (atomExpr a) (.ExprOperation (atomExpr b) (atomExpr c) op1) op0)
          [] ∧
      parse_expr fuel (a ++ ' ' :: opchar op1 :: ' ' :: (b ++ ' ' :: opchar op0 :: ' ' :: c)) =
        .ok (.ExprOperation (.ExprOperation (atomExpr a) (atomExpr b) op1) (atomExpr c) op0)
          [] := by
  constructor
  · have h := parse_expr_flat a [] [(op0, b, [(op1, c)])] [] ha (by simp)
      (by simp [h0, hb, h1, hc]) Op0End_nil fuel (by simp [termsSize]; omega)
    simpa [opsText, termsText, foldTerms, foldOps, trim] using h
  · have h := parse_expr_flat a [(op1, b)] [(op0, c, [])] [] ha (by simp [h1, hb])
      (by simp [h0, hc]) Op0End_nil fuel (by simp [termsSize]; omega)
    simpa [opsText, termsText, foldTerms, foldOps, trim] using h

/-- `1 + 2 * 3` parses to `Operation(Add, Number(1), Operation(Mul, Number(2),
Number(3)))`. -/
theorem C1_mul_binds_tighter_witness :
    parse_expr 10 "1 + 2 * 3".toList =
      .ok (.ExprOperation (.ExprNumber "1".toList)
        (.ExprOperation (.ExprNumber "2".toList) (.ExprNumber "3".toList) .Mul) .Add) [] :=
  (C1_mul_binds_tighter "1".toList "2".toList "3".toList .Add .Mul (by decide) (by decide)
    (by decide) (by decide) (by decide) 10 (by decide)).1

/-- C2: operators of one precedence level are left-associative. For atoms
`a0 .. an` separated by operators `o1 .. on` that are all of level 0 (`+`, `-`)
or all of level 1 (`*`, `/`), `parse_expr` returns the left fold
`Operation(on, ... Operation(o1, A0, A1) ..., An)` with the input consumed. -/
theorem C2_left_associative (a0 : List Char) (ps : List (Operator × List Char))
    (ha : isAtom a0 = true) (hps : ∀ p ∈ ps, isAtom p.2 = true)
    (hlevel : (∀ p ∈ ps, is_op0 p.1 = true) ∨ (∀ p ∈ ps, is_op1 p.1 = true))
    (fuel : Nat) (hf : ps.length + 8 ≤ fuel) :
    parse_expr fuel (a0 ++ opsText ps) = .ok (foldOps (atomExpr a0) ps) [] := by
  rcases hlevel with h | h
  · have hts : ∀ t ∈ ps.map (fun p => (p.1, p.2, ([] : List (Operator × List Char)))),
        is_op0 t.1 = true ∧ isAtom t.2.1 = true ∧
          ∀ p ∈ t.2.2, is_op1 p.1 = true ∧ isAtom p.2 = true := by
      intro t ht
      obtain ⟨p, hp, rfl⟩ := List.mem_map.mp ht
      exact ⟨h p hp, hps p hp, by simp⟩
    have hh := parse_expr_flat a0 [] _ [] ha (by simp) hts Op0End_nil fuel
      (by rw [termsSize_single]; simp; omega)
    simpa [opsText, termsText_single, foldTerms_single, foldOps, trim] using hh
  · have hh := parse_expr_flat a0 ps [] [] ha (fun p hp => ⟨h p hp, hps p hp⟩) (by simp)
      Op0End_nil fuel (by simp [termsSize]; omega)
    simpa [termsText, foldTerms, trim] using hh

/-- `1 - 2 - 3` parses to `Operation(Sub, Operation(Sub, 1, 2), 3)`. -/
theorem C2_left_associative_witness :
    parse_expr 10 "1 - 2 - 3".toList =
      .ok (.ExprOperation (.ExprOperation (.ExprNumber "1".toList) (.ExprNumber "2".toList)
        .Sub) (.ExprNumber "3".toList) .Sub) [] :=
  C2_left_associative "1".toList [(.Sub, "2".toList), (.Sub, "3".toList)] (by decide)
    (by decide) (Or.inl (by decide)) 10 (by decide)

/-! ## The brace scan -/

theorem find_braces_loop_skip (l r : Char) (t rest : List Char) (d : Int)
    (ht : ∀ c ∈ t, c ≠ l ∧ c ≠ r) :
    find_braces_loop l r (t ++ rest) d = find_braces_loop l r rest d := by
  induction t with
  | nil => rfl
  | cons c cs ih =>
    obtain ⟨h1, h2⟩ := ht c (List.mem_cons_self _ _)
    have ih2 := ih (fun e he => ht e (List.mem_cons_of_mem _ he))
    simp [find_braces_loop, h1, h2, ih2]

theorem find_braces_loop_open (l r : Char) (rest : List Char) (d : Int) (hlr : l ≠ r) :
    find_braces_loop l r (l :: rest) d = find_braces_loop l r rest (d + 1) := by
  simp [find_braces_loop, hlr]

theorem find_braces_loop_close (l r : Char) (rest : List Char) (d : Int) (hlr : l ≠ r)
    (hd : d - 1 ≠ 0) :
    find_braces_loop l r (r :: rest) d = find_braces_loop l r rest (d - 1) := by
  simp [find_braces_loop, Ne.symm hlr, hd]

theorem find_braces_loop_found (l r : Char) (rest : List Char) (hlr : l ≠ r) :
    find_braces_loop l r (r :: rest) 1 = r :: rest := by
  simp [find_braces_loop, Ne.symm hlr]

/-! ## The characters of atoms -/

theorem atom_chars {t : List Char} (ht : isAtom t = true) :
    ∀ c ∈ t, is_symbol c = true ∨ c = '.' := by
  simp only [isAtom, Bool.or_eq_true] at ht
  rcases ht with h | h
  · obtain ⟨ip, _, hip, hcase⟩ := isNumLit_spec h
    rcases hcase with rfl | ⟨fp, _, hfp, rfl⟩
    · intro c hc
      exact Or.inl (is_digit_is_symbol (hip c hc))
    · intro c hc
      rcases List.mem_append.mp hc with hc | hc
      · exact Or.inl (is_digit_is_symbol (hip c hc))
      · rcases List.mem_cons.mp hc with rfl | hc
        · exact Or.inr rfl
        · exact Or.inl (is_digit_is_symbol (hfp c hc))
  · intro c hc
    exact Or.inl ((isIdent_spec h).2.1 c hc)

/-- The characters that the brace scans look for. -/
theorem atom_no_brace {t : List Char} (ht : isAtom t = true) :
    ∀ c ∈ t, (c ≠ '(' ∧ c ≠ ')') ∧ (c ≠ '{' ∧ c ≠ '}') := by
  intro c hc
  rcases atom_chars ht c hc with h | rfl
  · refine ⟨⟨?_, ?_⟩, ?_, ?_⟩ <;> rintro rfl <;> revert h <;> decide
  · decide

theorem commaText_no_paren (r : List (List Char)) (hr : ∀ a ∈ r, isAtom a = true) :
    ∀ c ∈ commaText r, c ≠ '(' ∧ c ≠ ')' := by
  induction r with
  | nil => simp [commaText]
  | cons b r ih =>
    intro c hc
    simp only [commaText, List.mem_cons, List.mem_append] at hc
    rcases hc with rfl | rfl | hc | hc
    · decide
    · decide
    · exact (atom_no_brace (hr b (List.mem_cons_self _ _)) c hc).1
    · exact ih (fun a ha => hr a (List.mem_cons_of_mem _ ha)) c hc

theorem argsText_no_paren (args : List (List Char)) (hr : ∀ a ∈ args, isAtom a = true) :
    ∀ c ∈ argsText args, c ≠ '(' ∧ c ≠ ')' := by
  cases args with
  | nil => simp [argsText]
  | cons a r =>
    intro c hc
    simp only [argsText, List.mem_append] at hc
    rcases hc with hc | hc
    · exact (atom_no_brace (hr a (List.mem_cons_self _ _)) c hc).1
    · exact commaText_no_paren r (fun b hb => hr b (List.mem_cons_of_mem _ hb)) c hc

theorem find_braces_args (args : List (List Char)) (rest : List Char)
    (hr : ∀ a ∈ args, isAtom a = true) :
    find_braces '(' ')' ('(' :: (argsText args ++ ')' :: rest)) = ')' :: rest := by
  rw [find_braces, find_braces_loop_open _ _ _ _ (by decide),
    find_braces_loop_skip _ _ _ _ _ (argsText_no_paren args hr)]
  exact find_braces_loop_found _ _ _ (by decide)

/-! ## From an atom to an expression -/

theorem parse_op1_loop_end (f : Nat) (left : Expr) (x : Cursor)
    (h1 : expect_char '*' x = false) (h2 : expect_char '/' x = false) :
    parse_op1_loop (f + 1) left x = .ok left x := by
  rw [parse_op1_loop]
  simp [h1, h2]

theorem parse_op0_loop_end (f : Nat) (left : Expr) (x : Cursor)
    (h1 : expect_char '+' x = false) (h2 : expect_char '-' x = false) :
    parse_op0_loop (f + 1) left x = .ok left x := by
  rw [parse_op0_loop]
  simp [h1, h2]

/-- An atom after which no operator follows is the whole expression, when the
text does not start with the keyword `func`. -/
theorem parse_expr_of_atom (f : Nat) (x : Cursor) (e : Expr) (r : Cursor)
    (hx : trim x = x)
    (hkw : expect is_symbol x = false ∨ (scan is_symbol x).1 ≠ "func".toList)
    (hatom : parse_atom (f + 1) x = .ok e r)
    (h1 : expect_char '*' (trim r) = false) (h2 : expect_char '/' (trim r) = false)
    (h3 : expect_char '+' (trim r) = false) (h4 : expect_char '-' (trim r) = false) :
    parse_expr (f + 5) x = .ok e (trim r) := by
  have hop1 : parse_op1 (f + 2) x = .ok e (trim r) := by
    rw [parse_op1, hatom]
    exact parse_op1_loop_end f e (trim r) h1 h2
  have hop0 : parse_op0 (f + 3) x = .ok e (trim r) := by
    rw [parse_op0, hop1]
    simp only [trim_trim]
    exact parse_op0_loop_end (f + 1) e (trim r) h3 h4
  have hoper : parse_operation (f + 4) x = .ok e (trim r) := by
    rw [parse_operation]
    simp only [hx, hop0]
  rw [parse_expr]
  simp only [hx, parse_fndecl_soft (f + 3) x hkw, hoper]

/-! ## Calls -/

theorem trim_length_le (x : Cursor) : (trim x).length ≤ x.length := by
  induction x with
  | nil => simp [trim]
  | cons c cs ih =>
    by_cases h : is_ws c = true
    · simp only [trim, h, if_true, List.length_cons]; omega
    · simp [trim, h]

theorem Op0End_of_head (c : Char) (x : List Char) (h1 : is_symbol c = false)
    (h2 : is_ws c = false)
    (h3 : c ≠ '.' ∧ c ≠ '(' ∧ c ≠ '*' ∧ c ≠ '/' ∧ c ≠ '+' ∧ c ≠ '-') :
    Op0End (c :: x) := by
  obtain ⟨a1, a2, a3, a4, a5, a6⟩ := h3
  simp only [Op0End, Op1End, AtomEnd, trim_cons_of_not_ws h2, expect, expect_char, h1,
    beq_eq_false_iff_ne, ne_eq]
  exact ⟨⟨⟨trivial, Ne.symm a1, Ne.symm a2⟩, Ne.symm a3, Ne.symm a4⟩, Ne.symm a5, Ne.symm a6⟩

theorem Op0End_commaText (r : List (List Char)) (rest : List Char) :
    Op0End (commaText r ++ ')' :: rest) := by
  cases r with
  | nil => exact Op0End_of_head ')' rest (by decide) (by decide) (by decide)
  | cons b r => exact Op0End_of_head ',' _ (by decide) (by decide) (by decide)

theorem parse_expr_atom (a rest : List Char) (ha : isAtom a = true) (hr : Op0End rest)
    (fuel : Nat) (hf : 8 ≤ fuel) :
    parse_expr fuel (a ++ rest) = .ok (atomExpr a) (trim rest) := by
  have h := parse_expr_flat a [] [] rest ha (by simp) (by simp) hr fuel
    (by simp [termsSize]; omega)
  simpa [opsText, termsText, foldTerms, foldOps] using h

theorem parse_fncall_args_atoms (rest : List Char) :
    ∀ (r : List (List Char)) (a : List Char) (acc : List Expr) (iter : Cursor) (fuel : Nat),
      isAtom a = true → (∀ b ∈ r, isAtom b = true) →
      trim iter = a ++ (commaText r ++ ')' :: rest) → r.length + 9 ≤ fuel →
      parse_fncall_args fuel (')' :: rest) iter acc =
        .ok (acc ++ atomExpr a :: r.map atomExpr) (')' :: rest) := by
  intro r
  induction r with
  | nil =>
    intro a acc iter fuel ha _ hiter hf
    obtain ⟨f, rfl⟩ : ∃ f, fuel = f + 1 := ⟨fuel - 1, by simp at hf; omega⟩
    have hlen : iter.length ≠ (')' :: rest).length := by
      have h1 := trim_length_le iter
      have h2 := List.length_pos.mpr (isAtom_ne_nil ha)
      rw [hiter] at h1
      simp only [commaText, List.nil_append, List.length_append, List.length_cons] at h1 ⊢
      omega
    have hp := parse_expr_atom a (commaText [] ++ ')' :: rest) ha (Op0End_commaText [] rest) f
      (by simp at hf; omega)
    have ht : trim (')' :: rest) = ')' :: rest := trim_cons_of_not_ws (by decide)
    simp only [commaText, List.nil_append] at hp hiter
    simp only [parse_fncall_args, bne_iff_ne, ne_eq, hlen, not_false_eq_true, if_true, hiter,
      hp, ht, trim_trim, expect_char, List.map_nil]
    simp
  | cons b r ih =>
    intro a acc iter fuel ha hr hiter hf
    obtain ⟨f, rfl⟩ : ∃ f, fuel = f + 1 := ⟨fuel - 1, by simp at hf; omega⟩
    have hf2 : r.length + 9 ≤ f := by simp at hf; omega
    have hlen : iter.length ≠ (')' :: rest).length := by
      have h1 := trim_length_le iter
      have h2 := List.length_pos.mpr (isAtom_ne_nil ha)
      rw [hiter] at h1
      simp only [commaText, List.length_append, List.length_cons] at h1 ⊢
      omega
    have hp := parse_expr_atom a (commaText (b :: r) ++ ')' :: rest) ha
      (Op0End_commaText (b :: r) rest) f (by omega)
    have ht : trim (commaText (b :: r) ++ ')' :: rest) =
        ',' :: ' ' :: (b ++ (commaText r ++ ')' :: rest)) := by
      simp only [commaText, List.cons_append, List.append_assoc]
      exact trim_cons_of_not_ws (by decide)
    have ht2 : trim (',' :: ' ' :: (b ++ (commaText r ++ ')' :: rest))) =
        ',' :: ' ' :: (b ++ (commaText r ++ ')' :: rest)) := trim_cons_of_not_ws (by decide)
    have ih2 := ih b (acc ++ [atomExpr a]) (' ' :: (b ++ (commaText r ++ ')' :: rest))) f
      (hr b (List.mem_cons_self _ _)) (fun c hc => hr c (List.mem_cons_of_mem _ hc))
      (by rw [trim_space]
          exact trim_of_expect_symbol (expect_append _ (isAtom_head (hr b (List.mem_cons_self _ _)))))
      hf2
    simp only [parse_fncall_args, bne_iff_ne, ne_eq, hlen, not_false_eq_true, if_true, hiter,
      hp, ht, ht2, expect_char, beq_self_eq_true, Bool.not_true, Bool.false_eq_true,
      if_false, List.tail_cons, ih2, List.map_cons, List.append_assoc, List.singleton_append]

theorem parse_fncall_atoms (f : List Char) (args : List (List Char)) (rest : List Char)
    (hf : isIdent f = true) (hargs : ∀ a ∈ args, isAtom a = true) (fuel : Nat)
    (hfuel : args.length + 10 ≤ fuel) :
    parse_fncall fuel (f ++ '(' :: (argsText args ++ ')' :: rest)) =
      .ok (.ExprFnCall f (args.map atomExpr)) rest := by
  obtain ⟨g, rfl⟩ : ∃ g, fuel = g + 1 := ⟨fuel - 1, by omega⟩
  obtain ⟨hne, hall, _, _, _, _⟩ := isIdent_spec hf
  have hsym := parse_symbol_ok f ('(' :: (argsText args ++ ')' :: rest)) hne hall
    (by simp only [expect]; decide)
  have ht : trim ('(' :: (argsText args ++ ')' :: rest)) = '(' :: (argsText args ++ ')' :: rest) :=
    trim_cons_of_not_ws (by decide)
  have hclose := find_braces_args args rest hargs
  simp only [parse_fncall, hsym, ht, expect_char, beq_self_eq_true, Bool.not_true,
    Bool.false_eq_true, if_false, hclose, List.isEmpty_cons, List.tail_cons]
  cases args with
  | nil =>
    obtain ⟨k, rfl⟩ : ∃ k, g = k + 1 := ⟨g - 1, by simp at hfuel; omega⟩
    simp [argsText, parse_fncall_args]
  | cons a r =>
    have hl := parse_fncall_args_atoms rest r a [] (a ++ (commaText r ++ ')' :: rest)) g
      (hargs a (List.mem_cons_self _ _)) (fun b hb => hargs b (List.mem_cons_of_mem _ hb))
      (trim_of_expect_symbol (expect_append _ (isAtom_head (hargs a (List.mem_cons_self _ _)))))
      (by simp at hfuel; omega)
    simp only [argsText, List.append_assoc, hl, List.nil_append, List.map_cons, List.tail_cons]

theorem parse_expr_call (f : List Char) (args : List (List Char)) (rest : List Char)
    (hf : isIdent f = true) (hargs : ∀ a ∈ args, isAtom a = true) (hr : Op0End rest)
    (fuel : Nat) (hfuel : args.length + 15 ≤ fuel) :
    parse_expr fuel (f ++ '(' :: (argsText args ++ ')' :: rest)) =
      .ok (.ExprFnCall f (args.map atomExpr)) (trim rest) := by
  obtain ⟨g, rfl⟩ : ∃ g, fuel = g + 5 := ⟨fuel - 5, by omega⟩
  obtain ⟨hne, hall, hsy, hdig, _, _⟩ := isIdent_spec hf
  have hat : isAtom f = true := by simp [isAtom, hf]
  have hhead := expect_append ('(' :: (argsText args ++ ')' :: rest)) hsy
  have htrim := trim_of_expect_symbol hhead
  have hkw := atom_kw ('(' :: (argsText args ++ ')' :: rest)) hat (by simp only [expect]; decide)
  have hnum := parse_number_fail _ (expect_append_false ('(' :: (argsText args ++ ')' :: rest))
    hne hdig) htrim
  obtain ⟨k, rfl⟩ : ∃ k, g = k + 1 := ⟨g - 1, by omega⟩
  have hmatch := parse_match_soft k _ (Or.inr hkw.2)
  have hcall := parse_fncall_atoms f args rest hf hargs (k + 1) (by omega)
  have hatom : parse_atom (k + 1 + 1) (f ++ '(' :: (argsText args ++ ')' :: rest)) =
      .ok (.ExprFnCall f (args.map atomExpr)) rest := by
    rw [parse_atom]
    simp only [htrim, hnum, hmatch, hcall]
  exact parse_expr_of_atom (k + 1) _ _ rest htrim (Or.inr hkw.1) hatom hr.1.2.1 hr.1.2.2
    hr.2.1 hr.2.2

/-- C3: for an identifier `f` (first character a letter or an underscore, not
`func` or `match`) and `n >= 0` arguments that are number literals or
identifiers, parsing `f(arg1, ..., argn)` returns `FnCall(f, [A1..An])` with the
arguments in source order, and parsing the bare identifier returns
`Symbol(f)`; in both cases the input is consumed. -/
theorem C3_call_and_symbol (f : List Char) (args : List (List Char))
    (hf : isIdent f = true) (hargs : ∀ a ∈ args, isAtom a = true) (fuel : Nat)
    (hfuel : args.length + 15 ≤ fuel) :
    parse_expr fuel (f ++ '(' :: (argsText args ++ [')'])) =
        .ok (.ExprFnCall f (args.map atomExpr)) [] ∧
      parse_expr fuel f = .ok (.ExprSymbol f) [] := by
  constructor
  · exact parse_expr_call f args [] hf hargs Op0End_nil fuel hfuel
  · have hat : isAtom f = true := by simp [isAtom, hf]
    have h := parse_expr_atom f [] hat Op0End_nil fuel (by omega)
    simpa [atomExpr_ident hf, trim] using h

/-- The examples `add(1, 2)`, `add()` and `x`. -/
theorem C3_call_and_symbol_witness :
    parse_expr 17 "add(1, 2)".toList =
        .ok (.ExprFnCall "add".toList [.ExprNumber "1".toList, .ExprNumber "2".toList]) [] ∧
      parse_expr 17 "add()".toList = .ok (.ExprFnCall "add".toList []) [] ∧
      parse_expr 17 "x".toList = .ok (.ExprSymbol "x".toList) [] :=
  ⟨(C3_call_and_symbol "add".toList ["1".toList, "2".toList] (by decide) (by decide) 17
      (by decide)).1,
    (C3_call_and_symbol "add".toList [] (by decide) (by decide) 17 (by decide)).1,
    (C3_call_and_symbol "x".toList [] (by decide) (by decide) 17 (by decide)).2⟩

/-- C4: the declaration `func add(a: int, b: int) -> int { a + b }` is not
parsed to an `FnDecl`. The parameter loop of `parse_fndecl` reads two symbols
and never the colon between them: at `: int, ...` the second `parse_symbol`
throws `FailTry`, which leaves `parse_fndecl` as a soft failure with the cursor
on the colon, and `parse_expr` ends with `UnknownExpression`. The same
declaration without the colons gives the `FnDecl` of the claim. -/
theorem C4_fndecl_colon (fuel : Nat) :
    parse_fndecl (fuel + 3) "func add(a: int, b: int) -> int \x7b a + b \x7d".toList =
        .thrown .FailTry ": int, b: int) -> int \x7b a + b \x7d".toList ∧
      parse_expr (fuel + 9) "func add(a: int, b: int) -> int \x7b a + b \x7d".toList =
        .thrown .UnknownExpression ": int, b: int) -> int \x7b a + b \x7d".toList ∧
      parse_all (fuel + 10) "func add(a: int, b: int) -> int \x7b a + b \x7d".toList [] =
        .thrown .UnknownExpression ": int, b: int) -> int \x7b a + b \x7d".toList ∧
      parse_expr (fuel + 9) "func add(a int, b int) -> int \x7b a + b \x7d".toList =
        .ok (.ExprFnDecl "add".toList [("a".toList, "int".toList), ("b".toList, "int".toList)]
          "int".toList (.ExprOperation (.ExprSymbol "a".toList) (.ExprSymbol "b".toList) .Add))
          [] :=
  ⟨rfl, rfl, rfl, rfl⟩

/-- C7: after the keyword `func` a missing identifier is a soft failure. On
`func` followed by a string literal, `parse_fndecl` matches the keyword and
then throws `FailTry` with the cursor after the keyword; `parse_expr` goes on
to `parse_operation` from there and returns the string literal, not an
`FnDecl` and not an error. -/
theorem C7_func_not_committed (fuel : Nat) :
    parse_fndecl (fuel + 1) ("func ".toList ++ dquote :: "abc".toList ++ [dquote]) =
        .thrown .FailTry (dquote :: "abc".toList ++ [dquote]) ∧
      parse_expr (fuel + 6) ("func ".toList ++ dquote :: "abc".toList ++ [dquote]) =
        .ok (.ExprString "abc".toList) [] ∧
      parse_all (fuel + 7) ("func ".toList ++ dquote :: "abc".toList ++ [dquote]) [] =
        .ok [.ExprString "abc".toList] [] :=
  ⟨rfl, rfl, rfl⟩

/-! ## Unterminated strings -/

theorem scan_string_none (body : List Char) (h : ∀ c ∈ body, c ≠ dquote) :
    scan_string body = none := by
  induction body with
  | nil => rfl
  | cons c cs ih =>
    have hc : (dquote == c) = false := by
      simpa using Ne.symm (h c (List.mem_cons_self _ _))
    simp [scan_string, expect_char, hc, ih (fun d hd => h d (List.mem_cons_of_mem _ hd))]

theorem parse_string_unclosed (body : List Char) (h : ∀ c ∈ body, c ≠ dquote) :
    parse_string (dquote :: body) = .undefined := by
  have ht : trim (dquote :: body) = dquote :: body := trim_cons_of_not_ws (by decide)
  simp [parse_string, ht, expect_char, scan_string_none body h]

theorem scan_string_snd (x : Cursor) (r : List Char × Cursor) (h : scan_string x = some r) :
    expect_char dquote r.2 = true := by
  induction x generalizing r with
  | nil => simp [scan_string] at h
  | cons c cs ih =>
    by_cases hc : expect_char dquote (c :: cs) = true
    · simp only [scan_string, hc, if_true, Option.some.injEq] at h
      rw [← h]
      exact hc
    · simp only [scan_string, hc, Bool.false_eq_true, if_false] at h
      cases hs : scan_string cs with
      | none => simp [hs] at h
      | some q =>
        simp only [hs, Option.some.injEq] at h
        rw [← h]
        exact ih q hs

/-- The check `iter >= input.end()` of `parse_string` is never true when the
scanning loop has stopped: no run throws `UnclosedQuote`. -/
theorem parse_string_never_UnclosedQuote (x p : Cursor) :
    parse_string x ≠ .thrown .UnclosedQuote p := by
  unfold parse_string
  by_cases h1 : expect_char dquote (trim x) = true
  · simp only [h1, Bool.not_true, Bool.false_eq_true, if_false]
    cases hs : scan_string (trim x).tail with
    | none => simp
    | some r =>
      have h2 := scan_string_snd _ r hs
      cases hr : r.2 with
      | nil => rw [hr] at h2; simp [expect_char] at h2
      | cons d ds => simp [hr]
  · simp [h1]

theorem parse_fncall_soft (fuel : Nat) (x : Cursor) (h : expect is_symbol x = false) :
    parse_fncall (fuel + 1) x = .thrown .FailTry x := by
  rw [parse_fncall]
  simp [parse_symbol_fail x h]

/-- C8: an opening double quote followed by characters none of which is a
double quote does not fail with `UnclosedQuote`. The loop
`while (!expect(quote)) ++iter;` of `parse_string` does not stop at
`input.end()`: `expect` is false there, so the cursor is incremented past the
end of the input, which is outside defined behaviour; the check that throws
`UnclosedQuote` comes after the loop. -/
theorem C8_unclosed_quote_overrun (body : List Char) (h : ∀ c ∈ body, c ≠ dquote)
    (fuel : Nat) (hf : 6 ≤ fuel) :
    parse_string (dquote :: body) = .undefined ∧
      parse_expr fuel (dquote :: body) = .undefined ∧
      parse_all (fuel + 1) (dquote :: body) [] = .undefined := by
  obtain ⟨f, rfl⟩ : ∃ f, fuel = f + 6 := ⟨fuel - 6, by omega⟩
  have hstr := parse_string_unclosed body h
  have hsym : expect is_symbol (dquote :: body) = false := by simp only [expect]; decide
  have hdig : expect is_digit (dquote :: body) = false := by simp only [expect]; decide
  have ht : trim (dquote :: body) = dquote :: body := trim_cons_of_not_ws (by decide)
  have hatom : parse_atom (f + 2) (dquote :: body) = .undefined := by
    rw [parse_atom]
    simp only [ht, parse_number_fail _ hdig ht, parse_match_soft f _ (Or.inl hsym),
      parse_fncall_soft f _ hsym, hstr]
  have hop1 : parse_op1 (f + 3) (dquote :: body) = .undefined := by
    rw [parse_op1, hatom]
  have hop0 : parse_op0 (f + 4) (dquote :: body) = .undefined := by
    rw [parse_op0, hop1]
  have hoper : parse_operation (f + 5) (dquote :: body) = .undefined := by
    rw [parse_operation]
    simp only [ht, hop0]
  have hexpr : parse_expr (f + 6) (dquote :: body) = .undefined := by
    rw [parse_expr]
    simp only [ht, parse_fndecl_soft (f + 4) _ (Or.inl hsym), hoper]
  refine ⟨hstr, hexpr, ?_⟩
  rw [parse_all]
  simp [hexpr]

/-- The input of the claim: a quote followed by `abc`. -/
theorem C8_unclosed_quote_overrun_witness :
    parse_string (dquote :: "abc".toList) = .undefined ∧
      parse_expr 6 (dquote :: "abc".toList) = .undefined ∧
      parse_all 7 (dquote :: "abc".toList) [] = .undefined :=
  C8_unclosed_quote_overrun "abc".toList (by decide) 6 (by decide)

/-! ## The soft failure does not leave `parse_expr` -/

theorem parse_expr_thrown_ne_FailTry (fuel : Nat) (iter p : Cursor) (e : ParserError)
    (h : parse_expr fuel iter = .thrown e p) : e ≠ .FailTry := by
  cases fuel with
  | zero => simp [parse_expr] at h
  | succ f =>
    rw [parse_expr] at h
    cases h1 : parse_fndecl f (trim iter) with
    | ok v it => simp [h1] at h
    | undefined => simp [h1] at h
    | timeout => simp [h1] at h
    | thrown e1 it1 =>
      cases e1 with
      | FailTry =>
        simp only [h1] at h
        cases h2 : parse_operation f it1 with
        | ok v it => simp [h2] at h
        | undefined => simp [h2] at h
        | timeout => simp [h2] at h
        | thrown e2 it2 =>
          cases e2
          all_goals (simp [h2] at h; rw [← h.1]; decide)
      | _ => simp [h1] at h; rw [← h.1]; decide

theorem parse_all_thrown_ne_FailTry (fuel : Nat) :
    ∀ (iter : Cursor) (output : List Expr) (p : Cursor) (e : ParserError),
      parse_all fuel iter output = .thrown e p → e ≠ .FailTry := by
  induction fuel with
  | zero =>
    intro iter output p e h
    simp [parse_all] at h
  | succ f ih =>
    intro iter output p e h
    rw [parse_all] at h
    by_cases hem : iter.isEmpty = true
    · simp [hem] at h
    · simp only [hem, Bool.false_eq_true, if_false] at h
      cases h1 : parse_expr f iter with
      | ok v it =>
        simp only [h1] at h
        exact ih it _ p e h
      | undefined => simp [h1] at h
      | timeout => simp [h1] at h
      | thrown e1 it1 =>
        simp only [h1, Res.thrown.injEq] at h
        rw [← h.1]
        exact parse_expr_thrown_ne_FailTry f iter it1 e1 h1

/-- C6: the soft failure never reaches the driver. For every input, cursor
position and amount of fuel, `parse_expr` and `parse_all` either return or
throw an error that is not `FailTry` (the outcomes that are left are those of
the embedding: the overrun of `parse_string` and the end of the fuel); and
when `parse_fndecl` and then `parse_operation` both soft-fail, `parse_expr`
throws `UnknownExpression`. -/
theorem C6_soft_fail_never_escapes (fuel : Nat) (iter : Cursor) (output : List Expr) :
    ((∃ v p, parse_expr fuel iter = .ok v p) ∨
        (∃ e p, parse_expr fuel iter = .thrown e p ∧ e ≠ .FailTry) ∨
        parse_expr fuel iter = .undefined ∨ parse_expr fuel iter = .timeout) ∧
      ((∃ v p, parse_all fuel iter output = .ok v p) ∨
        (∃ e p, parse_all fuel iter output = .thrown e p ∧ e ≠ .FailTry) ∨
        parse_all fuel iter output = .undefined ∨ parse_all fuel iter output = .timeout) ∧
      (∀ p1 p2, parse_fndecl fuel (trim iter) = .thrown .FailTry p1 →
        parse_operation fuel p1 = .thrown .FailTry p2 →
        parse_expr (fuel + 1) iter = .thrown .UnknownExpression p2) := by
  refine ⟨?_, ?_, ?_⟩
  · cases h : parse_expr fuel iter with
    | ok v p => exact Or.inl ⟨v, p, rfl⟩
    | thrown e p =>
      exact Or.inr (Or.inl ⟨e, p, rfl, parse_expr_thrown_ne_FailTry fuel iter p e h⟩)
    | undefined => exact Or.inr (Or.inr (Or.inl rfl))
    | timeout => exact Or.inr (Or.inr (Or.inr rfl))
  · cases h : parse_all fuel iter output with
    | ok v p => exact Or.inl ⟨v, p, rfl⟩
    | thrown e p =>
      exact Or.inr (Or.inl ⟨e, p, rfl, parse_all_thrown_ne_FailTry fuel iter output p e h⟩)
    | undefined => exact Or.inr (Or.inr (Or.inl rfl))
    | timeout => exact Or.inr (Or.inr (Or.inr rfl))
  · intro p1 p2 h1 h2
    rw [parse_expr]
    simp only [h1, h2]

/-- On the input `+` both alternatives of `parse_expr` soft-fail and the error
is `UnknownExpression`. -/
theorem C6_soft_fail_never_escapes_witness :
    parse_fndecl 5 (trim "+".toList) = .thrown .FailTry "+".toList ∧
      parse_operation 5 "+".toList = .thrown .FailTry "+".toList ∧
      parse_expr 6 "+".toList = .thrown .UnknownExpression "+".toList :=
  ⟨rfl, rfl, (C6_soft_fail_never_escapes 5 "+".toList []).2.2 "+".toList "+".toList rfl rfl⟩

/-! ## A parenthesis that is never closed -/

theorem brace_depth_cons (l r c : Char) (t : List Char) :
    brace_depth l r (c :: t) = brace_depth l r [c] + brace_depth l r t := by
  simp only [brace_depth, List.count_cons, List.count_nil]
  push_cast
  ring

theorem find_braces_loop_cons (l r : Char) (hlr : l ≠ r) (c : Char) (cs : List Char) (d : Int) :
    find_braces_loop l r (c :: cs) d =
      if c = r ∧ d + brace_depth l r [c] = 0 then c :: cs
      else find_braces_loop l r cs (d + brace_depth l r [c]) := by
  by_cases hcl : c = l
  · have hcr : c ≠ r := fun e => hlr (hcl ▸ e)
    simp [find_braces_loop, brace_depth, List.count_cons, hcl, hlr]
  · by_cases hcr : c = r
    · have hrl : r ≠ l := fun e => hcl (hcr.trans e)
      simp [find_braces_loop, brace_depth, List.count_cons, hcr, hrl, sub_eq_add_neg]
    · simp [find_braces_loop, brace_depth, List.count_cons, hcl, hcr]

theorem find_braces_loop_never (l r : Char) (hlr : l ≠ r) :
    ∀ (t : List Char) (d : Int),
      (∀ k, 1 ≤ k → k ≤ t.length → d + brace_depth l r (t.take k) ≠ 0) →
      find_braces_loop l r t d = [] := by
  intro t
  induction t with
  | nil => intro d _; rfl
  | cons c cs ih =>
    intro d h
    have h1 := h 1 (le_refl 1) (by simp)
    simp only [List.take_succ_cons, List.take_zero] at h1
    have hstep : ∀ k, 1 ≤ k → k ≤ cs.length →
        (d + brace_depth l r [c]) + brace_depth l r (cs.take k) ≠ 0 := by
      intro k _ hk2
      have := h (k + 1) (by omega) (by simp; omega)
      rw [List.take_succ_cons, brace_depth_cons, ← add_assoc] at this
      exact this
    rw [find_braces_loop_cons l r hlr, if_neg (fun hc => h1 hc.2)]
    exact ih _ hstep

theorem find_braces_unclosed (rest : List Char)
    (h : ∀ k, k ≤ rest.length → brace_depth '(' ')' ('(' :: rest.take k) ≠ 0) :
    find_braces '(' ')' ('(' :: rest) = [] := by
  rw [find_braces, find_braces_loop_open _ _ _ _ (by decide)]
  apply find_braces_loop_never _ _ (by decide)
  intro k _ hk
  have := h k hk
  rw [brace_depth_cons] at this
  have e : brace_depth '(' ')' ['('] = 1 := by decide
  rw [e] at this
  exact this

/-- C9: an opening parenthesis without a depth-matched closing parenthesis is
reported as `UnclosedParens`. For an identifier `f` and a text `rest` that
never brings the parenthesis depth of `(rest` back to zero, parsing the call
`f(rest` and parsing the declaration `func f(rest` both throw
`UnclosedParens`, with the cursor on the parenthesis. -/
theorem C9_unclosed_parens (f rest : List Char) (hf : isIdent f = true)
    (hrest : ∀ k, k ≤ rest.length → brace_depth '(' ')' ('(' :: rest.take k) ≠ 0)
    (fuel : Nat) (hfuel : 6 ≤ fuel) :
    parse_expr fuel (f ++ '(' :: rest) = .thrown .UnclosedParens ('(' :: rest) ∧
      parse_expr fuel ("func ".toList ++ (f ++ '(' :: rest)) =
        .thrown .UnclosedParens ('(' :: rest) := by
  obtain ⟨g, rfl⟩ : ∃ g, fuel = g + 6 := ⟨fuel - 6, by omega⟩
  obtain ⟨hne, hall, hsy, hdig, _, _⟩ := isIdent_spec hf
  have hat : isAtom f = true := by simp [isAtom, hf]
  have hclose := find_braces_unclosed rest hrest
  have hparen : expect is_symbol ('(' :: rest) = false := by simp only [expect]; decide
  have hsym := parse_symbol_ok f ('(' :: rest) hne hall hparen
  have htp : trim ('(' :: rest) = '(' :: rest := trim_cons_of_not_ws (by decide)
  constructor
  · have htrim := trim_of_expect_symbol (expect_append ('(' :: rest) hsy)
    have hkw := atom_kw ('(' :: rest) hat hparen
    have hnum := parse_number_fail _ (expect_append_false ('(' :: rest) hne hdig) htrim
    have hcall : parse_fncall (g + 1) (f ++ '(' :: rest) =
        .thrown .UnclosedParens ('(' :: rest) := by
      rw [parse_fncall]
      simp [hsym, htp, expect_char, hclose]
    have hatom : parse_atom (g + 2) (f ++ '(' :: rest) =
        .thrown .UnclosedParens ('(' :: rest) := by
      rw [parse_atom]
      simp only [htrim, hnum, parse_match_soft g _ (Or.inr hkw.2), hcall]
    have hop1 : parse_op1 (g + 3) (f ++ '(' :: rest) =
        .thrown .UnclosedParens ('(' :: rest) := by
      rw [parse_op1, hatom]
    have hop0 : parse_op0 (g + 4) (f ++ '(' :: rest) =
        .thrown .UnclosedParens ('(' :: rest) := by
      rw [parse_op0, hop1]
    have hoper : parse_operation (g + 5) (f ++ '(' :: rest) =
        .thrown .UnclosedParens ('(' :: rest) := by
      rw [parse_operation]
      simp only [htrim, hop0]
    rw [parse_expr]
    simp only [htrim, parse_fndecl_soft (g + 4) _ (Or.inr hkw.1), hoper]
  · have hkwsym : parse_symbol ("func".toList ++ ' ' :: (f ++ '(' :: rest)) =
        .ok "func".toList (' ' :: (f ++ '(' :: rest)) :=
      parse_symbol_ok _ _ (by decide) (by decide) (by simp only [expect]; decide)
    have hts : trim (' ' :: (f ++ '(' :: rest)) = f ++ '(' :: rest := by
      rw [trim_space]
      exact trim_of_expect_symbol (expect_append ('(' :: rest) hsy)
    have hhead : parse_fndecl_head (g + 4) ("func ".toList ++ (f ++ '(' :: rest)) =
        .thrown .UnclosedParens ('(' :: rest) := by
      have e : "func ".toList ++ (f ++ '(' :: rest) =
          "func".toList ++ ' ' :: (f ++ '(' :: rest) := rfl
      rw [e, parse_fndecl_head, hkwsym]
      simp [hts, hsym, htp, expect_char, hclose]
    have htf : trim ("func ".toList ++ (f ++ '(' :: rest)) =
        "func ".toList ++ (f ++ '(' :: rest) := trim_cons_of_not_ws (by decide)
    have hdecl : parse_fndecl (g + 5) ("func ".toList ++ (f ++ '(' :: rest)) =
        .thrown .UnclosedParens ('(' :: rest) := by
      rw [parse_fndecl]
      simp only [hhead]
    rw [parse_expr]
    simp only [htf, hdecl]

/-- The declaration `func f(x: int -> int { x }` fails with `UnclosedParens`,
and so does the call `f(x: int -> int { x }`. -/
theorem C9_unclosed_parens_witness :
    parse_expr 6 "f(x: int -> int \x7b x \x7d".toList =
        .thrown .UnclosedParens "(x: int -> int \x7b x \x7d".toList ∧
      parse_expr 6 "func f(x: int -> int \x7b x \x7d".toList =
        .thrown .UnclosedParens "(x: int -> int \x7b x \x7d".toList :=
  C9_unclosed_parens "f".toList "x: int -> int \x7b x \x7d".toList (by decide) (by decide) 6
    (by decide)

/-- The rest of `parse_fndecl` after the head.
Whenever the head of a declaration (keyword, name and parameter list up to the
closing parenthesis) has been read: if the text after whitespace is not `->`,
parsing throws `ExpectedReturn`; if `->` and a return type are there and the
next character after whitespace is not an opening brace, it throws
`ExpectedBlock`; if the body parses and the next character is not a closing
brace, it throws `UnclosedCurlies`; with the closing brace there, the result is
the `FnDecl`. -/
theorem parse_fndecl_after_head (fuel : Nat) (iter : Cursor)
    (hd : List Char × List (List Char × List Char)) (it1 : Cursor)
    (hhead : parse_fndecl_head fuel (trim iter) = .ok hd it1) :
    (expect_str "->".toList (trim it1.tail) = false →
        parse_expr (fuel + 2) iter = .thrown .ExpectedReturn (trim it1.tail)) ∧
      (∀ ret it2, expect_str "->".toList (trim it1.tail) = true →
        parse_symbol (trim ((trim it1.tail).drop 2)) = .ok ret it2 →
        (expect_char '{' (trim it2) = false →
          parse_expr (fuel + 2) iter = .thrown .ExpectedBlock (trim it2)) ∧
        (∀ body it3, expect_char '{' (trim it2) = true →
          parse_expr fuel (trim it2).tail = .ok body it3 →
          (expect_char '}' it3 = false →
            parse_expr (fuel + 2) iter = .thrown .UnclosedCurlies it3) ∧
          (expect_char '}' it3 = true →
            parse_expr (fuel + 2) iter = .ok (.ExprFnDecl hd.1 hd.2 ret body) it3.tail))) := by
  refine ⟨?_, ?_⟩
  · intro harrow
    rw [parse_expr, parse_fndecl]
    simp only [hhead, harrow, Bool.not_false, if_true]
  · intro ret it2 harrow hret
    refine ⟨?_, ?_⟩
    · intro hblock
      rw [parse_expr, parse_fndecl]
      simp only [hhead, harrow, Bool.not_true, Bool.false_eq_true, if_false, hret, hblock,
        Bool.not_false, if_true]
    · intro body it3 hblock hbody
      refine ⟨?_, ?_⟩
      · intro hclose
        rw [parse_expr, parse_fndecl]
        simp only [hhead, harrow, Bool.not_true, Bool.false_eq_true, if_false, hret, hblock,
          hbody, hclose, Bool.not_false, if_true]
      · intro hclose
        rw [parse_expr, parse_fndecl]
        simp only [hhead, harrow, Bool.not_true, Bool.false_eq_true, if_false, hret, hblock,
          hbody, hclose]

/-! ## String literals -/

theorem scan_string_ok (body rest : List Char) (h : ∀ c ∈ body, c ≠ dquote) :
    scan_string (body ++ dquote :: rest) = some (body, dquote :: rest) := by
  induction body with
  | nil => simp [scan_string, expect_char]
  | cons c cs ih =>
    have hc : (dquote == c) = false := by
      simpa using Ne.symm (h c (List.mem_cons_self _ _))
    simp [scan_string, expect_char, hc, ih (fun d hd => h d (List.mem_cons_of_mem _ hd))]

theorem parse_string_ok (body rest : List Char) (h : ∀ c ∈ body, c ≠ dquote) :
    parse_string (dquote :: (body ++ dquote :: rest)) = .ok (.ExprString body) rest := by
  have ht : trim (dquote :: (body ++ dquote :: rest)) = dquote :: (body ++ dquote :: rest) :=
    trim_cons_of_not_ws (by decide)
  simp [parse_string, ht, expect_char, scan_string_ok body rest h]

/-! ## Literal operands -/

theorem Lit.str_spec {body : List Char} (h : Lit.wf (.str body) = true) :
    ∀ c ∈ body, c ≠ dquote ∧ c ≠ '{' ∧ c ≠ '}' := by
  intro c hc
  simp only [Lit.wf, List.all_eq_true, Bool.and_eq_true, bne_iff_ne, ne_eq] at h
  obtain ⟨⟨h1, h2⟩, h3⟩ := h c hc
  exact ⟨h1, h2, h3⟩

theorem Lit.trim_text (l : Lit) (rest : List Char) (h : l.wf = true) :
    trim (l.text ++ rest) = l.text ++ rest := by
  cases l with
  | atom t => exact trim_of_expect_symbol (expect_append rest (isAtom_head h))
  | str body => exact trim_cons_of_not_ws (by decide)

theorem Lit.not_func (l : Lit) (rest : List Char) (h : l.wf = true)
    (hr : expect is_symbol rest = false) :
    expect is_symbol (l.text ++ rest) = false ∨
      (scan is_symbol (l.text ++ rest)).1 ≠ "func".toList := by
  cases l with
  | atom t => exact Or.inr (atom_kw rest h hr).1
  | str body =>
    left
    simp only [Lit.text, List.cons_append, expect]
    decide

theorem Lit.no_brace (l : Lit) (h : l.wf = true) : ∀ c ∈ l.text, c ≠ '{' ∧ c ≠ '}' := by
  cases l with
  | atom t => exact fun c hc => (atom_no_brace h c hc).2
  | str body =>
    intro c hc
    simp only [Lit.text, List.mem_cons, List.mem_append, List.not_mem_nil, or_false] at hc
    rcases hc with rfl | hc | rfl
    · decide
    · exact (Lit.str_spec h c hc).2
    · decide

theorem Lit.parse_atom_ok (l : Lit) (rest : List Char) (h : l.wf = true) (hr : AtomEnd rest)
    (f : Nat) :
    ∃ r, parse_atom (f + 2) (l.text ++ rest) = .ok l.expr r ∧ trim r = trim rest := by
  cases l with
  | atom t => exact parse_atom_atom t rest h hr (f + 2) (by omega)
  | str body =>
    refine ⟨rest, ?_, rfl⟩
    have hx : Lit.text (.str body) ++ rest = dquote :: (body ++ dquote :: rest) := by
      simp [Lit.text]
    have hsym : expect is_symbol (dquote :: (body ++ dquote :: rest)) = false := by
      simp only [expect]; decide
    have hdig : expect is_digit (dquote :: (body ++ dquote :: rest)) = false := by
      simp only [expect]; decide
    have ht : trim (dquote :: (body ++ dquote :: rest)) = dquote :: (body ++ dquote :: rest) :=
      trim_cons_of_not_ws (by decide)
    rw [hx, parse_atom]
    simp only [ht, parse_number_fail _ hdig ht, parse_match_soft f _ (Or.inl hsym),
      parse_fncall_soft f _ hsym, parse_string_ok body rest (fun c hc => (Lit.str_spec h c hc).1),
      Lit.expr]

theorem Lit.parse_expr_ok (l : Lit) (rest : List Char) (h : l.wf = true) (hr : Op0End rest)
    (fuel : Nat) (hf : 6 ≤ fuel) :
    parse_expr fuel (l.text ++ rest) = .ok l.expr (trim rest) := by
  obtain ⟨f, rfl⟩ : ∃ f, fuel = f + 1 + 5 := ⟨fuel - 6, by omega⟩
  obtain ⟨r, hr1, hr2⟩ := Lit.parse_atom_ok l rest h hr.1.1 f
  rw [← hr2]
  apply parse_expr_of_atom (f + 1) _ _ r (Lit.trim_text l rest h)
    (Lit.not_func l rest h hr.1.1.1) hr1
  · rw [hr2]; exact hr.1.2.1
  · rw [hr2]; exact hr.1.2.2
  · rw [hr2]; exact hr.2.1
  · rw [hr2]; exact hr.2.2

/-! ## The arms of a match -/

theorem branchText_append (b : Lit × Lit) (rest : List Char) :
    branchText b ++ rest =
      b.1.text ++ (' ' :: '-' :: '>' :: ' ' :: '{' :: ' ' :: (b.2.text ++ ' ' :: '}' :: rest)) := by
  simp [branchText]

theorem find_braces_loop_branch (b : Lit × Lit) (rest : List Char)
    (hb : b.1.wf = true ∧ b.2.wf = true) :
    find_braces_loop '{' '}' (branchText b ++ rest) 1 = find_braces_loop '{' '}' rest 1 := by
  rw [branchText_append, find_braces_loop_skip _ _ _ _ _ (Lit.no_brace b.1 hb.1)]
  have e1 : find_braces_loop '{' '}'
      (' ' :: '-' :: '>' :: ' ' :: '{' :: ' ' :: (b.2.text ++ ' ' :: '}' :: rest)) 1 =
      find_braces_loop '{' '}' (b.2.text ++ ' ' :: '}' :: rest) 2 := by
    simp [find_braces_loop]
  rw [e1, find_braces_loop_skip _ _ _ _ _ (Lit.no_brace b.2 hb.2)]
  simp [find_braces_loop]

theorem find_braces_loop_commaBranches (r : List (Lit × Lit)) (rest : List Char)
    (hr : ∀ b ∈ r, b.1.wf = true ∧ b.2.wf = true) :
    find_braces_loop '{' '}' (commaBranches r ++ rest) 1 = find_braces_loop '{' '}' rest 1 := by
  induction r with
  | nil => rfl
  | cons b r ih =>
    have e : commaBranches (b :: r) ++ rest =
        ',' :: ' ' :: (branchText b ++ (commaBranches r ++ rest)) := by
      simp [commaBranches]
    have e1 : find_braces_loop '{' '}' (',' :: ' ' :: (branchText b ++ (commaBranches r ++ rest)))
        1 = find_braces_loop '{' '}' (branchText b ++ (commaBranches r ++ rest)) 1 := by
      simp [find_braces_loop]
    rw [e, e1, find_braces_loop_branch b _ (hr b (List.mem_cons_self _ _)),
      ih (fun c hc => hr c (List.mem_cons_of_mem _ hc))]

theorem find_braces_match (b : Lit × Lit) (r : List (Lit × Lit)) (rest : List Char)
    (hb : b.1.wf = true ∧ b.2.wf = true) (hr : ∀ c ∈ r, c.1.wf = true ∧ c.2.wf = true) :
    find_braces '{' '}'
        ('{' :: ' ' :: (branchText b ++ (commaBranches r ++ ' ' :: '}' :: rest))) =
      '}' :: rest := by
  have e1 : find_braces '{' '}'
      ('{' :: ' ' :: (branchText b ++ (commaBranches r ++ ' ' :: '}' :: rest))) =
      find_braces_loop '{' '}' (branchText b ++ (commaBranches r ++ ' ' :: '}' :: rest)) 1 := by
    simp [find_braces, find_braces_loop]
  rw [e1, find_braces_loop_branch b _ hb, find_braces_loop_commaBranches r _ hr]
  simp [find_braces_loop]

theorem Op0End_space_brace (c : Char) (rest : List Char) (hc : c = '{' ∨ c = '}') :
    Op0End (' ' :: c :: rest) := by
  have hsp : trim (' ' :: c :: rest) = c :: rest := by
    rw [trim_space]
    rcases hc with rfl | rfl <;> exact trim_cons_of_not_ws (by decide)
  simp only [Op0End, Op1End, AtomEnd, hsp, expect, expect_char]
  rcases hc with rfl | rfl <;> decide

theorem parse_branch_lit (b : Lit × Lit) (rest : List Char)
    (hb : b.1.wf = true ∧ b.2.wf = true) (y : Cursor) (hy : trim y = branchText b ++ rest)
    (fuel : Nat) (hf : 7 ≤ fuel) :
    parse_branch fuel y = .ok (b.1.expr, b.2.expr) rest := by
  obtain ⟨f, rfl⟩ : ∃ f, fuel = f + 4 + 2 + 1 := ⟨fuel - 7, by omega⟩
  have hend : AtomEnd (' ' :: '-' :: '>' :: ' ' :: '{' :: ' ' :: (b.2.text ++ ' ' :: '}' :: rest)) :=
    AtomEnd_op .Sub _
  obtain ⟨r, hr1, hr2⟩ := Lit.parse_atom_ok b.1 _ hb.1 hend (f + 4)
  have ht1 : trim (' ' :: '-' :: '>' :: ' ' :: '{' :: ' ' :: (b.2.text ++ ' ' :: '}' :: rest)) =
      '-' :: '>' :: ' ' :: '{' :: ' ' :: (b.2.text ++ ' ' :: '}' :: rest) :=
    trim_op_cons .Sub _
  have ht2 : trim (' ' :: '{' :: ' ' :: (b.2.text ++ ' ' :: '}' :: rest)) =
      '{' :: ' ' :: (b.2.text ++ ' ' :: '}' :: rest) := by
    rw [trim_space]; exact trim_cons_of_not_ws (by decide)
  have ht3 : trim (' ' :: (b.2.text ++ ' ' :: '}' :: rest)) = b.2.text ++ ' ' :: '}' :: rest := by
    rw [trim_space]; exact Lit.trim_text b.2 _ hb.2
  have ht4 : trim (' ' :: '}' :: rest) = '}' :: rest := by
    rw [trim_space]; exact trim_cons_of_not_ws (by decide)
  have ht5 : trim ('}' :: rest) = '}' :: rest := trim_cons_of_not_ws (by decide)
  have hval := Lit.parse_expr_ok b.2 (' ' :: '}' :: rest) hb.2
    (Op0End_space_brace '}' rest (Or.inr rfl)) (f + 4 + 2) (by omega)
  have harrow : expect_str "->".toList
      ('-' :: '>' :: ' ' :: '{' :: ' ' :: (b.2.text ++ ' ' :: '}' :: rest)) = true := rfl
  rw [parse_branch, hy, branchText_append]
  simp only [hr1, hr2, ht1, harrow, List.drop_succ_cons, List.drop_zero, ht2, expect_char,
    beq_self_eq_true, Bool.not_true, Bool.false_eq_true, if_false, List.tail_cons, ht3, hval,
    ht4, ht5]

theorem parse_match_branches_lit (rest : List Char) :
    ∀ (r : List (Lit × Lit)) (b : Lit × Lit) (acc : List MatchBranch) (iter : Cursor)
      (fuel : Nat), b.1.wf = true ∧ b.2.wf = true →
      (∀ c ∈ r, c.1.wf = true ∧ c.2.wf = true) →
      trim iter = branchText b ++ (commaBranches r ++ ' ' :: '}' :: rest) →
      r.length + 8 ≤ fuel →
      parse_match_branches fuel ('}' :: rest) iter acc =
        .ok (acc ++ (b :: r).map (fun c => (c.1.expr, c.2.expr))) ('}' :: rest) := by
  intro r
  induction r with
  | nil =>
    intro b acc iter fuel hb _ hiter hf
    obtain ⟨f, rfl⟩ : ∃ f, fuel = f + 1 := ⟨fuel - 1, by omega⟩
    have hlen : iter.length ≠ ('}' :: rest).length := by
      have h1 := trim_length_le iter
      rw [hiter, branchText_append] at h1
      simp only [commaBranches, List.nil_append, List.length_append, List.length_cons] at h1 ⊢
      omega
    have hbr := parse_branch_lit b (commaBranches [] ++ ' ' :: '}' :: rest) hb (trim iter)
      (by rw [trim_trim]; exact hiter) f (by simp at hf; omega)
    have ht4 : trim (' ' :: '}' :: rest) = '}' :: rest := by
      rw [trim_space]; exact trim_cons_of_not_ws (by decide)
    have ht5 : trim ('}' :: rest) = '}' :: rest := trim_cons_of_not_ws (by decide)
    simp only [commaBranches, List.nil_append] at hbr
    rw [parse_match_branches]
    simp only [bne_iff_ne, ne_eq, hlen, not_false_eq_true, if_true, hbr, ht4, ht5, expect_char]
    simp
  | cons c r ih =>
    intro b acc iter fuel hb hr hiter hf
    obtain ⟨f, rfl⟩ : ∃ f, fuel = f + 1 := ⟨fuel - 1, by omega⟩
    have hf2 : r.length + 8 ≤ f := by simp at hf; omega
    have hlen : iter.length ≠ ('}' :: rest).length := by
      have h1 := trim_length_le iter
      rw [hiter, branchText_append] at h1
      simp only [List.length_append, List.length_cons] at h1 ⊢
      omega
    have hbr := parse_branch_lit b (commaBranches (c :: r) ++ ' ' :: '}' :: rest) hb (trim iter)
      (by rw [trim_trim]; exact hiter) f (by omega)
    have hc := hr c (List.mem_cons_self _ _)
    have e : commaBranches (c :: r) ++ ' ' :: '}' :: rest =
        ',' :: ' ' :: (branchText c ++ (commaBranches r ++ ' ' :: '}' :: rest)) := by
      simp [commaBranches]
    have ht : trim (',' :: ' ' :: (branchText c ++ (commaBranches r ++ ' ' :: '}' :: rest))) =
        ',' :: ' ' :: (branchText c ++ (commaBranches r ++ ' ' :: '}' :: rest)) :=
      trim_cons_of_not_ws (by decide)
    have ih2 := ih c (acc ++ [(b.1.expr, b.2.expr)])
      (' ' :: (branchText c ++ (commaBranches r ++ ' ' :: '}' :: rest))) f hc
      (fun d hd => hr d (List.mem_cons_of_mem _ hd))
      (by rw [trim_space, branchText_append]; exact Lit.trim_text c.1 _ hc.1)
      hf2
    rw [e] at hbr
    rw [parse_match_branches]
    simp only [bne_iff_ne, ne_eq, hlen, not_false_eq_true, if_true, hbr, ht, expect_char,
      beq_self_eq_true, Bool.not_true, Bool.false_eq_true, if_false, List.tail_cons, ih2,
      List.map_cons, List.append_assoc, List.singleton_append]

theorem parse_match_lit (s : Lit) (b : Lit × Lit) (r : List (Lit × Lit)) (rest : List Char)
    (hs : s.wf = true) (hb : b.1.wf = true ∧ b.2.wf = true)
    (hr : ∀ c ∈ r, c.1.wf = true ∧ c.2.wf = true) (fuel : Nat) (hf : r.length + 9 ≤ fuel) :
    parse_match fuel ("match".toList ++ ' ' :: (s.text ++ ' ' :: '{' :: ' ' ::
        (branchText b ++ (commaBranches r ++ ' ' :: '}' :: rest)))) =
      .ok (.ExprMatch s.expr ((b :: r).map (fun c => (c.1.expr, c.2.expr)))) rest := by
  obtain ⟨f, rfl⟩ : ∃ f, fuel = f + 1 := ⟨fuel - 1, by omega⟩
  have hkw := parse_symbol_ok "match".toList (' ' :: (s.text ++ ' ' :: '{' :: ' ' ::
    (branchText b ++ (commaBranches r ++ ' ' :: '}' :: rest)))) (by decide) (by decide)
    (by simp only [expect]; decide)
  have ht1 : trim (' ' :: (s.text ++ ' ' :: '{' :: ' ' ::
      (branchText b ++ (commaBranches r ++ ' ' :: '}' :: rest)))) =
      s.text ++ ' ' :: '{' :: ' ' :: (branchText b ++ (commaBranches r ++ ' ' :: '}' :: rest)) := by
    rw [trim_space]; exact Lit.trim_text s _ hs
  have hscr := Lit.parse_expr_ok s (' ' :: '{' :: ' ' ::
    (branchText b ++ (commaBranches r ++ ' ' :: '}' :: rest))) hs
    (Op0End_space_brace '{' _ (Or.inl rfl)) f (by omega)
  have ht2 : trim (' ' :: '{' :: ' ' ::
      (branchText b ++ (commaBranches r ++ ' ' :: '}' :: rest))) =
      '{' :: ' ' :: (branchText b ++ (commaBranches r ++ ' ' :: '}' :: rest)) := by
    rw [trim_space]; exact trim_cons_of_not_ws (by decide)
  have ht3 : trim ('{' :: ' ' :: (branchText b ++ (commaBranches r ++ ' ' :: '}' :: rest))) =
      '{' :: ' ' :: (branchText b ++ (commaBranches r ++ ' ' :: '}' :: rest)) :=
    trim_cons_of_not_ws (by decide)
  have hclose := find_braces_match b r rest hb hr
  have hloop := parse_match_branches_lit rest r b []
    (' ' :: (branchText b ++ (commaBranches r ++ ' ' :: '}' :: rest))) f hb hr
    (by rw [trim_space, branchText_append]; exact Lit.trim_text b.1 _ hb.1) (by omega)
  rw [parse_match, hkw]
  simp only [bne_self_eq_false, Bool.false_eq_true, if_false, ht1, hscr, ht2, ht3, expect_char,
    beq_self_eq_true, Bool.not_true, hclose, List.isEmpty_cons, List.tail_cons, hloop,
    List.nil_append]

theorem parse_expr_match_lit (s : Lit) (b : Lit × Lit) (r : List (Lit × Lit)) (rest : List Char)
    (hs : s.wf = true) (hb : b.1.wf = true ∧ b.2.wf = true)
    (hr : ∀ c ∈ r, c.1.wf = true ∧ c.2.wf = true) (hrest : Op0End rest) (fuel : Nat)
    (hf : r.length + 14 ≤ fuel) :
    parse_expr fuel ("match".toList ++ ' ' :: (s.text ++ ' ' :: '{' :: ' ' ::
        (branchText b ++ (commaBranches r ++ ' ' :: '}' :: rest)))) =
      .ok (.ExprMatch s.expr ((b :: r).map (fun c => (c.1.expr, c.2.expr)))) (trim rest) := by
  obtain ⟨f, rfl⟩ : ∃ f, fuel = f + 1 + 5 := ⟨fuel - 6, by omega⟩
  have hm := parse_match_lit s b r rest hs hb hr (f + 1) (by omega)
  have hx : trim ("match".toList ++ ' ' :: (s.text ++ ' ' :: '{' :: ' ' ::
      (branchText b ++ (commaBranches r ++ ' ' :: '}' :: rest)))) =
      "match".toList ++ ' ' :: (s.text ++ ' ' :: '{' :: ' ' ::
      (branchText b ++ (commaBranches r ++ ' ' :: '}' :: rest))) :=
    trim_cons_of_not_ws (by decide)
  have hscan := scan_all is_symbol "match".toList (' ' :: (s.text ++ ' ' :: '{' :: ' ' ::
    (branchText b ++ (commaBranches r ++ ' ' :: '}' :: rest)))) (by decide)
    (by simp only [expect]; decide)
  have hdig : expect is_digit ("match".toList ++ ' ' :: (s.text ++ ' ' :: '{' :: ' ' ::
      (branchText b ++ (commaBranches r ++ ' ' :: '}' :: rest)))) = false := by
    simp only [String.toList, List.cons_append, expect]; decide
  have hatom : parse_atom (f + 1 + 1) ("match".toList ++ ' ' :: (s.text ++ ' ' :: '{' :: ' ' ::
      (branchText b ++ (commaBranches r ++ ' ' :: '}' :: rest)))) =
      .ok (.ExprMatch s.expr ((b :: r).map (fun c => (c.1.expr, c.2.expr)))) rest := by
    rw [parse_atom]
    simp only [hx, parse_number_fail _ hdig hx, hm]
  exact parse_expr_of_atom (f + 1) _ _ rest hx (Or.inr (by rw [hscan]; show "match".toList ≠ "func".toList; decide)) hatom
    hrest.1.2.1 hrest.1.2.2 hrest.2.1 hrest.2.2

/-- C5, counterexample: the match expression with the one arm whose pattern is
the string literal that holds a closing brace does not parse to a `Match`.
`find_braces` counts the brace inside the string literal, `close` is set inside
the literal, and after the arm the cursor is not at `close`:
`UnknownExpression`. -/
theorem C5_counterexample :
    matchText (.atom "x".toList) [(.str "\x7d".toList, .atom "2".toList)] =
        "match x \x7b ".toList ++ dquote :: '}' :: dquote :: " -> \x7b 2 \x7d \x7d".toList ∧
      parse_expr 20 (matchText (.atom "x".toList) [(.str "\x7d".toList, .atom "2".toList)]) =
        .thrown .UnknownExpression "\x7d".toList ∧
      parse_expr 200 (matchText (.atom "x".toList) [(.str "\x7d".toList, .atom "2".toList)]) =
        .thrown .UnknownExpression "\x7d".toList ∧
      find_braces '{' '}'
          ('{' :: ' ' :: dquote :: '}' :: dquote :: " -> \x7b 2 \x7d \x7d".toList) =
        '}' :: dquote :: " -> \x7b 2 \x7d \x7d".toList :=
  ⟨rfl, rfl, rfl, rfl⟩

/-- A match expression whose scrutinee, patterns and values are number
literals, identifiers or string literals without a brace between the quotes,
with `n >= 1` comma-separated arms, parses to the `Match` node with the arms
in source order, and the input is consumed. -/
theorem parse_expr_matchText (s : Lit) (bs : List (Lit × Lit)) (hne : bs ≠ [])
    (hs : s.wf = true) (hbs : ∀ b ∈ bs, b.1.wf = true ∧ b.2.wf = true) (fuel : Nat)
    (hf : bs.length + 13 ≤ fuel) :
    parse_expr fuel (matchText s bs) =
      .ok (.ExprMatch s.expr (bs.map fun b => (b.1.expr, b.2.expr))) [] := by
  obtain ⟨b, r, rfl⟩ := List.exists_cons_of_ne_nil hne
  have h := parse_expr_match_lit s b r [] hs (hbs b (List.mem_cons_self _ _))
    (fun c hc => hbs c (List.mem_cons_of_mem _ hc)) Op0End_nil fuel (by simp at hf; omega)
  have e : matchText s (b :: r) = "match".toList ++ ' ' :: (s.text ++ ' ' :: '{' :: ' ' ::
      (branchText b ++ (commaBranches r ++ ' ' :: '}' :: []))) := by
    simp [matchText, branchesText]
  rw [e, h]
  rfl

/-! ## Unconsumed input before the closing parenthesis -/

theorem find_braces_loop_length_le (l r : Char) :
    ∀ (t : List Char) (d : Int), (find_braces_loop l r t d).length ≤ t.length := by
  intro t
  induction t with
  | nil => intro d; simp [find_braces_loop]
  | cons c cs ih =>
    intro d
    simp only [find_braces_loop]
    split_ifs
    all_goals first | exact le_refl _ | exact Nat.le_succ_of_le (ih _)

theorem Op0End_commaText_cons (b : List Char) (r : List (List Char)) (x : List Char) :
    Op0End (commaText (b :: r) ++ x) :=
  Op0End_of_head ',' _ (by decide) (by decide) (by decide)

theorem parse_fncall_args_junk (rest close : List Char) (hr : Op0End rest)
    (hcomma : expect_char ',' (trim rest) = false)
    (hclose : (trim rest).length ≠ close.length) (hlen : close.length ≤ rest.length) :
    ∀ (r : List (List Char)) (a : List Char) (acc : List Expr) (iter : Cursor) (fuel : Nat),
      isAtom a = true → (∀ b ∈ r, isAtom b = true) →
      trim iter = a ++ (commaText r ++ rest) → r.length + 9 ≤ fuel →
      parse_fncall_args fuel close iter acc = .thrown .UnknownExpression (trim rest) := by
  intro r
  induction r with
  | nil =>
    intro a acc iter fuel ha _ hiter hf
    obtain ⟨f, rfl⟩ : ∃ f, fuel = f + 1 := ⟨fuel - 1, by simp at hf; omega⟩
    have hl : iter.length ≠ close.length := by
      have h1 := trim_length_le iter
      have h2 := List.length_pos.mpr (isAtom_ne_nil ha)
      rw [hiter] at h1
      simp only [commaText, List.nil_append, List.length_append] at h1
      omega
    have hp := parse_expr_atom a rest ha hr f (by simp at hf; omega)
    simp only [commaText, List.nil_append] at hiter
    rw [parse_fncall_args]
    simp only [bne_iff_ne, ne_eq, hl, not_false_eq_true, if_true, hiter, hp, trim_trim, hcomma,
      Bool.not_false, hclose]
  | cons b r ih =>
    intro a acc iter fuel ha hr2 hiter hf
    obtain ⟨f, rfl⟩ : ∃ f, fuel = f + 1 := ⟨fuel - 1, by simp at hf; omega⟩
    have hf2 : r.length + 9 ≤ f := by simp at hf; omega
    have hl : iter.length ≠ close.length := by
      have h1 := trim_length_le iter
      have h2 := List.length_pos.mpr (isAtom_ne_nil ha)
      rw [hiter] at h1
      simp only [List.length_append] at h1
      omega
    have hp := parse_expr_atom a (commaText (b :: r) ++ rest) ha
      (Op0End_commaText_cons b r rest) f (by omega)
    have ht : trim (commaText (b :: r) ++ rest) =
        ',' :: ' ' :: (b ++ (commaText r ++ rest)) := by
      simp only [commaText, List.cons_append, List.append_assoc]
      exact trim_cons_of_not_ws (by decide)
    have ht2 : trim (',' :: ' ' :: (b ++ (commaText r ++ rest))) =
        ',' :: ' ' :: (b ++ (commaText r ++ rest)) := trim_cons_of_not_ws (by decide)
    have hb := hr2 b (List.mem_cons_self _ _)
    have ih2 := ih b (acc ++ [atomExpr a]) (' ' :: (b ++ (commaText r ++ rest))) f hb
      (fun c hc => hr2 c (List.mem_cons_of_mem _ hc))
      (by rw [trim_space]; exact trim_of_expect_symbol (expect_append _ (isAtom_head hb)))
      hf2
    rw [parse_fncall_args]
    simp only [bne_iff_ne, ne_eq, hl, not_false_eq_true, if_true, hiter, hp, ht, ht2,
      expect_char, beq_self_eq_true, Bool.not_true, Bool.false_eq_true, if_false,
      List.tail_cons, ih2]

/-- A hard error of `parse_fncall` at an identifier is the error of
`parse_expr`. -/
theorem parse_expr_of_fncall_thrown (f x p : List Char) (e : ParserError) (g : Nat)
    (hf : isIdent f = true) (hx : expect is_symbol x = false) (he : e ≠ .FailTry)
    (hcall : parse_fncall (g + 1) (f ++ x) = .thrown e p) :
    parse_expr (g + 6) (f ++ x) = .thrown e p := by
  obtain ⟨hne, hall, hsy, hdig, _, _⟩ := isIdent_spec hf
  have hat : isAtom f = true := by simp [isAtom, hf]
  have htrim := trim_of_expect_symbol (expect_append x hsy)
  have hkw := atom_kw x hat hx
  have hnum := parse_number_fail _ (expect_append_false x hne hdig) htrim
  have hatom : parse_atom (g + 2) (f ++ x) = .thrown e p := by
    rw [parse_atom]
    simp only [htrim, hnum, parse_match_soft g _ (Or.inr hkw.2), hcall]
    cases e <;> first | exact absurd rfl he | rfl
  have hop1 : parse_op1 (g + 3) (f ++ x) = .thrown e p := by
    rw [parse_op1, hatom]
  have hop0 : parse_op0 (g + 4) (f ++ x) = .thrown e p := by
    rw [parse_op0, hop1]
  have hoper : parse_operation (g + 5) (f ++ x) = .thrown e p := by
    rw [parse_operation]
    simp only [htrim, hop0]
    cases e <;> first | exact absurd rfl he | rfl
  rw [parse_expr]
  simp only [htrim, parse_fndecl_soft (g + 4) _ (Or.inr hkw.1), hoper]
  cases e <;> first | exact absurd rfl he | rfl

/-- C11: in a call whose parenthesis has a depth-matched closing parenthesis
`close`, when an argument has been parsed and the next character after
whitespace is neither a comma nor at `close`, parsing throws
`UnknownExpression`. First for the argument loop of `parse_fncall` in any
state (any argument expression, any iteration); then for the whole of
`parse_expr` on a call `f(a1, ..., ak rest` whose arguments so far are atoms. -/
theorem C11_trailing_input_in_call (f : List Char) (args : List (List Char))
    (rest : List Char) (hf : isIdent f = true) (hne : args ≠ [])
    (hargs : ∀ a ∈ args, isAtom a = true) (hr : Op0End rest)
    (hcomma : expect_char ',' (trim rest) = false)
    (hfound : find_braces '(' ')' ('(' :: (argsText args ++ rest)) ≠ [])
    (hclose : (trim rest).length ≠
      (find_braces '(' ')' ('(' :: (argsText args ++ rest))).length)
    (fuel : Nat) (hfuel : args.length + 15 ≤ fuel) :
    (∀ (g : Nat) (close iter : Cursor) (acc : List Expr) (arg : Expr) (it : Cursor),
        iter.length ≠ close.length → parse_expr g (trim iter) = .ok arg it →
        expect_char ',' (trim it) = false → (trim it).length ≠ close.length →
        parse_fncall_args (g + 1) close iter acc = .thrown .UnknownExpression (trim it)) ∧
      parse_expr fuel (f ++ '(' :: (argsText args ++ rest)) =
        .thrown .UnknownExpression (trim rest) := by
  constructor
  · intro g close iter acc arg it hl hp hc hcl
    rw [parse_fncall_args]
    simp only [bne_iff_ne, ne_eq, hl, not_false_eq_true, if_true, hp, hc, Bool.not_false, hcl]
  · obtain ⟨a, r, rfl⟩ := List.exists_cons_of_ne_nil hne
    obtain ⟨g, rfl⟩ : ∃ g, fuel = g + 6 := ⟨fuel - 6, by omega⟩
    obtain ⟨hfne, hall, _, _, _, _⟩ := isIdent_spec hf
    have hsym := parse_symbol_ok f ('(' :: (argsText (a :: r) ++ rest)) hfne hall
      (by simp only [expect]; decide)
    have ht : trim ('(' :: (argsText (a :: r) ++ rest)) = '(' :: (argsText (a :: r) ++ rest) :=
      trim_cons_of_not_ws (by decide)
    have hfb : find_braces '(' ')' ('(' :: (argsText (a :: r) ++ rest)) =
        find_braces_loop '(' ')' rest 1 := by
      rw [find_braces, find_braces_loop_open _ _ _ _ (by decide),
        find_braces_loop_skip _ _ _ _ _ (argsText_no_paren (a :: r) hargs)]
      rfl
    have hlen : (find_braces '(' ')' ('(' :: (argsText (a :: r) ++ rest))).length ≤
        rest.length := by
      rw [hfb]; exact find_braces_loop_length_le _ _ _ _
    have ha := hargs a (List.mem_cons_self _ _)
    have hloop := parse_fncall_args_junk rest _ hr hcomma hclose hlen r a []
      (a ++ (commaText r ++ rest)) g ha (fun b hb => hargs b (List.mem_cons_of_mem _ hb))
      (trim_of_expect_symbol (expect_append _ (isAtom_head ha))) (by simp at hfuel; omega)
    have hem : (find_braces '(' ')' ('(' :: (argsText (a :: r) ++ rest))).isEmpty = false := by
      cases hc : find_braces '(' ')' ('(' :: (argsText (a :: r) ++ rest)) with
      | nil => exact absurd hc hfound
      | cons _ _ => rfl
    have hcall : parse_fncall (g + 1) (f ++ '(' :: (argsText (a :: r) ++ rest)) =
        .thrown .UnknownExpression (trim rest) := by
      rw [parse_fncall]
      simp only [hsym, ht, expect_char, beq_self_eq_true, Bool.not_true, Bool.false_eq_true,
        if_false, hem, List.tail_cons]
      simp only [argsText, List.append_assoc] at hloop ⊢
      rw [hloop]
    exact parse_expr_of_fncall_thrown f _ _ .UnknownExpression g hf (by simp only [expect]; decide)
      (by decide) hcall

/-- The call `add(1 2)`: after the argument `1` comes `2`, and parsing throws
`UnknownExpression`. -/
theorem C11_trailing_input_in_call_witness :
    parse_expr 16 "add(1 2)".toList = .thrown .UnknownExpression "2)".toList :=
  (C11_trailing_input_in_call "add".toList ["1".toList] " 2)".toList (by decide)
    (List.cons_ne_nil _ _) (by decide)
    (by unfold Op0End Op1End AtomEnd; decide)
    (by decide) (by decide) (by decide) 16 (by decide)).2

/-- C13, counterexample: on `x (1)`, an identifier followed by a space and an
opening parenthesis, `parse_fncall` returns the call `FnCall(x, [Number(1)])`
and not `Symbol(x)`: it calls `trim()` before it looks for the parenthesis. -/
theorem C13_counterexample :
    parse_fncall 10 "x (1)".toList =
        .ok (.ExprFnCall "x".toList [.ExprNumber "1".toList]) [] ∧
      parse_fncall 100 "x (1)".toList =
        .ok (.ExprFnCall "x".toList [.ExprNumber "1".toList]) [] ∧
      parse_expr 15 "x (1)".toList =
        .ok (.ExprFnCall "x".toList [.ExprNumber "1".toList]) [] :=
  ⟨rfl, rfl, rfl⟩

/-- C13, amended: an identifier is a call when an opening parenthesis follows
it, possibly after whitespace. For every identifier `x` (characters of
`is_symbol`) after which the first character that is not whitespace is not an
opening parenthesis, or after which the input ends, `parse_fncall` returns
`Symbol(x)`, with the cursor after the whitespace. -/
theorem C13_symbol_unless_paren (x rest : List Char) (hx : x ≠ [])
    (hall : ∀ c ∈ x, is_symbol c = true) (hrest : expect is_symbol rest = false)
    (hparen : expect_char '(' (trim rest) = false) (fuel : Nat) :
    parse_fncall (fuel + 1) (x ++ rest) = .ok (.ExprSymbol x) (trim rest) := by
  rw [parse_fncall]
  simp [parse_symbol_ok x rest hx hall hrest, hparen]

/-- The identifier `x` followed by ` + 1`, and `x` at the end of the input. -/
theorem C13_symbol_unless_paren_witness :
    parse_fncall 1 "x + 1".toList = .ok (.ExprSymbol "x".toList) "+ 1".toList ∧
      parse_fncall 1 "x".toList = .ok (.ExprSymbol "x".toList) [] :=
  ⟨C13_symbol_unless_paren "x".toList " + 1".toList (by decide) (by decide) (by decide)
      (by decide) 0,
    C13_symbol_unless_paren "x".toList [] (by decide) (by decide) (by decide) (by decide) 0⟩

/-! ## A comma after the last arm of a match -/

theorem find_braces_match_comma (b : Lit × Lit) (r : List (Lit × Lit)) (rest : List Char)
    (hb : b.1.wf = true ∧ b.2.wf = true) (hr : ∀ c ∈ r, c.1.wf = true ∧ c.2.wf = true) :
    find_braces '{' '}'
        ('{' :: ' ' :: (branchText b ++ (commaBranches r ++ ',' :: '}' :: rest))) =
      '}' :: rest := by
  have e1 : find_braces '{' '}'
      ('{' :: ' ' :: (branchText b ++ (commaBranches r ++ ',' :: '}' :: rest))) =
      find_braces_loop '{' '}' (branchText b ++ (commaBranches r ++ ',' :: '}' :: rest)) 1 := by
    simp [find_braces, find_braces_loop]
  rw [e1, find_braces_loop_branch b _ hb, find_braces_loop_commaBranches r _ hr]
  simp [find_braces_loop]

theorem parse_match_branches_lit_comma (rest : List Char) :
    ∀ (r : List (Lit × Lit)) (b : Lit × Lit) (acc : List MatchBranch) (iter : Cursor)
      (fuel : Nat), b.1.wf = true ∧ b.2.wf = true →
      (∀ c ∈ r, c.1.wf = true ∧ c.2.wf = true) →
      trim iter = branchText b ++ (commaBranches r ++ ',' :: '}' :: rest) →
      r.length + 9 ≤ fuel →
      parse_match_branches fuel ('}' :: rest) iter acc =
        .ok (acc ++ (b :: r).map (fun c => (c.1.expr, c.2.expr))) ('}' :: rest) := by
  intro r
  induction r with
  | nil =>
    intro b acc iter fuel hb _ hiter hf
    obtain ⟨f, rfl⟩ : ∃ f, fuel = f + 1 + 1 := ⟨fuel - 2, by simp at hf; omega⟩
    have hlen : iter.length ≠ ('}' :: rest).length := by
      have h1 := trim_length_le iter
      rw [hiter, branchText_append] at h1
      simp only [commaBranches, List.nil_append, List.length_append, List.length_cons] at h1 ⊢
      omega
    have hbr := parse_branch_lit b (commaBranches [] ++ ',' :: '}' :: rest) hb (trim iter)
      (by rw [trim_trim]; exact hiter) (f + 1) (by simp at hf; omega)
    have ht4 : trim (',' :: '}' :: rest) = ',' :: '}' :: rest :=
      trim_cons_of_not_ws (by decide)
    have ht5 : trim ('}' :: rest) = '}' :: rest := trim_cons_of_not_ws (by decide)
    simp only [commaBranches, List.nil_append] at hbr
    have hnext : parse_match_branches (f + 1) ('}' :: rest) ('}' :: rest)
        (acc ++ [(b.1.expr, b.2.expr)]) = .ok (acc ++ [(b.1.expr, b.2.expr)]) ('}' :: rest) := by
      rw [parse_match_branches]
      simp [ht5]
    rw [parse_match_branches]
    simp only [bne_iff_ne, ne_eq, hlen, not_false_eq_true, if_true, hbr, ht4, expect_char,
      beq_self_eq_true, Bool.not_true, Bool.false_eq_true, if_false, List.tail_cons, hnext,
      List.map_cons, List.map_nil]
  | cons c r ih =>
    intro b acc iter fuel hb hr hiter hf
    obtain ⟨f, rfl⟩ : ∃ f, fuel = f + 1 := ⟨fuel - 1, by omega⟩
    have hf2 : r.length + 9 ≤ f := by simp at hf; omega
    have hlen : iter.length ≠ ('}' :: rest).length := by
      have h1 := trim_length_le iter
      rw [hiter, branchText_append] at h1
      simp only [List.length_append, List.length_cons] at h1 ⊢
      omega
    have hbr := parse_branch_lit b (commaBranches (c :: r) ++ ',' :: '}' :: rest) hb (trim iter)
      (by rw [trim_trim]; exact hiter) f (by omega)
    have hc := hr c (List.mem_cons_self _ _)
    have e : commaBranches (c :: r) ++ ',' :: '}' :: rest =
        ',' :: ' ' :: (branchText c ++ (commaBranches r ++ ',' :: '}' :: rest)) := by
      simp [commaBranches]
    have ht : trim (',' :: ' ' :: (branchText c ++ (commaBranches r ++ ',' :: '}' :: rest))) =
        ',' :: ' ' :: (branchText c ++ (commaBranches r ++ ',' :: '}' :: rest)) :=
      trim_cons_of_not_ws (by decide)
    have ih2 := ih c (acc ++ [(b.1.expr, b.2.expr)])
      (' ' :: (branchText c ++ (commaBranches r ++ ',' :: '}' :: rest))) f hc
      (fun d hd => hr d (List.mem_cons_of_mem _ hd))
      (by rw [trim_space, branchText_append]; exact Lit.trim_text c.1 _ hc.1)
      hf2
    rw [e] at hbr
    rw [parse_match_branches]
    simp only [bne_iff_ne, ne_eq, hlen, not_false_eq_true, if_true, hbr, ht, expect_char,
      beq_self_eq_true, Bool.not_true, Bool.false_eq_true, if_false, List.tail_cons, ih2,
      List.map_cons, List.append_assoc, List.singleton_append]

theorem parse_expr_match_lit_comma (s : Lit) (b : Lit × Lit) (r : List (Lit × Lit))
    (rest : List Char) (hs : s.wf = true) (hb : b.1.wf = true ∧ b.2.wf = true)
    (hr : ∀ c ∈ r, c.1.wf = true ∧ c.2.wf = true) (hrest : Op0End rest) (fuel : Nat)
    (hf : r.length + 16 ≤ fuel) :
    parse_expr fuel ("match".toList ++ ' ' :: (s.text ++ ' ' :: '{' :: ' ' ::
        (branchText b ++ (commaBranches r ++ ',' :: '}' :: rest)))) =
      .ok (.ExprMatch s.expr ((b :: r).map (fun c => (c.1.expr, c.2.expr)))) (trim rest) := by
  obtain ⟨f, rfl⟩ : ∃ f, fuel = f + 1 + 5 := ⟨fuel - 6, by omega⟩
  have hkw := parse_symbol_ok "match".toList (' ' :: (s.text ++ ' ' :: '{' :: ' ' ::
    (branchText b ++ (commaBranches r ++ ',' :: '}' :: rest)))) (by decide) (by decide)
    (by simp only [expect]; decide)
  have ht1 : trim (' ' :: (s.text ++ ' ' :: '{' :: ' ' ::
      (branchText b ++ (commaBranches r ++ ',' :: '}' :: rest)))) =
      s.text ++ ' ' :: '{' :: ' ' :: (branchText b ++ (commaBranches r ++ ',' :: '}' :: rest)) := by
    rw [trim_space]; exact Lit.trim_text s _ hs
  have hscr := Lit.parse_expr_ok s (' ' :: '{' :: ' ' ::
    (branchText b ++ (commaBranches r ++ ',' :: '}' :: rest))) hs
    (Op0End_space_brace '{' _ (Or.inl rfl)) f (by omega)
  have ht2 : trim (' ' :: '{' :: ' ' ::
      (branchText b ++ (commaBranches r ++ ',' :: '}' :: rest))) =
      '{' :: ' ' :: (branchText b ++ (commaBranches r ++ ',' :: '}' :: rest)) := by
    rw [trim_space]; exact trim_cons_of_not_ws (by decide)
  have ht3 : trim ('{' :: ' ' :: (branchText b ++ (commaBranches r ++ ',' :: '}' :: rest))) =
      '{' :: ' ' :: (branchText b ++ (commaBranches r ++ ',' :: '}' :: rest)) :=
    trim_cons_of_not_ws (by decide)
  have hclose := find_braces_match_comma b r rest hb hr
  have hloop := parse_match_branches_lit_comma rest r b []
    (' ' :: (branchText b ++ (commaBranches r ++ ',' :: '}' :: rest))) f hb hr
    (by rw [trim_space, branchText_append]; exact Lit.trim_text b.1 _ hb.1) (by omega)
  have hm : parse_match (f + 1) ("match".toList ++ ' ' :: (s.text ++ ' ' :: '{' :: ' ' ::
      (branchText b ++ (commaBranches r ++ ',' :: '}' :: rest)))) =
      .ok (.ExprMatch s.expr ((b :: r).map (fun c => (c.1.expr, c.2.expr)))) rest := by
    rw [parse_match, hkw]
    simp only [bne_self_eq_false, Bool.false_eq_true, if_false, ht1, hscr, ht2, ht3,
      expect_char, beq_self_eq_true, Bool.not_true, hclose, List.isEmpty_cons, List.tail_cons,
      hloop, List.nil_append]
  have hx : trim ("match".toList ++ ' ' :: (s.text ++ ' ' :: '{' :: ' ' ::
      (branchText b ++ (commaBranches r ++ ',' :: '}' :: rest)))) =
      "match".toList ++ ' ' :: (s.text ++ ' ' :: '{' :: ' ' ::
      (branchText b ++ (commaBranches r ++ ',' :: '}' :: rest))) :=
    trim_cons_of_not_ws (by decide)
  have hscan := scan_all is_symbol "match".toList (' ' :: (s.text ++ ' ' :: '{' :: ' ' ::
    (branchText b ++ (commaBranches r ++ ',' :: '}' :: rest)))) (by decide)
    (by simp only [expect]; decide)
  have hdig : expect is_digit ("match".toList ++ ' ' :: (s.text ++ ' ' :: '{' :: ' ' ::
      (branchText b ++ (commaBranches r ++ ',' :: '}' :: rest)))) = false := by
    simp only [String.toList, List.cons_append, expect]; decide
  have hatom : parse_atom (f + 1 + 1) ("match".toList ++ ' ' :: (s.text ++ ' ' :: '{' :: ' ' ::
      (branchText b ++ (commaBranches r ++ ',' :: '}' :: rest)))) =
      .ok (.ExprMatch s.expr ((b :: r).map (fun c => (c.1.expr, c.2.expr)))) rest := by
    rw [parse_atom]
    simp only [hx, parse_number_fail _ hdig hx, hm]
  exact parse_expr_of_atom (f + 1) _ _ rest hx
    (Or.inr (by rw [hscan]; show "match".toList ≠ "func".toList; decide)) hatom
    hrest.1.2.1 hrest.1.2.2 hrest.2.1 hrest.2.2

/-- For a match expression with `n >= 1` arms whose scrutinee, patterns and
values are literal operands, the text that ends `arm,}` parses to the same
`Match` node as the text that ends `arm }`. -/
theorem parse_expr_matchTextComma (s : Lit) (bs : List (Lit × Lit)) (hne : bs ≠ [])
    (hs : s.wf = true) (hbs : ∀ b ∈ bs, b.1.wf = true ∧ b.2.wf = true) (fuel : Nat)
    (hf : bs.length + 15 ≤ fuel) :
    parse_expr fuel (matchTextComma s bs) =
        .ok (.ExprMatch s.expr (bs.map fun b => (b.1.expr, b.2.expr))) [] ∧
      parse_expr fuel (matchTextComma s bs) = parse_expr fuel (matchText s bs) := by
  obtain ⟨b, r, rfl⟩ := List.exists_cons_of_ne_nil hne
  have hb := hbs b (List.mem_cons_self _ _)
  have hr := fun c hc => hbs c (List.mem_cons_of_mem _ hc)
  have h1 := parse_expr_match_lit_comma s b r [] hs hb hr Op0End_nil fuel
    (by simp at hf; omega)
  have h2 := parse_expr_match_lit s b r [] hs hb hr Op0End_nil fuel (by simp at hf; omega)
  have e1 : matchTextComma s (b :: r) = "match".toList ++ ' ' :: (s.text ++ ' ' :: '{' :: ' ' ::
      (branchText b ++ (commaBranches r ++ ',' :: '}' :: []))) := by
    simp [matchTextComma, branchesText]
  have e2 : matchText s (b :: r) = "match".toList ++ ' ' :: (s.text ++ ' ' :: '{' :: ' ' ::
      (branchText b ++ (commaBranches r ++ ' ' :: '}' :: []))) := by
    simp [matchText, branchesText]
  refine ⟨?_, ?_⟩
  · rw [e1, h1]; rfl
  · rw [e1, e2, h1, h2]

theorem find_braces_loop_least (l r : Char) (hlr : l ≠ r) :
    ∀ (t : List Char) (d : Int) (k : Nat),
      t[k]? = some r → d + brace_depth l r (t.take (k + 1)) = 0 →
      (∀ j, j < k → ¬(t[j]? = some r ∧ d + brace_depth l r (t.take (j + 1)) = 0)) →
      find_braces_loop l r t d = t.drop k := by
  intro t
  induction t with
  | nil => intro d k hk; simp at hk
  | cons c cs ih =>
    intro d k hk hd hmin
    rw [find_braces_loop_cons l r hlr]
    cases k with
    | zero =>
      simp only [List.getElem?_cons_zero, Option.some.injEq] at hk
      simp only [zero_add, List.take_succ_cons, List.take_zero] at hd
      rw [if_pos ⟨hk, hd⟩]
      rfl
    | succ k =>
      have h0 := hmin 0 (Nat.succ_pos k)
      simp only [List.getElem?_cons_zero, Option.some.injEq, zero_add, List.take_succ_cons,
        List.take_zero] at h0
      rw [if_neg h0]
      simp only [List.getElem?_cons_succ] at hk
      rw [List.take_succ_cons, brace_depth_cons, ← add_assoc] at hd
      rw [List.drop_succ_cons]
      apply ih _ k hk hd
      intro j hj hc
      apply hmin (j + 1) (by omega)
      simp only [List.getElem?_cons_succ]
      refine ⟨hc.1, ?_⟩
      rw [List.take_succ_cons, brace_depth_cons, ← add_assoc]
      exact hc.2

theorem find_braces_loop_none (l r : Char) (hlr : l ≠ r) :
    ∀ (t : List Char) (d : Int),
      (∀ j, ¬(t[j]? = some r ∧ d + brace_depth l r (t.take (j + 1)) = 0)) →
      find_braces_loop l r t d = [] := by
  intro t
  induction t with
  | nil => intro d _; rfl
  | cons c cs ih =>
    intro d h
    have h0 := h 0
    simp only [List.getElem?_cons_zero, Option.some.injEq, zero_add, List.take_succ_cons,
      List.take_zero] at h0
    rw [find_braces_loop_cons l r hlr, if_neg h0]
    apply ih
    intro j hc
    apply h (j + 1)
    simp only [List.getElem?_cons_succ]
    refine ⟨hc.1, ?_⟩
    rw [List.take_succ_cons, brace_depth_cons, ← add_assoc]
    exact hc.2

theorem closes_iff (l r : Char) (t : List Char) (k : Nat) :
    closes l r t k = true ↔ (t[k]? = some r ∧ (0 : Int) + brace_depth l r (t.take (k + 1)) = 0) := by
  simp [closes]

theorem brace_depth_bounds (l r : Char) (t : List Char) :
    -(t.length : Int) ≤ brace_depth l r t ∧ brace_depth l r t ≤ (t.length : Int) := by
  have h1 : t.count l ≤ t.length := List.count_le_length _ _
  have h2 : t.count r ≤ t.length := List.count_le_length _ _
  simp only [brace_depth]
  omega

/-- C19: `find_braces` is depth-counted matching. For distinct delimiters and a
cursor on an occurrence of `left`, `find_braces` returns the position of the
first character `right` up to which the text from the cursor holds as many
`left` as `right` characters (`closes`), and the end of the input when there
is no such position. The cursor is an argument of `find_braces` and no part of
its result: it is not moved. On an input of fewer than 2^31 characters every
value of `depth` fits the `int` of the source. -/
theorem C19_find_braces_matching (left right : Char) (hlr : left ≠ right) (rest : List Char)
    (hlen : (left :: rest).length < 2 ^ 31) :
    (∀ k, closes left right (left :: rest) k = true →
        (∀ j, j < k → closes left right (left :: rest) j = false) →
        find_braces left right (left :: rest) = (left :: rest).drop k) ∧
      ((∀ k, k < (left :: rest).length → closes left right (left :: rest) k = false) →
        find_braces left right (left :: rest) = []) ∧
      (∀ k, -(2 : Int) ^ 31 < brace_depth left right ((left :: rest).take k) ∧
        brace_depth left right ((left :: rest).take k) < (2 : Int) ^ 31) := by
  refine ⟨?_, ?_, ?_⟩
  · intro k hk hmin
    have hk2 := (closes_iff _ _ _ _).mp hk
    apply find_braces_loop_least left right hlr _ 0 k hk2.1 hk2.2
    intro j hj hc
    have := hmin j hj
    rw [(closes_iff _ _ _ _).mpr hc] at this
    exact absurd this (by simp)
  · intro h
    apply find_braces_loop_none left right hlr _ 0
    intro j hc
    have hj : j < (left :: rest).length := by
      by_contra hge
      have hnone : (left :: rest)[j]? = none := List.getElem?_eq_none (by omega)
      rw [hnone] at hc
      exact absurd hc.1 (by simp)
    have := h j hj
    rw [(closes_iff _ _ _ _).mpr hc] at this
    exact absurd this (by simp)
  · intro k
    have hb := brace_depth_bounds left right ((left :: rest).take k)
    have hl : ((left :: rest).take k).length ≤ (left :: rest).length := by
      rw [List.length_take]
      exact Nat.min_le_right _ _
    have h31 : ((2 : Int) ^ 31) = 2147483648 := by norm_num
    have hlen2 : (left :: rest).length < 2147483648 := by
      have : (2 : Nat) ^ 31 = 2147483648 := by norm_num
      omega
    rw [h31]
    constructor <;> omega

/-- In `(a(b)c)d` from the first character, the parenthesis at position 6
closes, and `find_braces` returns the cursor `)d`; in `(a(b` none does. -/
theorem C19_find_braces_matching_witness :
    find_braces '(' ')' "(a(b)c)d".toList = ")d".toList ∧
      find_braces '(' ')' "(a(b".toList = [] :=
  ⟨(C19_find_braces_matching '(' ')' (by decide) "a(b)c)d".toList (by decide)).1 6 (by decide)
      (by decide),
    (C19_find_braces_matching '(' ')' (by decide) "a(b".toList (by decide)).2.1 (by decide)⟩

/-! ## The printer -/

theorem print_visit (sf : List Char → List Char) (e : Expr) :
    (if is_operation e then print_binop sf e else print_expr sf e) = print_expr sf e := by
  cases e with
  | ExprOperation l r op => simp [is_operation, print_expr]
  | _ => simp [is_operation]

theorem print_binop_eq (sf : List Char → List Char) (l r : Expr) (op : Operator) :
    print_binop sf (.ExprOperation l r op) =
      '(' :: opchar op :: ' ' :: (print_expr sf l ++ ' ' :: (print_expr sf r ++ [')'])) := by
  cases op <;> simp only [print_binop, print_visit] <;> simp [opchar]

theorem print_call_args_eq (sf : List Char → List Char) (args : List Expr) :
    print_call_args sf args = (args.map fun a => ' ' :: print_expr sf a).flatten := by
  induction args with
  | nil => simp [print_call_args]
  | cons a r ih => simp [print_call_args, ih]

theorem print_match_branches_eq (sf : List Char → List Char) (bs : List (Expr × Expr)) :
    print_match_branches sf bs =
      (bs.map fun b => ' ' :: '(' :: (print_expr sf b.1 ++ " -> ".toList ++
        print_expr sf b.2 ++ [')'])).flatten := by
  induction bs with
  | nil => simp [print_match_branches]
  | cons b r ih =>
    obtain ⟨p, v⟩ := b
    simp [print_match_branches, ih]

theorem print_decl_args_cons (r : List (List Char × List Char)) :
    ∀ e : List Char × List Char, print_decl_args (e :: r) =
      (e.1 ++ ':' :: ' ' :: e.2) ++ commaText (r.map fun e => e.1 ++ ':' :: ' ' :: e.2) ++
        [',', ' '] := by
  induction r with
  | nil => intro e; simp [print_decl_args, commaText]
  | cons e2 r ih =>
    intro e
    rw [print_decl_args, ih e2]
    simp [commaText]

theorem print_decl_args_popped (ps : List (List Char × List Char)) :
    (if ps.length > 0 then (print_decl_args ps).dropLast.dropLast else print_decl_args ps) =
      paramsText ps := by
  cases ps with
  | nil => simp [print_decl_args, paramsText, argsText]
  | cons e r =>
    rw [print_decl_args_cons]
    have e2 : ∀ x : List Char, (x ++ [',', ' ']).dropLast.dropLast = x := by
      intro x
      have : x ++ [',', ' '] = (x ++ [',']) ++ [' '] := by simp
      rw [this, List.dropLast_concat, List.dropLast_concat]
    simp only [List.length_cons, gt_iff_lt, Nat.zero_lt_succ, if_true, e2, paramsText,
      List.map_cons, argsText]

/-- C15: the printer emits the prefix form. `print(Operation(op, l, r))` is
`(`, the operator character, a space, `print(l)`, a space, `print(r)`, `)`;
`print(FnCall(f, args))` is `(`, `f`, then a space and `print(a)` for each
argument, `)`; `print(FnDecl(f, ps, ret, body))` is `(func `, `f`, `(`, the
entries `p: t` joined by a comma and a space (nothing for no parameters),
`) -> `, `ret`, a space, `print(body)`, `)`; `print(Match(s, bs))` is
`(match `, `print(s)`, then ` (`, `print(p)`, ` -> `, `print(v)`, `)` for each
arm, `)`. -/
theorem C15_printer_prefix_form (show_float : List Char → List Char) :
    (∀ (op : Operator) (l r : Expr), print_expr show_float (.ExprOperation l r op) =
        "(".toList ++ [opchar op] ++ " ".toList ++ print_expr show_float l ++ " ".toList ++
          print_expr show_float r ++ ")".toList) ∧
      (∀ (f : List Char) (args : List Expr), print_expr show_float (.ExprFnCall f args) =
        "(".toList ++ f ++ (args.map fun a => " ".toList ++ print_expr show_float a).flatten ++
          ")".toList) ∧
      (∀ (f : List Char) (ps : List (List Char × List Char)) (ret : List Char) (body : Expr),
        print_expr show_float (.ExprFnDecl f ps ret body) =
          "(func ".toList ++ f ++ "(".toList ++ paramsText ps ++ ") -> ".toList ++ ret ++
            " ".toList ++ print_expr show_float body ++ ")".toList) ∧
      (∀ (s : Expr) (bs : List (Expr × Expr)), print_expr show_float (.ExprMatch s bs) =
        "(match ".toList ++ print_expr show_float s ++
          (bs.map fun b => " (".toList ++ print_expr show_float b.1 ++ " -> ".toList ++
            print_expr show_float b.2 ++ ")".toList).flatten ++ ")".toList) := by
  refine ⟨?_, ?_, ?_, ?_⟩
  · intro op l r
    rw [print_expr, print_binop_eq]
    simp
  · intro f args
    rw [print_expr, print_call_args_eq]
    simp
  · intro f ps ret body
    rw [print_expr, print_decl_args_popped]
    simp
  · intro s bs
    rw [print_expr, print_match_branches_eq]
    simp

/-- The prints of `1 + 2 * 3`, of a call, of a declaration and of a match,
with the literal text as the text of a number. -/
theorem print_expr_examples :
    print_expr id (.ExprOperation (.ExprNumber "1".toList)
        (.ExprOperation (.ExprNumber "2".toList) (.ExprNumber "3".toList) .Mul) .Add) =
        "(+ 1 (* 2 3))".toList ∧
      print_expr id (.ExprFnCall "add".toList [.ExprNumber "1".toList, .ExprSymbol "x".toList]) =
        "(add 1 x)".toList ∧
      print_expr id (.ExprFnDecl "add".toList
        [("a".toList, "int".toList), ("b".toList, "int".toList)] "int".toList
        (.ExprSymbol "a".toList)) = "(func add(a: int, b: int) -> int a)".toList ∧
      print_expr id (.ExprFnDecl "f".toList [] "int".toList (.ExprNumber "1".toList)) =
        "(func f() -> int 1)".toList ∧
      print_expr id (.ExprMatch (.ExprSymbol "x".toList)
        [(.ExprNumber "1".toList, .ExprNumber "2".toList)]) = "(match x (1 -> 2))".toList := by
  refine ⟨?_, ?_, ?_, ?_, ?_⟩ <;>
    simp [print_expr, print_binop, is_operation, print_call_args, print_match_branches,
      print_decl_args]

/-! ## Number literals -/

theorem parse_number_cases (x : Cursor) :
    (expect is_digit (trim x) = true ∧ ∃ v p, parse_number x = .ok (.ExprNumber v) p) ∨
      (expect is_digit (trim x) = false ∧ parse_number x = .thrown .FailTry (trim x)) := by
  by_cases h : expect is_digit (trim x) = true
  · left
    refine ⟨h, ?_⟩
    by_cases hd : expect_char '.' (scan is_digit (trim x)).2 = true
    · refine ⟨(scan is_digit (trim x)).1 ++ '.' :: (scan is_digit (scan is_digit (trim x)).2.tail).1,
        (scan is_digit (scan is_digit (trim x)).2.tail).2, ?_⟩
      simp [parse_number, h, hd]
    · refine ⟨(scan is_digit (trim x)).1, (scan is_digit (trim x)).2, ?_⟩
      simp [parse_number, h, hd]
  · right
    simp only [Bool.not_eq_true] at h
    exact ⟨h, by simp [parse_number, h]⟩

/-- C17: for every number literal `N` (digits, optionally followed by `.` and
digits), parsing the input `N` succeeds, consumes the whole literal and yields
the one node `ExprNumber` of the text `N`. The value of that node is what
`std::from_chars` leaves in `val`: when `N` denotes a number below
`FLT_OVERFLOW` it is that number rounded to a `float`; when `N` denotes a
number from `FLT_OVERFLOW` on, `std::from_chars` reports an error that
`parse_number` discards, and the value is `0`, while `N` denotes a number
above `FLT_MAX`. `parse_number` never throws a hard error: it returns an
`ExprNumber` or throws `FailTry`, and it throws `FailTry` exactly when the
first character after whitespace is not a digit (or the input ends there). -/
theorem C17_number_literal (N : List Char) (hN : isNumLit N = true) (fuel : Nat)
    (hf : 8 ≤ fuel) (nearest : ℚ → ℚ) :
    parse_number N = .ok (.ExprNumber N) [] ∧
      parse_expr fuel N = .ok (.ExprNumber N) [] ∧
      parse_all (fuel + 1) N [] = .ok [.ExprNumber N] [] ∧
      ((decimal N).1 < FLT_OVERFLOW * 10 ^ (decimal N).2 →
        number_value nearest N = nearest (decimal_value N)) ∧
      (FLT_OVERFLOW * 10 ^ (decimal N).2 ≤ (decimal N).1 →
        number_value nearest N = 0 ∧ (FLT_MAX : ℚ) < decimal_value N) ∧
      (∀ x : Cursor, (∃ v p, parse_number x = .ok (.ExprNumber v) p) ∨
        parse_number x = .thrown .FailTry (trim x)) ∧
      (∀ x : Cursor, (∃ p, parse_number x = .thrown .FailTry p) ↔
        expect is_digit (trim x) = false) := by
  have hnum : parse_number N = .ok (.ExprNumber N) [] := by
    have := parse_number_ok N [] hN rfl rfl
    simpa using this
  have hat : isAtom N = true := by simp [isAtom, hN]
  have hexpr : parse_expr fuel N = .ok (.ExprNumber N) [] := by
    have := parse_expr_atom N [] hat Op0End_nil fuel hf
    simpa [atomExpr_num hN, trim] using this
  refine ⟨hnum, hexpr, ?_, ?_, ?_, ?_, ?_⟩
  · obtain ⟨g, rfl⟩ : ∃ g, fuel = g + 1 := ⟨fuel - 1, by omega⟩
    have hne : N.isEmpty = false := by
      cases N with
      | nil => exact absurd rfl (isAtom_ne_nil hat)
      | cons _ _ => rfl
    rw [parse_all]
    simp only [hne, Bool.false_eq_true, if_false, hexpr]
    rw [parse_all]
    simp
  · intro h
    simp only [number_value, from_chars, h, if_true]
  · intro h
    have h2 : ¬ (decimal N).1 < FLT_OVERFLOW * 10 ^ (decimal N).2 := by omega
    refine ⟨by simp only [number_value, from_chars, h2, if_false], ?_⟩
    unfold decimal_value
    have hpos : (0 : ℚ) < 10 ^ (decimal N).2 := by positivity
    rw [lt_div_iff₀ hpos]
    have h3 : ((FLT_OVERFLOW * 10 ^ (decimal N).2 : Nat) : ℚ) ≤ ((decimal N).1 : ℚ) := by
      exact_mod_cast h
    have h4 : (FLT_MAX : ℚ) < (FLT_OVERFLOW : ℚ) := by
      have : FLT_MAX < FLT_OVERFLOW := by decide
      exact_mod_cast this
    push_cast at h3
    nlinarith
  · intro x
    rcases parse_number_cases x with ⟨_, h⟩ | ⟨_, h⟩
    · exact Or.inl h
    · exact Or.inr h
  · intro x
    rcases parse_number_cases x with ⟨hd, v, p, h⟩ | ⟨hd, h⟩
    · rw [h, hd]
      simp
    · rw [h, hd]
      simp

/-- The literal `3.14`, in the range of a `float`, and the literal of `10^39`,
`1` followed by 39 zeros, above it: its node holds the value `0`. -/
theorem C17_number_literal_witness :
    (∀ nearest : ℚ → ℚ, number_value nearest "3.14".toList =
        nearest (decimal_value "3.14".toList)) ∧
      parse_all 9 "1000000000000000000000000000000000000000".toList [] =
        .ok [.ExprNumber "1000000000000000000000000000000000000000".toList] [] ∧
      (∀ nearest : ℚ → ℚ,
        number_value nearest "1000000000000000000000000000000000000000".toList = 0 ∧
          (FLT_MAX : ℚ) < decimal_value "1000000000000000000000000000000000000000".toList) :=
  ⟨fun nearest => (C17_number_literal "3.14".toList (by decide) 8 (by decide) nearest).2.2.2.1
      (by decide),
    (C17_number_literal "1000000000000000000000000000000000000000".toList (by decide) 8
      (by decide) id).2.2.1,
    fun nearest => (C17_number_literal "1000000000000000000000000000000000000000".toList
      (by decide) 8 (by decide) nearest).2.2.2.2.1 (by decide)⟩

/-! ## Where the soft failure comes from -/

theorem parse_symbol_thrown (x p : Cursor) (e : ParserError)
    (h : parse_symbol x = .thrown e p) :
    e = .FailTry ∧ p = x ∧ expect is_symbol x = false := by
  unfold parse_symbol at h
  by_cases hs : expect is_symbol x = true
  · simp [hs] at h
  · simp only [Bool.not_eq_true] at hs
    simp only [hs, Bool.not_false, if_true, Res.thrown.injEq] at h
    exact ⟨h.1.symm, h.2.symm, hs⟩

theorem parse_fncall_args_ne_FailTry (fuel : Nat) :
    ∀ (close iter : Cursor) (acc : List Expr) (p : Cursor),
      parse_fncall_args fuel close iter acc ≠ .thrown .FailTry p := by
  induction fuel with
  | zero => intro close iter acc p h; simp [parse_fncall_args] at h
  | succ f ih =>
    intro close iter acc p h
    rw [parse_fncall_args] at h
    split at h
    · cases h1 : parse_expr f (trim iter) with
      | ok v it =>
        simp only [h1] at h
        split at h
        · split at h <;> simp at h
        · exact ih _ _ _ _ h
      | thrown e it =>
        simp only [h1, Res.thrown.injEq] at h
        exact parse_expr_thrown_ne_FailTry f _ it e h1 h.1
      | undefined => simp [h1] at h
      | timeout => simp [h1] at h
    · simp at h

theorem parse_fncall_FailTry (fuel : Nat) (x p : Cursor)
    (h : parse_fncall fuel x = .thrown .FailTry p) :
    p = x ∧ expect is_symbol x = false := by
  cases fuel with
  | zero => simp [parse_fncall] at h
  | succ f =>
    rw [parse_fncall] at h
    cases h1 : parse_symbol x with
    | ok sym it =>
      simp only [h1] at h
      split at h
      · simp at h
      · split at h
        · simp at h
        · cases h2 : parse_fncall_args f (find_braces '(' ')' (trim it)) (trim it).tail [] with
          | ok a it2 => simp [h2] at h
          | thrown e it2 =>
            simp only [h2, Res.thrown.injEq] at h
            rw [h.1, h.2] at h2
            exact absurd h2 (parse_fncall_args_ne_FailTry f _ _ _ _)
          | undefined => simp [h2] at h
          | timeout => simp [h2] at h
    | thrown e it =>
      obtain ⟨_, h3, h4⟩ := parse_symbol_thrown x it e h1
      simp only [h1, Res.thrown.injEq] at h
      exact ⟨by rw [← h.2, h3], h4⟩
    | undefined => simp [h1] at h
    | timeout => simp [h1] at h

theorem parse_string_FailTry (x p : Cursor) (h : parse_string x = .thrown .FailTry p) :
    p = trim x ∧ expect_char dquote (trim x) = false := by
  unfold parse_string at h
  by_cases hq : expect_char dquote (trim x) = true
  · simp only [hq, Bool.not_true, Bool.false_eq_true, if_false] at h
    cases hs : scan_string (trim x).tail with
    | none => simp [hs] at h
    | some r =>
      simp only [hs] at h
      split at h <;> simp at h
  · simp only [Bool.not_eq_true] at hq
    simp only [hq, Bool.not_false, if_true, Res.thrown.injEq] at h
    exact ⟨h.2.symm, hq⟩

/-- The invariant of the soft failure: a `FailTry` that leaves `parse_atom`,
`parse_branch` or the branch loop leaves the cursor where no atom starts; one
that leaves `parse_match` leaves it there or where `parse_match` was called. -/
theorem FailTry_invariant (fuel : Nat) :
    (∀ x p, parse_atom fuel x = .thrown .FailTry p → NoAtom p ∧ 2 ≤ fuel) ∧
      (∀ x p, parse_match fuel x = .thrown .FailTry p → p = x ∨ NoAtom p) ∧
      (∀ x p, parse_branch fuel x = .thrown .FailTry p → NoAtom p) ∧
      (∀ close iter acc p, parse_match_branches fuel close iter acc = .thrown .FailTry p →
        NoAtom p) := by
  induction fuel with
  | zero =>
    refine ⟨?_, ?_, ?_, ?_⟩
    · intro x p h; simp [parse_atom] at h
    · intro x p h; simp [parse_match] at h
    · intro x p h; simp [parse_branch] at h
    · intro close iter acc p h; simp [parse_match_branches] at h
  | succ f ih =>
    obtain ⟨ihA, ihM, ihB, ihL⟩ := ih
    refine ⟨?_, ?_, ?_, ?_⟩
    · intro x p h
      rw [parse_atom] at h
      rcases parse_number_cases (trim x) with ⟨_, v, q, hn⟩ | ⟨hdig, hn⟩
      · simp [hn] at h
      · rw [trim_trim] at hn hdig
        simp only [hn] at h
        cases f with
        | zero => simp [parse_match] at h
        | succ g =>
          cases h1 : parse_match (g + 1) (trim x) with
          | ok v it => simp [h1] at h
          | undefined => simp [h1] at h
          | timeout => simp [h1] at h
          | thrown e1 p1 =>
            cases e1 with
            | FailTry =>
              simp only [h1] at h
              have hp1 : trim p1 = p1 := by
                rcases ihM _ _ h1 with rfl | hna
                · exact trim_trim x
                · exact hna.1
              cases h2 : parse_fncall (g + 1) p1 with
              | ok v it => simp [h2] at h
              | undefined => simp [h2] at h
              | timeout => simp [h2] at h
              | thrown e2 p2 =>
                cases e2 with
                | FailTry =>
                  obtain ⟨hp2, hsym⟩ := parse_fncall_FailTry _ _ _ h2
                  subst hp2
                  simp only [h2] at h
                  cases h3 : parse_string p2 with
                  | ok v it => simp [h3] at h
                  | undefined => simp [h3] at h
                  | timeout => simp [h3] at h
                  | thrown e3 p3 =>
                    cases e3 with
                    | FailTry =>
                      obtain ⟨hp3, hq⟩ := parse_string_FailTry _ _ h3
                      simp only [h3, Res.thrown.injEq, true_and] at h
                      rw [hp1] at hp3 hq
                      subst hp3
                      subst h
                      exact ⟨⟨hp1, hsym, hq⟩, by omega⟩
                    | _ => simp [h3] at h
                | _ => simp [h2] at h
            | _ => simp [h1] at h
    · intro x p h
      rw [parse_match] at h
      cases h1 : parse_symbol x with
      | ok kw it =>
        simp only [h1] at h
        split at h
        · simp only [Res.thrown.injEq, true_and] at h
          exact Or.inl h.symm
        · cases h2 : parse_expr f (trim it) with
          | ok v it2 =>
            simp only [h2] at h
            split at h
            · simp at h
            · split at h
              · simp at h
              · cases h3 : parse_match_branches f (find_braces '{' '}' (trim it2))
                    (trim it2).tail [] with
                | ok bs it3 => simp [h3] at h
                | undefined => simp [h3] at h
                | timeout => simp [h3] at h
                | thrown e3 p3 =>
                  simp only [h3, Res.thrown.injEq] at h
                  rw [h.1, h.2] at h3
                  exact Or.inr (ihL _ _ _ _ h3)
          | thrown e2 p2 =>
            simp only [h2, Res.thrown.injEq] at h
            exact absurd h.1 (parse_expr_thrown_ne_FailTry f _ p2 e2 h2)
          | undefined => simp [h2] at h
          | timeout => simp [h2] at h
      | thrown e it =>
        obtain ⟨_, h3, _⟩ := parse_symbol_thrown x it e h1
        simp only [h1, Res.thrown.injEq] at h
        exact Or.inl (by rw [← h.2, h3])
      | undefined => simp [h1] at h
      | timeout => simp [h1] at h
    · intro x p h
      rw [parse_branch] at h
      cases h1 : parse_atom f (trim x) with
      | ok v it =>
        simp only [h1] at h
        split at h
        · simp at h
        · split at h
          · simp at h
          · cases h2 : parse_expr f (trim (trim (List.drop 2 (trim it))).tail) with
            | ok v2 it2 =>
              simp only [h2] at h
              split at h <;> simp at h
            | thrown e2 p2 =>
              simp only [h2, Res.thrown.injEq] at h
              exact absurd h.1 (parse_expr_thrown_ne_FailTry f _ p2 e2 h2)
            | undefined => simp [h2] at h
            | timeout => simp [h2] at h
      | thrown e1 p1 =>
        simp only [h1, Res.thrown.injEq] at h
        rw [h.1, h.2] at h1
        exact (ihA _ _ h1).1
      | undefined => simp [h1] at h
      | timeout => simp [h1] at h
    · intro close iter acc p h
      rw [parse_match_branches] at h
      split at h
      · cases h1 : parse_branch f (trim iter) with
        | ok b it =>
          simp only [h1] at h
          split at h
          · split at h <;> simp at h
          · exact ihL _ _ _ _ h
        | thrown e1 p1 =>
          simp only [h1, Res.thrown.injEq] at h
          rw [h.1, h.2] at h1
          exact ihB _ _ h1
        | undefined => simp [h1] at h
        | timeout => simp [h1] at h
      · simp only at h
        split at h <;> simp at h

theorem parse_atom_NoAtom (p : Cursor) (h : NoAtom p) (g : Nat) :
    parse_atom (g + 2) p = .thrown .FailTry p := by
  obtain ⟨ht, hsym, hq⟩ := h
  have hdig : expect is_digit p = false := by
    cases p with
    | nil => rfl
    | cons c cs =>
      simp only [expect] at hsym ⊢
      cases hd : is_digit c with
      | false => rfl
      | true => rw [is_digit_is_symbol hd] at hsym; exact absurd hsym (by simp)
  have hstr : parse_string p = .thrown .FailTry p := by
    simp [parse_string, ht, hq]
  rw [parse_atom]
  simp only [ht, parse_number_fail p hdig ht, parse_match_soft g p (Or.inl hsym),
    parse_fncall_soft g p hsym, hstr]

theorem parse_op1_NoAtom (p : Cursor) (h : NoAtom p) (g : Nat) :
    parse_op1 (g + 3) p = .thrown .FailTry p := by
  rw [parse_op1, parse_atom_NoAtom p h g]

theorem parse_op1_loop_FailTry (fuel : Nat) :
    ∀ (left : Expr) (x p : Cursor), parse_op1_loop fuel left x = .thrown .FailTry p →
      NoAtom p ∧ 3 ≤ fuel := by
  induction fuel with
  | zero => intro left x p h; simp [parse_op1_loop] at h
  | succ f ih =>
    intro left x p h
    rw [parse_op1_loop] at h
    split at h
    · cases h1 : parse_atom f x.tail with
      | ok v it =>
        simp only [h1] at h
        have := ih _ _ _ h
        exact ⟨this.1, by omega⟩
      | thrown e q =>
        simp only [h1, Res.thrown.injEq] at h
        rw [h.1, h.2] at h1
        have := (FailTry_invariant f).1 _ _ h1
        exact ⟨this.1, by omega⟩
      | undefined => simp [h1] at h
      | timeout => simp [h1] at h
    · split at h
      · cases h1 : parse_atom f x.tail with
        | ok v it =>
          simp only [h1] at h
          have := ih _ _ _ h
          exact ⟨this.1, by omega⟩
        | thrown e q =>
          simp only [h1, Res.thrown.injEq] at h
          rw [h.1, h.2] at h1
          have := (FailTry_invariant f).1 _ _ h1
          exact ⟨this.1, by omega⟩
        | undefined => simp [h1] at h
        | timeout => simp [h1] at h
      · simp at h

theorem parse_op1_FailTry (fuel : Nat) (x p : Cursor)
    (h : parse_op1 fuel x = .thrown .FailTry p) : NoAtom p ∧ 3 ≤ fuel := by
  cases fuel with
  | zero => simp [parse_op1] at h
  | succ f =>
    rw [parse_op1] at h
    cases h1 : parse_atom f x with
    | ok v it =>
      simp only [h1] at h
      have := parse_op1_loop_FailTry f _ _ _ h
      exact ⟨this.1, by omega⟩
    | thrown e q =>
      simp only [h1, Res.thrown.injEq] at h
      rw [h.1, h.2] at h1
      have := (FailTry_invariant f).1 _ _ h1
      exact ⟨this.1, by omega⟩
    | undefined => simp [h1] at h
    | timeout => simp [h1] at h

theorem parse_op0_loop_FailTry (fuel : Nat) :
    ∀ (left : Expr) (x p : Cursor), parse_op0_loop fuel left x = .thrown .FailTry p →
      NoAtom p ∧ 3 ≤ fuel := by
  induction fuel with
  | zero => intro left x p h; simp [parse_op0_loop] at h
  | succ f ih =>
    intro left x p h
    rw [parse_op0_loop] at h
    split at h
    · cases h1 : parse_op1 f x.tail with
      | ok v it =>
        simp only [h1] at h
        have := ih _ _ _ h
        exact ⟨this.1, by omega⟩
      | thrown e q =>
        simp only [h1, Res.thrown.injEq] at h
        rw [h.1, h.2] at h1
        have := parse_op1_FailTry f _ _ h1
        exact ⟨this.1, by omega⟩
      | undefined => simp [h1] at h
      | timeout => simp [h1] at h
    · split at h
      · cases h1 : parse_op1 f x.tail with
        | ok v it =>
          simp only [h1] at h
          have := ih _ _ _ h
          exact ⟨this.1, by omega⟩
        | thrown e q =>
          simp only [h1, Res.thrown.injEq] at h
          rw [h.1, h.2] at h1
          have := parse_op1_FailTry f _ _ h1
          exact ⟨this.1, by omega⟩
        | undefined => simp [h1] at h
        | timeout => simp [h1] at h
      · simp at h

theorem parse_op0_FailTry (fuel : Nat) (x p : Cursor)
    (h : parse_op0 fuel x = .thrown .FailTry p) : NoAtom p ∧ 3 ≤ fuel := by
  cases fuel with
  | zero => simp [parse_op0] at h
  | succ f =>
    rw [parse_op0] at h
    cases h1 : parse_op1 f x with
    | ok v it =>
      simp only [h1] at h
      have := parse_op0_loop_FailTry f _ _ _ h
      exact ⟨this.1, by omega⟩
    | thrown e q =>
      simp only [h1, Res.thrown.injEq] at h
      rw [h.1, h.2] at h1
      have := parse_op1_FailTry f _ _ h1
      exact ⟨this.1, by omega⟩
    | undefined => simp [h1] at h
    | timeout => simp [h1] at h

/-- C18: the second attempt of `parse_operation`, with `parse_op1` alone, is
dead. For every input, cursor position and amount of fuel, `parse_operation`
is `trim` followed by `parse_op0` (`parse_operation_spec`): the same node and
cursor, the same error and cursor; and whenever `parse_op0` soft-fails, with
the cursor left at `p`, `parse_op1` from `p` soft-fails at `p` again. -/
theorem C18_parse_operation_single_entry (fuel : Nat) (iter : Cursor) :
    parse_operation (fuel + 1) iter = parse_operation_spec fuel iter ∧
      (∀ p, parse_op0 fuel (trim iter) = .thrown .FailTry p →
        parse_op1 fuel p = .thrown .FailTry p) := by
  have h2 : ∀ p, parse_op0 fuel (trim iter) = .thrown .FailTry p →
      parse_op1 fuel p = .thrown .FailTry p := by
    intro p hp
    obtain ⟨hna, hf⟩ := parse_op0_FailTry fuel _ _ hp
    obtain ⟨g, rfl⟩ : ∃ g, fuel = g + 3 := ⟨fuel - 3, by omega⟩
    exact parse_op1_NoAtom p hna g
  refine ⟨?_, h2⟩
  rw [parse_operation, parse_operation_spec]
  cases h : parse_op0 fuel (trim iter) with
  | ok v it => rfl
  | undefined => rfl
  | timeout => rfl
  | thrown e p =>
    cases e with
    | FailTry => simp only [h2 p h]
    | _ => rfl

/-- On `1 +` the level 0 rule soft-fails at the end of the input, and so does
the second attempt from there. -/
theorem C18_parse_operation_single_entry_witness :
    parse_op0 5 (trim "1 +".toList) = .thrown .FailTry [] ∧
      parse_op1 5 [] = .thrown .FailTry [] ∧
      parse_operation 6 "1 +".toList = .thrown .FailTry [] :=
  ⟨rfl, (C18_parse_operation_single_entry 5 "1 +".toList).2 [] rfl,
    (C18_parse_operation_single_entry 5 "1 +".toList).1.trans rfl⟩

/-! ## Cursors in an input followed by whitespace -/

theorem trim_all_ws (w : List Char) (hw : ∀ c ∈ w, is_ws c = true) : trim w = [] := by
  induction w with
  | nil => rfl
  | cons c cs ih =>
    simp [trim, hw c (List.mem_cons_self _ _), ih (fun d hd => hw d (List.mem_cons_of_mem _ hd))]

theorem Ext_refl_append (w r : List Char) : Ext w r (r ++ w) := Or.inl rfl

theorem Ext_trim {w r e : List Char} (hw : ∀ c ∈ w, is_ws c = true) (h : Ext w r e) :
    Ext w (trim r) (trim e) := by
  rcases h with rfl | ⟨rfl, rfl⟩
  · induction r with
    | nil =>
      right
      exact ⟨rfl, by simpa using trim_all_ws w hw⟩
    | cons c cs ih =>
      by_cases hc : is_ws c = true
      · simpa [Efp.trim, hc] using ih
      · left
        simp [Efp.trim, hc]
  · right
    exact ⟨rfl, rfl⟩

theorem Ext_expect {w r e : List Char} (hw : ∀ c ∈ w, is_ws c = true) (fn : Char → Bool)
    (hfn : ∀ c, is_ws c = true → fn c = false) (h : Ext w r e) :
    expect fn e = expect fn r := by
  rcases h with rfl | ⟨rfl, rfl⟩
  · cases r with
    | nil =>
      cases w with
      | nil => rfl
      | cons d ds => simpa [Efp.expect] using hfn d (hw d (List.mem_cons_self _ _))
    | cons c cs => rfl
  · rfl

theorem Ext_expect_char {w r e : List Char} (hw : ∀ c ∈ w, is_ws c = true) (c : Char)
    (hc : is_ws c = false) (h : Ext w r e) : expect_char c e = expect_char c r := by
  rcases h with rfl | ⟨rfl, rfl⟩
  · cases r with
    | nil =>
      cases w with
      | nil => rfl
      | cons d ds =>
        have hd := hw d (List.mem_cons_self _ _)
        simp only [List.nil_append, Efp.expect_char, beq_eq_false_iff_ne, ne_eq]
        rintro rfl
        rw [hd] at hc
        exact absurd hc (by simp)
    | cons c cs => rfl
  · rfl

theorem expect_symbol_ws (c : Char) (h : is_ws c = true) : is_symbol c = false := by
  cases hs : is_symbol c with
  | false => rfl
  | true => rw [is_symbol_not_ws hs] at h; exact absurd h (by simp)

theorem expect_digit_ws (c : Char) (h : is_ws c = true) : is_digit c = false := by
  cases hs : is_digit c with
  | false => rfl
  | true => rw [is_digit_not_ws hs] at h; exact absurd h (by simp)

theorem Ext_expect_arrow {w r e : List Char} (hw : ∀ c ∈ w, is_ws c = true) (h : Ext w r e) :
    expect_str "->".toList e = expect_str "->".toList r := by
  have hhead : ∀ (c : Char), is_ws c = false → expect_str [c] w = false := by
    intro c hc
    cases w with
    | nil => rfl
    | cons d ds =>
      have hd := hw d (List.mem_cons_self _ _)
      have : c ≠ d := by rintro rfl; rw [hd] at hc; exact absurd hc (by simp)
      simp [expect_str, this]
  have hhead2 : expect_str ['-', '>'] w = false := by
    cases w with
    | nil => rfl
    | cons d ds =>
      have hd := hw d (List.mem_cons_self _ _)
      have : '-' ≠ d := by rintro rfl; revert hd; decide
      simp [expect_str, this]
  rcases h with rfl | ⟨rfl, rfl⟩
  · cases r with
    | nil => simpa [expect_str] using hhead2
    | cons c cs =>
      cases cs with
      | nil =>
        show expect_str ['-', '>'] (c :: w) = expect_str ['-', '>'] [c]
        by_cases hc : '-' = c
        · have := hhead '>' (by decide)
          simp [expect_str, hc, this]
        · simp [expect_str, hc]
      | cons d ds =>
        simp [expect_str]
  · rfl

theorem Ext_tail {w r e : List Char} (h : Ext w r e) (hr : r ≠ []) : Ext w r.tail e.tail := by
  rcases h with rfl | ⟨rfl, rfl⟩
  · cases r with
    | nil => exact absurd rfl hr
    | cons c cs => exact Or.inl rfl
  · exact absurd rfl hr

theorem expect_char_ne_nil {c : Char} {r : List Char} (h : expect_char c r = true) : r ≠ [] := by
  rintro rfl
  simp [expect_char] at h

theorem expect_arrow_length {r : List Char} (h : expect_str "->".toList r = true) :
    ∃ rs, r = '-' :: '>' :: rs := by
  cases r with
  | nil => simp [expect_str] at h
  | cons c cs =>
    cases cs with
    | nil =>
      by_cases hc : '-' = c <;> simp [expect_str, hc] at h
    | cons d ds =>
      by_cases hc : '-' = c
      · by_cases hd : '>' = d
        · exact ⟨ds, by rw [← hc, ← hd]⟩
        · simp [expect_str, hc, hd] at h
      · simp [expect_str, hc] at h

theorem Ext_drop_arrow {w r e : List Char} (h : Ext w r e)
    (hr : expect_str "->".toList r = true) : Ext w (r.drop 2) (e.drop 2) := by
  obtain ⟨rs, rfl⟩ := expect_arrow_length hr
  rcases h with rfl | ⟨h1, _⟩
  · exact Or.inl rfl
  · simp at h1

theorem Ext_scan {w r e : List Char} (hw : ∀ c ∈ w, is_ws c = true) (fn : Char → Bool)
    (hfn : ∀ c, is_ws c = true → fn c = false) (h : Ext w r e) :
    (scan fn e).1 = (scan fn r).1 ∧ Ext w (scan fn r).2 (scan fn e).2 := by
  rcases h with rfl | ⟨rfl, rfl⟩
  · induction r with
    | nil =>
      have : scan fn w = ([], w) := by
        cases w with
        | nil => rfl
        | cons d ds => simp [Efp.scan, hfn d (hw d (List.mem_cons_self _ _))]
      simp only [List.nil_append, this, Efp.scan]
      exact ⟨trivial, Or.inl rfl⟩
    | cons c cs ih =>
      by_cases hc : fn c = true
      · simp only [List.cons_append, Efp.scan, hc, if_true, List.cons.injEq, true_and]
        exact ih
      · simp only [List.cons_append, Efp.scan, hc, Bool.false_eq_true, if_false]
        exact ⟨trivial, Or.inl rfl⟩
  · exact ⟨rfl, Or.inr ⟨rfl, rfl⟩⟩

theorem Ext_length_ne {w r e close : List Char} (h : Ext w r e) (hc : close ≠ []) :
    (e.length != (close ++ w).length) = (r.length != close.length) := by
  have hpos := List.length_pos.mpr hc
  rcases h with rfl | ⟨rfl, rfl⟩
  · simp [bne]
  · have h1 : ((0 : Nat) != close.length) = true := by simp; omega
    have h2 : ((0 : Nat) != (close ++ w).length) = true := by simp; omega
    simp only [List.length_nil, h1, h2]

theorem Ext_of_nil {w e : List Char} (h : Ext w [] e) : e = w ∨ e = [] := by
  rcases h with h | ⟨_, h⟩
  · exact Or.inl (by simpa using h)
  · exact Or.inr h

theorem Ext_of_ne_nil {w r e : List Char} (h : Ext w r e) (hr : r ≠ []) : e = r ++ w := by
  rcases h with h | ⟨h1, _⟩
  · exact h
  · exact absurd h1 hr

/-! ## Outcomes -/

theorem Res.Ext.ok_inv {α : Type} {w : List Char} {v : α} {r : Cursor} {y : Res α}
    (h : Res.Ext w (.ok v r) y) : ∃ e, y = .ok v e ∧ Efp.Ext w r e := by
  cases y with
  | ok v2 e => exact ⟨e, by rw [h.1], h.2⟩
  | thrown _ _ => exact absurd h (by simp [Res.Ext])
  | undefined => exact absurd h (by simp [Res.Ext])
  | timeout => exact absurd h (by simp [Res.Ext])

theorem Res.Ext.thrown_inv {α : Type} {w : List Char} {x : ParserError} {r : Cursor}
    {y : Res α} (h : Res.Ext w (.thrown x r) y) : ∃ e, y = .thrown x e ∧ Efp.Ext w r e := by
  cases y with
  | ok _ _ => exact absurd h (by simp [Res.Ext])
  | thrown x2 e => exact ⟨e, by rw [h.1], h.2⟩
  | undefined => exact absurd h (by simp [Res.Ext])
  | timeout => exact absurd h (by simp [Res.Ext])

theorem Res.Ext.undefined_inv {α : Type} {w : List Char} {y : Res α}
    (h : Res.Ext w (.undefined) y) : y = .undefined := by
  cases y with
  | ok _ _ => exact absurd h (by simp [Res.Ext])
  | thrown _ _ => exact absurd h (by simp [Res.Ext])
  | undefined => rfl
  | timeout => exact absurd h (by simp [Res.Ext])

theorem Res.Ext.timeout_left {α : Type} (w : List Char) (y : Res α) :
    Res.Ext w (.timeout) y := by
  simp [Res.Ext]

theorem Res.Ext.ok_intro {α : Type} {w : List Char} (v : α) {r e : Cursor}
    (h : Efp.Ext w r e) : Res.Ext w (.ok v r) (.ok v e) := ⟨rfl, h⟩

theorem Res.Ext.thrown_intro {α : Type} {w : List Char} (x : ParserError) {r e : Cursor}
    (h : Efp.Ext w r e) : Res.Ext w (.thrown x r : Res α) (.thrown x e) := ⟨rfl, h⟩

theorem Res.Ext.undefined_intro {α : Type} (w : List Char) :
    Res.Ext w (.undefined : Res α) .undefined := trivial

/-! ## The rules without recursion, on an input followed by whitespace -/

theorem parse_symbol_ext {w r e : List Char} (hw : ∀ c ∈ w, is_ws c = true)
    (h : Ext w r e) : Res.Ext w (parse_symbol r) (parse_symbol e) := by
  unfold parse_symbol
  rw [Ext_expect hw is_symbol expect_symbol_ws h]
  obtain ⟨h1, h2⟩ := Ext_scan hw is_symbol expect_symbol_ws h
  split
  · exact Res.Ext.thrown_intro _ h
  · rw [h1]
    exact Res.Ext.ok_intro _ h2

theorem parse_number_ext {w r e : List Char} (hw : ∀ c ∈ w, is_ws c = true)
    (h : Ext w r e) : Res.Ext w (parse_number r) (parse_number e) := by
  have ht := Ext_trim hw h
  unfold parse_number
  simp only
  rw [Ext_expect hw is_digit expect_digit_ws ht]
  obtain ⟨h1, h2⟩ := Ext_scan hw is_digit expect_digit_ws ht
  split
  · exact Res.Ext.thrown_intro _ ht
  · rw [Ext_expect_char hw '.' (by decide) h2]
    split
    · rename_i hdot
      obtain ⟨h3, h4⟩ := Ext_scan hw is_digit expect_digit_ws
        (Ext_tail h2 (expect_char_ne_nil hdot))
      rw [h1, h3]
      exact Res.Ext.ok_intro _ h4
    · rw [h1]
      exact Res.Ext.ok_intro _ h2

theorem scan_string_all_ws (w : List Char) (hw : ∀ c ∈ w, is_ws c = true) :
    scan_string w = none := by
  induction w with
  | nil => rfl
  | cons c cs ih =>
    have hc := hw c (List.mem_cons_self _ _)
    have : (dquote == c) = false := by
      rw [beq_eq_false_iff_ne]
      rintro rfl
      revert hc
      decide
    simp [scan_string, expect_char, this, ih (fun d hd => hw d (List.mem_cons_of_mem _ hd))]

theorem scan_string_cons (c : Char) (cs : List Char) :
    scan_string (c :: cs) =
      if expect_char dquote (c :: cs) then some ([], c :: cs)
      else match scan_string cs with
        | none => none
        | some r => some (c :: r.1, r.2) := rfl

theorem scan_string_ext {w r : List Char} (hw : ∀ c ∈ w, is_ws c = true) :
    (scan_string r = none ∧ scan_string (r ++ w) = none) ∨
      ∃ s q, q ≠ [] ∧ scan_string r = some (s, q) ∧ scan_string (r ++ w) = some (s, q ++ w) := by
  induction r with
  | nil => exact Or.inl ⟨rfl, scan_string_all_ws w hw⟩
  | cons c cs ih =>
    rw [List.cons_append, scan_string_cons c cs, scan_string_cons c (cs ++ w)]
    have hcc : expect_char dquote (c :: (cs ++ w)) = expect_char dquote (c :: cs) := rfl
    rw [hcc]
    by_cases hc : expect_char dquote (c :: cs) = true
    · right
      simp only [hc, if_true]
      exact ⟨[], c :: cs, List.cons_ne_nil _ _, rfl, rfl⟩
    · simp only [hc, if_false]
      rcases ih with ⟨h1, h2⟩ | ⟨s, q, hq, h1, h2⟩
      · left
        rw [h1, h2]
        exact ⟨rfl, rfl⟩
      · right
        rw [h1, h2]
        exact ⟨c :: s, q, hq, rfl, rfl⟩

theorem parse_string_ext {w r e : List Char} (hw : ∀ c ∈ w, is_ws c = true)
    (h : Ext w r e) : Res.Ext w (parse_string r) (parse_string e) := by
  have ht := Ext_trim hw h
  unfold parse_string
  simp only
  rw [Ext_expect_char hw dquote (by decide) ht]
  split
  · exact Res.Ext.thrown_intro _ ht
  · rename_i hq
    have hq2 : expect_char dquote (trim r) = true := by simpa using hq
    have hne := expect_char_ne_nil hq2
    have he : (trim e).tail = (trim r).tail ++ w := by
      rw [Ext_of_ne_nil ht hne]
      cases htr : trim r with
      | nil => exact absurd htr hne
      | cons c cs => rfl
    rw [he]
    rcases scan_string_ext (r := (trim r).tail) hw with ⟨h1, h2⟩ | ⟨s, q, hq, h1, h2⟩
    · rw [h1, h2]
      exact Res.Ext.undefined_intro w
    · rw [h1, h2]
      cases q with
      | nil => exact absurd rfl hq
      | cons c cs =>
        simp only [List.isEmpty_cons, Bool.false_eq_true, if_false, List.cons_append,
          List.tail_cons]
        exact Res.Ext.ok_intro _ (Or.inl rfl)

theorem find_braces_loop_step (l r c : Char) (cs : List Char) (d : Int) :
    find_braces_loop l r (c :: cs) d =
      if c == r then
        if (if c == l then d + 1 else d) - 1 == 0 then c :: cs
        else find_braces_loop l r cs ((if c == l then d + 1 else d) - 1)
      else find_braces_loop l r cs (if c == l then d + 1 else d) := rfl

theorem find_braces_loop_ext {w : List Char} (l r : Char)
    (hw : ∀ c ∈ w, c ≠ l ∧ c ≠ r) (t : List Char) (d : Int) :
    (find_braces_loop l r t d = [] ∧ find_braces_loop l r (t ++ w) d = []) ∨
      (find_braces_loop l r t d ≠ [] ∧
        find_braces_loop l r (t ++ w) d = find_braces_loop l r t d ++ w) := by
  induction t generalizing d with
  | nil =>
    left
    have := find_braces_loop_skip l r w [] d hw
    rw [List.append_nil] at this
    exact ⟨rfl, by rw [List.nil_append, this]; rfl⟩
  | cons c cs ih =>
    rw [List.cons_append, find_braces_loop_step l r c cs, find_braces_loop_step l r c (cs ++ w)]
    by_cases h1 : (c == r) = true
    · simp only [h1, if_true]
      by_cases h2 : ((if c == l then d + 1 else d) - 1 == 0) = true
      · simp only [h2, if_true]
        right
        exact ⟨List.cons_ne_nil _ _, rfl⟩
      · simp only [h2, if_false]
        exact ih _
    · simp only [h1, if_false]
      exact ih _

theorem ws_not_paren {w : List Char} (hw : ∀ c ∈ w, is_ws c = true) :
    ∀ c ∈ w, c ≠ '(' ∧ c ≠ ')' := by
  intro c hc
  have := hw c hc
  constructor <;> (rintro rfl; revert this; decide)

theorem ws_not_curly {w : List Char} (hw : ∀ c ∈ w, is_ws c = true) :
    ∀ c ∈ w, c ≠ '{' ∧ c ≠ '}' := by
  intro c hc
  have := hw c hc
  constructor <;> (rintro rfl; revert this; decide)

theorem find_braces_ext {w r e : List Char} (l r2 : Char)
    (hw : ∀ c ∈ w, c ≠ l ∧ c ≠ r2) (h : Ext w r e) :
    (find_braces l r2 r = [] ∧ find_braces l r2 e = []) ∨
      (find_braces l r2 r ≠ [] ∧ find_braces l r2 e = find_braces l r2 r ++ w) := by
  unfold find_braces
  rcases h with rfl | ⟨rfl, rfl⟩
  · exact find_braces_loop_ext l r2 hw r 0
  · exact Or.inl ⟨rfl, rfl⟩

/-! ## The parameter list of a declaration -/

theorem parse_fndecl_args_ok_length (fuel : Nat) :
    ∀ (close iter : Cursor) (acc v : List (List Char × List Char)) (q : Cursor),
      parse_fndecl_args fuel close iter acc = .ok v q → q.length = close.length := by
  induction fuel with
  | zero => intro close iter acc v q h; simp [parse_fndecl_args] at h
  | succ f ih =>
    intro close iter acc v q h
    rw [parse_fndecl_args] at h
    split at h
    · simp only at h
      split at h
      · split at h
        · split at h
          · split at h
            · exact absurd h (by simp)
            · rename_i hlen
              simp only [Res.ok.injEq] at h
              rw [← h.2]
              simpa using hlen
          · exact ih _ _ _ _ _ h
        · exact absurd h (by simp)
        · exact absurd h (by simp)
        · exact absurd h (by simp)
      · exact absurd h (by simp)
      · exact absurd h (by simp)
      · exact absurd h (by simp)
    · rename_i hlen
      simp only [Res.ok.injEq] at h
      rw [← h.2]
      simpa using hlen

theorem parse_fndecl_args_ext {w : List Char} (hw : ∀ c ∈ w, is_ws c = true) (fuel : Nat) :
    ∀ (k : Nat) (close r e : Cursor) (acc : List (List Char × List Char)),
      close ≠ [] → Ext w r e →
      Res.Ext w (parse_fndecl_args fuel close r acc)
        (parse_fndecl_args (fuel + k) (close ++ w) e acc) := by
  induction fuel with
  | zero => intro k close r e acc _ _; exact Res.Ext.timeout_left _ _
  | succ f ih =>
    intro k close r e acc hc h
    rw [show f + 1 + k = (f + k) + 1 by omega, parse_fndecl_args, parse_fndecl_args]
    rw [Ext_length_ne h hc]
    split
    · simp only
      have h1 := parse_symbol_ext hw (Ext_trim hw h)
      cases hs : parse_symbol (trim r) with
      | timeout => exact Res.Ext.timeout_left _ _
      | undefined =>
        rw [hs] at h1
        rw [Res.Ext.undefined_inv h1]
        exact Res.Ext.undefined_intro w
      | thrown x r1 =>
        rw [hs] at h1
        obtain ⟨e1, h2, h3⟩ := Res.Ext.thrown_inv h1
        rw [h2]
        exact Res.Ext.thrown_intro _ h3
      | ok a r1 =>
        rw [hs] at h1
        obtain ⟨e1, h2, h3⟩ := Res.Ext.ok_inv h1
        rw [h2]
        simp only
        have h4 := parse_symbol_ext hw (Ext_trim hw h3)
        cases hs2 : parse_symbol (trim r1) with
        | timeout => exact Res.Ext.timeout_left _ _
        | undefined =>
          rw [hs2] at h4
          rw [Res.Ext.undefined_inv h4]
          exact Res.Ext.undefined_intro w
        | thrown x r2 =>
          rw [hs2] at h4
          obtain ⟨e2, h5, h6⟩ := Res.Ext.thrown_inv h4
          rw [h5]
          exact Res.Ext.thrown_intro _ h6
        | ok ty r2 =>
          rw [hs2] at h4
          obtain ⟨e2, h5, h6⟩ := Res.Ext.ok_inv h4
          rw [h5]
          simp only
          have h7 := Ext_trim hw h6
          rw [Ext_expect_char hw ',' (by decide) h7, Ext_length_ne h7 hc]
          split
          · split
            · exact Res.Ext.thrown_intro _ h7
            · exact Res.Ext.ok_intro _ h7
          · rename_i hcomma
            have hcomma2 : expect_char ',' (trim r2) = true := by simpa using hcomma
            exact ih k close _ _ _ hc (Ext_tail h7 (expect_char_ne_nil hcomma2))
    · exact Res.Ext.ok_intro _ h

theorem parse_fndecl_head_ok_ne_nil (fuel : Nat) (iter : Cursor)
    (v : List Char × List (List Char × List Char)) (q : Cursor)
    (h : parse_fndecl_head fuel iter = .ok v q) : q ≠ [] := by
  unfold parse_fndecl_head at h
  simp only at h
  split at h
  · split at h
    · exact absurd h (by simp)
    · split at h
      · split at h
        · exact absurd h (by simp)
        · split at h
          · exact absurd h (by simp)
          · rename_i hclose
            split at h
            · rename_i hargs
              have hlen := parse_fndecl_args_ok_length _ _ _ _ _ _ hargs
              simp only [Res.ok.injEq] at h
              rw [← h.2]
              intro hq
              rw [hq] at hlen
              have : find_braces '(' ')' _ = [] := List.length_eq_zero.mp hlen.symm
              rw [this] at hclose
              exact hclose rfl
            · exact absurd h (by simp)
            · exact absurd h (by simp)
            · exact absurd h (by simp)
      · exact absurd h (by simp)
      · exact absurd h (by simp)
      · exact absurd h (by simp)
  · exact absurd h (by simp)
  · exact absurd h (by simp)
  · exact absurd h (by simp)

theorem parse_fndecl_head_ext {w : List Char} (hw : ∀ c ∈ w, is_ws c = true)
    (fuel k : Nat) {r e : Cursor} (h : Ext w r e) :
    Res.Ext w (parse_fndecl_head fuel r) (parse_fndecl_head (fuel + k) e) := by
  unfold parse_fndecl_head
  simp only
  have h1 := parse_symbol_ext hw h
  cases hs : parse_symbol r with
  | timeout => exact Res.Ext.timeout_left _ _
  | undefined =>
    rw [hs] at h1
    rw [Res.Ext.undefined_inv h1]
    exact Res.Ext.undefined_intro w
  | thrown x r1 =>
    rw [hs] at h1
    obtain ⟨e1, h2, h3⟩ := Res.Ext.thrown_inv h1
    rw [h2]
    exact Res.Ext.thrown_intro _ h3
  | ok kw r1 =>
    rw [hs] at h1
    obtain ⟨e1, h2, h3⟩ := Res.Ext.ok_inv h1
    rw [h2]
    simp only
    split
    · exact Res.Ext.thrown_intro _ h
    · have h4 := parse_symbol_ext hw (Ext_trim hw h3)
      cases hs2 : parse_symbol (trim r1) with
      | timeout => exact Res.Ext.timeout_left _ _
      | undefined =>
        rw [hs2] at h4
        rw [Res.Ext.undefined_inv h4]
        exact Res.Ext.undefined_intro w
      | thrown x r2 =>
        rw [hs2] at h4
        obtain ⟨e2, h5, h6⟩ := Res.Ext.thrown_inv h4
        rw [h5]
        exact Res.Ext.thrown_intro _ h6
      | ok name r2 =>
        rw [hs2] at h4
        obtain ⟨e2, h5, h6⟩ := Res.Ext.ok_inv h4
        rw [h5]
        simp only
        have h7 := Ext_trim hw h6
        rw [Ext_expect_char hw '(' (by decide) h7]
        split
        · exact Res.Ext.thrown_intro _ h7
        · rename_i hp
          have hp2 : expect_char '(' (trim r2) = true := by simpa using hp
          rcases find_braces_ext '(' ')' (ws_not_paren hw) h7 with ⟨h8, h9⟩ | ⟨h8, h9⟩
          · rw [h8, h9]
            exact Res.Ext.thrown_intro _ h7
          · rw [h9]
            have hne : (find_braces '(' ')' (trim r2) ++ w).isEmpty = false := by
              cases hfb : find_braces '(' ')' (trim r2) with
              | nil => exact absurd hfb h8
              | cons c cs => rfl
            have hne2 : (find_braces '(' ')' (trim r2)).isEmpty = false := by
              cases hfb : find_braces '(' ')' (trim r2) with
              | nil => exact absurd hfb h8
              | cons c cs => rfl
            rw [hne, hne2]
            simp only [Bool.false_eq_true, if_false]
            have h10 := parse_fndecl_args_ext hw fuel k _ _ _ [] h8
              (Ext_tail h7 (expect_char_ne_nil hp2))
            cases ha : parse_fndecl_args fuel (find_braces '(' ')' (trim r2)) (trim r2).tail [] with
            | timeout => exact Res.Ext.timeout_left _ _
            | undefined =>
              rw [ha] at h10
              rw [Res.Ext.undefined_inv h10]
              exact Res.Ext.undefined_intro w
            | thrown x r3 =>
              rw [ha] at h10
              obtain ⟨e3, h11, h12⟩ := Res.Ext.thrown_inv h10
              rw [h11]
              exact Res.Ext.thrown_intro _ h12
            | ok args r3 =>
              rw [ha] at h10
              obtain ⟨e3, h11, h12⟩ := Res.Ext.ok_inv h10
              rw [h11]
              exact Res.Ext.ok_intro _ h12

/-! ## The loops stop on the closing bracket -/

theorem parse_fncall_args_ok_length (fuel : Nat) :
    ∀ (close iter : Cursor) (acc v : List Expr) (q : Cursor),
      parse_fncall_args fuel close iter acc = .ok v q → q.length = close.length := by
  induction fuel with
  | zero => intro close iter acc v q h; simp [parse_fncall_args] at h
  | succ f ih =>
    intro close iter acc v q h
    rw [parse_fncall_args] at h
    split at h
    · split at h
      · simp only at h
        split at h
        · split at h
          · exact absurd h (by simp)
          · rename_i hlen
            simp only [Res.ok.injEq] at h
            rw [← h.2]
            simpa using hlen
        · exact ih _ _ _ _ _ h
      · exact absurd h (by simp)
      · exact absurd h (by simp)
      · exact absurd h (by simp)
    · rename_i hlen
      simp only [Res.ok.injEq] at h
      rw [← h.2]
      simpa using hlen

theorem parse_match_branches_ok_length (fuel : Nat) :
    ∀ (close iter : Cursor) (acc v : List MatchBranch) (q : Cursor),
      parse_match_branches fuel close iter acc = .ok v q → q.length = close.length := by
  induction fuel with
  | zero => intro close iter acc v q h; simp [parse_match_branches] at h
  | succ f ih =>
    intro close iter acc v q h
    rw [parse_match_branches] at h
    split at h
    · split at h
      · simp only at h
        split at h
        · split at h
          · exact absurd h (by simp)
          · rename_i hlen
            simp only [Res.ok.injEq] at h
            rw [← h.2]
            simpa using hlen
        · exact ih _ _ _ _ _ h
      · exact absurd h (by simp)
      · exact absurd h (by simp)
      · exact absurd h (by simp)
    · simp only at h
      split at h
      · exact absurd h (by simp)
      · rename_i hlen
        simp only [Res.ok.injEq] at h
        rw [← h.2]
        simpa using hlen

theorem ne_nil_of_length_eq {q close : List Char} (h : q.length = close.length)
    (hc : close ≠ []) : q ≠ [] := by
  rintro rfl
  exact hc (List.length_eq_zero.mp h.symm)

/-! ## One step of each rule, on an input followed by whitespace -/

theorem isEmpty_append_of_ne_nil {c : List Char} (h : c ≠ []) (w : List Char) :
    (c ++ w).isEmpty = false ∧ c.isEmpty = false := by
  cases c with
  | nil => exact absurd rfl h
  | cons a b => exact ⟨rfl, rfl⟩

theorem parse_expr_ext_step {w : List Char} (hw : ∀ c ∈ w, is_ws c = true)
    (f k : Nat)
    (ihd : ∀ r e, Ext w r e → Res.Ext w (parse_fndecl f r) (parse_fndecl (f + k) e))
    (iho : ∀ r e, Ext w r e → Res.Ext w (parse_operation f r) (parse_operation (f + k) e))
    {r e : Cursor} (h : Ext w r e) :
    Res.Ext w (parse_expr (f + 1) r) (parse_expr (f + k + 1) e) := by
  rw [parse_expr, parse_expr]
  have h1 := ihd _ _ (Ext_trim hw h)
  cases hs : parse_fndecl f (trim r) with
  | timeout => exact Res.Ext.timeout_left _ _
  | undefined =>
    rw [hs] at h1
    rw [Res.Ext.undefined_inv h1]
    exact Res.Ext.undefined_intro w
  | ok v r1 =>
    rw [hs] at h1
    obtain ⟨e1, h2, h3⟩ := Res.Ext.ok_inv h1
    rw [h2]
    exact Res.Ext.ok_intro _ h3
  | thrown x r1 =>
    rw [hs] at h1
    obtain ⟨e1, h2, h3⟩ := Res.Ext.thrown_inv h1
    rw [h2]
    cases x <;> try exact Res.Ext.thrown_intro _ h3
    simp only
    have h4 := iho _ _ h3
    cases hs2 : parse_operation f r1 with
    | timeout => exact Res.Ext.timeout_left _ _
    | undefined =>
      rw [hs2] at h4
      rw [Res.Ext.undefined_inv h4]
      exact Res.Ext.undefined_intro w
    | ok v r2 =>
      rw [hs2] at h4
      obtain ⟨e2, h5, h6⟩ := Res.Ext.ok_inv h4
      rw [h5]
      exact Res.Ext.ok_intro _ h6
    | thrown x r2 =>
      rw [hs2] at h4
      obtain ⟨e2, h5, h6⟩ := Res.Ext.thrown_inv h4
      rw [h5]
      cases x <;> exact Res.Ext.thrown_intro _ h6

theorem parse_operation_ext_step {w : List Char} (hw : ∀ c ∈ w, is_ws c = true)
    (f k : Nat)
    (ih0 : ∀ r e, Ext w r e → Res.Ext w (parse_op0 f r) (parse_op0 (f + k) e))
    (ih1 : ∀ r e, Ext w r e → Res.Ext w (parse_op1 f r) (parse_op1 (f + k) e))
    {r e : Cursor} (h : Ext w r e) :
    Res.Ext w (parse_operation (f + 1) r) (parse_operation (f + k + 1) e) := by
  rw [parse_operation, parse_operation]
  have h1 := ih0 _ _ (Ext_trim hw h)
  cases hs : parse_op0 f (trim r) with
  | timeout => exact Res.Ext.timeout_left _ _
  | undefined =>
    rw [hs] at h1
    rw [Res.Ext.undefined_inv h1]
    exact Res.Ext.undefined_intro w
  | ok v r1 =>
    rw [hs] at h1
    obtain ⟨e1, h2, h3⟩ := Res.Ext.ok_inv h1
    rw [h2]
    exact Res.Ext.ok_intro _ h3
  | thrown x r1 =>
    rw [hs] at h1
    obtain ⟨e1, h2, h3⟩ := Res.Ext.thrown_inv h1
    rw [h2]
    cases x <;> try exact Res.Ext.thrown_intro _ h3
    simp only
    have h4 := ih1 _ _ h3
    cases hs2 : parse_op1 f r1 with
    | timeout => exact Res.Ext.timeout_left _ _
    | undefined =>
      rw [hs2] at h4
      rw [Res.Ext.undefined_inv h4]
      exact Res.Ext.undefined_intro w
    | ok v r2 =>
      rw [hs2] at h4
      obtain ⟨e2, h5, h6⟩ := Res.Ext.ok_inv h4
      rw [h5]
      exact Res.Ext.ok_intro _ h6
    | thrown x r2 =>
      rw [hs2] at h4
      obtain ⟨e2, h5, h6⟩ := Res.Ext.thrown_inv h4
      rw [h5]
      cases x <;> exact Res.Ext.thrown_intro _ h6

theorem parse_op0_ext_step {w : List Char} (hw : ∀ c ∈ w, is_ws c = true)
    (f k : Nat)
    (ih1 : ∀ r e, Ext w r e → Res.Ext w (parse_op1 f r) (parse_op1 (f + k) e))
    (ihl : ∀ left r e, Ext w r e →
      Res.Ext w (parse_op0_loop f left r) (parse_op0_loop (f + k) left e))
    {r e : Cursor} (h : Ext w r e) :
    Res.Ext w (parse_op0 (f + 1) r) (parse_op0 (f + k + 1) e) := by
  rw [parse_op0, parse_op0]
  have h1 := ih1 _ _ h
  cases hs : parse_op1 f r with
  | timeout => exact Res.Ext.timeout_left _ _
  | undefined =>
    rw [hs] at h1
    rw [Res.Ext.undefined_inv h1]
    exact Res.Ext.undefined_intro w
  | thrown x r1 =>
    rw [hs] at h1
    obtain ⟨e1, h2, h3⟩ := Res.Ext.thrown_inv h1
    rw [h2]
    exact Res.Ext.thrown_intro _ h3
  | ok v r1 =>
    rw [hs] at h1
    obtain ⟨e1, h2, h3⟩ := Res.Ext.ok_inv h1
    rw [h2]
    exact ihl _ _ _ (Ext_trim hw h3)

theorem parse_op0_loop_ext_step {w : List Char} (hw : ∀ c ∈ w, is_ws c = true)
    (f k : Nat)
    (ih1 : ∀ r e, Ext w r e → Res.Ext w (parse_op1 f r) (parse_op1 (f + k) e))
    (ihl : ∀ left r e, Ext w r e →
      Res.Ext w (parse_op0_loop f left r) (parse_op0_loop (f + k) left e))
    (left : Expr) {r e : Cursor} (h : Ext w r e) :
    Res.Ext w (parse_op0_loop (f + 1) left r) (parse_op0_loop (f + k + 1) left e) := by
  rw [parse_op0_loop, parse_op0_loop]
  rw [Ext_expect_char hw '+' (by decide) h, Ext_expect_char hw '-' (by decide) h]
  split
  · rename_i hp
    have h1 := ih1 _ _ (Ext_tail h (expect_char_ne_nil hp))
    cases hs : parse_op1 f r.tail with
    | timeout => exact Res.Ext.timeout_left _ _
    | undefined =>
      rw [hs] at h1
      rw [Res.Ext.undefined_inv h1]
      exact Res.Ext.undefined_intro w
    | thrown x r1 =>
      rw [hs] at h1
      obtain ⟨e1, h2, h3⟩ := Res.Ext.thrown_inv h1
      rw [h2]
      exact Res.Ext.thrown_intro _ h3
    | ok v r1 =>
      rw [hs] at h1
      obtain ⟨e1, h2, h3⟩ := Res.Ext.ok_inv h1
      rw [h2]
      exact ihl _ _ _ (Ext_trim hw h3)
  · split
    · rename_i hp
      have h1 := ih1 _ _ (Ext_tail h (expect_char_ne_nil hp))
      cases hs : parse_op1 f r.tail with
      | timeout => exact Res.Ext.timeout_left _ _
      | undefined =>
        rw [hs] at h1
        rw [Res.Ext.undefined_inv h1]
        exact Res.Ext.undefined_intro w
      | thrown x r1 =>
        rw [hs] at h1
        obtain ⟨e1, h2, h3⟩ := Res.Ext.thrown_inv h1
        rw [h2]
        exact Res.Ext.thrown_intro _ h3
      | ok v r1 =>
        rw [hs] at h1
        obtain ⟨e1, h2, h3⟩ := Res.Ext.ok_inv h1
        rw [h2]
        exact ihl _ _ _ (Ext_trim hw h3)
    · exact Res.Ext.ok_intro _ h

theorem parse_op1_ext_step {w : List Char} (hw : ∀ c ∈ w, is_ws c = true)
    (f k : Nat)
    (iha : ∀ r e, Ext w r e → Res.Ext w (parse_atom f r) (parse_atom (f + k) e))
    (ihl : ∀ left r e, Ext w r e →
      Res.Ext w (parse_op1_loop f left r) (parse_op1_loop (f + k) left e))
    {r e : Cursor} (h : Ext w r e) :
    Res.Ext w (parse_op1 (f + 1) r) (parse_op1 (f + k + 1) e) := by
  rw [parse_op1, parse_op1]
  have h1 := iha _ _ h
  cases hs : parse_atom f r with
  | timeout => exact Res.Ext.timeout_left _ _
  | undefined =>
    rw [hs] at h1
    rw [Res.Ext.undefined_inv h1]
    exact Res.Ext.undefined_intro w
  | thrown x r1 =>
    rw [hs] at h1
    obtain ⟨e1, h2, h3⟩ := Res.Ext.thrown_inv h1
    rw [h2]
    exact Res.Ext.thrown_intro _ h3
  | ok v r1 =>
    rw [hs] at h1
    obtain ⟨e1, h2, h3⟩ := Res.Ext.ok_inv h1
    rw [h2]
    exact ihl _ _ _ (Ext_trim hw h3)

theorem parse_op1_loop_ext_step {w : List Char} (hw : ∀ c ∈ w, is_ws c = true)
    (f k : Nat)
    (iha : ∀ r e, Ext w r e → Res.Ext w (parse_atom f r) (parse_atom (f + k) e))
    (ihl : ∀ left r e, Ext w r e →
      Res.Ext w (parse_op1_loop f left r) (parse_op1_loop (f + k) left e))
    (left : Expr) {r e : Cursor} (h : Ext w r e) :
    Res.Ext w (parse_op1_loop (f + 1) left r) (parse_op1_loop (f + k + 1) left e) := by
  rw [parse_op1_loop, parse_op1_loop]
  rw [Ext_expect_char hw '*' (by decide) h, Ext_expect_char hw '/' (by decide) h]
  split
  · rename_i hp
    have h1 := iha _ _ (Ext_tail h (expect_char_ne_nil hp))
    cases hs : parse_atom f r.tail with
    | timeout => exact Res.Ext.timeout_left _ _
    | undefined =>
      rw [hs] at h1
      rw [Res.Ext.undefined_inv h1]
      exact Res.Ext.undefined_intro w
    | thrown x r1 =>
      rw [hs] at h1
      obtain ⟨e1, h2, h3⟩ := Res.Ext.thrown_inv h1
      rw [h2]
      exact Res.Ext.thrown_intro _ h3
    | ok v r1 =>
      rw [hs] at h1
      obtain ⟨e1, h2, h3⟩ := Res.Ext.ok_inv h1
      rw [h2]
      exact ihl _ _ _ (Ext_trim hw h3)
  · split
    · rename_i hp
      have h1 := iha _ _ (Ext_tail h (expect_char_ne_nil hp))
      cases hs : parse_atom f r.tail with
      | timeout => exact Res.Ext.timeout_left _ _
      | undefined =>
        rw [hs] at h1
        rw [Res.Ext.undefined_inv h1]
        exact Res.Ext.undefined_intro w
      | thrown x r1 =>
        rw [hs] at h1
        obtain ⟨e1, h2, h3⟩ := Res.Ext.thrown_inv h1
        rw [h2]
        exact Res.Ext.thrown_intro _ h3
      | ok v r1 =>
        rw [hs] at h1
        obtain ⟨e1, h2, h3⟩ := Res.Ext.ok_inv h1
        rw [h2]
        exact ihl _ _ _ (Ext_trim hw h3)
    · exact Res.Ext.ok_intro _ h

theorem parse_atom_ext_step {w : List Char} (hw : ∀ c ∈ w, is_ws c = true)
    (f k : Nat)
    (ihm : ∀ r e, Ext w r e → Res.Ext w (parse_match f r) (parse_match (f + k) e))
    (ihc : ∀ r e, Ext w r e → Res.Ext w (parse_fncall f r) (parse_fncall (f + k) e))
    {r e : Cursor} (h : Ext w r e) :
    Res.Ext w (parse_atom (f + 1) r) (parse_atom (f + k + 1) e) := by
  rw [parse_atom, parse_atom]
  have h1 := parse_number_ext hw (Ext_trim hw h)
  cases hs : parse_number (trim r) with
  | timeout => exact Res.Ext.timeout_left _ _
  | undefined =>
    rw [hs] at h1
    rw [Res.Ext.undefined_inv h1]
    exact Res.Ext.undefined_intro w
  | ok v r1 =>
    rw [hs] at h1
    obtain ⟨e1, h2, h3⟩ := Res.Ext.ok_inv h1
    rw [h2]
    exact Res.Ext.ok_intro _ h3
  | thrown x r1 =>
    rw [hs] at h1
    obtain ⟨e1, h2, h3⟩ := Res.Ext.thrown_inv h1
    rw [h2]
    cases x <;> try exact Res.Ext.thrown_intro _ h3
    simp only
    have h4 := ihm _ _ h3
    cases hs2 : parse_match f r1 with
    | timeout => exact Res.Ext.timeout_left _ _
    | undefined =>
      rw [hs2] at h4
      rw [Res.Ext.undefined_inv h4]
      exact Res.Ext.undefined_intro w
    | ok v r2 =>
      rw [hs2] at h4
      obtain ⟨e2, h5, h6⟩ := Res.Ext.ok_inv h4
      rw [h5]
      exact Res.Ext.ok_intro _ h6
    | thrown x r2 =>
      rw [hs2] at h4
      obtain ⟨e2, h5, h6⟩ := Res.Ext.thrown_inv h4
      rw [h5]
      cases x <;> try exact Res.Ext.thrown_intro _ h6
      simp only
      have h7 := ihc _ _ h6
      cases hs3 : parse_fncall f r2 with
      | timeout => exact Res.Ext.timeout_left _ _
      | undefined =>
        rw [hs3] at h7
        rw [Res.Ext.undefined_inv h7]
        exact Res.Ext.undefined_intro w
      | ok v r3 =>
        rw [hs3] at h7
        obtain ⟨e3, h8, h9⟩ := Res.Ext.ok_inv h7
        rw [h8]
        exact Res.Ext.ok_intro _ h9
      | thrown x r3 =>
        rw [hs3] at h7
        obtain ⟨e3, h8, h9⟩ := Res.Ext.thrown_inv h7
        rw [h8]
        cases x <;> try exact Res.Ext.thrown_intro _ h9
        simp only
        have h10 := parse_string_ext hw h9
        cases hs4 : parse_string r3 with
        | timeout => exact Res.Ext.timeout_left _ _
        | undefined =>
          rw [hs4] at h10
          rw [Res.Ext.undefined_inv h10]
          exact Res.Ext.undefined_intro w
        | ok v r4 =>
          rw [hs4] at h10
          obtain ⟨e4, h11, h12⟩ := Res.Ext.ok_inv h10
          rw [h11]
          exact Res.Ext.ok_intro _ h12
        | thrown x r4 =>
          rw [hs4] at h10
          obtain ⟨e4, h11, h12⟩ := Res.Ext.thrown_inv h10
          rw [h11]
          cases x <;> exact Res.Ext.thrown_intro _ h12

theorem parse_fncall_ext_step {w : List Char} (hw : ∀ c ∈ w, is_ws c = true)
    (f k : Nat)
    (ihl : ∀ close r e acc, close ≠ [] → Ext w r e →
      Res.Ext w (parse_fncall_args f close r acc) (parse_fncall_args (f + k) (close ++ w) e acc))
    {r e : Cursor} (h : Ext w r e) :
    Res.Ext w (parse_fncall (f + 1) r) (parse_fncall (f + k + 1) e) := by
  rw [parse_fncall, parse_fncall]
  have h1 := parse_symbol_ext hw h
  cases hs : parse_symbol r with
  | timeout => exact Res.Ext.timeout_left _ _
  | undefined =>
    rw [hs] at h1
    rw [Res.Ext.undefined_inv h1]
    exact Res.Ext.undefined_intro w
  | thrown x r1 =>
    rw [hs] at h1
    obtain ⟨e1, h2, h3⟩ := Res.Ext.thrown_inv h1
    rw [h2]
    exact Res.Ext.thrown_intro _ h3
  | ok sym r1 =>
    rw [hs] at h1
    obtain ⟨e1, h2, h3⟩ := Res.Ext.ok_inv h1
    rw [h2]
    simp only
    have h7 := Ext_trim hw h3
    rw [Ext_expect_char hw '(' (by decide) h7]
    split
    · exact Res.Ext.ok_intro _ h7
    · rename_i hp
      have hp2 : expect_char '(' (trim r1) = true := by simpa using hp
      rcases find_braces_ext '(' ')' (ws_not_paren hw) h7 with ⟨h8, h9⟩ | ⟨h8, h9⟩
      · rw [h8, h9]
        exact Res.Ext.thrown_intro _ h7
      · rw [h9, (isEmpty_append_of_ne_nil h8 w).1, (isEmpty_append_of_ne_nil h8 w).2]
        simp only [Bool.false_eq_true, if_false]
        have h10 := ihl _ _ _ [] h8 (Ext_tail h7 (expect_char_ne_nil hp2))
        cases ha : parse_fncall_args f (find_braces '(' ')' (trim r1)) (trim r1).tail [] with
        | timeout => exact Res.Ext.timeout_left _ _
        | undefined =>
          rw [ha] at h10
          rw [Res.Ext.undefined_inv h10]
          exact Res.Ext.undefined_intro w
        | thrown x r3 =>
          rw [ha] at h10
          obtain ⟨e3, h11, h12⟩ := Res.Ext.thrown_inv h10
          rw [h11]
          exact Res.Ext.thrown_intro _ h12
        | ok args r3 =>
          rw [ha] at h10
          obtain ⟨e3, h11, h12⟩ := Res.Ext.ok_inv h10
          rw [h11]
          exact Res.Ext.ok_intro _ (Ext_tail h12
            (ne_nil_of_length_eq (parse_fncall_args_ok_length _ _ _ _ _ _ ha) h8))

theorem parse_fncall_args_ext_step {w : List Char} (hw : ∀ c ∈ w, is_ws c = true)
    (f k : Nat)
    (ihe : ∀ r e, Ext w r e → Res.Ext w (parse_expr f r) (parse_expr (f + k) e))
    (ihl : ∀ close r e acc, close ≠ [] → Ext w r e →
      Res.Ext w (parse_fncall_args f close r acc) (parse_fncall_args (f + k) (close ++ w) e acc))
    (close : Cursor) (acc : List Expr) (hc : close ≠ []) {r e : Cursor} (h : Ext w r e) :
    Res.Ext w (parse_fncall_args (f + 1) close r acc)
      (parse_fncall_args (f + k + 1) (close ++ w) e acc) := by
  rw [parse_fncall_args, parse_fncall_args]
  rw [Ext_length_ne h hc]
  split
  · have h1 := ihe _ _ (Ext_trim hw h)
    cases hs : parse_expr f (trim r) with
    | timeout => exact Res.Ext.timeout_left _ _
    | undefined =>
      rw [hs] at h1
      rw [Res.Ext.undefined_inv h1]
      exact Res.Ext.undefined_intro w
    | thrown x r1 =>
      rw [hs] at h1
      obtain ⟨e1, h2, h3⟩ := Res.Ext.thrown_inv h1
      rw [h2]
      exact Res.Ext.thrown_intro _ h3
    | ok a r1 =>
      rw [hs] at h1
      obtain ⟨e1, h2, h3⟩ := Res.Ext.ok_inv h1
      rw [h2]
      simp only
      have h7 := Ext_trim hw h3
      rw [Ext_expect_char hw ',' (by decide) h7, Ext_length_ne h7 hc]
      split
      · split
        · exact Res.Ext.thrown_intro _ h7
        · exact Res.Ext.ok_intro _ h7
      · rename_i hcomma
        have hcomma2 : expect_char ',' (trim r1) = true := by simpa using hcomma
        exact ihl close _ _ _ hc (Ext_tail h7 (expect_char_ne_nil hcomma2))
  · exact Res.Ext.ok_intro _ h

theorem parse_fndecl_ext_step {w : List Char} (hw : ∀ c ∈ w, is_ws c = true)
    (f k : Nat)
    (ihe : ∀ r e, Ext w r e → Res.Ext w (parse_expr f r) (parse_expr (f + k) e))
    {r e : Cursor} (h : Ext w r e) :
    Res.Ext w (parse_fndecl (f + 1) r) (parse_fndecl (f + k + 1) e) ∧
      ∀ v r1, parse_fndecl (f + 1) r = .ok v r1 →
        parse_fndecl (f + k + 1) e = .ok v (r1 ++ w) := by
  rw [parse_fndecl, parse_fndecl]
  have h1 := parse_fndecl_head_ext hw f k h
  cases hs : parse_fndecl_head f r with
  | timeout => exact ⟨Res.Ext.timeout_left _ _, fun _ _ hh => absurd hh (by simp)⟩
  | undefined =>
    rw [hs] at h1
    rw [Res.Ext.undefined_inv h1]
    exact ⟨Res.Ext.undefined_intro w, fun _ _ hh => absurd hh (by simp)⟩
  | thrown x r1 =>
    rw [hs] at h1
    obtain ⟨e1, h2, h3⟩ := Res.Ext.thrown_inv h1
    rw [h2]
    exact ⟨Res.Ext.thrown_intro _ h3, fun _ _ hh => absurd hh (by simp)⟩
  | ok head r1 =>
    rw [hs] at h1
    obtain ⟨e1, h2, h3⟩ := Res.Ext.ok_inv h1
    rw [h2]
    simp only
    have h4 := Ext_trim hw (Ext_tail h3 (parse_fndecl_head_ok_ne_nil _ _ _ _ hs))
    rw [Ext_expect_arrow hw h4]
    split
    · exact ⟨Res.Ext.thrown_intro _ h4, fun _ _ hh => absurd hh (by simp)⟩
    · rename_i harrow
      have harrow2 : expect_str "->".toList (trim r1.tail) = true := by simpa using harrow
      have h5 := parse_symbol_ext hw (Ext_trim hw (Ext_drop_arrow h4 harrow2))
      cases hs2 : parse_symbol (trim (List.drop 2 (trim r1.tail))) with
      | timeout => exact ⟨Res.Ext.timeout_left _ _, fun _ _ hh => absurd hh (by simp)⟩
      | undefined =>
        rw [hs2] at h5
        rw [Res.Ext.undefined_inv h5]
        exact ⟨Res.Ext.undefined_intro w, fun _ _ hh => absurd hh (by simp)⟩
      | thrown x r2 =>
        rw [hs2] at h5
        obtain ⟨e2, h6, h7⟩ := Res.Ext.thrown_inv h5
        rw [h6]
        exact ⟨Res.Ext.thrown_intro _ h7, fun _ _ hh => absurd hh (by simp)⟩
      | ok ret r2 =>
        rw [hs2] at h5
        obtain ⟨e2, h6, h7⟩ := Res.Ext.ok_inv h5
        rw [h6]
        simp only
        have h8 := Ext_trim hw h7
        rw [Ext_expect_char hw '{' (by decide) h8]
        split
        · exact ⟨Res.Ext.thrown_intro _ h8, fun _ _ hh => absurd hh (by simp)⟩
        · rename_i hb
          have hb2 : expect_char '{' (trim r2) = true := by simpa using hb
          have h9 := ihe _ _ (Ext_tail h8 (expect_char_ne_nil hb2))
          cases hs3 : parse_expr f (trim r2).tail with
          | timeout => exact ⟨Res.Ext.timeout_left _ _, fun _ _ hh => absurd hh (by simp)⟩
          | undefined =>
            rw [hs3] at h9
            rw [Res.Ext.undefined_inv h9]
            exact ⟨Res.Ext.undefined_intro w, fun _ _ hh => absurd hh (by simp)⟩
          | thrown x r3 =>
            rw [hs3] at h9
            obtain ⟨e3, h10, h11⟩ := Res.Ext.thrown_inv h9
            rw [h10]
            exact ⟨Res.Ext.thrown_intro _ h11, fun _ _ hh => absurd hh (by simp)⟩
          | ok body r3 =>
            rw [hs3] at h9
            obtain ⟨e3, h10, h11⟩ := Res.Ext.ok_inv h9
            rw [h10]
            simp only
            rw [Ext_expect_char hw '}' (by decide) h11]
            split
            · exact ⟨Res.Ext.thrown_intro _ h11, fun _ _ hh => absurd hh (by simp)⟩
            · rename_i hcl
              have hcl2 : expect_char '}' r3 = true := by simpa using hcl
              refine ⟨Res.Ext.ok_intro _ (Ext_tail h11 (expect_char_ne_nil hcl2)), ?_⟩
              intro v q hh
              simp only [Res.ok.injEq] at hh
              rw [← hh.1, ← hh.2, Ext_of_ne_nil h11 (expect_char_ne_nil hcl2)]
              cases r3 with
              | nil => exact absurd rfl (expect_char_ne_nil hcl2)
              | cons c cs => rfl

theorem parse_branch_ext_step {w : List Char} (hw : ∀ c ∈ w, is_ws c = true)
    (f k : Nat)
    (iha : ∀ r e, Ext w r e → Res.Ext w (parse_atom f r) (parse_atom (f + k) e))
    (ihe : ∀ r e, Ext w r e → Res.Ext w (parse_expr f r) (parse_expr (f + k) e))
    {r e : Cursor} (h : Ext w r e) :
    Res.Ext w (parse_branch (f + 1) r) (parse_branch (f + k + 1) e) := by
  rw [parse_branch, parse_branch]
  have h1 := iha _ _ (Ext_trim hw h)
  cases hs : parse_atom f (trim r) with
  | timeout => exact Res.Ext.timeout_left _ _
  | undefined =>
    rw [hs] at h1
    rw [Res.Ext.undefined_inv h1]
    exact Res.Ext.undefined_intro w
  | thrown x r1 =>
    rw [hs] at h1
    obtain ⟨e1, h2, h3⟩ := Res.Ext.thrown_inv h1
    rw [h2]
    exact Res.Ext.thrown_intro _ h3
  | ok pat r1 =>
    rw [hs] at h1
    obtain ⟨e1, h2, h3⟩ := Res.Ext.ok_inv h1
    rw [h2]
    simp only
    have h4 := Ext_trim hw h3
    rw [Ext_expect_arrow hw h4]
    split
    · exact Res.Ext.thrown_intro _ h4
    · rename_i harrow
      have harrow2 : expect_str "->".toList (trim r1) = true := by simpa using harrow
      have h8 := Ext_trim hw (Ext_drop_arrow h4 harrow2)
      rw [Ext_expect_char hw '{' (by decide) h8]
      split
      · exact Res.Ext.thrown_intro _ h8
      · rename_i hb
        have hb2 : expect_char '{' (trim (List.drop 2 (trim r1))) = true := by simpa using hb
        have h9 := ihe _ _ (Ext_trim hw (Ext_tail h8 (expect_char_ne_nil hb2)))
        cases hs3 : parse_expr f (trim (trim (List.drop 2 (trim r1))).tail) with
        | timeout => exact Res.Ext.timeout_left _ _
        | undefined =>
          rw [hs3] at h9
          rw [Res.Ext.undefined_inv h9]
          exact Res.Ext.undefined_intro w
        | thrown x r3 =>
          rw [hs3] at h9
          obtain ⟨e3, h10, h11⟩ := Res.Ext.thrown_inv h9
          rw [h10]
          exact Res.Ext.thrown_intro _ h11
        | ok body r3 =>
          rw [hs3] at h9
          obtain ⟨e3, h10, h11⟩ := Res.Ext.ok_inv h9
          rw [h10]
          simp only
          have h12 := Ext_trim hw h11
          rw [Ext_expect_char hw '}' (by decide) h12]
          split
          · exact Res.Ext.thrown_intro _ h12
          · rename_i hcl
            have hcl2 : expect_char '}' (trim r3) = true := by simpa using hcl
            exact Res.Ext.ok_intro _ (Ext_tail h12 (expect_char_ne_nil hcl2))

theorem parse_match_ext_step {w : List Char} (hw : ∀ c ∈ w, is_ws c = true)
    (f k : Nat)
    (ihe : ∀ r e, Ext w r e → Res.Ext w (parse_expr f r) (parse_expr (f + k) e))
    (ihl : ∀ close r e acc, close ≠ [] → Ext w r e →
      Res.Ext w (parse_match_branches f close r acc)
        (parse_match_branches (f + k) (close ++ w) e acc))
    {r e : Cursor} (h : Ext w r e) :
    Res.Ext w (parse_match (f + 1) r) (parse_match (f + k + 1) e) := by
  rw [parse_match, parse_match]
  simp only
  have h1 := parse_symbol_ext hw h
  cases hs : parse_symbol r with
  | timeout => exact Res.Ext.timeout_left _ _
  | undefined =>
    rw [hs] at h1
    rw [Res.Ext.undefined_inv h1]
    exact Res.Ext.undefined_intro w
  | thrown x r1 =>
    rw [hs] at h1
    obtain ⟨e1, h2, h3⟩ := Res.Ext.thrown_inv h1
    rw [h2]
    exact Res.Ext.thrown_intro _ h3
  | ok kw r1 =>
    rw [hs] at h1
    obtain ⟨e1, h2, h3⟩ := Res.Ext.ok_inv h1
    rw [h2]
    simp only
    split
    · exact Res.Ext.thrown_intro _ h
    · have h4 := ihe _ _ (Ext_trim hw h3)
      cases hs2 : parse_expr f (trim r1) with
      | timeout => exact Res.Ext.timeout_left _ _
      | undefined =>
        rw [hs2] at h4
        rw [Res.Ext.undefined_inv h4]
        exact Res.Ext.undefined_intro w
      | thrown x r2 =>
        rw [hs2] at h4
        obtain ⟨e2, h5, h6⟩ := Res.Ext.thrown_inv h4
        rw [h5]
        exact Res.Ext.thrown_intro _ h6
      | ok v r2 =>
        rw [hs2] at h4
        obtain ⟨e2, h5, h6⟩ := Res.Ext.ok_inv h4
        rw [h5]
        simp only
        have h7 := Ext_trim hw h6
        rw [Ext_expect_char hw '{' (by decide) h7]
        split
        · exact Res.Ext.thrown_intro _ h7
        · rename_i hp
          have hp2 : expect_char '{' (trim r2) = true := by simpa using hp
          rcases find_braces_ext '{' '}' (ws_not_curly hw) h7 with ⟨h8, h9⟩ | ⟨h8, h9⟩
          · rw [h8, h9]
            exact Res.Ext.thrown_intro _ h7
          · rw [h9, (isEmpty_append_of_ne_nil h8 w).1, (isEmpty_append_of_ne_nil h8 w).2]
            simp only [Bool.false_eq_true, if_false]
            have h10 := ihl _ _ _ [] h8 (Ext_tail h7 (expect_char_ne_nil hp2))
            cases ha : parse_match_branches f (find_braces '{' '}' (trim r2)) (trim r2).tail [] with
            | timeout => exact Res.Ext.timeout_left _ _
            | undefined =>
              rw [ha] at h10
              rw [Res.Ext.undefined_inv h10]
              exact Res.Ext.undefined_intro w
            | thrown x r3 =>
              rw [ha] at h10
              obtain ⟨e3, h11, h12⟩ := Res.Ext.thrown_inv h10
              rw [h11]
              exact Res.Ext.thrown_intro _ h12
            | ok bs r3 =>
              rw [ha] at h10
              obtain ⟨e3, h11, h12⟩ := Res.Ext.ok_inv h10
              rw [h11]
              exact Res.Ext.ok_intro _ (Ext_tail h12
                (ne_nil_of_length_eq (parse_match_branches_ok_length _ _ _ _ _ _ ha) h8))

theorem parse_match_branches_ext_step {w : List Char} (hw : ∀ c ∈ w, is_ws c = true)
    (f k : Nat)
    (ihb : ∀ r e, Ext w r e → Res.Ext w (parse_branch f r) (parse_branch (f + k) e))
    (ihl : ∀ close r e acc, close ≠ [] → Ext w r e →
      Res.Ext w (parse_match_branches f close r acc)
        (parse_match_branches (f + k) (close ++ w) e acc))
    (close : Cursor) (acc : List MatchBranch) (hc : close ≠ []) {r e : Cursor}
    (h : Ext w r e) :
    Res.Ext w (parse_match_branches (f + 1) close r acc)
      (parse_match_branches (f + k + 1) (close ++ w) e acc) := by
  rw [parse_match_branches, parse_match_branches]
  rw [Ext_length_ne h hc]
  split
  · have h1 := ihb _ _ (Ext_trim hw h)
    cases hs : parse_branch f (trim r) with
    | timeout => exact Res.Ext.timeout_left _ _
    | undefined =>
      rw [hs] at h1
      rw [Res.Ext.undefined_inv h1]
      exact Res.Ext.undefined_intro w
    | thrown x r1 =>
      rw [hs] at h1
      obtain ⟨e1, h2, h3⟩ := Res.Ext.thrown_inv h1
      rw [h2]
      exact Res.Ext.thrown_intro _ h3
    | ok a r1 =>
      rw [hs] at h1
      obtain ⟨e1, h2, h3⟩ := Res.Ext.ok_inv h1
      rw [h2]
      simp only
      have h7 := Ext_trim hw h3
      have h7b := Ext_trim hw h7
      rw [Ext_expect_char hw ',' (by decide) h7, Ext_length_ne h7b hc]
      split
      · split
        · exact Res.Ext.thrown_intro _ h7b
        · exact Res.Ext.ok_intro _ h7b
      · rename_i hcomma
        have hcomma2 : expect_char ',' (trim r1) = true := by simpa using hcomma
        exact ihl close _ _ _ hc (Ext_tail h7 (expect_char_ne_nil hcomma2))
  · simp only
    have h7 := Ext_trim hw h
    rw [Ext_length_ne h7 hc]
    split
    · exact Res.Ext.thrown_intro _ h7
    · exact Res.Ext.ok_intro _ h7

/-! ## All the rules, on an input followed by whitespace and with more fuel -/

theorem ext_all {w : List Char} (hw : ∀ c ∈ w, is_ws c = true) (f : Nat) :
    (∀ k r e, Ext w r e → Res.Ext w (parse_expr f r) (parse_expr (f + k) e)) ∧
    (∀ k r e, Ext w r e → Res.Ext w (parse_operation f r) (parse_operation (f + k) e)) ∧
    (∀ k r e, Ext w r e → Res.Ext w (parse_op0 f r) (parse_op0 (f + k) e)) ∧
    (∀ k left r e, Ext w r e →
      Res.Ext w (parse_op0_loop f left r) (parse_op0_loop (f + k) left e)) ∧
    (∀ k r e, Ext w r e → Res.Ext w (parse_op1 f r) (parse_op1 (f + k) e)) ∧
    (∀ k left r e, Ext w r e →
      Res.Ext w (parse_op1_loop f left r) (parse_op1_loop (f + k) left e)) ∧
    (∀ k r e, Ext w r e → Res.Ext w (parse_atom f r) (parse_atom (f + k) e)) ∧
    (∀ k r e, Ext w r e → Res.Ext w (parse_fncall f r) (parse_fncall (f + k) e)) ∧
    (∀ k close r e acc, close ≠ [] → Ext w r e →
      Res.Ext w (parse_fncall_args f close r acc)
        (parse_fncall_args (f + k) (close ++ w) e acc)) ∧
    (∀ k r e, Ext w r e → Res.Ext w (parse_fndecl f r) (parse_fndecl (f + k) e)) ∧
    (∀ k r e, Ext w r e → Res.Ext w (parse_branch f r) (parse_branch (f + k) e)) ∧
    (∀ k r e, Ext w r e → Res.Ext w (parse_match f r) (parse_match (f + k) e)) ∧
    (∀ k close r e acc, close ≠ [] → Ext w r e →
      Res.Ext w (parse_match_branches f close r acc)
        (parse_match_branches (f + k) (close ++ w) e acc)) := by
  induction f with
  | zero =>
    refine ⟨?_, ?_, ?_, ?_, ?_, ?_, ?_, ?_, ?_, ?_, ?_, ?_, ?_⟩ <;> intros <;>
      simp only [parse_expr, parse_operation, parse_op0, parse_op0_loop, parse_op1,
        parse_op1_loop, parse_atom, parse_fncall, parse_fncall_args, parse_fndecl,
        parse_branch, parse_match, parse_match_branches] <;>
      exact Res.Ext.timeout_left _ _
  | succ f ih =>
    obtain ⟨i1, i2, i3, i4, i5, i6, i7, i8, i9, i10, i11, i12, i13⟩ := ih
    have hk : ∀ k, f + 1 + k = f + k + 1 := fun k => by omega
    refine ⟨?_, ?_, ?_, ?_, ?_, ?_, ?_, ?_, ?_, ?_, ?_, ?_, ?_⟩
    · intro k r e h
      rw [hk]
      exact parse_expr_ext_step hw f k (i10 k) (i2 k) h
    · intro k r e h
      rw [hk]
      exact parse_operation_ext_step hw f k (i3 k) (i5 k) h
    · intro k r e h
      rw [hk]
      exact parse_op0_ext_step hw f k (i5 k) (i4 k) h
    · intro k left r e h
      rw [hk]
      exact parse_op0_loop_ext_step hw f k (i5 k) (i4 k) left h
    · intro k r e h
      rw [hk]
      exact parse_op1_ext_step hw f k (i7 k) (i6 k) h
    · intro k left r e h
      rw [hk]
      exact parse_op1_loop_ext_step hw f k (i7 k) (i6 k) left h
    · intro k r e h
      rw [hk]
      exact parse_atom_ext_step hw f k (i12 k) (i8 k) h
    · intro k r e h
      rw [hk]
      exact parse_fncall_ext_step hw f k (i9 k) h
    · intro k close r e acc hc h
      rw [hk]
      exact parse_fncall_args_ext_step hw f k (i1 k) (i9 k) close acc hc h
    · intro k r e h
      rw [hk]
      exact (parse_fndecl_ext_step hw f k (i1 k) h).1
    · intro k r e h
      rw [hk]
      exact parse_branch_ext_step hw f k (i7 k) (i1 k) h
    · intro k r e h
      rw [hk]
      exact parse_match_ext_step hw f k (i1 k) (i13 k) h
    · intro k close r e acc hc h
      rw [hk]
      exact parse_match_branches_ext_step hw f k (i11 k) (i13 k) close acc hc h

theorem parse_expr_ext {w : List Char} (hw : ∀ c ∈ w, is_ws c = true) (f k : Nat)
    {r e : Cursor} (h : Ext w r e) : Res.Ext w (parse_expr f r) (parse_expr (f + k) e) :=
  (ext_all hw f).1 k r e h

/-! ## More fuel does not change an outcome -/

theorem Ext_nil_eq {r e : Cursor} (h : Ext [] r e) : e = r := by
  rcases h with h | ⟨h1, h2⟩
  · simpa using h
  · rw [h1, h2]

theorem Res_Ext_nil_eq {α : Type} {x y : Res α} (h : Res.Ext [] x y) (hx : x ≠ .timeout) :
    y = x := by
  cases x with
  | timeout => exact absurd rfl hx
  | undefined => exact Res.Ext.undefined_inv h
  | ok v r =>
    obtain ⟨e, h1, h2⟩ := Res.Ext.ok_inv h
    rw [h1, Efp.Ext_nil_eq h2]
  | thrown x r =>
    obtain ⟨e, h1, h2⟩ := Res.Ext.thrown_inv h
    rw [h1, Efp.Ext_nil_eq h2]

theorem parse_expr_mono (f k : Nat) (r : Cursor) (h : parse_expr f r ≠ .timeout) :
    parse_expr (f + k) r = parse_expr f r :=
  Res_Ext_nil_eq (parse_expr_ext (w := []) (fun _ hc => absurd hc (List.not_mem_nil _)) f k
    (Or.inl (List.append_nil r).symm)) h

theorem parse_all_mono (f : Nat) :
    ∀ (k : Nat) (r : Cursor) (acc : List Expr), parse_all f r acc ≠ .timeout →
      parse_all (f + k) r acc = parse_all f r acc := by
  induction f with
  | zero => intro k r acc h; exact absurd rfl h
  | succ f ih =>
    intro k r acc h
    rw [show f + 1 + k = f + k + 1 by omega, parse_all, parse_all]
    rw [parse_all] at h
    cases hr : r.isEmpty with
    | true => rfl
    | false =>
      simp only [hr, Bool.false_eq_true, if_false] at h ⊢
      cases hs : parse_expr f r with
      | timeout => rw [hs] at h; exact absurd rfl h
      | undefined =>
        rw [parse_expr_mono f k r (by rw [hs]; simp), hs]
      | thrown x q =>
        rw [parse_expr_mono f k r (by rw [hs]; simp), hs]
      | ok v q =>
        rw [hs] at h
        rw [parse_expr_mono f k r (by rw [hs]; simp), hs]
        exact ih k q _ h

/-! ## Only `parse_fndecl` makes a declaration node -/

theorem parse_number_not_decl {r q : Cursor} {v : Expr} (h : parse_number r = .ok v q) :
    is_fndecl v = false := by
  unfold parse_number at h
  simp only at h
  split at h
  · exact absurd h (by simp)
  · split at h <;> (simp only [Res.ok.injEq] at h; rw [← h.1]; rfl)

theorem parse_string_not_decl {r q : Cursor} {v : Expr} (h : parse_string r = .ok v q) :
    is_fndecl v = false := by
  unfold parse_string at h
  simp only at h
  split at h
  · exact absurd h (by simp)
  · split at h
    · exact absurd h (by simp)
    · split at h
      · exact absurd h (by simp)
      · simp only [Res.ok.injEq] at h
        rw [← h.1]
        rfl

theorem parse_fncall_not_decl {f : Nat} {r q : Cursor} {v : Expr}
    (h : parse_fncall f r = .ok v q) : is_fndecl v = false := by
  cases f with
  | zero => simp [parse_fncall] at h
  | succ g =>
    rw [parse_fncall] at h
    split at h
    · simp only at h
      split at h
      · simp only [Res.ok.injEq] at h
        rw [← h.1]
        rfl
      · split at h
        · exact absurd h (by simp)
        · split at h
          · simp only [Res.ok.injEq] at h
            rw [← h.1]
            rfl
          · exact absurd h (by simp)
          · exact absurd h (by simp)
          · exact absurd h (by simp)
    · exact absurd h (by simp)
    · exact absurd h (by simp)
    · exact absurd h (by simp)

theorem parse_match_not_decl {f : Nat} {r q : Cursor} {v : Expr}
    (h : parse_match f r = .ok v q) : is_fndecl v = false := by
  cases f with
  | zero => simp [parse_match] at h
  | succ g =>
    rw [parse_match] at h
    simp only at h
    split at h
    · split at h
      · exact absurd h (by simp)
      · cases hs : parse_expr g (trim ‹Cursor›) with
        | timeout => rw [hs] at h; exact absurd h (by simp)
        | undefined => rw [hs] at h; exact absurd h (by simp)
        | thrown x q1 => rw [hs] at h; exact absurd h (by simp)
        | ok v1 q1 =>
          rw [hs] at h
          simp only at h
          split at h
          · exact absurd h (by simp)
          · split at h
            · exact absurd h (by simp)
            · split at h
              · simp only [Res.ok.injEq] at h
                rw [← h.1]
                rfl
              · exact absurd h (by simp)
              · exact absurd h (by simp)
              · exact absurd h (by simp)
    · exact absurd h (by simp)
    · exact absurd h (by simp)
    · exact absurd h (by simp)

theorem parse_atom_not_decl {f : Nat} {r q : Cursor} {v : Expr}
    (h : parse_atom f r = .ok v q) : is_fndecl v = false := by
  cases f with
  | zero => simp [parse_atom] at h
  | succ g =>
    rw [parse_atom] at h
    cases h1 : parse_number (trim r) with
    | timeout => rw [h1] at h; exact absurd h (by simp)
    | undefined => rw [h1] at h; exact absurd h (by simp)
    | ok v1 q1 =>
      rw [h1] at h
      simp only [Res.ok.injEq] at h
      rw [← h.1]
      exact parse_number_not_decl h1
    | thrown x q1 =>
      rw [h1] at h
      cases x <;> try (simp at h; done)
      simp only at h
      cases h2 : parse_match g q1 with
      | timeout => rw [h2] at h; exact absurd h (by simp)
      | undefined => rw [h2] at h; exact absurd h (by simp)
      | ok v2 q2 =>
        rw [h2] at h
        simp only [Res.ok.injEq] at h
        rw [← h.1]
        exact parse_match_not_decl h2
      | thrown x q2 =>
        rw [h2] at h
        cases x <;> try (simp at h; done)
        simp only at h
        cases h3 : parse_fncall g q2 with
        | timeout => rw [h3] at h; exact absurd h (by simp)
        | undefined => rw [h3] at h; exact absurd h (by simp)
        | ok v3 q3 =>
          rw [h3] at h
          simp only [Res.ok.injEq] at h
          rw [← h.1]
          exact parse_fncall_not_decl h3
        | thrown x q3 =>
          rw [h3] at h
          cases x <;> try (simp at h; done)
          simp only at h
          cases h4 : parse_string q3 with
          | timeout => rw [h4] at h; exact absurd h (by simp)
          | undefined => rw [h4] at h; exact absurd h (by simp)
          | ok v4 q4 =>
            rw [h4] at h
            simp only [Res.ok.injEq] at h
            rw [← h.1]
            exact parse_string_not_decl h4
          | thrown x q4 =>
            rw [h4] at h
            cases x <;> exact absurd h (by simp)

theorem parse_op1_loop_not_decl (f : Nat) :
    ∀ (left : Expr) (r q : Cursor) (v : Expr), is_fndecl left = false →
      parse_op1_loop f left r = .ok v q → is_fndecl v = false := by
  induction f with
  | zero => intro left r q v _ h; simp [parse_op1_loop] at h
  | succ g ih =>
    intro left r q v hl h
    rw [parse_op1_loop] at h
    split at h
    · cases h1 : parse_atom g r.tail with
      | timeout => rw [h1] at h; exact absurd h (by simp)
      | undefined => rw [h1] at h; exact absurd h (by simp)
      | thrown x q1 => rw [h1] at h; exact absurd h (by simp)
      | ok v1 q1 =>
        rw [h1] at h
        exact ih _ _ _ _ (by rfl) h
    · split at h
      · cases h1 : parse_atom g r.tail with
        | timeout => rw [h1] at h; exact absurd h (by simp)
        | undefined => rw [h1] at h; exact absurd h (by simp)
        | thrown x q1 => rw [h1] at h; exact absurd h (by simp)
        | ok v1 q1 =>
          rw [h1] at h
          exact ih _ _ _ _ (by rfl) h
      · simp only [Res.ok.injEq] at h
        rw [← h.1]
        exact hl

theorem parse_op1_not_decl {f : Nat} {r q : Cursor} {v : Expr}
    (h : parse_op1 f r = .ok v q) : is_fndecl v = false := by
  cases f with
  | zero => simp [parse_op1] at h
  | succ g =>
    rw [parse_op1] at h
    cases h1 : parse_atom g r with
    | timeout => rw [h1] at h; exact absurd h (by simp)
    | undefined => rw [h1] at h; exact absurd h (by simp)
    | thrown x q1 => rw [h1] at h; exact absurd h (by simp)
    | ok v1 q1 =>
      rw [h1] at h
      exact parse_op1_loop_not_decl g _ _ _ _ (parse_atom_not_decl h1) h

theorem parse_op0_loop_not_decl (f : Nat) :
    ∀ (left : Expr) (r q : Cursor) (v : Expr), is_fndecl left = false →
      parse_op0_loop f left r = .ok v q → is_fndecl v = false := by
  induction f with
  | zero => intro left r q v _ h; simp [parse_op0_loop] at h
  | succ g ih =>
    intro left r q v hl h
    rw [parse_op0_loop] at h
    split at h
    · cases h1 : parse_op1 g r.tail with
      | timeout => rw [h1] at h; exact absurd h (by simp)
      | undefined => rw [h1] at h; exact absurd h (by simp)
      | thrown x q1 => rw [h1] at h; exact absurd h (by simp)
      | ok v1 q1 =>
        rw [h1] at h
        exact ih _ _ _ _ (by rfl) h
    · split at h
      · cases h1 : parse_op1 g r.tail with
        | timeout => rw [h1] at h; exact absurd h (by simp)
        | undefined => rw [h1] at h; exact absurd h (by simp)
        | thrown x q1 => rw [h1] at h; exact absurd h (by simp)
        | ok v1 q1 =>
          rw [h1] at h
          exact ih _ _ _ _ (by rfl) h
      · simp only [Res.ok.injEq] at h
        rw [← h.1]
        exact hl

theorem parse_op0_not_decl {f : Nat} {r q : Cursor} {v : Expr}
    (h : parse_op0 f r = .ok v q) : is_fndecl v = false := by
  cases f with
  | zero => simp [parse_op0] at h
  | succ g =>
    rw [parse_op0] at h
    cases h1 : parse_op1 g r with
    | timeout => rw [h1] at h; exact absurd h (by simp)
    | undefined => rw [h1] at h; exact absurd h (by simp)
    | thrown x q1 => rw [h1] at h; exact absurd h (by simp)
    | ok v1 q1 =>
      rw [h1] at h
      exact parse_op0_loop_not_decl g _ _ _ _ (parse_op1_not_decl h1) h

theorem parse_operation_not_decl {f : Nat} {r q : Cursor} {v : Expr}
    (h : parse_operation f r = .ok v q) : is_fndecl v = false := by
  cases f with
  | zero => simp [parse_operation] at h
  | succ g =>
    rw [parse_operation] at h
    cases h1 : parse_op0 g (trim r) with
    | timeout => rw [h1] at h; exact absurd h (by simp)
    | undefined => rw [h1] at h; exact absurd h (by simp)
    | ok v1 q1 =>
      rw [h1] at h
      simp only [Res.ok.injEq] at h
      rw [← h.1]
      exact parse_op0_not_decl h1
    | thrown x q1 =>
      rw [h1] at h
      cases x <;> try (simp at h; done)
      simp only at h
      cases h2 : parse_op1 g q1 with
      | timeout => rw [h2] at h; exact absurd h (by simp)
      | undefined => rw [h2] at h; exact absurd h (by simp)
      | ok v2 q2 =>
        rw [h2] at h
        simp only [Res.ok.injEq] at h
        rw [← h.1]
        exact parse_op1_not_decl h2
      | thrown x q2 =>
        rw [h2] at h
        cases x <;> exact absurd h (by simp)

/-- A declaration node returned by `parse_expr` was made by `parse_fndecl`. -/
theorem parse_expr_decl {f : Nat} {r q : Cursor} {d : Expr}
    (h : parse_expr (f + 1) r = .ok d q) (hd : is_fndecl d = true) :
    parse_fndecl f (trim r) = .ok d q := by
  rw [parse_expr] at h
  cases h1 : parse_fndecl f (trim r) with
  | timeout => rw [h1] at h; exact absurd h (by simp)
  | undefined => rw [h1] at h; exact absurd h (by simp)
  | ok v1 q1 =>
    rw [h1] at h
    exact h
  | thrown x q1 =>
    rw [h1] at h
    cases x <;> try (simp at h; done)
    simp only at h
    cases h2 : parse_operation f q1 with
    | timeout => rw [h2] at h; exact absurd h (by simp)
    | undefined => rw [h2] at h; exact absurd h (by simp)
    | ok v2 q2 =>
      rw [h2] at h
      simp only [Res.ok.injEq] at h
      have := parse_operation_not_decl h2
      rw [h.1, hd] at this
      exact absurd this (by simp)
    | thrown x q2 =>
      rw [h2] at h
      cases x <;> exact absurd h (by simp)

/-- After a declaration, `parse_expr` on the input followed by whitespace
leaves the cursor in front of that whitespace. -/
theorem parse_expr_decl_ext {w : List Char} (hw : ∀ c ∈ w, is_ws c = true) (f k : Nat)
    {r q : Cursor} {d : Expr} (h : parse_expr f r = .ok d q) (hd : is_fndecl d = true) :
    parse_expr (f + k) (r ++ w) = .ok d (q ++ w) := by
  cases f with
  | zero => simp [parse_expr] at h
  | succ g =>
    have h1 := parse_expr_decl h hd
    cases g with
    | zero => simp [parse_fndecl] at h1
    | succ g2 =>
      have h2 := (parse_fndecl_ext_step hw g2 k (fun r e => parse_expr_ext hw g2 k)
        (Ext_trim hw (Ext_refl_append w r))).2 d q h1
      rw [show g2 + 1 + 1 + k = (g2 + k + 1) + 1 by omega, parse_expr]
      simp only [h2]

/-! ## `parse_all` after a declaration -/

theorem parse_expr_ws {w : List Char} (hw : ∀ c ∈ w, is_ws c = true) (g : Nat) :
    parse_expr (g + 6) w = .thrown .UnknownExpression [] := by
  rw [← parse_expr_trim, trim_all_ws w hw, show g + 6 = 6 + g by omega]
  have h6 : parse_expr 6 [] = .thrown .UnknownExpression [] := rfl
  rw [parse_expr_mono 6 g [] (by rw [h6]; simp), h6]

theorem parse_all_ws {w : List Char} (hw : ∀ c ∈ w, is_ws c = true) (hne : w ≠ [])
    (g : Nat) (acc : List Expr) :
    parse_all (g + 7) w acc = .thrown .UnknownExpression [] := by
  rw [show g + 7 = (g + 6) + 1 by omega, parse_all, parse_expr_ws hw]
  cases w with
  | nil => exact absurd rfl hne
  | cons c cs => rfl

theorem parse_all_decl_ext {w : List Char} (hw : ∀ c ∈ w, is_ws c = true) (hne : w ≠ [])
    (f : Nat) :
    ∀ (k : Nat) (r : Cursor) (acc res : List Expr) (q : Cursor) (out : List Expr) (d : Expr),
      parse_all f r acc = .ok res q → res = out ++ [d] → is_fndecl d = true →
      parse_all (f + 7 + k) (r ++ w) acc = .thrown .UnknownExpression [] := by
  induction f with
  | zero => intro k r acc res q out d h; simp [parse_all] at h
  | succ f ih =>
    intro k r acc res q out d h hres hd
    cases r with
    | nil =>
      rw [List.nil_append, show f + 1 + 7 + k = (f + 1 + k) + 7 by omega]
      exact parse_all_ws hw hne _ _
    | cons c cs =>
      rw [parse_all] at h
      simp only [List.isEmpty_cons, Bool.false_eq_true, if_false] at h
      rw [show f + 1 + 7 + k = (f + 7 + k) + 1 by omega, parse_all]
      simp only [List.cons_append, List.isEmpty_cons, Bool.false_eq_true, if_false]
      cases hs : parse_expr f (c :: cs) with
      | timeout => rw [hs] at h; exact absurd h (by simp)
      | undefined => rw [hs] at h; exact absurd h (by simp)
      | thrown x q1 => rw [hs] at h; exact absurd h (by simp)
      | ok v q1 =>
        rw [hs] at h
        simp only at h
        cases q1 with
        | cons c1 cs1 =>
          have h1 := parse_expr_ext hw f (7 + k) (Ext_refl_append w (c :: cs))
          rw [hs] at h1
          obtain ⟨e1, h2, h3⟩ := Res.Ext.ok_inv h1
          rw [Ext_of_ne_nil h3 (List.cons_ne_nil _ _)] at h2
          rw [show f + 7 + k = f + (7 + k) by omega, ← List.cons_append, h2]
          simp only
          rw [show f + (7 + k) = f + 7 + k by omega]
          exact ih k _ _ _ _ _ _ h hres hd
        | nil =>
          cases f with
          | zero => simp [parse_all] at h
          | succ f2 =>
            rw [parse_all] at h
            simp only [List.isEmpty_nil, if_true, Res.ok.injEq] at h
            have hv : v = d := by
              have h4 := h.1.trans hres
              have := List.append_inj_right' h4 rfl
              simpa using this
            have h2 := parse_expr_decl_ext hw (f2 + 1) (7 + k) hs (hv ▸ hd)
            rw [show f2 + 1 + 7 + k = f2 + 1 + (7 + k) by omega, ← List.cons_append, h2]
            simp only [List.nil_append]
            rw [show f2 + 1 + (7 + k) = (f2 + 1 + k) + 7 by omega]
            exact parse_all_ws hw hne _ _

/-- C20: when `parse_all` succeeds on `s` and the last expression of its output
is a function declaration, `parse_all` on `s` followed by one or more whitespace
characters fails with `UnknownExpression` at the end of the input, with any
fuel from that of the first run plus 7; and with no fuel at all does it return
an output. -/
theorem C20_whitespace_after_declaration (fuel : Nat) (s w : List Char) (out : List Expr)
    (d : Expr) (q : Cursor) (hne : w ≠ []) (hw : ∀ c ∈ w, is_ws c = true)
    (hs : parse_all fuel s [] = .ok (out ++ [d]) q) (hd : is_fndecl d = true) :
    (∀ k, parse_all (fuel + 7 + k) (s ++ w) [] = .thrown .UnknownExpression []) ∧
      (∀ n, parse_all n (s ++ w) [] = .timeout ∨
        parse_all n (s ++ w) [] = .thrown .UnknownExpression []) := by
  have h1 : ∀ k, parse_all (fuel + 7 + k) (s ++ w) [] = .thrown .UnknownExpression [] :=
    fun k => parse_all_decl_ext hw hne fuel k s [] _ q out d hs rfl hd
  refine ⟨h1, fun n => ?_⟩
  by_cases hn : parse_all n (s ++ w) [] = .timeout
  · exact Or.inl hn
  · right
    have h2 := parse_all_mono n (fuel + 7) (s ++ w) [] hn
    rw [← h2, show n + (fuel + 7) = fuel + 7 + n by omega]
    exact h1 n

theorem C20_whitespace_after_declaration_witness :
    parse_all 12 "func f() -> int \x7b 1 \x7d".toList [] =
        .ok [.ExprFnDecl ['f'] [] "int".toList (.ExprNumber ['1'])] [] ∧
      (∀ k, parse_all (12 + 7 + k) "func f() -> int \x7b 1 \x7d\n".toList [] =
        .thrown .UnknownExpression []) :=
  ⟨rfl, (C20_whitespace_after_declaration 12 "func f() -> int \x7b 1 \x7d".toList ['\n'] []
    (.ExprFnDecl ['f'] [] "int".toList (.ExprNumber ['1'])) [] (by decide) (by decide)
    rfl rfl).1⟩

/-! ## Progress and termination: the rules without recursion -/

theorem scan_length (fn : Char → Bool) (r : Cursor) :
    (scan fn r).2.length ≤ r.length ∧
      (expect fn r = true → (scan fn r).2.length + 1 ≤ r.length) := by
  induction r with
  | nil => simp [scan, expect]
  | cons c cs ih =>
    by_cases hc : fn c = true
    · simp only [scan, hc, if_true, List.length_cons, expect]
      omega
    · simp [scan, hc, expect]

theorem expect_char_length {c : Char} {r : Cursor} (h : expect_char c r = true) :
    1 ≤ r.length :=
  List.length_pos.mpr (expect_char_ne_nil h)

theorem expect_arrow_two {r : Cursor} (h : expect_str "->".toList r = true) :
    2 ≤ r.length := by
  obtain ⟨rs, rfl⟩ := expect_arrow_length h
  simp

theorem scan_string_length (r : Cursor) (s q : List Char) (h : scan_string r = some (s, q)) :
    q.length ≤ r.length := by
  induction r generalizing s with
  | nil => simp [scan_string] at h
  | cons c cs ih =>
    rw [scan_string_cons] at h
    split at h
    · simp only [Option.some.injEq, Prod.mk.injEq] at h
      rw [← h.2]
    · cases hs : scan_string cs with
      | none => rw [hs] at h; simp at h
      | some p =>
        rw [hs] at h
        simp only [Option.some.injEq, Prod.mk.injEq] at h
        have := ih p.1 (by rw [hs, ← h.2])
        simp only [List.length_cons]
        omega

theorem parse_symbol_fin (r : Cursor) : Res.Fin 1 r True (parse_symbol r) := by
  unfold parse_symbol
  split
  · simp only [Res.Fin]
    exact le_refl _
  · rename_i h
    simp only [Res.Fin]
    exact (scan_length is_symbol r).2 (by simpa using h)

theorem parse_number_fin (r : Cursor) : Res.Fin 1 r True (parse_number r) := by
  unfold parse_number
  simp only
  have t := trim_length_le r
  split
  · simp only [Res.Fin]
    exact t
  · rename_i h
    have h1 := (scan_length is_digit (trim r)).2 (by simpa using h)
    split
    · have h2 := (scan_length is_digit (scan is_digit (trim r)).2.tail).1
      simp only [Res.Fin, List.length_tail] at h2 ⊢
      omega
    · simp only [Res.Fin]
      omega

theorem parse_string_fin (r : Cursor) : Res.Fin 1 r True (parse_string r) := by
  unfold parse_string
  simp only
  have t := trim_length_le r
  split
  · simp only [Res.Fin]
    exact t
  · rename_i h
    have h1 := expect_char_length (c := dquote) (r := trim r) (by simpa using h)
    cases hs : scan_string (trim r).tail with
    | none => trivial
    | some p =>
      have h2 := scan_string_length _ p.1 p.2 hs
      simp only [List.length_tail] at h2
      simp only
      split
      · simp only [Res.Fin]
        omega
      · rename_i hne
        cases hp : p.2 with
        | nil => rw [hp] at hne; simp at hne
        | cons c cs =>
          rw [hp] at h2
          simp only [Res.Fin, List.tail_cons]
          simp only [List.length_cons] at h2
          omega

theorem parse_fndecl_args_fin (f : Nat) :
    ∀ (close r : Cursor) (acc : List (List Char × List Char)),
      Res.Fin 0 r (r.length + 1 ≤ f) (parse_fndecl_args f close r acc) := by
  induction f with
  | zero =>
    intro close r acc
    simp only [parse_fndecl_args, Res.Fin]
    omega
  | succ f ih =>
    intro close r acc
    rw [parse_fndecl_args]
    split
    · simp only
      have t := trim_length_le r
      have h1 := parse_symbol_fin (trim r)
      cases hs : parse_symbol (trim r) with
      | timeout => rw [hs] at h1; simp only [Res.Fin] at h1; exact absurd trivial h1
      | undefined => trivial
      | thrown x r1 =>
        rw [hs] at h1
        simp only [Res.Fin] at h1 ⊢
        omega
      | ok a r1 =>
        rw [hs] at h1
        simp only [Res.Fin] at h1
        simp only
        have t1 := trim_length_le r1
        have h2 := parse_symbol_fin (trim r1)
        cases hs2 : parse_symbol (trim r1) with
        | timeout => rw [hs2] at h2; simp only [Res.Fin] at h2; exact absurd trivial h2
        | undefined => trivial
        | thrown x r2 =>
          rw [hs2] at h2
          simp only [Res.Fin] at h2 ⊢
          omega
        | ok ty r2 =>
          rw [hs2] at h2
          simp only [Res.Fin] at h2
          simp only
          have t2 := trim_length_le r2
          split
          · split
            · simp only [Res.Fin]
              omega
            · simp only [Res.Fin]
              omega
          · have h3 := ih close (trim r2).tail (acc ++ [(a, ty)])
            cases hs3 : parse_fndecl_args f close (trim r2).tail (acc ++ [(a, ty)]) with
            | timeout =>
              rw [hs3] at h3
              simp only [Res.Fin, List.length_tail] at h3 ⊢
              omega
            | undefined => trivial
            | thrown x r3 =>
              rw [hs3] at h3
              simp only [Res.Fin, List.length_tail] at h3 ⊢
              omega
            | ok v r3 =>
              rw [hs3] at h3
              simp only [Res.Fin, List.length_tail] at h3 ⊢
              omega
    · simp only [Res.Fin]
      omega

theorem parse_fndecl_head_fin (f : Nat) (r : Cursor) :
    Res.Fin 1 r (r.length + 1 ≤ f) (parse_fndecl_head f r) := by
  unfold parse_fndecl_head
  simp only
  have h1 := parse_symbol_fin r
  cases hs : parse_symbol r with
  | timeout => rw [hs] at h1; simp only [Res.Fin] at h1; exact absurd trivial h1
  | undefined => trivial
  | thrown x r1 =>
    rw [hs] at h1
    simp only [Res.Fin] at h1 ⊢
    omega
  | ok kw r1 =>
    rw [hs] at h1
    simp only [Res.Fin] at h1
    simp only
    split
    · simp only [Res.Fin]
      omega
    · have t1 := trim_length_le r1
      have h2 := parse_symbol_fin (trim r1)
      cases hs2 : parse_symbol (trim r1) with
      | timeout => rw [hs2] at h2; simp only [Res.Fin] at h2; exact absurd trivial h2
      | undefined => trivial
      | thrown x r2 =>
        rw [hs2] at h2
        simp only [Res.Fin] at h2 ⊢
        omega
      | ok name r2 =>
        rw [hs2] at h2
        simp only [Res.Fin] at h2
        simp only
        have t2 := trim_length_le r2
        split
        · simp only [Res.Fin]
          omega
        · split
          · simp only [Res.Fin]
            omega
          · have h3 := parse_fndecl_args_fin f (find_braces '(' ')' (trim r2)) (trim r2).tail []
            cases hs3 : parse_fndecl_args f (find_braces '(' ')' (trim r2)) (trim r2).tail [] with
            | timeout =>
              rw [hs3] at h3
              simp only [Res.Fin, List.length_tail] at h3 ⊢
              omega
            | undefined => trivial
            | thrown x r3 =>
              rw [hs3] at h3
              simp only [Res.Fin, List.length_tail] at h3 ⊢
              omega
            | ok v r3 =>
              rw [hs3] at h3
              simp only [Res.Fin, List.length_tail] at h3 ⊢
              omega

/-! ## Progress and termination: one step of each rule -/

theorem parse_expr_fin_step (f : Nat)
    (ihd : ∀ r, Res.Fin 1 r (8 * r.length + 2 ≤ f) (parse_fndecl f r))
    (iho : ∀ r, Res.Fin 1 r (8 * r.length + 5 ≤ f) (parse_operation f r)) (r : Cursor) :
    Res.Fin 1 r (8 * r.length + 6 ≤ f + 1) (parse_expr (f + 1) r) := by
  rw [parse_expr]
  have t := trim_length_le r
  have h1 := ihd (trim r)
  cases hs1 : parse_fndecl f (trim r) with
  | timeout => rw [hs1] at h1; simp only [Res.Fin] at *; omega
  | undefined => trivial
  | ok v1 r1 => rw [hs1] at h1; simp only [Res.Fin] at *; omega
  | thrown x r1 =>
    rw [hs1] at h1
    simp only [Res.Fin] at h1
    cases x <;> try (simp only [Res.Fin]; omega)
    simp only
    have h2 := iho r1
    cases hs2 : parse_operation f r1 with
    | timeout => rw [hs2] at h2; simp only [Res.Fin] at *; omega
    | undefined => trivial
    | ok v2 r2 => rw [hs2] at h2; simp only [Res.Fin] at *; omega
    | thrown x r2 =>
      rw [hs2] at h2
      cases x <;> (simp only [Res.Fin] at *; omega)

theorem parse_operation_fin_step (f : Nat)
    (ih0 : ∀ r, Res.Fin 1 r (8 * r.length + 4 ≤ f) (parse_op0 f r))
    (ih1 : ∀ r, Res.Fin 1 r (8 * r.length + 3 ≤ f) (parse_op1 f r)) (r : Cursor) :
    Res.Fin 1 r (8 * r.length + 5 ≤ f + 1) (parse_operation (f + 1) r) := by
  rw [parse_operation]
  have t := trim_length_le r
  have h1 := ih0 (trim r)
  cases hs1 : parse_op0 f (trim r) with
  | timeout => rw [hs1] at h1; simp only [Res.Fin] at *; omega
  | undefined => trivial
  | ok v1 r1 => rw [hs1] at h1; simp only [Res.Fin] at *; omega
  | thrown x r1 =>
    rw [hs1] at h1
    simp only [Res.Fin] at h1
    cases x <;> try (simp only [Res.Fin]; omega)
    simp only
    have h2 := ih1 r1
    cases hs2 : parse_op1 f r1 with
    | timeout => rw [hs2] at h2; simp only [Res.Fin] at *; omega
    | undefined => trivial
    | ok v2 r2 => rw [hs2] at h2; simp only [Res.Fin] at *; omega
    | thrown x r2 =>
      rw [hs2] at h2
      cases x <;> (simp only [Res.Fin] at *; omega)

theorem parse_op0_fin_step (f : Nat)
    (ih1 : ∀ r, Res.Fin 1 r (8 * r.length + 3 ≤ f) (parse_op1 f r))
    (ihl : ∀ left r, Res.Fin 0 r (8 * r.length + 1 ≤ f) (parse_op0_loop f left r))
    (r : Cursor) :
    Res.Fin 1 r (8 * r.length + 4 ≤ f + 1) (parse_op0 (f + 1) r) := by
  rw [parse_op0]
  have h1 := ih1 r
  cases hs1 : parse_op1 f r with
  | timeout => rw [hs1] at h1; simp only [Res.Fin] at *; omega
  | undefined => trivial
  | thrown x r1 => rw [hs1] at h1; simp only [Res.Fin] at *; omega
  | ok v1 r1 =>
    rw [hs1] at h1
    simp only [Res.Fin] at h1
    simp only
    have t1 := trim_length_le r1
    have h2 := ihl v1 (trim r1)
    cases hs2 : parse_op0_loop f v1 (trim r1) with
    | timeout => rw [hs2] at h2; simp only [Res.Fin] at *; omega
    | undefined => trivial
    | thrown x r2 => rw [hs2] at h2; simp only [Res.Fin] at *; omega
    | ok v2 r2 => rw [hs2] at h2; simp only [Res.Fin] at *; omega

theorem parse_op0_loop_fin_step (f : Nat)
    (ih1 : ∀ r, Res.Fin 1 r (8 * r.length + 3 ≤ f) (parse_op1 f r))
    (ihl : ∀ left r, Res.Fin 0 r (8 * r.length + 1 ≤ f) (parse_op0_loop f left r))
    (left : Expr) (r : Cursor) :
    Res.Fin 0 r (8 * r.length + 1 ≤ f + 1) (parse_op0_loop (f + 1) left r) := by
  rw [parse_op0_loop]
  have tl : r.tail.length = r.length - 1 := List.length_tail r
  split
  · rename_i hp
    have hp1 := expect_char_length hp
    have h1 := ih1 r.tail
    cases hs1 : parse_op1 f r.tail with
    | timeout => rw [hs1] at h1; simp only [Res.Fin] at *; omega
    | undefined => trivial
    | thrown x r1 => rw [hs1] at h1; simp only [Res.Fin] at *; omega
    | ok v1 r1 =>
      rw [hs1] at h1
      simp only [Res.Fin] at h1
      simp only
      have t1 := trim_length_le r1
      have h2 := ihl (.ExprOperation left v1 .Add) (trim r1)
      cases hs2 : parse_op0_loop f (.ExprOperation left v1 .Add) (trim r1) with
      | timeout => rw [hs2] at h2; simp only [Res.Fin] at *; omega
      | undefined => trivial
      | thrown x r2 => rw [hs2] at h2; simp only [Res.Fin] at *; omega
      | ok v2 r2 => rw [hs2] at h2; simp only [Res.Fin] at *; omega
  · split
    · rename_i hp
      have hp1 := expect_char_length hp
      have h1 := ih1 r.tail
      cases hs1 : parse_op1 f r.tail with
      | timeout => rw [hs1] at h1; simp only [Res.Fin] at *; omega
      | undefined => trivial
      | thrown x r1 => rw [hs1] at h1; simp only [Res.Fin] at *; omega
      | ok v1 r1 =>
        rw [hs1] at h1
        simp only [Res.Fin] at h1
        simp only
        have t1 := trim_length_le r1
        have h2 := ihl (.ExprOperation left v1 .Sub) (trim r1)
        cases hs2 : parse_op0_loop f (.ExprOperation left v1 .Sub) (trim r1) with
        | timeout => rw [hs2] at h2; simp only [Res.Fin] at *; omega
        | undefined => trivial
        | thrown x r2 => rw [hs2] at h2; simp only [Res.Fin] at *; omega
        | ok v2 r2 => rw [hs2] at h2; simp only [Res.Fin] at *; omega
    · simp only [Res.Fin]
      omega

theorem parse_op1_fin_step (f : Nat)
    (iha : ∀ r, Res.Fin 1 r (8 * r.length + 2 ≤ f) (parse_atom f r))
    (ihl : ∀ left r, Res.Fin 0 r (8 * r.length + 1 ≤ f) (parse_op1_loop f left r))
    (r : Cursor) :
    Res.Fin 1 r (8 * r.length + 3 ≤ f + 1) (parse_op1 (f + 1) r) := by
  rw [parse_op1]
  have h1 := iha r
  cases hs1 : parse_atom f r with
  | timeout => rw [hs1] at h1; simp only [Res.Fin] at *; omega
  | undefined => trivial
  | thrown x r1 => rw [hs1] at h1; simp only [Res.Fin] at *; omega
  | ok v1 r1 =>
    rw [hs1] at h1
    simp only [Res.Fin] at h1
    simp only
    have t1 := trim_length_le r1
    have h2 := ihl v1 (trim r1)
    cases hs2 : parse_op1_loop f v1 (trim r1) with
    | timeout => rw [hs2] at h2; simp only [Res.Fin] at *; omega
    | undefined => trivial
    | thrown x r2 => rw [hs2] at h2; simp only [Res.Fin] at *; omega
    | ok v2 r2 => rw [hs2] at h2; simp only [Res.Fin] at *; omega

theorem parse_op1_loop_fin_step (f : Nat)
    (iha : ∀ r, Res.Fin 1 r (8 * r.length + 2 ≤ f) (parse_atom f r))
    (ihl : ∀ left r, Res.Fin 0 r (8 * r.length + 1 ≤ f) (parse_op1_loop f left r))
    (left : Expr) (r : Cursor) :
    Res.Fin 0 r (8 * r.length + 1 ≤ f + 1) (parse_op1_loop (f + 1) left r) := by
  rw [parse_op1_loop]
  have tl : r.tail.length = r.length - 1 := List.length_tail r
  split
  · rename_i hp
    have hp1 := expect_char_length hp
    have h1 := iha r.tail
    cases hs1 : parse_atom f r.tail with
    | timeout => rw [hs1] at h1; simp only [Res.Fin] at *; omega
    | undefined => trivial
    | thrown x r1 => rw [hs1] at h1; simp only [Res.Fin] at *; omega
    | ok v1 r1 =>
      rw [hs1] at h1
      simp only [Res.Fin] at h1
      simp only
      have t1 := trim_length_le r1
      have h2 := ihl (.ExprOperation left v1 .Mul) (trim r1)
      cases hs2 : parse_op1_loop f (.ExprOperation left v1 .Mul) (trim r1) with
      | timeout => rw [hs2] at h2; simp only [Res.Fin] at *; omega
      | undefined => trivial
      | thrown x r2 => rw [hs2] at h2; simp only [Res.Fin] at *; omega
      | ok v2 r2 => rw [hs2] at h2; simp only [Res.Fin] at *; omega
  · split
    · rename_i hp
      have hp1 := expect_char_length hp
      have h1 := iha r.tail
      cases hs1 : parse_atom f r.tail with
      | timeout => rw [hs1] at h1; simp only [Res.Fin] at *; omega
      | undefined => trivial
      | thrown x r1 => rw [hs1] at h1; simp only [Res.Fin] at *; omega
      | ok v1 r1 =>
        rw [hs1] at h1
        simp only [Res.Fin] at h1
        simp only
        have t1 := trim_length_le r1
        have h2 := ihl (.ExprOperation left v1 .Div) (trim r1)
        cases hs2 : parse_op1_loop f (.ExprOperation left v1 .Div) (trim r1) with
        | timeout => rw [hs2] at h2; simp only [Res.Fin] at *; omega
        | undefined => trivial
        | thrown x r2 => rw [hs2] at h2; simp only [Res.Fin] at *; omega
        | ok v2 r2 => rw [hs2] at h2; simp only [Res.Fin] at *; omega
    · simp only [Res.Fin]
      omega

theorem parse_atom_fin_step (f : Nat)
    (ihm : ∀ r, Res.Fin 1 r (8 * r.length + 1 ≤ f) (parse_match f r))
    (ihc : ∀ r, Res.Fin 1 r (8 * r.length + 1 ≤ f) (parse_fncall f r)) (r : Cursor) :
    Res.Fin 1 r (8 * r.length + 2 ≤ f + 1) (parse_atom (f + 1) r) := by
  rw [parse_atom]
  have t := trim_length_le r
  have h1 := parse_number_fin (trim r)
  cases hs1 : parse_number (trim r) with
  | timeout => rw [hs1] at h1; simp only [Res.Fin] at h1; exact absurd trivial h1
  | undefined => trivial
  | ok v1 r1 => rw [hs1] at h1; simp only [Res.Fin] at *; omega
  | thrown x r1 =>
    rw [hs1] at h1
    simp only [Res.Fin] at h1
    cases x <;> try (simp only [Res.Fin]; omega)
    simp only
    have h2 := ihm r1
    cases hs2 : parse_match f r1 with
    | timeout => rw [hs2] at h2; simp only [Res.Fin] at *; omega
    | undefined => trivial
    | ok v2 r2 => rw [hs2] at h2; simp only [Res.Fin] at *; omega
    | thrown x r2 =>
      rw [hs2] at h2
      simp only [Res.Fin] at h2
      cases x <;> try (simp only [Res.Fin]; omega)
      simp only
      have h3 := ihc r2
      cases hs3 : parse_fncall f r2 with
      | timeout => rw [hs3] at h3; simp only [Res.Fin] at *; omega
      | undefined => trivial
      | ok v3 r3 => rw [hs3] at h3; simp only [Res.Fin] at *; omega
      | thrown x r3 =>
        rw [hs3] at h3
        simp only [Res.Fin] at h3
        cases x <;> try (simp only [Res.Fin]; omega)
        simp only
        have h4 := parse_string_fin r3
        cases hs4 : parse_string r3 with
        | timeout => rw [hs4] at h4; simp only [Res.Fin] at h4; exact absurd trivial h4
        | undefined => trivial
        | ok v4 r4 => rw [hs4] at h4; simp only [Res.Fin] at *; omega
        | thrown x r4 =>
          rw [hs4] at h4
          cases x <;> (simp only [Res.Fin] at *; omega)

theorem parse_fncall_fin_step (f : Nat)
    (ihl : ∀ close r acc, Res.Fin 0 r (8 * r.length + 7 ≤ f) (parse_fncall_args f close r acc))
    (r : Cursor) :
    Res.Fin 1 r (8 * r.length + 1 ≤ f + 1) (parse_fncall (f + 1) r) := by
  rw [parse_fncall]
  have h1 := parse_symbol_fin r
  cases hs1 : parse_symbol r with
  | timeout => rw [hs1] at h1; simp only [Res.Fin] at h1; exact absurd trivial h1
  | undefined => trivial
  | thrown x r1 => rw [hs1] at h1; simp only [Res.Fin] at *; omega
  | ok sym r1 =>
    rw [hs1] at h1
    simp only [Res.Fin] at h1
    have t1 := trim_length_le r1
    have tl : (trim r1).tail.length = (trim r1).length - 1 := List.length_tail _
    simp only
    split
    · simp only [Res.Fin]
      omega
    · rename_i hp
      have hp1 := expect_char_length (c := '(') (r := trim r1) (by simpa using hp)
      split
      · simp only [Res.Fin]
        omega
      · have h2 := ihl (find_braces '(' ')' (trim r1)) (trim r1).tail []
        cases hs2 : parse_fncall_args f (find_braces '(' ')' (trim r1)) (trim r1).tail [] with
        | timeout => rw [hs2] at h2; simp only [Res.Fin] at *; omega
        | undefined => trivial
        | thrown x r2 => rw [hs2] at h2; simp only [Res.Fin] at *; omega
        | ok v2 r2 =>
          rw [hs2] at h2
          simp only [Res.Fin, List.length_tail] at *
          omega

theorem parse_fncall_args_fin_step (f : Nat)
    (ihe : ∀ r, Res.Fin 1 r (8 * r.length + 6 ≤ f) (parse_expr f r))
    (ihl : ∀ close r acc, Res.Fin 0 r (8 * r.length + 7 ≤ f) (parse_fncall_args f close r acc))
    (close r : Cursor) (acc : List Expr) :
    Res.Fin 0 r (8 * r.length + 7 ≤ f + 1) (parse_fncall_args (f + 1) close r acc) := by
  rw [parse_fncall_args]
  have t := trim_length_le r
  split
  · have h1 := ihe (trim r)
    cases hs1 : parse_expr f (trim r) with
    | timeout => rw [hs1] at h1; simp only [Res.Fin] at *; omega
    | undefined => trivial
    | thrown x r1 => rw [hs1] at h1; simp only [Res.Fin] at *; omega
    | ok v1 r1 =>
      rw [hs1] at h1
      simp only [Res.Fin] at h1
      have t1 := trim_length_le r1
      have tl : (trim r1).tail.length = (trim r1).length - 1 := List.length_tail _
      simp only
      split
      · split
        · simp only [Res.Fin]
          omega
        · simp only [Res.Fin]
          omega
      · have h2 := ihl close (trim r1).tail (acc ++ [v1])
        cases hs2 : parse_fncall_args f close (trim r1).tail (acc ++ [v1]) with
        | timeout => rw [hs2] at h2; simp only [Res.Fin] at *; omega
        | undefined => trivial
        | thrown x r2 => rw [hs2] at h2; simp only [Res.Fin] at *; omega
        | ok v2 r2 => rw [hs2] at h2; simp only [Res.Fin] at *; omega
  · simp only [Res.Fin]
    omega

theorem parse_fndecl_fin_step (f : Nat)
    (ihe : ∀ r, Res.Fin 1 r (8 * r.length + 6 ≤ f) (parse_expr f r)) (r : Cursor) :
    Res.Fin 1 r (8 * r.length + 2 ≤ f + 1) (parse_fndecl (f + 1) r) := by
  rw [parse_fndecl]
  have h1 := parse_fndecl_head_fin f r
  cases hs1 : parse_fndecl_head f r with
  | timeout => rw [hs1] at h1; simp only [Res.Fin] at *; omega
  | undefined => trivial
  | thrown x r1 => rw [hs1] at h1; simp only [Res.Fin] at *; omega
  | ok head r1 =>
    rw [hs1] at h1
    simp only [Res.Fin] at h1
    have t1 := trim_length_le r1.tail
    have tl1 : r1.tail.length = r1.length - 1 := List.length_tail _
    have t2 := trim_length_le (List.drop 2 (trim r1.tail))
    have tl2 : (List.drop 2 (trim r1.tail)).length = (trim r1.tail).length - 2 :=
      List.length_drop _ _
    simp only
    split
    · simp only [Res.Fin]
      omega
    · have h2 := parse_symbol_fin (trim (List.drop 2 (trim r1.tail)))
      cases hs2 : parse_symbol (trim (List.drop 2 (trim r1.tail))) with
      | timeout => rw [hs2] at h2; simp only [Res.Fin] at h2; exact absurd trivial h2
      | undefined => trivial
      | thrown x r2 => rw [hs2] at h2; simp only [Res.Fin] at *; omega
      | ok ret r2 =>
        rw [hs2] at h2
        simp only [Res.Fin] at h2
        have t3 := trim_length_le r2
        have tl3 : (trim r2).tail.length = (trim r2).length - 1 := List.length_tail _
        simp only
        split
        · simp only [Res.Fin]
          omega
        · have h3 := ihe (trim r2).tail
          cases hs3 : parse_expr f (trim r2).tail with
          | timeout => rw [hs3] at h3; simp only [Res.Fin] at *; omega
          | undefined => trivial
          | thrown x r3 => rw [hs3] at h3; simp only [Res.Fin] at *; omega
          | ok body r3 =>
            rw [hs3] at h3
            simp only [Res.Fin] at h3
            simp only
            split
            · simp only [Res.Fin]
              omega
            · simp only [Res.Fin, List.length_tail]
              omega

theorem parse_branch_fin_step (f : Nat)
    (iha : ∀ r, Res.Fin 1 r (8 * r.length + 2 ≤ f) (parse_atom f r))
    (ihe : ∀ r, Res.Fin 1 r (8 * r.length + 6 ≤ f) (parse_expr f r)) (r : Cursor) :
    Res.Fin 1 r (8 * r.length + 3 ≤ f + 1) (parse_branch (f + 1) r) := by
  rw [parse_branch]
  have t := trim_length_le r
  have h1 := iha (trim r)
  cases hs1 : parse_atom f (trim r) with
  | timeout => rw [hs1] at h1; simp only [Res.Fin] at *; omega
  | undefined => trivial
  | thrown x r1 => rw [hs1] at h1; simp only [Res.Fin] at *; omega
  | ok pat r1 =>
    rw [hs1] at h1
    simp only [Res.Fin] at h1
    have t1 := trim_length_le r1
    have t2 := trim_length_le (List.drop 2 (trim r1))
    have tl2 : (List.drop 2 (trim r1)).length = (trim r1).length - 2 := List.length_drop _ _
    have t3 := trim_length_le (trim (List.drop 2 (trim r1))).tail
    have tl3 : (trim (List.drop 2 (trim r1))).tail.length =
      (trim (List.drop 2 (trim r1))).length - 1 := List.length_tail _
    simp only
    split
    · simp only [Res.Fin]
      omega
    · split
      · simp only [Res.Fin]
        omega
      · have h3 := ihe (trim (trim (List.drop 2 (trim r1))).tail)
        cases hs3 : parse_expr f (trim (trim (List.drop 2 (trim r1))).tail) with
        | timeout => rw [hs3] at h3; simp only [Res.Fin] at *; omega
        | undefined => trivial
        | thrown x r3 => rw [hs3] at h3; simp only [Res.Fin] at *; omega
        | ok body r3 =>
          rw [hs3] at h3
          simp only [Res.Fin] at h3
          have t4 := trim_length_le r3
          simp only
          split
          · simp only [Res.Fin]
            omega
          · simp only [Res.Fin, List.length_tail]
            omega

theorem parse_match_fin_step (f : Nat)
    (ihe : ∀ r, Res.Fin 1 r (8 * r.length + 6 ≤ f) (parse_expr f r))
    (ihl : ∀ close r acc,
      Res.Fin 0 r (8 * r.length + 4 ≤ f) (parse_match_branches f close r acc))
    (r : Cursor) :
    Res.Fin 1 r (8 * r.length + 1 ≤ f + 1) (parse_match (f + 1) r) := by
  rw [parse_match]
  simp only
  have h1 := parse_symbol_fin r
  cases hs1 : parse_symbol r with
  | timeout => rw [hs1] at h1; simp only [Res.Fin] at h1; exact absurd trivial h1
  | undefined => trivial
  | thrown x r1 => rw [hs1] at h1; simp only [Res.Fin] at *; omega
  | ok kw r1 =>
    rw [hs1] at h1
    simp only [Res.Fin] at h1
    have t1 := trim_length_le r1
    simp only
    split
    · simp only [Res.Fin]
      omega
    · have h2 := ihe (trim r1)
      cases hs2 : parse_expr f (trim r1) with
      | timeout => rw [hs2] at h2; simp only [Res.Fin] at *; omega
      | undefined => trivial
      | thrown x r2 => rw [hs2] at h2; simp only [Res.Fin] at *; omega
      | ok v2 r2 =>
        rw [hs2] at h2
        simp only [Res.Fin] at h2
        have t2 := trim_length_le r2
        have tl2 : (trim r2).tail.length = (trim r2).length - 1 := List.length_tail _
        simp only
        split
        · simp only [Res.Fin]
          omega
        · split
          · simp only [Res.Fin]
            omega
          · have h3 := ihl (find_braces '{' '}' (trim r2)) (trim r2).tail []
            cases hs3 : parse_match_branches f (find_braces '{' '}' (trim r2))
                (trim r2).tail [] with
            | timeout => rw [hs3] at h3; simp only [Res.Fin] at *; omega
            | undefined => trivial
            | thrown x r3 => rw [hs3] at h3; simp only [Res.Fin] at *; omega
            | ok v3 r3 =>
              rw [hs3] at h3
              simp only [Res.Fin, List.length_tail] at *
              omega

theorem parse_match_branches_fin_step (f : Nat)
    (ihb : ∀ r, Res.Fin 1 r (8 * r.length + 3 ≤ f) (parse_branch f r))
    (ihl : ∀ close r acc,
      Res.Fin 0 r (8 * r.length + 4 ≤ f) (parse_match_branches f close r acc))
    (close r : Cursor) (acc : List MatchBranch) :
    Res.Fin 0 r (8 * r.length + 4 ≤ f + 1) (parse_match_branches (f + 1) close r acc) := by
  rw [parse_match_branches]
  have t := trim_length_le r
  split
  · have h1 := ihb (trim r)
    cases hs1 : parse_branch f (trim r) with
    | timeout => rw [hs1] at h1; simp only [Res.Fin] at *; omega
    | undefined => trivial
    | thrown x r1 => rw [hs1] at h1; simp only [Res.Fin] at *; omega
    | ok v1 r1 =>
      rw [hs1] at h1
      simp only [Res.Fin] at h1
      have t1 := trim_length_le r1
      have t2 := trim_length_le (trim r1)
      have tl : (trim r1).tail.length = (trim r1).length - 1 := List.length_tail _
      simp only
      split
      · split
        · simp only [Res.Fin]
          omega
        · simp only [Res.Fin]
          omega
      · have h2 := ihl close (trim r1).tail (acc ++ [v1])
        cases hs2 : parse_match_branches f close (trim r1).tail (acc ++ [v1]) with
        | timeout => rw [hs2] at h2; simp only [Res.Fin] at *; omega
        | undefined => trivial
        | thrown x r2 => rw [hs2] at h2; simp only [Res.Fin] at *; omega
        | ok v2 r2 => rw [hs2] at h2; simp only [Res.Fin] at *; omega
  · simp only
    split
    · simp only [Res.Fin]
      omega
    · simp only [Res.Fin]
      omega

/-! ## Progress and termination of all the rules -/

theorem fin_all (f : Nat) :
    (∀ r, Res.Fin 1 r (8 * r.length + 6 ≤ f) (parse_expr f r)) ∧
    (∀ r, Res.Fin 1 r (8 * r.length + 5 ≤ f) (parse_operation f r)) ∧
    (∀ r, Res.Fin 1 r (8 * r.length + 4 ≤ f) (parse_op0 f r)) ∧
    (∀ left r, Res.Fin 0 r (8 * r.length + 1 ≤ f) (parse_op0_loop f left r)) ∧
    (∀ r, Res.Fin 1 r (8 * r.length + 3 ≤ f) (parse_op1 f r)) ∧
    (∀ left r, Res.Fin 0 r (8 * r.length + 1 ≤ f) (parse_op1_loop f left r)) ∧
    (∀ r, Res.Fin 1 r (8 * r.length + 2 ≤ f) (parse_atom f r)) ∧
    (∀ r, Res.Fin 1 r (8 * r.length + 1 ≤ f) (parse_fncall f r)) ∧
    (∀ close r acc,
      Res.Fin 0 r (8 * r.length + 7 ≤ f) (parse_fncall_args f close r acc)) ∧
    (∀ r, Res.Fin 1 r (8 * r.length + 2 ≤ f) (parse_fndecl f r)) ∧
    (∀ r, Res.Fin 1 r (8 * r.length + 3 ≤ f) (parse_branch f r)) ∧
    (∀ r, Res.Fin 1 r (8 * r.length + 1 ≤ f) (parse_match f r)) ∧
    (∀ close r acc,
      Res.Fin 0 r (8 * r.length + 4 ≤ f) (parse_match_branches f close r acc)) := by
  induction f with
  | zero =>
    refine ⟨?_, ?_, ?_, ?_, ?_, ?_, ?_, ?_, ?_, ?_, ?_, ?_, ?_⟩ <;> intros <;>
      simp only [parse_expr, parse_operation, parse_op0, parse_op0_loop, parse_op1,
        parse_op1_loop, parse_atom, parse_fncall, parse_fncall_args, parse_fndecl,
        parse_branch, parse_match, parse_match_branches, Res.Fin] <;>
      omega
  | succ f ih =>
    obtain ⟨i1, i2, i3, i4, i5, i6, i7, i8, i9, i10, i11, i12, i13⟩ := ih
    exact ⟨parse_expr_fin_step f i10 i2, parse_operation_fin_step f i3 i5,
      parse_op0_fin_step f i5 i4, parse_op0_loop_fin_step f i5 i4,
      parse_op1_fin_step f i7 i6, parse_op1_loop_fin_step f i7 i6,
      parse_atom_fin_step f i12 i8, parse_fncall_fin_step f i9,
      parse_fncall_args_fin_step f i1 i9, parse_fndecl_fin_step f i1,
      parse_branch_fin_step f i7 i1, parse_match_fin_step f i1 i13,
      parse_match_branches_fin_step f i11 i13⟩

theorem parse_expr_fin (f : Nat) (r : Cursor) :
    Res.Fin 1 r (8 * r.length + 6 ≤ f) (parse_expr f r) :=
  (fin_all f).1 r

theorem parse_all_fin (f : Nat) :
    ∀ (r : Cursor) (acc : List Expr),
      Res.Fin 0 r (8 * r.length + 7 ≤ f) (parse_all f r acc) := by
  induction f with
  | zero =>
    intro r acc
    simp only [parse_all, Res.Fin]
    omega
  | succ f ih =>
    intro r acc
    rw [parse_all]
    split
    · simp only [Res.Fin]
      omega
    · have h1 := parse_expr_fin f r
      cases hs1 : parse_expr f r with
      | timeout => rw [hs1] at h1; simp only [Res.Fin] at *; omega
      | undefined => trivial
      | thrown x r1 => rw [hs1] at h1; simp only [Res.Fin] at *; omega
      | ok v1 r1 =>
        rw [hs1] at h1
        simp only [Res.Fin] at h1
        simp only
        have h2 := ih r1 (acc ++ [v1])
        cases hs2 : parse_all f r1 (acc ++ [v1]) with
        | timeout => rw [hs2] at h2; simp only [Res.Fin] at *; omega
        | undefined => trivial
        | thrown x r2 => rw [hs2] at h2; simp only [Res.Fin] at *; omega
        | ok v2 r2 => rw [hs2] at h2; simp only [Res.Fin] at *; omega

/-- An input that starts with a string literal whose closing quote is missing:
the loop of `parse_string` leaves the input. -/
theorem parse_all_unclosed (body : List Char) (h : ∀ c ∈ body, c ≠ dquote) (f : Nat) :
    parse_all (f + 7) (dquote :: body) [] = .undefined := by
  have hstr := parse_string_unclosed body h
  have hsym : expect is_symbol (dquote :: body) = false := by simp only [expect]; decide
  have hdig : expect is_digit (dquote :: body) = false := by simp only [expect]; decide
  have ht : trim (dquote :: body) = dquote :: body := trim_cons_of_not_ws (by decide)
  have hatom : parse_atom (f + 2) (dquote :: body) = .undefined := by
    rw [parse_atom]
    simp only [ht, parse_number_fail _ hdig ht, parse_match_soft f _ (Or.inl hsym),
      parse_fncall_soft f _ hsym, hstr]
  have hop1 : parse_op1 (f + 3) (dquote :: body) = .undefined := by
    rw [parse_op1, hatom]
  have hop0 : parse_op0 (f + 4) (dquote :: body) = .undefined := by
    rw [parse_op0, hop1]
  have hoper : parse_operation (f + 5) (dquote :: body) = .undefined := by
    rw [parse_operation]
    simp only [ht, hop0]
  have hexpr : parse_expr (f + 6) (dquote :: body) = .undefined := by
    rw [parse_expr]
    simp only [ht, parse_fndecl_soft (f + 4) _ (Or.inl hsym), hoper]
  rw [parse_all]
  simp [hexpr]

/-- C14: with fuel `8 * length + 7` the embedding of `parse_all` never runs out
of fuel, on any input: every rule that succeeds leaves the cursor strictly
after the position of the call, and every error leaves it at or after that
position (stated here for `parse_expr`, with any fuel). The outcome is a list
of expressions, a `ParserError`, or the overrun of the loop of `parse_string`:
on an input that starts with a double quote and holds no other, `parse_all`
returns no list and raises no error, the cursor is moved past the end of the
input. -/
theorem C14_terminates_or_overruns (s : List Char) (fuel : Nat)
    (hf : 8 * s.length + 7 ≤ fuel) :
    parse_all fuel s [] ≠ .timeout ∧
      (∀ f v q, parse_expr f s = .ok v q → q.length < s.length) ∧
      (∀ f x q, parse_expr f s = .thrown x q → q.length ≤ s.length) ∧
      (∀ body, s = dquote :: body → (∀ c ∈ body, c ≠ dquote) →
        parse_all fuel s [] = .undefined) := by
  refine ⟨?_, ?_, ?_, ?_⟩
  · intro h
    have h1 := parse_all_fin fuel s []
    rw [h] at h1
    exact h1 hf
  · intro f v q h
    have h1 := parse_expr_fin f s
    rw [h] at h1
    exact h1
  · intro f x q h
    have h1 := parse_expr_fin f s
    rw [h] at h1
    exact h1
  · intro body hs hb
    obtain ⟨g, rfl⟩ : ∃ g, fuel = g + 7 := ⟨fuel - 7, by omega⟩
    rw [hs]
    exact parse_all_unclosed body hb g

/-- The input of the divergence: a double quote followed by `abc`. -/
theorem C14_terminates_or_overruns_witness :
    parse_all 39 (dquote :: "abc".toList) [] ≠ .timeout ∧
      parse_all 39 (dquote :: "abc".toList) [] = .undefined :=
  ⟨(C14_terminates_or_overruns (dquote :: "abc".toList) 39 (by decide)).1,
    (C14_terminates_or_overruns (dquote :: "abc".toList) 39 (by decide)).2.2.2
      "abc".toList rfl (by decide)⟩

/-! ## The printed form of a compound node is not source text -/

theorem parse_expr_NoAtom (p : Cursor) (h : NoAtom p) (g : Nat) :
    parse_expr (g + 6) p = .thrown .UnknownExpression p := by
  have hop1 := parse_op1_NoAtom p h
  obtain ⟨ht, hsym, _⟩ := h
  have hop0 : parse_op0 (g + 4) p = .thrown .FailTry p := by
    rw [parse_op0, hop1 g]
  have hoper : parse_operation (g + 5) p = .thrown .FailTry p := by
    rw [parse_operation]
    simp only [ht, hop0, hop1 (g + 1)]
  rw [parse_expr]
  simp only [ht, parse_fndecl_soft (g + 4) _ (Or.inl hsym), hoper]

theorem print_expr_compound_head (sf : List Char → List Char) (t : Expr)
    (h : is_leaf t = false) : ∃ rest, print_expr sf t = '(' :: rest := by
  cases t with
  | ExprNumber v => simp [is_leaf] at h
  | ExprString v => simp [is_leaf] at h
  | ExprSymbol v => simp [is_leaf] at h
  | ExprFnCall name args => exact ⟨_, by rw [print_expr]⟩
  | ExprOperation l r op => exact ⟨_, by rw [print_expr, print_binop_eq]⟩
  | ExprFnDecl name args ret body => exact ⟨_, by rw [print_expr]; rfl⟩
  | ExprMatch v bs => exact ⟨_, by rw [print_expr]; rfl⟩

/-- The text that `print_expr` writes for a call, an operation, a declaration
or a match starts with `(`, at which no rule of the parser starts:
`parse_expr` and `parse_all` throw `UnknownExpression` on it. -/
theorem print_expr_compound_unparsed (sf : List Char → List Char) (t : Expr)
    (h : is_leaf t = false) (g : Nat) :
    parse_expr (g + 6) (print_expr sf t) = .thrown .UnknownExpression (print_expr sf t) ∧
      parse_all (g + 7) (print_expr sf t) [] =
        .thrown .UnknownExpression (print_expr sf t) := by
  obtain ⟨rest, hr⟩ := print_expr_compound_head sf t h
  have hn : NoAtom ('(' :: rest) :=
    ⟨trim_cons_of_not_ws (by decide), by simp only [expect]; decide,
      by simp only [expect_char]; decide⟩
  have he := parse_expr_NoAtom _ hn g
  rw [hr]
  refine ⟨he, ?_⟩
  rw [parse_all]
  simp [he]

theorem print_expr_compound_unparsed_example :
    print_expr id (.ExprOperation (.ExprNumber ['1']) (.ExprNumber ['2']) .Add) =
        "(+ 1 2)".toList ∧
      parse_all 7 "1 + 2".toList [] =
        .ok [.ExprOperation (.ExprNumber ['1']) (.ExprNumber ['2']) .Add] [] ∧
      parse_all 7 "(+ 1 2)".toList [] = .thrown .UnknownExpression "(+ 1 2)".toList :=
  ⟨by simp [print_expr, print_binop, is_operation], rfl, rfl⟩

/-! ## Missing delimiters of a declaration -/

theorem expect_symbol_append {t : List Char} (hne : t ≠ []) (ht : ∀ c ∈ t, is_symbol c = true)
    (rest : List Char) : expect is_symbol (t ++ rest) = true := by
  cases t with
  | nil => exact absurd rfl hne
  | cons c cs => simpa [expect] using ht c (List.mem_cons_self _ _)

theorem symbol_no_paren {t : List Char} (ht : ∀ c ∈ t, is_symbol c = true) :
    ∀ c ∈ t, c ≠ '(' ∧ c ≠ ')' := by
  intro c hc
  have := ht c hc
  constructor <;> (rintro rfl; revert this; decide)

/-- The head of a declaration whose first parameter is written `p: ...`: the
parameter loop reads `p`, finds no symbol at the colon and throws `FailTry`. -/
theorem parse_fndecl_head_typed (f p rest : List Char) (hf : isIdent f = true)
    (hp : isIdent p = true)
    (hfound : find_braces '(' ')' ('(' :: (p ++ ':' :: rest)) ≠ []) (fuel : Nat) :
    parse_fndecl_head (fuel + 1) ("func ".toList ++ (f ++ '(' :: (p ++ ':' :: rest))) =
      .thrown .FailTry (':' :: rest) := by
  obtain ⟨hfne, hfs, _, _, _, _⟩ := isIdent_spec hf
  obtain ⟨hpne, hps, _, _, _, _⟩ := isIdent_spec hp
  have hkw : parse_symbol ("func ".toList ++ (f ++ '(' :: (p ++ ':' :: rest))) =
      .ok "func".toList (' ' :: (f ++ '(' :: (p ++ ':' :: rest))) :=
    parse_symbol_ok "func".toList (' ' :: (f ++ '(' :: (p ++ ':' :: rest))) (by decide)
      (by decide) (by simp only [expect]; decide)
  have ht1 : trim (' ' :: (f ++ '(' :: (p ++ ':' :: rest))) = f ++ '(' :: (p ++ ':' :: rest) := by
    rw [trim_space]
    exact trim_of_expect_symbol (expect_symbol_append hfne hfs _)
  have hname : parse_symbol (f ++ '(' :: (p ++ ':' :: rest)) =
      .ok f ('(' :: (p ++ ':' :: rest)) :=
    parse_symbol_ok f _ hfne hfs (by simp only [expect]; decide)
  have ht2 : trim ('(' :: (p ++ ':' :: rest)) = '(' :: (p ++ ':' :: rest) :=
    trim_cons_of_not_ws (by decide)
  have hclose : (find_braces '(' ')' ('(' :: (p ++ ':' :: rest))).length ≤ rest.length := by
    unfold find_braces
    rw [find_braces_loop_open '(' ')' _ 0 (by decide),
      find_braces_loop_skip '(' ')' p (':' :: rest) _ (symbol_no_paren hps)]
    have : find_braces_loop '(' ')' (':' :: rest) (0 + 1) =
        find_braces_loop '(' ')' rest (0 + 1) :=
      find_braces_loop_skip '(' ')' [':'] rest _ (by decide)
    rw [this]
    exact find_braces_loop_length_le '(' ')' rest _
  have hlen : ((p ++ ':' :: rest).length !=
      (find_braces '(' ')' ('(' :: (p ++ ':' :: rest))).length) = true := by
    simp only [List.length_append, List.length_cons, bne_iff_ne, ne_eq]
    omega
  have ht3 : trim (p ++ ':' :: rest) = p ++ ':' :: rest :=
    trim_of_expect_symbol (expect_symbol_append hpne hps _)
  have hparam : parse_symbol (p ++ ':' :: rest) = .ok p (':' :: rest) :=
    parse_symbol_ok p _ hpne hps (by simp only [expect]; decide)
  have ht4 : trim (':' :: rest) = ':' :: rest := trim_cons_of_not_ws (by decide)
  have htype : parse_symbol (':' :: rest) = .thrown .FailTry (':' :: rest) :=
    parse_symbol_fail _ (by simp only [expect]; decide)
  have hargs : parse_fndecl_args (fuel + 1) (find_braces '(' ')' ('(' :: (p ++ ':' :: rest)))
      (p ++ ':' :: rest) [] = .thrown .FailTry (':' :: rest) := by
    rw [parse_fndecl_args]
    simp only [hlen, if_true, ht3, hparam, ht4, htype]
  have hne : (find_braces '(' ')' ('(' :: (p ++ ':' :: rest))).isEmpty = false := by
    cases hfb : find_braces '(' ')' ('(' :: (p ++ ':' :: rest)) with
    | nil => exact absurd hfb hfound
    | cons c cs => rfl
  unfold parse_fndecl_head
  simp only [hkw, bne_self_eq_false, Bool.false_eq_true, if_false, ht1, hname, ht2, expect_char,
    beq_self_eq_true, Bool.not_true, hne, List.tail_cons, hargs]

/-- The head of a declaration without parameters. -/
theorem parse_fndecl_head_empty (f rest : List Char) (hf : isIdent f = true) (fuel : Nat) :
    parse_fndecl_head (fuel + 1) ("func ".toList ++ (f ++ '(' :: ')' :: rest)) =
      .ok (f, []) (')' :: rest) := by
  obtain ⟨hfne, hfs, _, _, _, _⟩ := isIdent_spec hf
  have hkw : parse_symbol ("func ".toList ++ (f ++ '(' :: ')' :: rest)) =
      .ok "func".toList (' ' :: (f ++ '(' :: ')' :: rest)) :=
    parse_symbol_ok "func".toList (' ' :: (f ++ '(' :: ')' :: rest)) (by decide)
      (by decide) (by simp only [expect]; decide)
  have ht1 : trim (' ' :: (f ++ '(' :: ')' :: rest)) = f ++ '(' :: ')' :: rest := by
    rw [trim_space]
    exact trim_of_expect_symbol (expect_symbol_append hfne hfs _)
  have hname : parse_symbol (f ++ '(' :: ')' :: rest) = .ok f ('(' :: ')' :: rest) :=
    parse_symbol_ok f _ hfne hfs (by simp only [expect]; decide)
  have ht2 : trim ('(' :: ')' :: rest) = '(' :: ')' :: rest :=
    trim_cons_of_not_ws (by decide)
  have hfb : find_braces '(' ')' ('(' :: ')' :: rest) = ')' :: rest := by
    simp [find_braces, find_braces_loop]
  have hargs : parse_fndecl_args (fuel + 1) (')' :: rest) (')' :: rest) [] =
      .ok [] (')' :: rest) := by
    rw [parse_fndecl_args]
    simp
  unfold parse_fndecl_head
  simp only [hkw, bne_self_eq_false, Bool.false_eq_true, if_false, ht1, hname, ht2, expect_char,
    beq_self_eq_true, Bool.not_true, hfb, List.isEmpty_cons, List.tail_cons, hargs]

theorem parse_operation_NoAtom (p : Cursor) (h : NoAtom p) (g : Nat) :
    parse_operation (g + 5) p = .thrown .FailTry p := by
  have hop1 := parse_op1_NoAtom p h
  obtain ⟨ht, _, _⟩ := h
  have hop0 : parse_op0 (g + 4) p = .thrown .FailTry p := by
    rw [parse_op0, hop1 g]
  rw [parse_operation]
  simp only [ht, hop0, hop1 (g + 1)]

theorem trim_func (x : List Char) : trim ("func ".toList ++ x) = "func ".toList ++ x :=
  trim_cons_of_not_ws (by decide)

/-- C10: the error kinds of `parse_fndecl` for a missing delimiter are reached
only when the parameter list has been read, and a parameter written `p: t`
is not read (the loop never takes the colon). For every declaration
`func f(p: ...` whose parenthesis is closed, whatever follows the parameter
list, `parse_expr` and `parse_all` throw `UnknownExpression` at the colon: no
`ExpectedReturn`, `ExpectedBlock` or `UnclosedCurlies`. For a declaration
`func f()` without parameters the kinds are those of the claim: no `->` after
the parenthesis gives `ExpectedReturn`; `->` and a return type followed by
something else than an opening brace give `ExpectedBlock`; a body that parses
and is not followed by a closing brace gives `UnclosedCurlies`. -/
theorem C10_missing_delimiters (f p : List Char) (hf : isIdent f = true)
    (hp : isIdent p = true) (fuel : Nat) :
    (∀ rest, find_braces '(' ')' ('(' :: (p ++ ':' :: rest)) ≠ [] →
        parse_expr (fuel + 6) ("func ".toList ++ (f ++ '(' :: (p ++ ':' :: rest))) =
          .thrown .UnknownExpression (':' :: rest) ∧
        parse_all (fuel + 7) ("func ".toList ++ (f ++ '(' :: (p ++ ':' :: rest))) [] =
          .thrown .UnknownExpression (':' :: rest)) ∧
      (∀ rest, expect_str "->".toList (trim rest) = false →
        parse_expr (fuel + 3) ("func ".toList ++ (f ++ '(' :: ')' :: rest)) =
          .thrown .ExpectedReturn (trim rest)) ∧
      (∀ ret rest, isIdent ret = true → expect is_symbol rest = false →
        expect_char '{' (trim rest) = false →
        parse_expr (fuel + 3) ("func ".toList ++ (f ++ "() -> ".toList ++ (ret ++ rest))) =
          .thrown .ExpectedBlock (trim rest)) ∧
      (∀ ret rest body it, isIdent ret = true →
        parse_expr (fuel + 1) rest = .ok body it → expect_char '}' it = false →
        parse_expr (fuel + 3)
            ("func ".toList ++ (f ++ "() -> ".toList ++ (ret ++ ' ' :: '{' :: rest))) =
          .thrown .UnclosedCurlies it) := by
  refine ⟨?_, ?_, ?_, ?_⟩
  · intro rest hfound
    have hhead := parse_fndecl_head_typed f p rest hf hp hfound (fuel + 3)
    have hdecl : parse_fndecl (fuel + 5) ("func ".toList ++ (f ++ '(' :: (p ++ ':' :: rest))) =
        .thrown .FailTry (':' :: rest) := by
      rw [parse_fndecl, hhead]
    have hn : NoAtom (':' :: rest) :=
      ⟨trim_cons_of_not_ws (by decide), by simp only [expect]; decide,
        by simp only [expect_char]; decide⟩
    have hexpr : parse_expr (fuel + 6) ("func ".toList ++ (f ++ '(' :: (p ++ ':' :: rest))) =
        .thrown .UnknownExpression (':' :: rest) := by
      rw [parse_expr]
      simp only [trim_func, hdecl, parse_operation_NoAtom _ hn fuel]
    refine ⟨hexpr, ?_⟩
    rw [parse_all, hexpr]
    rfl
  · intro rest harrow
    have hhead := parse_fndecl_head_empty f rest hf fuel
    rw [← trim_func] at hhead
    have := (parse_fndecl_after_head (fuel + 1) _ _ _ hhead).1
    simp only [List.tail_cons] at this
    exact this harrow
  · intro ret rest hret hrest hblock
    obtain ⟨hrne, hrs, hrsym, _, _, _⟩ := isIdent_spec hret
    have hhead := parse_fndecl_head_empty f (" -> ".toList ++ (ret ++ rest)) hf fuel
    rw [← trim_func] at hhead
    have h2 := (parse_fndecl_after_head (fuel + 1) _ _ _ hhead).2 ret rest
    have ht : trim (" -> ".toList ++ (ret ++ rest)) = "->".toList ++ ' ' :: (ret ++ rest) := by
      show trim (' ' :: '-' :: '>' :: ' ' :: (ret ++ rest)) = _
      rw [trim_space]
      exact trim_cons_of_not_ws (by decide)
    have hd : trim (List.drop 2 ("->".toList ++ ' ' :: (ret ++ rest))) = ret ++ rest := by
      show trim (' ' :: (ret ++ rest)) = _
      rw [trim_space]
      exact trim_of_expect_symbol (expect_symbol_append hrne hrs _)
    simp only [List.tail_cons, ht, hd] at h2
    have h3 := (h2 rfl (parse_symbol_ok ret rest hrne hrs hrest)).1 hblock
    simpa using h3
  · intro ret rest body it hret hbody hclose
    obtain ⟨hrne, hrs, hrsym, _, _, _⟩ := isIdent_spec hret
    have hhead := parse_fndecl_head_empty f (" -> ".toList ++ (ret ++ ' ' :: '{' :: rest)) hf fuel
    rw [← trim_func] at hhead
    have h2 := (parse_fndecl_after_head (fuel + 1) _ _ _ hhead).2 ret (' ' :: '{' :: rest)
    have ht : trim (" -> ".toList ++ (ret ++ ' ' :: '{' :: rest)) =
        "->".toList ++ ' ' :: (ret ++ ' ' :: '{' :: rest) := by
      show trim (' ' :: '-' :: '>' :: ' ' :: (ret ++ ' ' :: '{' :: rest)) = _
      rw [trim_space]
      exact trim_cons_of_not_ws (by decide)
    have hd : trim (List.drop 2 ("->".toList ++ ' ' :: (ret ++ ' ' :: '{' :: rest))) =
        ret ++ ' ' :: '{' :: rest := by
      show trim (' ' :: (ret ++ ' ' :: '{' :: rest)) = _
      rw [trim_space]
      exact trim_of_expect_symbol (expect_symbol_append hrne hrs _)
    have hb : trim (' ' :: '{' :: rest) = '{' :: rest := by
      rw [trim_space]
      exact trim_cons_of_not_ws (by decide)
    simp only [List.tail_cons, ht, hd] at h2
    have h3 := (h2 rfl (parse_symbol_ok ret _ hrne hrs (by simp only [expect]; decide))).2 body it
    simp only [hb, List.tail_cons] at h3
    have h4 := (h3 (by simp [expect_char]) hbody).1 hclose
    simpa using h4

/-- The declaration `func f(a: int) int \x7b 1 \x7d`, with a parameter and
without `->`: `UnknownExpression` at the colon. The declarations of `f` without
parameters: no arrow, no opening brace, no closing brace. -/
theorem C10_missing_delimiters_witness :
    parse_expr 6 "func f(a: int) int \x7b 1 \x7d".toList =
        .thrown .UnknownExpression ": int) int \x7b 1 \x7d".toList ∧
      parse_expr 10 "func f() int \x7b 1 \x7d".toList =
        .thrown .ExpectedReturn "int \x7b 1 \x7d".toList ∧
      parse_expr 10 "func f() -> int 1".toList = .thrown .ExpectedBlock "1".toList ∧
      parse_expr 10 "func f() -> int \x7b 1 ".toList = .thrown .UnclosedCurlies [] :=
  ⟨((C10_missing_delimiters "f".toList "a".toList (by decide) (by decide) 0).1
      " int) int \x7b 1 \x7d".toList (by decide)).1,
    (C10_missing_delimiters "f".toList "a".toList (by decide) (by decide) 7).2.1
      " int \x7b 1 \x7d".toList rfl,
    (C10_missing_delimiters "f".toList "a".toList (by decide) (by decide) 7).2.2.1
      "int".toList " 1".toList (by decide) rfl rfl,
    (C10_missing_delimiters "f".toList "a".toList (by decide) (by decide) 7).2.2.2
      "int".toList " 1 ".toList (.ExprNumber ['1']) [] (by decide) rfl rfl⟩

/-! ## Parsing what the printer writes -/

theorem parse_all_single (fuel : Nat) (x : Cursor) (t : Expr) (hx : x ≠ [])
    (h : parse_expr (fuel + 1) x = .ok t []) :
    parse_all (fuel + 2) x [] = .ok [t] [] := by
  have hne : x.isEmpty = false := by
    cases x with
    | nil => exact absurd rfl hx
    | cons _ _ => rfl
  rw [parse_all]
  simp only [hne, Bool.false_eq_true, if_false, h]
  rw [parse_all]
  simp

theorem parse_expr_string (body : List Char) (h : ∀ c ∈ body, c ≠ dquote) (f : Nat) :
    parse_expr (f + 6) (dquote :: (body ++ [dquote])) = .ok (.ExprString body) [] := by
  have hsym : expect is_symbol (dquote :: (body ++ [dquote])) = false := by
    simp only [expect]; decide
  have hdig : expect is_digit (dquote :: (body ++ [dquote])) = false := by
    simp only [expect]; decide
  have ht : trim (dquote :: (body ++ [dquote])) = dquote :: (body ++ [dquote]) :=
    trim_cons_of_not_ws (by decide)
  have hatom : parse_atom (f + 1 + 1) (dquote :: (body ++ [dquote])) =
      .ok (.ExprString body) [] := by
    rw [parse_atom]
    simp only [ht, parse_number_fail _ hdig ht, parse_match_soft f _ (Or.inl hsym),
      parse_fncall_soft f _ hsym, parse_string_ok body [] h]
  exact parse_expr_of_atom (f + 1) _ _ [] ht (Or.inl hsym) hatom rfl rfl rfl rfl

/-- C16, counterexample: `1e+06` is what the printer writes for the number
`1000000` (`operator<<` on a `float` writes six significant digits and an
exponent from `1e+06` on), and it parses successfully: `parse_all` reads the
expressions `1` and `e + 06`. The printed form of the second one starts with
an opening parenthesis, with any rendering of its number, and does not parse:
`UnknownExpression`. The same with no number involved: the printer writes the
string node with the value `a"+"b` as `"a"+"b"`, which parses to the sum of
two strings, whose printed form `(+ "a" "b")` does not parse. -/
theorem C16_counterexample :
    parse_all 12 "1000000".toList [] = .ok [.ExprNumber "1000000".toList] [] ∧
      parse_all 12 "1e+06".toList [] =
        .ok [.ExprNumber "1".toList,
          .ExprOperation (.ExprSymbol "e".toList) (.ExprNumber "06".toList) .Add] [] ∧
      (∀ show_float : List Char → List Char,
        print_expr show_float
            (.ExprOperation (.ExprSymbol "e".toList) (.ExprNumber "06".toList) .Add) =
          "(+ e ".toList ++ show_float "06".toList ++ ")".toList) ∧
      (∀ (show_float : List Char → List Char) (fuel : Nat),
        parse_all (fuel + 7) (print_expr show_float
            (.ExprOperation (.ExprSymbol "e".toList) (.ExprNumber "06".toList) .Add)) [] =
          .thrown .UnknownExpression (print_expr show_float
            (.ExprOperation (.ExprSymbol "e".toList) (.ExprNumber "06".toList) .Add))) ∧
      (∀ show_float : List Char → List Char,
        print_expr show_float (.ExprString ('a' :: dquote :: '+' :: dquote :: 'b' :: [])) =
          dquote :: 'a' :: dquote :: '+' :: dquote :: 'b' :: dquote :: []) ∧
      parse_all 12 (dquote :: 'a' :: dquote :: '+' :: dquote :: 'b' :: dquote :: []) [] =
        .ok [.ExprOperation (.ExprString "a".toList) (.ExprString "b".toList) .Add] [] ∧
      (∀ show_float : List Char → List Char,
        print_expr show_float
            (.ExprOperation (.ExprString "a".toList) (.ExprString "b".toList) .Add) =
          '(' :: '+' :: ' ' :: dquote :: 'a' :: dquote :: ' ' :: dquote :: 'b' :: dquote ::
            ')' :: []) ∧
      (∀ (show_float : List Char → List Char) (fuel : Nat),
        parse_all (fuel + 7) (print_expr show_float
            (.ExprOperation (.ExprString "a".toList) (.ExprString "b".toList) .Add)) [] =
          .thrown .UnknownExpression (print_expr show_float
            (.ExprOperation (.ExprString "a".toList) (.ExprString "b".toList) .Add))) :=
  ⟨rfl, rfl, fun sf => by simp [print_expr, print_binop, is_operation],
    fun sf fuel => (print_expr_compound_unparsed sf
      (.ExprOperation (.ExprSymbol "e".toList) (.ExprNumber "06".toList) .Add) rfl fuel).2,
    fun sf => by simp [print_expr], rfl,
    fun sf => by simp [print_expr, print_binop, is_operation],
    fun sf fuel => (print_expr_compound_unparsed sf
      (.ExprOperation (.ExprString "a".toList) (.ExprString "b".toList) .Add) rfl fuel).2⟩

/-- C16, amended: the round trip through the printer holds for the nodes that
the printer writes as source text, and for no other node. For every rendering
`show_float` of a number: the printed form of a string literal without a
double quote and of an identifier parses to the node that was printed; the
printed form of a number, when it is a number literal, parses to the number
node of the printed text, which is the node that was printed when the number
is rendered as its own literal; the printed form of every call, operation,
declaration and match is rejected with `UnknownExpression`. -/
theorem C16_round_trip_leaves (show_float : List Char → List Char) (fuel : Nat)
    (hf : 9 ≤ fuel) :
    (∀ body, (∀ c ∈ body, c ≠ dquote) →
        parse_all fuel (print_expr show_float (.ExprString body)) [] =
          .ok [.ExprString body] []) ∧
      (∀ x, isIdent x = true →
        parse_all fuel (print_expr show_float (.ExprSymbol x)) [] = .ok [.ExprSymbol x] []) ∧
      (∀ N, isNumLit (show_float N) = true →
        parse_all fuel (print_expr show_float (.ExprNumber N)) [] =
          .ok [.ExprNumber (show_float N)] []) ∧
      (∀ N, isNumLit N = true → show_float N = N →
        parse_all fuel (print_expr show_float (.ExprNumber N)) [] = .ok [.ExprNumber N] []) ∧
      (∀ t, is_leaf t = false →
        parse_all fuel (print_expr show_float t) [] =
          .thrown .UnknownExpression (print_expr show_float t)) := by
  obtain ⟨g, rfl⟩ : ∃ g, fuel = g + 9 := ⟨fuel - 9, by omega⟩
  have hnum : ∀ N, isNumLit (show_float N) = true →
      parse_all (g + 9) (print_expr show_float (.ExprNumber N)) [] =
        .ok [.ExprNumber (show_float N)] [] := by
    intro N hN
    have hat : isAtom (show_float N) = true := by simp [isAtom, hN]
    have h := parse_expr_atom (show_float N) [] hat Op0End_nil (g + 8) (by omega)
    rw [List.append_nil, atomExpr_num hN] at h
    rw [print_expr]
    exact parse_all_single (g + 7) _ _ (isAtom_ne_nil hat) h
  refine ⟨?_, ?_, hnum, ?_, ?_⟩
  · intro body hb
    rw [print_expr]
    exact parse_all_single (g + 7) _ _ (List.cons_ne_nil _ _) (parse_expr_string body hb (g + 2))
  · intro x hx
    have hat : isAtom x = true := by simp [isAtom, hx]
    have h := parse_expr_atom x [] hat Op0End_nil (g + 8) (by omega)
    rw [List.append_nil, atomExpr_ident hx] at h
    rw [print_expr]
    exact parse_all_single (g + 7) _ _ (isAtom_ne_nil hat) h
  · intro N hN hid
    have h := hnum N (by rw [hid]; exact hN)
    rw [hid] at h
    exact h
  · intro t ht
    exact (print_expr_compound_unparsed show_float t ht (g + 2)).2

/-- The printed forms of the string `abc`, of `x`, `42` and `3.14` parse back; that
of `1 + 2` does not. -/
theorem C16_round_trip_leaves_witness :
    parse_all 9 (print_expr id (.ExprString "abc".toList)) [] =
        .ok [.ExprString "abc".toList] [] ∧
      parse_all 9 (print_expr id (.ExprSymbol "x".toList)) [] =
        .ok [.ExprSymbol "x".toList] [] ∧
      parse_all 9 (print_expr id (.ExprNumber "42".toList)) [] =
        .ok [.ExprNumber "42".toList] [] ∧
      parse_all 9 (print_expr id (.ExprNumber "3.14".toList)) [] =
        .ok [.ExprNumber "3.14".toList] [] ∧
      parse_all 9 (print_expr id
          (.ExprOperation (.ExprNumber "1".toList) (.ExprNumber "2".toList) .Add)) [] =
        .thrown .UnknownExpression (print_expr id
          (.ExprOperation (.ExprNumber "1".toList) (.ExprNumber "2".toList) .Add)) :=
  ⟨(C16_round_trip_leaves id 9 (by decide)).1 "abc".toList (by decide),
    (C16_round_trip_leaves id 9 (by decide)).2.1 "x".toList (by decide),
    (C16_round_trip_leaves id 9 (by decide)).2.2.1 "42".toList (by decide),
    (C16_round_trip_leaves id 9 (by decide)).2.2.2.1 "3.14".toList (by decide) rfl,
    (C16_round_trip_leaves id 9 (by decide)).2.2.2.2
      (.ExprOperation (.ExprNumber "1".toList) (.ExprNumber "2".toList) .Add) rfl⟩

/-! ## Runs that end before the end of the input: cursor primitives

A run of a rule that succeeds or soft-fails with the cursor before the end of
the input has not seen the end of the input: it gives the same outcome when
any text `w` is appended to the input. -/

theorem Res.live_pos {α : Type} {n : Nat} {c : Cursor} {e : Prop} {x : Res α}
    (hfin : Res.Fin n c e x) (hl : Res.live x) : 0 < c.length := by
  cases x with
  | ok v q =>
    have h1 : q.length + n ≤ c.length := hfin
    have h2 : 0 < q.length := hl
    omega
  | thrown x q =>
    cases x with
    | FailTry =>
      have h1 : q.length ≤ c.length := hfin
      have h2 : 0 < q.length := hl
      omega
    | _ => exact absurd hl (by simp [Res.live])
  | undefined => exact absurd hl (by simp [Res.live])
  | timeout => exact absurd hl (by simp [Res.live])

theorem Res.live_thrown {α β : Type} {x : ParserError} {q : Cursor}
    (h : Res.live (.thrown x q : Res α)) : Res.live (.thrown x q : Res β) := by
  cases x <;> exact h

theorem trim_append_pos (q w : List Char) (h : 0 < (trim q).length) :
    trim (q ++ w) = trim q ++ w := by
  induction q with
  | nil => simp [trim] at h
  | cons c cs ih =>
    by_cases hc : is_ws c = true
    · simp only [trim, hc, if_true, List.cons_append] at h ⊢
      exact ih h
    · simp [trim, hc]

theorem expect_append_pos (fn : Char → Bool) (q w : List Char) (h : 0 < q.length) :
    expect fn (q ++ w) = expect fn q := by
  cases q with
  | nil => simp at h
  | cons c cs => rfl

theorem expect_char_append_pos (c : Char) (q w : List Char) (h : 0 < q.length) :
    expect_char c (q ++ w) = expect_char c q := by
  cases q with
  | nil => simp at h
  | cons c cs => rfl

theorem tail_append_pos (q w : List Char) (h : 0 < q.length) :
    (q ++ w).tail = q.tail ++ w := by
  cases q with
  | nil => simp at h
  | cons c cs => rfl

theorem expect_arrow_append (q w : List Char) (h : expect_str "->".toList q = true) :
    expect_str "->".toList (q ++ w) = true ∧ (q ++ w).drop 2 = q.drop 2 ++ w := by
  obtain ⟨rs, rfl⟩ := expect_arrow_length h
  exact ⟨by simp [expect_str], rfl⟩

theorem length_ne_append (q c w : List Char) :
    ((q ++ w).length != (c ++ w).length) = (q.length != c.length) := by
  simp [bne]

theorem scan_append_pos (fn : Char → Bool) (w q : List Char)
    (h : 0 < (scan fn q).2.length) :
    scan fn (q ++ w) = ((scan fn q).1, (scan fn q).2 ++ w) := by
  induction q with
  | nil => simp [scan] at h
  | cons c cs ih =>
    by_cases hc : fn c = true
    · simp only [scan, hc, if_true] at h
      rw [List.cons_append]
      simp only [scan, hc, if_true, ih h]
    · simp [scan, hc]

theorem parse_symbol_app (w : List Char) (q : Cursor) (hl : Res.live (parse_symbol q)) :
    parse_symbol (q ++ w) = Res.app w (parse_symbol q) := by
  unfold parse_symbol at hl ⊢
  by_cases h : expect is_symbol q = true
  · simp only [h, Bool.not_true, Bool.false_eq_true, if_false] at hl ⊢
    have hq : 0 < q.length := by
      cases q with
      | nil => simp [expect] at h
      | cons c cs => simp
    have hp : 0 < (scan is_symbol q).2.length := hl
    rw [expect_append_pos is_symbol q w hq, scan_append_pos is_symbol w q hp]
    simp [h, Res.app]
  · simp only [h, Bool.not_false, if_true] at hl ⊢
    have hq : 0 < q.length := hl
    rw [expect_append_pos is_symbol q w hq]
    simp [h, Res.app]

theorem parse_symbol_ok_live {x : Cursor} {s : List Char} {q : Cursor}
    (h : parse_symbol x = .ok s q) (hq : 0 < q.length) : Res.live (parse_symbol x) := by
  rw [h]; exact hq

theorem parse_symbol_nil : parse_symbol (trim []) = .thrown .FailTry [] := rfl

theorem parse_number_app (w : List Char) (q : Cursor)
    (hl : Res.live (parse_number q)) :
    parse_number (q ++ w) = Res.app w (parse_number q) := by
  have hfin := parse_number_fin q
  unfold parse_number at hl hfin ⊢
  simp only at hl hfin ⊢
  by_cases hd : expect is_digit (trim q) = true
  · simp only [hd, Bool.not_true, Bool.false_eq_true, if_false] at hl hfin ⊢
    have hpos : 0 < (trim q).length := by
      cases htq : trim q with
      | nil => rw [htq] at hd; simp [expect] at hd
      | cons c cs => simp
    by_cases hdot : expect_char '.' (scan is_digit (trim q)).2 = true
    · simp only [hdot, if_true] at hl
      have hp2 := expect_char_length hdot
      have hp3 : 0 < (scan is_digit (scan is_digit (trim q)).2.tail).2.length := hl
      rw [trim_append_pos q w hpos, expect_append_pos is_digit _ w hpos, hd,
        scan_append_pos is_digit w _ hp2]
      simp only [Bool.not_true, Bool.false_eq_true, if_false]
      rw [expect_char_append_pos '.' _ w hp2, hdot, tail_append_pos _ w hp2,
        scan_append_pos is_digit w _ hp3]
      simp [Res.app]
    · simp only [hdot, Bool.false_eq_true, if_false] at hl
      have hp2 : 0 < (scan is_digit (trim q)).2.length := hl
      rw [trim_append_pos q w hpos, expect_append_pos is_digit _ w hpos, hd,
        scan_append_pos is_digit w _ hp2]
      simp only [Bool.not_true, Bool.false_eq_true, if_false]
      rw [expect_char_append_pos '.' _ w hp2]
      simp [hdot, Res.app]
  · simp only [hd, Bool.not_false, if_true] at hl ⊢
    have hpos : 0 < (trim q).length := hl
    rw [trim_append_pos q w hpos, expect_append_pos is_digit _ w hpos]
    simp [hd, Res.app]

theorem scan_string_app (w : List Char) (q s r : List Char) (h : scan_string q = some (s, r)) :
    scan_string (q ++ w) = some (s, r ++ w) := by
  induction q generalizing s with
  | nil => simp [scan_string] at h
  | cons c cs ih =>
    rw [List.cons_append, scan_string_cons c (cs ++ w)]
    rw [scan_string_cons c cs] at h
    have hcc : expect_char dquote (c :: (cs ++ w)) = expect_char dquote (c :: cs) := rfl
    rw [hcc]
    by_cases hc : expect_char dquote (c :: cs) = true
    · simp only [hc, if_true, Option.some.injEq, Prod.mk.injEq] at h ⊢
      exact ⟨h.1, by rw [← h.2]; rfl⟩
    · have hc2 : expect_char dquote (c :: cs) = false := by simpa using hc
      simp only [hc2, Bool.false_eq_true, if_false] at h ⊢
      cases hs : scan_string cs with
      | none => rw [hs] at h; simp at h
      | some p =>
        rw [hs] at h
        simp only [Option.some.injEq, Prod.mk.injEq] at h
        rw [ih p.1 (by rw [hs, ← h.2])]
        simp only [Option.some.injEq, Prod.mk.injEq]
        exact ⟨h.1, trivial⟩

theorem parse_string_app (w : List Char) (q : Cursor) (hl : Res.live (parse_string q)) :
    parse_string (q ++ w) = Res.app w (parse_string q) := by
  unfold parse_string at hl ⊢
  simp only at hl ⊢
  by_cases hq : expect_char dquote (trim q) = true
  · simp only [hq, Bool.not_true, Bool.false_eq_true, if_false] at hl ⊢
    have hpos := expect_char_length hq
    rw [trim_append_pos q w hpos, expect_char_append_pos dquote _ w hpos, hq,
      tail_append_pos _ w hpos]
    simp only [Bool.not_true, Bool.false_eq_true, if_false]
    cases hs : scan_string (trim q).tail with
    | none => rw [hs] at hl; exact absurd hl (by simp [Res.live])
    | some p =>
      rw [hs] at hl
      simp only at hl
      rw [scan_string_app w _ p.1 p.2 hs]
      simp only
      cases hp : p.2 with
      | nil => rw [hp] at hl; simp [Res.live] at hl
      | cons c cs =>
        rw [hp] at hl
        simp only [List.isEmpty_cons, Bool.false_eq_true, if_false, List.tail_cons] at hl
        have hpos2 : 0 < cs.length := hl
        cases cs with
        | nil => simp at hpos2
        | cons d ds => simp [Res.app]
  · simp only [hq, Bool.not_false, if_true] at hl ⊢
    have hpos : 0 < (trim q).length := hl
    rw [trim_append_pos q w hpos, expect_char_append_pos dquote _ w hpos]
    simp [hq, Res.app]

theorem find_braces_loop_app (l r : Char) (w : List Char) (t : List Char) (d : Int)
    (h : find_braces_loop l r t d ≠ []) :
    find_braces_loop l r (t ++ w) d = find_braces_loop l r t d ++ w := by
  induction t generalizing d with
  | nil => exact absurd rfl h
  | cons c cs ih =>
    rw [List.cons_append, find_braces_loop_step l r c (cs ++ w)]
    rw [find_braces_loop_step l r c cs] at h ⊢
    by_cases h1 : (c == r) = true
    · simp only [h1, if_true] at h ⊢
      by_cases h2 : ((if c == l then d + 1 else d) - 1 == 0) = true
      · simp only [h2, if_true]
        rfl
      · simp only [h2, if_false] at h ⊢
        exact ih _ h
    · simp only [h1, if_false] at h ⊢
      exact ih _ h

theorem find_braces_app (l r : Char) (w q : List Char) (h : find_braces l r q ≠ []) :
    find_braces l r (q ++ w) = find_braces l r q ++ w :=
  find_braces_loop_app l r w q 0 h

theorem isEmpty_false_of_ne_nil {c : List Char} (h : c.isEmpty = false) : c ≠ [] := by
  rintro rfl
  simp at h

/-! ## Runs that end before the end of the input: the parameter list -/

theorem parse_fndecl_args_app (w : List Char) (f : Nat) :
    ∀ (close q : Cursor) (acc : List (List Char × List Char)),
      Res.live (parse_fndecl_args f close q acc) →
      parse_fndecl_args f (close ++ w) (q ++ w) acc =
        Res.app w (parse_fndecl_args f close q acc) := by
  induction f with
  | zero => intro close q acc hl; exact absurd hl (by simp [parse_fndecl_args, Res.live])
  | succ f ih =>
    intro close q acc hl
    rw [parse_fndecl_args] at hl
    rw [parse_fndecl_args, parse_fndecl_args, length_ne_append]
    by_cases hlen : (q.length != close.length) = true
    · simp only [hlen, if_true] at hl ⊢
      have f1 := parse_symbol_fin (trim q)
      cases hs1 : parse_symbol (trim q) with
      | timeout => rw [hs1] at hl; exact absurd hl (by simp [Res.live])
      | undefined => rw [hs1] at hl; exact absurd hl (by simp [Res.live])
      | thrown x q1 =>
        rw [hs1] at hl f1
        simp only at hl
        have hp := Res.live_pos f1 (Res.live_thrown hl)
        have hl1 : Res.live (parse_symbol (trim q)) := by rw [hs1]; exact Res.live_thrown hl
        rw [trim_append_pos q w hp, parse_symbol_app w _ hl1, hs1]
        rfl
      | ok a q1 =>
        rw [hs1] at hl f1
        simp only at hl
        have hp : 0 < (trim q).length := by
          have : q1.length + 1 ≤ (trim q).length := f1
          omega
        have hq1 : 0 < q1.length := by
          cases q1 with
          | nil => rw [parse_symbol_nil] at hl; exact absurd hl (by simp [Res.live])
          | cons c cs => simp
        rw [trim_append_pos q w hp, parse_symbol_app w _ (parse_symbol_ok_live hs1 hq1), hs1]
        simp only [Res.app]
        have f2 := parse_symbol_fin (trim q1)
        cases hs2 : parse_symbol (trim q1) with
        | timeout => rw [hs2] at hl; exact absurd hl (by simp [Res.live])
        | undefined => rw [hs2] at hl; exact absurd hl (by simp [Res.live])
        | thrown x q2 =>
          rw [hs2] at hl f2
          simp only at hl
          have hp2 := Res.live_pos f2 (Res.live_thrown hl)
          have hl2 : Res.live (parse_symbol (trim q1)) := by
            rw [hs2]; exact Res.live_thrown hl
          rw [trim_append_pos q1 w hp2, parse_symbol_app w _ hl2, hs2]
          rfl
        | ok ty q2 =>
          rw [hs2] at hl f2
          simp only at hl
          have hp2 : 0 < (trim q1).length := by
            have : q2.length + 1 ≤ (trim q1).length := f2
            omega
          have hq2 : 0 < q2.length := by
            cases q2 with
            | nil =>
              exfalso
              simp only [trim, expect_char, Bool.not_false, if_true] at hl
              split at hl <;> simp [Res.live] at hl
            | cons c cs => simp
          rw [trim_append_pos q1 w hp2, parse_symbol_app w _ (parse_symbol_ok_live hs2 hq2), hs2]
          simp only [Res.app]
          by_cases hcomma : expect_char ',' (trim q2) = true
          · have hp3 := expect_char_length hcomma
            simp only [hcomma, Bool.not_true, Bool.false_eq_true, if_false] at hl
            rw [trim_append_pos q2 w hp3, expect_char_append_pos ',' _ w hp3,
              tail_append_pos _ w hp3]
            simp only [hcomma, Bool.not_true, Bool.false_eq_true, if_false]
            exact ih close _ _ hl
          · have hcomma2 : expect_char ',' (trim q2) = false := by simpa using hcomma
            simp only [hcomma2, Bool.not_false, if_true] at hl
            by_cases hlen2 : ((trim q2).length != close.length) = true
            · simp only [hlen2, if_true] at hl
              exact absurd hl (by simp [Res.live])
            · simp only [hlen2, Bool.false_eq_true, if_false] at hl
              have hp3 : 0 < (trim q2).length := hl
              rw [trim_append_pos q2 w hp3, expect_char_append_pos ',' _ w hp3,
                length_ne_append]
              simp only [hcomma2, Bool.not_false, if_true, hlen2, Bool.false_eq_true, if_false]
    · simp only [hlen, Bool.false_eq_true, if_false] at hl ⊢
      rfl

/-- The keyword test of `parse_fndecl` and of `parse_match` reads an
identifier and restores the cursor when it is not the keyword. The test has the
same outcome on a longer input when the identifier ends before the end of the
input, or starts with a digit. -/
theorem parse_fndecl_head_app (w : List Char) (f : Nat) (q : Cursor)
    (hk : 0 < (scan is_symbol q).2.length ∨ expect is_digit q = true)
    (hl : Res.live (parse_fndecl_head f q)) :
    parse_fndecl_head f (q ++ w) = Res.app w (parse_fndecl_head f q) := by
  rcases hk with hk | hk
  · unfold parse_fndecl_head at hl ⊢
    simp only at hl ⊢
    have hl0 : Res.live (parse_symbol q) := by
      unfold parse_symbol
      by_cases h : expect is_symbol q = true
      · simp only [h, Bool.not_true, Bool.false_eq_true, if_false]
        exact hk
      · have h2 : expect is_symbol q = false := by simpa using h
        simp only [parse_symbol, h2, Bool.not_false, if_true] at hl ⊢
        exact hl
    rw [parse_symbol_app w q hl0]
    cases hs1 : parse_symbol q with
    | timeout => rw [hs1] at hl; exact absurd hl (by simp [Res.live])
    | undefined => rw [hs1] at hl; exact absurd hl (by simp [Res.live])
    | thrown x q1 => rfl
    | ok kw q1 =>
      rw [hs1] at hl
      simp only [Res.app] at hl ⊢
      by_cases hkw : (kw != "func".toList) = true
      · simp only [hkw, if_true]
      · simp only [hkw, Bool.false_eq_true, if_false] at hl ⊢
        have f2 := parse_symbol_fin (trim q1)
        cases hs2 : parse_symbol (trim q1) with
        | timeout => rw [hs2] at hl; exact absurd hl (by simp [Res.live])
        | undefined => rw [hs2] at hl; exact absurd hl (by simp [Res.live])
        | thrown x q2 =>
          rw [hs2] at hl f2
          simp only at hl
          have hp2 := Res.live_pos f2 (Res.live_thrown hl)
          have hl2 : Res.live (parse_symbol (trim q1)) := by
            rw [hs2]; exact Res.live_thrown hl
          rw [trim_append_pos q1 w hp2, parse_symbol_app w _ hl2, hs2]
          rfl
        | ok name q2 =>
          rw [hs2] at hl f2
          simp only at hl
          have hp2 : 0 < (trim q1).length := by
            have : q2.length + 1 ≤ (trim q1).length := f2
            omega
          have hq2 : 0 < q2.length := by
            cases q2 with
            | nil => exact absurd hl (by simp [trim, expect_char, Res.live])
            | cons c cs => simp
          rw [trim_append_pos q1 w hp2, parse_symbol_app w _ (parse_symbol_ok_live hs2 hq2),
            hs2]
          simp only [Res.app]
          by_cases hparen : expect_char '(' (trim q2) = true
          · have hp3 := expect_char_length hparen
            simp only [hparen, Bool.not_true, Bool.false_eq_true, if_false] at hl
            rw [trim_append_pos q2 w hp3, expect_char_append_pos '(' _ w hp3]
            simp only [hparen, Bool.not_true, Bool.false_eq_true, if_false]
            by_cases hclose : (find_braces '(' ')' (trim q2)).isEmpty = true
            · simp only [hclose, if_true] at hl
              exact absurd hl (by simp [Res.live])
            · have hclose2 : (find_braces '(' ')' (trim q2)).isEmpty = false := by
                simpa using hclose
              have hne := isEmpty_false_of_ne_nil hclose2
              simp only [hclose2, Bool.false_eq_true, if_false] at hl
              rw [find_braces_app '(' ')' w _ hne, (isEmpty_append_of_ne_nil hne w).1,
                tail_append_pos _ w hp3]
              simp only [hclose2, Bool.false_eq_true, if_false]
              cases hs3 : parse_fndecl_args f (find_braces '(' ')' (trim q2)) (trim q2).tail []
                with
              | timeout => rw [hs3] at hl; exact absurd hl (by simp [Res.live])
              | undefined => rw [hs3] at hl; exact absurd hl (by simp [Res.live])
              | thrown x q3 =>
                rw [hs3] at hl
                simp only at hl
                have hl3 : Res.live (parse_fndecl_args f (find_braces '(' ')' (trim q2))
                    (trim q2).tail []) := by rw [hs3]; exact Res.live_thrown hl
                rw [parse_fndecl_args_app w f _ _ _ hl3, hs3]
                rfl
              | ok args q3 =>
                rw [hs3] at hl
                simp only at hl
                have hl3 : Res.live (parse_fndecl_args f (find_braces '(' ')' (trim q2))
                    (trim q2).tail []) := by rw [hs3]; exact hl
                rw [parse_fndecl_args_app w f _ _ _ hl3, hs3]
                rfl
          · have hparen2 : expect_char '(' (trim q2) = false := by simpa using hparen
            simp only [hparen2, Bool.not_false, if_true] at hl
            exact absurd hl (by simp [Res.live])
  · have h1 := parse_fndecl_head_soft f q (Or.inr (scan_symbol_digit_head hk).1)
    have h2 := parse_fndecl_head_soft f (q ++ w)
      (Or.inr (scan_symbol_digit_head (expect_append w hk)).1)
    rw [h1, h2]
    rfl

/-! ## Progress of each rule, by name -/

theorem parse_operation_fin (f : Nat) (r : Cursor) :
    Res.Fin 1 r (8 * r.length + 5 ≤ f) (parse_operation f r) := (fin_all f).2.1 r

theorem parse_op0_fin (f : Nat) (r : Cursor) :
    Res.Fin 1 r (8 * r.length + 4 ≤ f) (parse_op0 f r) := (fin_all f).2.2.1 r

theorem parse_op0_loop_fin (f : Nat) (left : Expr) (r : Cursor) :
    Res.Fin 0 r (8 * r.length + 1 ≤ f) (parse_op0_loop f left r) := (fin_all f).2.2.2.1 left r

theorem parse_op1_fin (f : Nat) (r : Cursor) :
    Res.Fin 1 r (8 * r.length + 3 ≤ f) (parse_op1 f r) := (fin_all f).2.2.2.2.1 r

theorem parse_op1_loop_fin (f : Nat) (left : Expr) (r : Cursor) :
    Res.Fin 0 r (8 * r.length + 1 ≤ f) (parse_op1_loop f left r) :=
  (fin_all f).2.2.2.2.2.1 left r

theorem parse_atom_fin (f : Nat) (r : Cursor) :
    Res.Fin 1 r (8 * r.length + 2 ≤ f) (parse_atom f r) := (fin_all f).2.2.2.2.2.2.1 r

theorem parse_fncall_fin (f : Nat) (r : Cursor) :
    Res.Fin 1 r (8 * r.length + 1 ≤ f) (parse_fncall f r) := (fin_all f).2.2.2.2.2.2.2.1 r

theorem parse_fncall_args_fin (f : Nat) (close r : Cursor) (acc : List Expr) :
    Res.Fin 0 r (8 * r.length + 7 ≤ f) (parse_fncall_args f close r acc) :=
  (fin_all f).2.2.2.2.2.2.2.2.1 close r acc

theorem parse_fndecl_fin (f : Nat) (r : Cursor) :
    Res.Fin 1 r (8 * r.length + 2 ≤ f) (parse_fndecl f r) :=
  (fin_all f).2.2.2.2.2.2.2.2.2.1 r

theorem parse_branch_fin (f : Nat) (r : Cursor) :
    Res.Fin 1 r (8 * r.length + 3 ≤ f) (parse_branch f r) :=
  (fin_all f).2.2.2.2.2.2.2.2.2.2.1 r

theorem parse_match_fin (f : Nat) (r : Cursor) :
    Res.Fin 1 r (8 * r.length + 1 ≤ f) (parse_match f r) :=
  (fin_all f).2.2.2.2.2.2.2.2.2.2.2.1 r

theorem parse_match_branches_fin (f : Nat) (close r : Cursor) (acc : List MatchBranch) :
    Res.Fin 0 r (8 * r.length + 4 ≤ f) (parse_match_branches f close r acc) :=
  (fin_all f).2.2.2.2.2.2.2.2.2.2.2.2 close r acc

theorem Res.Fin.ok_pos {α : Type} {c : Cursor} {e : Prop} {v : α} {q : Cursor}
    (h : Res.Fin 1 c e (.ok v q)) : 0 < c.length := by
  have : q.length + 1 ≤ c.length := h
  omega

theorem Res.Fin.thrown_le {α : Type} {n : Nat} {c : Cursor} {e : Prop} {x : ParserError}
    {q : Cursor} (h : Res.Fin n c e (.thrown x q : Res α)) : q.length ≤ c.length := h

theorem Res.Fin.ok_le {α : Type} {n : Nat} {c : Cursor} {e : Prop} {v : α} {q : Cursor}
    (h : Res.Fin n c e (.ok v q)) : q.length ≤ c.length := by
  have : q.length + n ≤ c.length := h
  omega

/-! ## An input that is one identifier is read to its end -/

theorem parse_atom_mono (f k : Nat) (r : Cursor) (h : parse_atom f r ≠ .timeout) :
    parse_atom (f + k) r = parse_atom f r :=
  Res_Ext_nil_eq ((ext_all (w := []) (fun _ hc => absurd hc (List.not_mem_nil _)) f).2.2.2.2.2.2.1
    k r r (Or.inl (List.append_nil r).symm)) h

theorem Res.live_ne_timeout {α : Type} {x : Res α} (h : Res.live x) : x ≠ .timeout := by
  rintro rfl
  exact absurd h (by simp [Res.live])

theorem parse_expr_dead_of (g : Nat) (x : Cursor) (h : ¬ Res.live (parse_expr g x))
    (hg : parse_expr g x ≠ .timeout) (f : Nat) : ¬ Res.live (parse_expr f x) := by
  intro hl
  have e1 := parse_expr_mono f g x (Res.live_ne_timeout hl)
  have e2 := parse_expr_mono g f x hg
  rw [Nat.add_comm] at e2
  rw [← e1, e2] at hl
  exact h hl

theorem parse_atom_dead_of (g : Nat) (x : Cursor) (h : ¬ Res.live (parse_atom g x))
    (hg : parse_atom g x ≠ .timeout) (f : Nat) : ¬ Res.live (parse_atom f x) := by
  intro hl
  have e1 := parse_atom_mono f g x (Res.live_ne_timeout hl)
  have e2 := parse_atom_mono g f x hg
  rw [Nat.add_comm] at e2
  rw [← e1, e2] at hl
  exact h hl

theorem isIdent_of_symbols {x : Cursor} (hne : x ≠ []) (hall : ∀ c ∈ x, is_symbol c = true)
    (hd : expect is_digit x = false) (h1 : x ≠ "func".toList) (h2 : x ≠ "match".toList) :
    isIdent x = true := by
  have he : expect is_symbol x = true := by
    cases x with
    | nil => exact absurd rfl hne
    | cons c cs => exact hall c (List.mem_cons_self _ _)
  simp only [isIdent, he, hd, Bool.not_false, Bool.and_self, Bool.true_and, Bool.and_eq_true,
    List.all_eq_true, decide_eq_true_eq]
  exact ⟨⟨hall, h1⟩, h2⟩

/-- On an input that is one identifier or keyword, `parse_expr` does not stop
before the end of the input. -/
theorem parse_expr_dead (x : Cursor) (hne : x ≠ []) (hall : ∀ c ∈ x, is_symbol c = true)
    (hd : expect is_digit x = false) (f : Nat) : ¬ Res.live (parse_expr f x) := by
  by_cases h1 : x = "func".toList
  · have e : parse_expr 20 "func".toList = .thrown .UnknownExpression [] := rfl
    rw [h1]
    exact parse_expr_dead_of 20 _ (by rw [e]; simp [Res.live]) (by rw [e]; simp) f
  by_cases h2 : x = "match".toList
  · have e : parse_expr 20 "match".toList = .thrown .UnknownExpression [] := rfl
    rw [h2]
    exact parse_expr_dead_of 20 _ (by rw [e]; simp [Res.live]) (by rw [e]; simp) f
  have hid := isIdent_of_symbols hne hall hd h1 h2
  have e := parse_expr_atom x [] (by simp [isAtom, hid]) Op0End_nil 8 (le_refl _)
  rw [List.append_nil] at e
  exact parse_expr_dead_of 8 _ (by rw [e]; simp [Res.live, trim]) (by rw [e]; simp) f

/-- On an input that is one identifier or keyword, `parse_atom` does not stop
before the end of the input. -/
theorem parse_atom_dead (x : Cursor) (hne : x ≠ []) (hall : ∀ c ∈ x, is_symbol c = true)
    (hd : expect is_digit x = false) (f : Nat) : ¬ Res.live (parse_atom f x) := by
  by_cases h2 : x = "match".toList
  · have e : parse_atom 20 "match".toList = .thrown .UnknownExpression [] := rfl
    rw [h2]
    exact parse_atom_dead_of 20 _ (by rw [e]; simp [Res.live]) (by rw [e]; simp) f
  have he : expect is_symbol x = true := by
    cases x with
    | nil => exact absurd rfl hne
    | cons c cs => exact hall c (List.mem_cons_self _ _)
  have ht : trim x = x := trim_of_expect_symbol he
  have hscan := scan_all is_symbol x [] hall rfl
  have hsym := parse_symbol_ok x [] hne hall rfl
  rw [List.append_nil] at hscan hsym
  have hm := parse_match_soft 0 x (Or.inr (by rw [hscan]; exact h2))
  have hc : parse_fncall 1 x = .ok (.ExprSymbol x) [] := by
    rw [parse_fncall, hsym]
    rfl
  have e : parse_atom 2 x = .ok (.ExprSymbol x) [] := by
    rw [parse_atom]
    simp only [ht, parse_number_fail _ hd ht, hm, hc]
  exact parse_atom_dead_of 2 _ (by rw [e]; simp [Res.live]) (by rw [e]; simp) f

theorem symbols_of_scan {x : Cursor} (h : ¬ 0 < (scan is_symbol x).2.length) :
    ∀ c ∈ x, is_symbol c = true := by
  have hs := scan_spec is_symbol x
  have h0 : (scan is_symbol x).2 = [] := List.length_eq_zero.mp (by omega)
  rw [h0, List.append_nil] at hs
  intro c hc
  rw [hs.1] at hc
  exact hs.2.1 c hc

/-- A run of `parse_expr` that stops before the end of the input starts, after
whitespace, with an identifier that ends before the end of the input, with a
digit, or with no identifier character. -/
theorem parse_expr_live_kw (f : Nat) (r : Cursor) (hl : Res.live (parse_expr f r)) :
    0 < (scan is_symbol (trim r)).2.length ∨ expect is_digit (trim r) = true := by
  by_cases hp : 0 < (scan is_symbol (trim r)).2.length
  · exact Or.inl hp
  by_cases hd : expect is_digit (trim r) = true
  · exact Or.inr hd
  exfalso
  rw [← parse_expr_trim] at hl
  have hpos := Res.live_pos (parse_expr_fin f (trim r)) hl
  exact parse_expr_dead (trim r) (List.length_pos.mp hpos) (symbols_of_scan hp)
    (by simpa using hd) f hl

/-- The same for `parse_atom`. -/
theorem parse_atom_live_kw (f : Nat) (r : Cursor) (hl : Res.live (parse_atom f r)) :
    0 < (scan is_symbol (trim r)).2.length ∨ expect is_digit (trim r) = true := by
  by_cases hp : 0 < (scan is_symbol (trim r)).2.length
  · exact Or.inl hp
  by_cases hd : expect is_digit (trim r) = true
  · exact Or.inr hd
  exfalso
  rw [← parse_atom_trim] at hl
  have hpos := Res.live_pos (parse_atom_fin f (trim r)) hl
  exact parse_atom_dead (trim r) (List.length_pos.mp hpos) (symbols_of_scan hp)
    (by simpa using hd) f hl

/-! ## Runs that end before the end of the input: one step of each rule -/

theorem parse_expr_app_step (w : List Char) (f : Nat)
    (ihd : ∀ q, 0 < (scan is_symbol q).2.length ∨ expect is_digit q = true →
      Res.live (parse_fndecl f q) → parse_fndecl f (q ++ w) = Res.app w (parse_fndecl f q))
    (iho : ∀ q, Res.live (parse_operation f q) → parse_operation f (q ++ w) =
      Res.app w (parse_operation f q))
    (r : Cursor) (hl : Res.live (parse_expr (f + 1) r)) :
    parse_expr (f + 1) (r ++ w) = Res.app w (parse_expr (f + 1) r) := by
  have hk := parse_expr_live_kw (f + 1) r hl
  rw [parse_expr] at hl
  rw [parse_expr, parse_expr]
  have t := trim_length_le r
  have f1 := parse_fndecl_fin f (trim r)
  cases hs1 : parse_fndecl f (trim r) with
  | timeout => rw [hs1] at hl; exact absurd hl (by simp [Res.live])
  | undefined => rw [hs1] at hl; exact absurd hl (by simp [Res.live])
  | ok v1 q1 =>
    rw [hs1] at hl f1
    simp only at hl
    have hl1 : Res.live (parse_fndecl f (trim r)) := by rw [hs1]; exact hl
    rw [trim_append_pos r w (Res.Fin.ok_pos f1), ihd _ hk hl1, hs1]
    rfl
  | thrown x q1 =>
    rw [hs1] at hl f1
    have le1 := Res.Fin.thrown_le f1
    cases x <;> try (simp only [Res.live] at hl; done)
    simp only at hl
    have f2 := parse_operation_fin f q1
    cases hs2 : parse_operation f q1 with
    | timeout => rw [hs2] at hl; exact absurd hl (by simp [Res.live])
    | undefined => rw [hs2] at hl; exact absurd hl (by simp [Res.live])
    | thrown x q2 =>
      rw [hs2] at hl
      cases x <;> exact absurd hl (by simp [Res.live])
    | ok v2 q2 =>
      rw [hs2] at hl f2
      simp only at hl
      have hp1 := Res.Fin.ok_pos f2
      have hl1 : Res.live (parse_fndecl f (trim r)) := by rw [hs1]; exact hp1
      have hl2 : Res.live (parse_operation f q1) := by rw [hs2]; exact hl
      rw [trim_append_pos r w (by omega), ihd _ hk hl1, hs1]
      simp only [Res.app]
      rw [iho _ hl2, hs2]
      rfl

theorem parse_operation_app_step (w : List Char) (f : Nat)
    (ih0 : ∀ q, Res.live (parse_op0 f q) → parse_op0 f (q ++ w) = Res.app w (parse_op0 f q))
    (ih1 : ∀ q, Res.live (parse_op1 f q) → parse_op1 f (q ++ w) = Res.app w (parse_op1 f q))
    (r : Cursor) (hl : Res.live (parse_operation (f + 1) r)) :
    parse_operation (f + 1) (r ++ w) = Res.app w (parse_operation (f + 1) r) := by
  rw [parse_operation] at hl
  rw [parse_operation, parse_operation]
  have t := trim_length_le r
  have f1 := parse_op0_fin f (trim r)
  cases hs1 : parse_op0 f (trim r) with
  | timeout => rw [hs1] at hl; exact absurd hl (by simp [Res.live])
  | undefined => rw [hs1] at hl; exact absurd hl (by simp [Res.live])
  | ok v1 q1 =>
    rw [hs1] at hl f1
    simp only at hl
    have hl1 : Res.live (parse_op0 f (trim r)) := by rw [hs1]; exact hl
    rw [trim_append_pos r w (Res.Fin.ok_pos f1), ih0 _ hl1, hs1]
    rfl
  | thrown x q1 =>
    rw [hs1] at hl f1
    have le1 := Res.Fin.thrown_le f1
    cases x <;> try (simp only [Res.live] at hl; done)
    simp only at hl
    have f2 := parse_op1_fin f q1
    cases hs2 : parse_op1 f q1 with
    | timeout => rw [hs2] at hl; exact absurd hl (by simp [Res.live])
    | undefined => rw [hs2] at hl; exact absurd hl (by simp [Res.live])
    | thrown x q2 =>
      rw [hs2] at hl f2
      have le2 := Res.Fin.thrown_le f2
      cases x <;> try (simp only [Res.live] at hl; done)
      simp only at hl
      have hp2 : 0 < q2.length := hl
      have hl1 : Res.live (parse_op0 f (trim r)) := by
        rw [hs1]
        show 0 < q1.length
        omega
      have hl2 : Res.live (parse_op1 f q1) := by rw [hs2]; exact hl
      rw [trim_append_pos r w (by omega), ih0 _ hl1, hs1]
      simp only [Res.app]
      rw [ih1 _ hl2, hs2]
      rfl
    | ok v2 q2 =>
      rw [hs2] at hl f2
      simp only at hl
      have hp1 := Res.Fin.ok_pos f2
      have hl1 : Res.live (parse_op0 f (trim r)) := by rw [hs1]; exact hp1
      have hl2 : Res.live (parse_op1 f q1) := by rw [hs2]; exact hl
      rw [trim_append_pos r w (by omega), ih0 _ hl1, hs1]
      simp only [Res.app]
      rw [ih1 _ hl2, hs2]
      rfl

theorem parse_op0_app_step (w : List Char) (f : Nat)
    (ih1 : ∀ q, Res.live (parse_op1 f q) → parse_op1 f (q ++ w) = Res.app w (parse_op1 f q))
    (ihl : ∀ left q, Res.live (parse_op0_loop f left q) → parse_op0_loop f left (q ++ w) =
      Res.app w (parse_op0_loop f left q))
    (r : Cursor) (hl : Res.live (parse_op0 (f + 1) r)) :
    parse_op0 (f + 1) (r ++ w) = Res.app w (parse_op0 (f + 1) r) := by
  rw [parse_op0] at hl
  rw [parse_op0, parse_op0]
  cases hs1 : parse_op1 f r with
  | timeout => rw [hs1] at hl; exact absurd hl (by simp [Res.live])
  | undefined => rw [hs1] at hl; exact absurd hl (by simp [Res.live])
  | thrown x q1 =>
    rw [hs1] at hl
    simp only at hl
    have hl1 : Res.live (parse_op1 f r) := by rw [hs1]; exact hl
    rw [ih1 _ hl1, hs1]
    rfl
  | ok v1 q1 =>
    rw [hs1] at hl
    simp only at hl
    have t1 := trim_length_le q1
    have hp := Res.live_pos (parse_op0_loop_fin f v1 (trim q1)) hl
    have hl1 : Res.live (parse_op1 f r) := by
      rw [hs1]
      show 0 < q1.length
      omega
    rw [ih1 _ hl1, hs1]
    simp only [Res.app]
    rw [trim_append_pos q1 w hp]
    exact ihl _ _ hl

theorem parse_op0_loop_app_step (w : List Char) (f : Nat)
    (ih1 : ∀ q, Res.live (parse_op1 f q) → parse_op1 f (q ++ w) = Res.app w (parse_op1 f q))
    (ihl : ∀ left q, Res.live (parse_op0_loop f left q) → parse_op0_loop f left (q ++ w) =
      Res.app w (parse_op0_loop f left q))
    (left : Expr) (r : Cursor) (hl : Res.live (parse_op0_loop (f + 1) left r)) :
    parse_op0_loop (f + 1) left (r ++ w) = Res.app w (parse_op0_loop (f + 1) left r) := by
  rw [parse_op0_loop] at hl
  rw [parse_op0_loop, parse_op0_loop]
  by_cases hplus : expect_char '+' r = true
  · have hp0 := expect_char_length hplus
    simp only [hplus, if_true] at hl
    rw [expect_char_append_pos '+' r w hp0, tail_append_pos r w hp0]
    simp only [hplus, if_true]
    cases hs1 : parse_op1 f r.tail with
    | timeout => rw [hs1] at hl; exact absurd hl (by simp [Res.live])
    | undefined => rw [hs1] at hl; exact absurd hl (by simp [Res.live])
    | thrown x q1 =>
      rw [hs1] at hl
      simp only at hl
      have hl1 : Res.live (parse_op1 f r.tail) := by rw [hs1]; exact hl
      rw [ih1 _ hl1, hs1]
      rfl
    | ok v1 q1 =>
      rw [hs1] at hl
      simp only at hl
      have t1 := trim_length_le q1
      have hp := Res.live_pos (parse_op0_loop_fin f _ (trim q1)) hl
      have hl1 : Res.live (parse_op1 f r.tail) := by
        rw [hs1]
        show 0 < q1.length
        omega
      rw [ih1 _ hl1, hs1]
      simp only [Res.app]
      rw [trim_append_pos q1 w hp]
      exact ihl _ _ hl
  · have hplus2 : expect_char '+' r = false := by simpa using hplus
    simp only [hplus2, Bool.false_eq_true, if_false] at hl
    by_cases hminus : expect_char '-' r = true
    · have hp0 := expect_char_length hminus
      simp only [hminus, if_true] at hl
      rw [expect_char_append_pos '+' r w hp0, expect_char_append_pos '-' r w hp0,
        tail_append_pos r w hp0]
      simp only [hplus2, Bool.false_eq_true, if_false, hminus, if_true]
      cases hs1 : parse_op1 f r.tail with
      | timeout => rw [hs1] at hl; exact absurd hl (by simp [Res.live])
      | undefined => rw [hs1] at hl; exact absurd hl (by simp [Res.live])
      | thrown x q1 =>
        rw [hs1] at hl
        simp only at hl
        have hl1 : Res.live (parse_op1 f r.tail) := by rw [hs1]; exact hl
        rw [ih1 _ hl1, hs1]
        rfl
      | ok v1 q1 =>
        rw [hs1] at hl
        simp only at hl
        have t1 := trim_length_le q1
        have hp := Res.live_pos (parse_op0_loop_fin f _ (trim q1)) hl
        have hl1 : Res.live (parse_op1 f r.tail) := by
          rw [hs1]
          show 0 < q1.length
          omega
        rw [ih1 _ hl1, hs1]
        simp only [Res.app]
        rw [trim_append_pos q1 w hp]
        exact ihl _ _ hl
    · have hminus2 : expect_char '-' r = false := by simpa using hminus
      simp only [hminus2, Bool.false_eq_true, if_false] at hl
      have hp0 : 0 < r.length := hl
      rw [expect_char_append_pos '+' r w hp0, expect_char_append_pos '-' r w hp0]
      simp only [hplus2, hminus2, Bool.false_eq_true, if_false]
      rfl

theorem parse_op1_app_step (w : List Char) (f : Nat)
    (iha : ∀ q, Res.live (parse_atom f q) → parse_atom f (q ++ w) = Res.app w (parse_atom f q))
    (ihl : ∀ left q, Res.live (parse_op1_loop f left q) → parse_op1_loop f left (q ++ w) =
      Res.app w (parse_op1_loop f left q))
    (r : Cursor) (hl : Res.live (parse_op1 (f + 1) r)) :
    parse_op1 (f + 1) (r ++ w) = Res.app w (parse_op1 (f + 1) r) := by
  rw [parse_op1] at hl
  rw [parse_op1, parse_op1]
  cases hs1 : parse_atom f r with
  | timeout => rw [hs1] at hl; exact absurd hl (by simp [Res.live])
  | undefined => rw [hs1] at hl; exact absurd hl (by simp [Res.live])
  | thrown x q1 =>
    rw [hs1] at hl
    simp only at hl
    have hl1 : Res.live (parse_atom f r) := by rw [hs1]; exact hl
    rw [iha _ hl1, hs1]
    rfl
  | ok v1 q1 =>
    rw [hs1] at hl
    simp only at hl
    have t1 := trim_length_le q1
    have hp := Res.live_pos (parse_op1_loop_fin f v1 (trim q1)) hl
    have hl1 : Res.live (parse_atom f r) := by
      rw [hs1]
      show 0 < q1.length
      omega
    rw [iha _ hl1, hs1]
    simp only [Res.app]
    rw [trim_append_pos q1 w hp]
    exact ihl _ _ hl

theorem parse_op1_loop_app_step (w : List Char) (f : Nat)
    (iha : ∀ q, Res.live (parse_atom f q) → parse_atom f (q ++ w) = Res.app w (parse_atom f q))
    (ihl : ∀ left q, Res.live (parse_op1_loop f left q) → parse_op1_loop f left (q ++ w) =
      Res.app w (parse_op1_loop f left q))
    (left : Expr) (r : Cursor) (hl : Res.live (parse_op1_loop (f + 1) left r)) :
    parse_op1_loop (f + 1) left (r ++ w) = Res.app w (parse_op1_loop (f + 1) left r) := by
  rw [parse_op1_loop] at hl
  rw [parse_op1_loop, parse_op1_loop]
  by_cases hplus : expect_char '*' r = true
  · have hp0 := expect_char_length hplus
    simp only [hplus, if_true] at hl
    rw [expect_char_append_pos '*' r w hp0, tail_append_pos r w hp0]
    simp only [hplus, if_true]
    cases hs1 : parse_atom f r.tail with
    | timeout => rw [hs1] at hl; exact absurd hl (by simp [Res.live])
    | undefined => rw [hs1] at hl; exact absurd hl (by simp [Res.live])
    | thrown x q1 =>
      rw [hs1] at hl
      simp only at hl
      have hl1 : Res.live (parse_atom f r.tail) := by rw [hs1]; exact hl
      rw [iha _ hl1, hs1]
      rfl
    | ok v1 q1 =>
      rw [hs1] at hl
      simp only at hl
      have t1 := trim_length_le q1
      have hp := Res.live_pos (parse_op1_loop_fin f _ (trim q1)) hl
      have hl1 : Res.live (parse_atom f r.tail) := by
        rw [hs1]
        show 0 < q1.length
        omega
      rw [iha _ hl1, hs1]
      simp only [Res.app]
      rw [trim_append_pos q1 w hp]
      exact ihl _ _ hl
  · have hplus2 : expect_char '*' r = false := by simpa using hplus
    simp only [hplus2, Bool.false_eq_true, if_false] at hl
    by_cases hminus : expect_char '/' r = true
    · have hp0 := expect_char_length hminus
      simp only [hminus, if_true] at hl
      rw [expect_char_append_pos '*' r w hp0, expect_char_append_pos '/' r w hp0,
        tail_append_pos r w hp0]
      simp only [hplus2, Bool.false_eq_true, if_false, hminus, if_true]
      cases hs1 : parse_atom f r.tail with
      | timeout => rw [hs1] at hl; exact absurd hl (by simp [Res.live])
      | undefined => rw [hs1] at hl; exact absurd hl (by simp [Res.live])
      | thrown x q1 =>
        rw [hs1] at hl
        simp only at hl
        have hl1 : Res.live (parse_atom f r.tail) := by rw [hs1]; exact hl
        rw [iha _ hl1, hs1]
        rfl
      | ok v1 q1 =>
        rw [hs1] at hl
        simp only at hl
        have t1 := trim_length_le q1
        have hp := Res.live_pos (parse_op1_loop_fin f _ (trim q1)) hl
        have hl1 : Res.live (parse_atom f r.tail) := by
          rw [hs1]
          show 0 < q1.length
          omega
        rw [iha _ hl1, hs1]
        simp only [Res.app]
        rw [trim_append_pos q1 w hp]
        exact ihl _ _ hl
    · have hminus2 : expect_char '/' r = false := by simpa using hminus
      simp only [hminus2, Bool.false_eq_true, if_false] at hl
      have hp0 : 0 < r.length := hl
      rw [expect_char_append_pos '*' r w hp0, expect_char_append_pos '/' r w hp0]
      simp only [hplus2, hminus2, Bool.false_eq_true, if_false]
      rfl

theorem parse_atom_app_step (w : List Char) (f : Nat)
    (ihm : ∀ q, 0 < (scan is_symbol q).2.length → Res.live (parse_match f q) →
      parse_match f (q ++ w) = Res.app w (parse_match f q))
    (ihc : ∀ q, Res.live (parse_fncall f q) → parse_fncall f (q ++ w) =
      Res.app w (parse_fncall f q))
    (r : Cursor) (hl : Res.live (parse_atom (f + 1) r)) :
    parse_atom (f + 1) (r ++ w) = Res.app w (parse_atom (f + 1) r) := by
  have hk0 := parse_atom_live_kw (f + 1) r hl
  rw [parse_atom] at hl
  rw [parse_atom, parse_atom]
  have t := trim_length_le r
  have f1 := parse_number_fin (trim r)
  cases hs1 : parse_number (trim r) with
  | timeout => rw [hs1] at hl; exact absurd hl (by simp [Res.live])
  | undefined => rw [hs1] at hl; exact absurd hl (by simp [Res.live])
  | ok v1 q1 =>
    rw [hs1] at hl f1
    simp only at hl
    have hl1 : Res.live (parse_number (trim r)) := by rw [hs1]; exact hl
    rw [trim_append_pos r w (Res.Fin.ok_pos f1), parse_number_app w _ hl1, hs1]
    rfl
  | thrown x q1 =>
    have hk : 0 < (scan is_symbol q1).2.length := by
      rcases parse_number_cases (trim r) with ⟨_, v, p, h⟩ | ⟨hd, h⟩
      · rw [h] at hs1; exact absurd hs1 (by simp)
      · rw [h, trim_trim] at hs1
        rw [trim_trim] at hd
        have e : trim r = q1 := by injection hs1
        rw [← e]
        rcases hk0 with hk0 | hk0
        · exact hk0
        · rw [hd] at hk0; exact absurd hk0 (by simp)
    rw [hs1] at hl f1
    have le1 := Res.Fin.thrown_le f1
    cases x <;> try (simp only [Res.live] at hl; done)
    simp only at hl
    have f2 := parse_match_fin f q1
    cases hs2 : parse_match f q1 with
    | timeout => rw [hs2] at hl; exact absurd hl (by simp [Res.live])
    | undefined => rw [hs2] at hl; exact absurd hl (by simp [Res.live])
    | ok v2 q2 =>
      rw [hs2] at hl f2
      simp only at hl
      have hp1 := Res.Fin.ok_pos f2
      have hl1 : Res.live (parse_number (trim r)) := by rw [hs1]; exact hp1
      have hl2 : Res.live (parse_match f q1) := by rw [hs2]; exact hl
      rw [trim_append_pos r w (by omega), parse_number_app w _ hl1, hs1]
      simp only [Res.app]
      rw [ihm _ hk hl2, hs2]
      rfl
    | thrown x q2 =>
      rw [hs2] at hl f2
      have le2 := Res.Fin.thrown_le f2
      cases x <;> try (simp only [Res.live] at hl; done)
      simp only at hl
      have f3 := parse_fncall_fin f q2
      cases hs3 : parse_fncall f q2 with
      | timeout => rw [hs3] at hl; exact absurd hl (by simp [Res.live])
      | undefined => rw [hs3] at hl; exact absurd hl (by simp [Res.live])
      | ok v3 q3 =>
        rw [hs3] at hl f3
        simp only at hl
        have hp2 := Res.Fin.ok_pos f3
        have hl1 : Res.live (parse_number (trim r)) := by
          rw [hs1]
          show 0 < q1.length
          omega
        have hl2 : Res.live (parse_match f q1) := by rw [hs2]; exact hp2
        have hl3 : Res.live (parse_fncall f q2) := by rw [hs3]; exact hl
        rw [trim_append_pos r w (by omega), parse_number_app w _ hl1, hs1]
        simp only [Res.app]
        rw [ihm _ hk hl2, hs2]
        simp only [Res.app]
        rw [ihc _ hl3, hs3]
        rfl
      | thrown x q3 =>
        rw [hs3] at hl f3
        have le3 := Res.Fin.thrown_le f3
        cases x <;> try (simp only [Res.live] at hl; done)
        simp only at hl
        have f4 := parse_string_fin q3
        cases hs4 : parse_string q3 with
        | timeout => rw [hs4] at hl; exact absurd hl (by simp [Res.live])
        | undefined => rw [hs4] at hl; exact absurd hl (by simp [Res.live])
        | ok v4 q4 =>
          rw [hs4] at hl f4
          simp only at hl
          have hp3 := Res.Fin.ok_pos f4
          have hl1 : Res.live (parse_number (trim r)) := by
            rw [hs1]
            show 0 < q1.length
            omega
          have hl2 : Res.live (parse_match f q1) := by
            rw [hs2]
            show 0 < q2.length
            omega
          have hl3 : Res.live (parse_fncall f q2) := by rw [hs3]; exact hp3
          have hl4 : Res.live (parse_string q3) := by rw [hs4]; exact hl
          rw [trim_append_pos r w (by omega), parse_number_app w _ hl1, hs1]
          simp only [Res.app]
          rw [ihm _ hk hl2, hs2]
          simp only [Res.app]
          rw [ihc _ hl3, hs3]
          simp only [Res.app]
          rw [parse_string_app w _ hl4, hs4]
          rfl
        | thrown x q4 =>
          rw [hs4] at hl f4
          have le4 := Res.Fin.thrown_le f4
          cases x <;> try (simp only [Res.live] at hl; done)
          simp only at hl
          have hp4 : 0 < q4.length := hl
          have hl1 : Res.live (parse_number (trim r)) := by
            rw [hs1]
            show 0 < q1.length
            omega
          have hl2 : Res.live (parse_match f q1) := by
            rw [hs2]
            show 0 < q2.length
            omega
          have hl3 : Res.live (parse_fncall f q2) := by
            rw [hs3]
            show 0 < q3.length
            omega
          have hl4 : Res.live (parse_string q3) := by rw [hs4]; exact hl
          rw [trim_append_pos r w (by omega), parse_number_app w _ hl1, hs1]
          simp only [Res.app]
          rw [ihm _ hk hl2, hs2]
          simp only [Res.app]
          rw [ihc _ hl3, hs3]
          simp only [Res.app]
          rw [parse_string_app w _ hl4, hs4]
          rfl

theorem parse_fncall_app_step (w : List Char) (f : Nat)
    (ihl : ∀ close q acc, Res.live (parse_fncall_args f close q acc) →
      parse_fncall_args f (close ++ w) (q ++ w) acc =
        Res.app w (parse_fncall_args f close q acc))
    (r : Cursor) (hl : Res.live (parse_fncall (f + 1) r)) :
    parse_fncall (f + 1) (r ++ w) = Res.app w (parse_fncall (f + 1) r) := by
  rw [parse_fncall] at hl
  rw [parse_fncall, parse_fncall]
  cases hs1 : parse_symbol r with
  | timeout => rw [hs1] at hl; exact absurd hl (by simp [Res.live])
  | undefined => rw [hs1] at hl; exact absurd hl (by simp [Res.live])
  | thrown x q1 =>
    rw [hs1] at hl
    have hl1 : Res.live (parse_symbol r) := by rw [hs1]; exact Res.live_thrown hl
    rw [parse_symbol_app w r hl1, hs1]
    rfl
  | ok sym q1 =>
    rw [hs1] at hl
    simp only at hl
    have hq1 : 0 < q1.length := by
      cases q1 with
      | nil => exact absurd hl (by simp [trim, expect_char, Res.live])
      | cons c cs => simp
    rw [parse_symbol_app w r (parse_symbol_ok_live hs1 hq1), hs1]
    simp only [Res.app]
    by_cases hparen : expect_char '(' (trim q1) = true
    · have hp := expect_char_length hparen
      simp only [hparen, Bool.not_true, Bool.false_eq_true, if_false] at hl
      rw [trim_append_pos q1 w hp, expect_char_append_pos '(' _ w hp]
      simp only [hparen, Bool.not_true, Bool.false_eq_true, if_false]
      by_cases hclose : (find_braces '(' ')' (trim q1)).isEmpty = true
      · simp only [hclose, if_true] at hl
        exact absurd hl (by simp [Res.live])
      · have hclose2 : (find_braces '(' ')' (trim q1)).isEmpty = false := by
          simpa using hclose
        have hne := isEmpty_false_of_ne_nil hclose2
        simp only [hclose2, Bool.false_eq_true, if_false] at hl
        rw [find_braces_app '(' ')' w _ hne, (isEmpty_append_of_ne_nil hne w).1,
          tail_append_pos _ w hp]
        simp only [hclose2, Bool.false_eq_true, if_false]
        cases hs3 : parse_fncall_args f (find_braces '(' ')' (trim q1)) (trim q1).tail [] with
        | timeout => rw [hs3] at hl; exact absurd hl (by simp [Res.live])
        | undefined => rw [hs3] at hl; exact absurd hl (by simp [Res.live])
        | thrown x q3 =>
          rw [hs3] at hl
          simp only at hl
          have hl3 : Res.live (parse_fncall_args f (find_braces '(' ')' (trim q1))
              (trim q1).tail []) := by rw [hs3]; exact Res.live_thrown hl
          rw [ihl _ _ _ hl3, hs3]
          rfl
        | ok args q3 =>
          rw [hs3] at hl
          simp only at hl
          have hp3 : 0 < q3.tail.length := hl
          have hp4 : 0 < q3.length := by
            rw [List.length_tail] at hp3
            omega
          have hl3 : Res.live (parse_fncall_args f (find_braces '(' ')' (trim q1))
              (trim q1).tail []) := by rw [hs3]; exact hp4
          rw [ihl _ _ _ hl3, hs3]
          simp only [Res.app]
          rw [tail_append_pos q3 w hp4]
    · have hparen2 : expect_char '(' (trim q1) = false := by simpa using hparen
      simp only [hparen2, Bool.not_false, if_true] at hl
      have hp : 0 < (trim q1).length := hl
      rw [trim_append_pos q1 w hp, expect_char_append_pos '(' _ w hp]
      simp only [hparen2, Bool.not_false, if_true]

theorem parse_fncall_args_app_step (w : List Char) (f : Nat)
    (ihe : ∀ q, Res.live (parse_expr f q) → parse_expr f (q ++ w) = Res.app w (parse_expr f q))
    (ihl : ∀ close q acc, Res.live (parse_fncall_args f close q acc) →
      parse_fncall_args f (close ++ w) (q ++ w) acc =
        Res.app w (parse_fncall_args f close q acc))
    (close q : Cursor) (acc : List Expr)
    (hl : Res.live (parse_fncall_args (f + 1) close q acc)) :
    parse_fncall_args (f + 1) (close ++ w) (q ++ w) acc =
      Res.app w (parse_fncall_args (f + 1) close q acc) := by
  rw [parse_fncall_args] at hl
  rw [parse_fncall_args, parse_fncall_args, length_ne_append]
  by_cases hlen : (q.length != close.length) = true
  · simp only [hlen, if_true] at hl ⊢
    have f1 := parse_expr_fin f (trim q)
    cases hs1 : parse_expr f (trim q) with
    | timeout => rw [hs1] at hl; exact absurd hl (by simp [Res.live])
    | undefined => rw [hs1] at hl; exact absurd hl (by simp [Res.live])
    | thrown x q1 =>
      rw [hs1] at hl f1
      simp only at hl
      have hl1 : Res.live (parse_expr f (trim q)) := by rw [hs1]; exact Res.live_thrown hl
      have hp := Res.live_pos f1 (Res.live_thrown hl)
      rw [trim_append_pos q w hp, ihe _ hl1, hs1]
      rfl
    | ok a q1 =>
      rw [hs1] at hl f1
      simp only at hl
      have hp := Res.Fin.ok_pos f1
      have t1 := trim_length_le q1
      by_cases hcomma : expect_char ',' (trim q1) = true
      · have hp3 := expect_char_length hcomma
        simp only [hcomma, Bool.not_true, Bool.false_eq_true, if_false] at hl
        have hl1 : Res.live (parse_expr f (trim q)) := by
          rw [hs1]
          show 0 < q1.length
          omega
        rw [trim_append_pos q w hp, ihe _ hl1, hs1]
        simp only [Res.app]
        rw [trim_append_pos q1 w hp3, expect_char_append_pos ',' _ w hp3,
          tail_append_pos _ w hp3]
        simp only [hcomma, Bool.not_true, Bool.false_eq_true, if_false]
        exact ihl close _ _ hl
      · have hcomma2 : expect_char ',' (trim q1) = false := by simpa using hcomma
        simp only [hcomma2, Bool.not_false, if_true] at hl
        by_cases hlen2 : ((trim q1).length != close.length) = true
        · simp only [hlen2, if_true] at hl
          exact absurd hl (by simp [Res.live])
        · simp only [hlen2, Bool.false_eq_true, if_false] at hl
          have hp3 : 0 < (trim q1).length := hl
          have hl1 : Res.live (parse_expr f (trim q)) := by
            rw [hs1]
            show 0 < q1.length
            omega
          rw [trim_append_pos q w hp, ihe _ hl1, hs1]
          simp only [Res.app]
          rw [trim_append_pos q1 w hp3, expect_char_append_pos ',' _ w hp3, length_ne_append]
          simp only [hcomma2, Bool.not_false, if_true, hlen2, Bool.false_eq_true, if_false]
  · simp only [hlen, Bool.false_eq_true, if_false] at hl ⊢
    rfl

theorem parse_fndecl_app_step (w : List Char) (f : Nat)
    (ihe : ∀ q, Res.live (parse_expr f q) → parse_expr f (q ++ w) = Res.app w (parse_expr f q))
    (r : Cursor) (hk : 0 < (scan is_symbol r).2.length ∨ expect is_digit r = true)
    (hl : Res.live (parse_fndecl (f + 1) r)) :
    parse_fndecl (f + 1) (r ++ w) = Res.app w (parse_fndecl (f + 1) r) := by
  rw [parse_fndecl] at hl
  rw [parse_fndecl, parse_fndecl]
  cases hs1 : parse_fndecl_head f r with
  | timeout => rw [hs1] at hl; exact absurd hl (by simp [Res.live])
  | undefined => rw [hs1] at hl; exact absurd hl (by simp [Res.live])
  | thrown x q1 =>
    rw [hs1] at hl
    simp only at hl
    have hl1 : Res.live (parse_fndecl_head f r) := by rw [hs1]; exact Res.live_thrown hl
    rw [parse_fndecl_head_app w f r hk hl1, hs1]
    rfl
  | ok head q1 =>
    rw [hs1] at hl
    simp only at hl
    have tl1 : q1.tail.length = q1.length - 1 := List.length_tail _
    have t1 := trim_length_le q1.tail
    have tl2 : (List.drop 2 (trim q1.tail)).length = (trim q1.tail).length - 2 :=
      List.length_drop _ _
    have t2 := trim_length_le (List.drop 2 (trim q1.tail))
    by_cases harrow : expect_str "->".toList (trim q1.tail) = true
    · simp only [harrow, Bool.not_true, Bool.false_eq_true, if_false] at hl
      have hp2 := expect_arrow_two harrow
      have hlh : Res.live (parse_fndecl_head f r) := by
        rw [hs1]
        show 0 < q1.length
        omega
      rw [parse_fndecl_head_app w f r hk hlh, hs1]
      simp only [Res.app]
      rw [tail_append_pos q1 w (by omega), trim_append_pos q1.tail w (by omega),
        (expect_arrow_append _ w harrow).1, (expect_arrow_append _ w harrow).2]
      simp only [harrow, Bool.not_true, Bool.false_eq_true, if_false]
      have f2 := parse_symbol_fin (trim (List.drop 2 (trim q1.tail)))
      cases hs2 : parse_symbol (trim (List.drop 2 (trim q1.tail))) with
      | timeout => rw [hs2] at hl; exact absurd hl (by simp [Res.live])
      | undefined => rw [hs2] at hl; exact absurd hl (by simp [Res.live])
      | thrown x q2 =>
        rw [hs2] at hl f2
        simp only at hl
        have hp3 := Res.live_pos f2 (Res.live_thrown hl)
        have hl2 : Res.live (parse_symbol (trim (List.drop 2 (trim q1.tail)))) := by
          rw [hs2]; exact Res.live_thrown hl
        rw [trim_append_pos _ w hp3, parse_symbol_app w _ hl2, hs2]
        rfl
      | ok ret q2 =>
        rw [hs2] at hl f2
        simp only at hl
        have hp3 := Res.Fin.ok_pos f2
        have hq2 : 0 < q2.length := by
          cases q2 with
          | nil => exact absurd hl (by simp [trim, expect_char, Res.live])
          | cons c cs => simp
        rw [trim_append_pos _ w hp3, parse_symbol_app w _ (parse_symbol_ok_live hs2 hq2), hs2]
        simp only [Res.app]
        have t3 := trim_length_le q2
        have tl3 : (trim q2).tail.length = (trim q2).length - 1 := List.length_tail _
        by_cases hblock : expect_char '{' (trim q2) = true
        · have hp4 := expect_char_length hblock
          simp only [hblock, Bool.not_true, Bool.false_eq_true, if_false] at hl
          rw [trim_append_pos q2 w hp4, expect_char_append_pos '{' _ w hp4,
            tail_append_pos _ w hp4]
          simp only [hblock, Bool.not_true, Bool.false_eq_true, if_false]
          have f3 := parse_expr_fin f (trim q2).tail
          cases hs3 : parse_expr f (trim q2).tail with
          | timeout => rw [hs3] at hl; exact absurd hl (by simp [Res.live])
          | undefined => rw [hs3] at hl; exact absurd hl (by simp [Res.live])
          | thrown x q3 =>
            rw [hs3] at hl
            simp only at hl
            have hl3 : Res.live (parse_expr f (trim q2).tail) := by rw [hs3]; exact hl
            rw [ihe _ hl3, hs3]
            rfl
          | ok body q3 =>
            rw [hs3] at hl
            simp only at hl
            by_cases hcl : expect_char '}' q3 = true
            · have hp5 := expect_char_length hcl
              simp only [hcl, Bool.not_true, Bool.false_eq_true, if_false] at hl
              have hl3 : Res.live (parse_expr f (trim q2).tail) := by rw [hs3]; exact hp5
              rw [ihe _ hl3, hs3]
              simp only [Res.app]
              rw [expect_char_append_pos '}' _ w hp5, tail_append_pos _ w hp5]
              simp only [hcl, Bool.not_true, Bool.false_eq_true, if_false]
            · have hcl2 : expect_char '}' q3 = false := by simpa using hcl
              simp only [hcl2, Bool.not_false, if_true] at hl
              exact absurd hl (by simp [Res.live])
        · have hblock2 : expect_char '{' (trim q2) = false := by simpa using hblock
          simp only [hblock2, Bool.not_false, if_true] at hl
          exact absurd hl (by simp [Res.live])
    · have harrow2 : expect_str "->".toList (trim q1.tail) = false := by simpa using harrow
      simp only [harrow2, Bool.not_false, if_true] at hl
      exact absurd hl (by simp [Res.live])

theorem parse_branch_app_step (w : List Char) (f : Nat)
    (iha : ∀ q, Res.live (parse_atom f q) → parse_atom f (q ++ w) = Res.app w (parse_atom f q))
    (ihe : ∀ q, Res.live (parse_expr f q) → parse_expr f (q ++ w) = Res.app w (parse_expr f q))
    (r : Cursor) (hl : Res.live (parse_branch (f + 1) r)) :
    parse_branch (f + 1) (r ++ w) = Res.app w (parse_branch (f + 1) r) := by
  rw [parse_branch] at hl
  rw [parse_branch, parse_branch]
  have f1 := parse_atom_fin f (trim r)
  cases hs1 : parse_atom f (trim r) with
  | timeout => rw [hs1] at hl; exact absurd hl (by simp [Res.live])
  | undefined => rw [hs1] at hl; exact absurd hl (by simp [Res.live])
  | thrown x q1 =>
    rw [hs1] at hl f1
    simp only at hl
    have hl1 : Res.live (parse_atom f (trim r)) := by rw [hs1]; exact Res.live_thrown hl
    have hp := Res.live_pos f1 (Res.live_thrown hl)
    rw [trim_append_pos r w hp, iha _ hl1, hs1]
    rfl
  | ok pat q1 =>
    rw [hs1] at hl f1
    simp only at hl
    have hp := Res.Fin.ok_pos f1
    have t1 := trim_length_le q1
    have tl2 : (List.drop 2 (trim q1)).length = (trim q1).length - 2 := List.length_drop _ _
    have t2 := trim_length_le (List.drop 2 (trim q1))
    have tl3 : (trim (List.drop 2 (trim q1))).tail.length =
      (trim (List.drop 2 (trim q1))).length - 1 := List.length_tail _
    have t3 := trim_length_le (trim (List.drop 2 (trim q1))).tail
    by_cases harrow : expect_str "->".toList (trim q1) = true
    · simp only [harrow, Bool.not_true, Bool.false_eq_true, if_false] at hl
      have hp2 := expect_arrow_two harrow
      have hl1 : Res.live (parse_atom f (trim r)) := by
        rw [hs1]
        show 0 < q1.length
        omega
      rw [trim_append_pos r w hp, iha _ hl1, hs1]
      simp only [Res.app]
      rw [trim_append_pos q1 w (by omega), (expect_arrow_append _ w harrow).1,
        (expect_arrow_append _ w harrow).2]
      simp only [harrow, Bool.not_true, Bool.false_eq_true, if_false]
      by_cases hblock : expect_char '{' (trim (List.drop 2 (trim q1))) = true
      · have hp4 := expect_char_length hblock
        simp only [hblock, Bool.not_true, Bool.false_eq_true, if_false] at hl
        rw [trim_append_pos _ w hp4, expect_char_append_pos '{' _ w hp4,
          tail_append_pos _ w hp4]
        simp only [hblock, Bool.not_true, Bool.false_eq_true, if_false]
        have f3 := parse_expr_fin f (trim (trim (List.drop 2 (trim q1))).tail)
        cases hs3 : parse_expr f (trim (trim (List.drop 2 (trim q1))).tail) with
        | timeout => rw [hs3] at hl; exact absurd hl (by simp [Res.live])
        | undefined => rw [hs3] at hl; exact absurd hl (by simp [Res.live])
        | thrown x q3 =>
          rw [hs3] at hl f3
          simp only at hl
          have hl3 : Res.live (parse_expr f (trim (trim (List.drop 2 (trim q1))).tail)) := by
            rw [hs3]; exact Res.live_thrown hl
          have hp5 := Res.live_pos f3 (Res.live_thrown hl)
          rw [trim_append_pos _ w hp5, ihe _ hl3, hs3]
          rfl
        | ok body q3 =>
          rw [hs3] at hl f3
          simp only at hl
          have hp5 := Res.Fin.ok_pos f3
          have t4 := trim_length_le q3
          by_cases hcl : expect_char '}' (trim q3) = true
          · have hp6 := expect_char_length hcl
            simp only [hcl, Bool.not_true, Bool.false_eq_true, if_false] at hl
            have hl3 : Res.live (parse_expr f (trim (trim (List.drop 2 (trim q1))).tail)) := by
              rw [hs3]
              show 0 < q3.length
              omega
            rw [trim_append_pos _ w hp5, ihe _ hl3, hs3]
            simp only [Res.app]
            rw [trim_append_pos q3 w hp6, expect_char_append_pos '}' _ w hp6,
              tail_append_pos _ w hp6]
            simp only [hcl, Bool.not_true, Bool.false_eq_true, if_false]
          · have hcl2 : expect_char '}' (trim q3) = false := by simpa using hcl
            simp only [hcl2, Bool.not_false, if_true] at hl
            exact absurd hl (by simp [Res.live])
      · have hblock2 : expect_char '{' (trim (List.drop 2 (trim q1))) = false := by
          simpa using hblock
        simp only [hblock2, Bool.not_false, if_true] at hl
        exact absurd hl (by simp [Res.live])
    · have harrow2 : expect_str "->".toList (trim q1) = false := by simpa using harrow
      simp only [harrow2, Bool.not_false, if_true] at hl
      exact absurd hl (by simp [Res.live])

theorem parse_match_app_step (w : List Char) (f : Nat)
    (ihe : ∀ q, Res.live (parse_expr f q) → parse_expr f (q ++ w) = Res.app w (parse_expr f q))
    (ihl : ∀ close q acc, Res.live (parse_match_branches f close q acc) →
      parse_match_branches f (close ++ w) (q ++ w) acc =
        Res.app w (parse_match_branches f close q acc))
    (r : Cursor) (hk : 0 < (scan is_symbol r).2.length)
    (hl : Res.live (parse_match (f + 1) r)) :
    parse_match (f + 1) (r ++ w) = Res.app w (parse_match (f + 1) r) := by
  rw [parse_match] at hl
  have hl0 : Res.live (parse_symbol r) := by
    unfold parse_symbol
    by_cases h : expect is_symbol r = true
    · simp only [h, Bool.not_true, Bool.false_eq_true, if_false]
      exact hk
    · have h2 : expect is_symbol r = false := by simpa using h
      simp only [parse_symbol, h2, Bool.not_false, if_true] at hl ⊢
      exact hl
  rw [parse_match, parse_match, parse_symbol_app w r hl0]
  cases hs1 : parse_symbol r with
  | timeout => rw [hs1] at hl; exact absurd hl (by simp [Res.live])
  | undefined => rw [hs1] at hl; exact absurd hl (by simp [Res.live])
  | thrown x q1 => rfl
  | ok kw q1 =>
    rw [hs1] at hl
    simp only [Res.app] at hl ⊢
    by_cases hkw : (kw != "match".toList) = true
    · simp only [hkw, if_true]
    · simp only [hkw, Bool.false_eq_true, if_false] at hl ⊢
      have f2 := parse_expr_fin f (trim q1)
      cases hs2 : parse_expr f (trim q1) with
      | timeout => rw [hs2] at hl; exact absurd hl (by simp [Res.live])
      | undefined => rw [hs2] at hl; exact absurd hl (by simp [Res.live])
      | thrown x q2 =>
        rw [hs2] at hl f2
        simp only at hl
        have hl2 : Res.live (parse_expr f (trim q1)) := by rw [hs2]; exact hl
        have hp := Res.live_pos f2 hl
        rw [trim_append_pos q1 w hp, ihe _ hl2, hs2]
        rfl
      | ok v2 q2 =>
        rw [hs2] at hl f2
        simp only at hl
        have hp := Res.Fin.ok_pos f2
        have t2 := trim_length_le q2
        by_cases hblock : expect_char '{' (trim q2) = true
        · have hp3 := expect_char_length hblock
          simp only [hblock, Bool.not_true, Bool.false_eq_true, if_false] at hl
          have hl2 : Res.live (parse_expr f (trim q1)) := by
            rw [hs2]
            show 0 < q2.length
            omega
          rw [trim_append_pos q1 w hp, ihe _ hl2, hs2]
          simp only [Res.app]
          rw [trim_append_pos q2 w hp3, expect_char_append_pos '{' _ w hp3]
          simp only [hblock, Bool.not_true, Bool.false_eq_true, if_false]
          by_cases hclose : (find_braces '{' '}' (trim q2)).isEmpty = true
          · simp only [hclose, if_true] at hl
            exact absurd hl (by simp [Res.live])
          · have hclose2 : (find_braces '{' '}' (trim q2)).isEmpty = false := by
              simpa using hclose
            have hne := isEmpty_false_of_ne_nil hclose2
            simp only [hclose2, Bool.false_eq_true, if_false] at hl
            rw [find_braces_app '{' '}' w _ hne, (isEmpty_append_of_ne_nil hne w).1,
              tail_append_pos _ w hp3]
            simp only [hclose2, Bool.false_eq_true, if_false]
            cases hs3 : parse_match_branches f (find_braces '{' '}' (trim q2))
                (trim q2).tail [] with
            | timeout => rw [hs3] at hl; exact absurd hl (by simp [Res.live])
            | undefined => rw [hs3] at hl; exact absurd hl (by simp [Res.live])
            | thrown x q3 =>
              rw [hs3] at hl
              simp only at hl
              have hl3 : Res.live (parse_match_branches f (find_braces '{' '}' (trim q2))
                  (trim q2).tail []) := by rw [hs3]; exact Res.live_thrown hl
              rw [ihl _ _ _ hl3, hs3]
              rfl
            | ok bs q3 =>
              rw [hs3] at hl
              simp only at hl
              have hp4 : 0 < q3.tail.length := hl
              have hp5 : 0 < q3.length := by
                rw [List.length_tail] at hp4
                omega
              have hl3 : Res.live (parse_match_branches f (find_braces '{' '}' (trim q2))
                  (trim q2).tail []) := by rw [hs3]; exact hp5
              rw [ihl _ _ _ hl3, hs3]
              simp only [Res.app]
              rw [tail_append_pos q3 w hp5]
        · have hblock2 : expect_char '{' (trim q2) = false := by simpa using hblock
          simp only [hblock2, Bool.not_false, if_true] at hl
          exact absurd hl (by simp [Res.live])

theorem parse_match_branches_app_step (w : List Char) (f : Nat)
    (ihb : ∀ q, Res.live (parse_branch f q) → parse_branch f (q ++ w) =
      Res.app w (parse_branch f q))
    (ihl : ∀ close q acc, Res.live (parse_match_branches f close q acc) →
      parse_match_branches f (close ++ w) (q ++ w) acc =
        Res.app w (parse_match_branches f close q acc))
    (close q : Cursor) (acc : List MatchBranch)
    (hl : Res.live (parse_match_branches (f + 1) close q acc)) :
    parse_match_branches (f + 1) (close ++ w) (q ++ w) acc =
      Res.app w (parse_match_branches (f + 1) close q acc) := by
  rw [parse_match_branches] at hl
  rw [parse_match_branches, parse_match_branches, length_ne_append]
  by_cases hlen : (q.length != close.length) = true
  · simp only [hlen, if_true] at hl ⊢
    have f1 := parse_branch_fin f (trim q)
    cases hs1 : parse_branch f (trim q) with
    | timeout => rw [hs1] at hl; exact absurd hl (by simp [Res.live])
    | undefined => rw [hs1] at hl; exact absurd hl (by simp [Res.live])
    | thrown x q1 =>
      rw [hs1] at hl f1
      simp only at hl
      have hl1 : Res.live (parse_branch f (trim q)) := by rw [hs1]; exact Res.live_thrown hl
      have hp := Res.live_pos f1 (Res.live_thrown hl)
      rw [trim_append_pos q w hp, ihb _ hl1, hs1]
      rfl
    | ok a q1 =>
      rw [hs1] at hl f1
      simp only at hl
      have hp := Res.Fin.ok_pos f1
      have t1 := trim_length_le q1
      by_cases hcomma : expect_char ',' (trim q1) = true
      · have hp3 := expect_char_length hcomma
        simp only [hcomma, Bool.not_true, Bool.false_eq_true, if_false] at hl
        have hl1 : Res.live (parse_branch f (trim q)) := by
          rw [hs1]
          show 0 < q1.length
          omega
        rw [trim_append_pos q w hp, ihb _ hl1, hs1]
        simp only [Res.app]
        rw [trim_append_pos q1 w hp3, expect_char_append_pos ',' _ w hp3,
          tail_append_pos _ w hp3]
        simp only [hcomma, Bool.not_true, Bool.false_eq_true, if_false]
        exact ihl close _ _ hl
      · have hcomma2 : expect_char ',' (trim q1) = false := by simpa using hcomma
        simp only [hcomma2, Bool.not_false, if_true, trim_trim] at hl
        by_cases hlen2 : ((trim q1).length != close.length) = true
        · simp only [hlen2, if_true] at hl
          exact absurd hl (by simp [Res.live])
        · simp only [hlen2, Bool.false_eq_true, if_false] at hl
          have hp3 : 0 < (trim q1).length := hl
          have hl1 : Res.live (parse_branch f (trim q)) := by
            rw [hs1]
            show 0 < q1.length
            omega
          rw [trim_append_pos q w hp, ihb _ hl1, hs1]
          simp only [Res.app]
          rw [trim_append_pos q1 w hp3, expect_char_append_pos ',' _ w hp3]
          simp only [hcomma2, Bool.not_false, if_true, trim_trim]
          rw [trim_append_pos (trim q1) w (by rw [trim_trim]; exact hp3), trim_trim,
            length_ne_append]
          simp only [hlen2, Bool.false_eq_true, if_false]
  · simp only [hlen, Bool.false_eq_true, if_false] at hl ⊢
    by_cases hlen2 : ((trim q).length != close.length) = true
    · simp only [hlen2, if_true] at hl
      exact absurd hl (by simp [Res.live])
    · simp only [hlen2, Bool.false_eq_true, if_false] at hl
      have hp3 : 0 < (trim q).length := hl
      rw [trim_append_pos q w hp3, length_ne_append]
      simp only [hlen2, Bool.false_eq_true, if_false]
      rfl

/-! ## All the rules on an input followed by any text -/

theorem app_all (w : List Char) (f : Nat) :
    (∀ r, Res.live (parse_expr f r) → parse_expr f (r ++ w) = Res.app w (parse_expr f r)) ∧
    (∀ r, Res.live (parse_operation f r) →
      parse_operation f (r ++ w) = Res.app w (parse_operation f r)) ∧
    (∀ r, Res.live (parse_op0 f r) → parse_op0 f (r ++ w) = Res.app w (parse_op0 f r)) ∧
    (∀ left r, Res.live (parse_op0_loop f left r) →
      parse_op0_loop f left (r ++ w) = Res.app w (parse_op0_loop f left r)) ∧
    (∀ r, Res.live (parse_op1 f r) → parse_op1 f (r ++ w) = Res.app w (parse_op1 f r)) ∧
    (∀ left r, Res.live (parse_op1_loop f left r) →
      parse_op1_loop f left (r ++ w) = Res.app w (parse_op1_loop f left r)) ∧
    (∀ r, Res.live (parse_atom f r) → parse_atom f (r ++ w) = Res.app w (parse_atom f r)) ∧
    (∀ r, Res.live (parse_fncall f r) →
      parse_fncall f (r ++ w) = Res.app w (parse_fncall f r)) ∧
    (∀ close r acc, Res.live (parse_fncall_args f close r acc) →
      parse_fncall_args f (close ++ w) (r ++ w) acc =
        Res.app w (parse_fncall_args f close r acc)) ∧
    (∀ r, 0 < (scan is_symbol r).2.length ∨ expect is_digit r = true →
      Res.live (parse_fndecl f r) → parse_fndecl f (r ++ w) = Res.app w (parse_fndecl f r)) ∧
    (∀ r, Res.live (parse_branch f r) →
      parse_branch f (r ++ w) = Res.app w (parse_branch f r)) ∧
    (∀ r, 0 < (scan is_symbol r).2.length → Res.live (parse_match f r) →
      parse_match f (r ++ w) = Res.app w (parse_match f r)) ∧
    (∀ close r acc, Res.live (parse_match_branches f close r acc) →
      parse_match_branches f (close ++ w) (r ++ w) acc =
        Res.app w (parse_match_branches f close r acc)) := by
  induction f with
  | zero =>
    refine ⟨?_, ?_, ?_, ?_, ?_, ?_, ?_, ?_, ?_, ?_, ?_, ?_, ?_⟩ <;> intros <;>
      simp only [parse_expr, parse_operation, parse_op0, parse_op0_loop, parse_op1,
        parse_op1_loop, parse_atom, parse_fncall, parse_fncall_args, parse_fndecl,
        parse_branch, parse_match, parse_match_branches, Res.live, Res.app] at *
  | succ f ih =>
    obtain ⟨i1, i2, i3, i4, i5, i6, i7, i8, i9, i10, i11, i12, i13⟩ := ih
    exact ⟨parse_expr_app_step w f i10 i2, parse_operation_app_step w f i3 i5,
      parse_op0_app_step w f i5 i4, parse_op0_loop_app_step w f i5 i4,
      parse_op1_app_step w f i7 i6, parse_op1_loop_app_step w f i7 i6,
      parse_atom_app_step w f i12 i8, parse_fncall_app_step w f i9,
      parse_fncall_args_app_step w f i1 i9, parse_fndecl_app_step w f i1,
      parse_branch_app_step w f i7 i1, parse_match_app_step w f i1 i13,
      parse_match_branches_app_step w f i11 i13⟩

/-- A run of `parse_expr` that succeeds in front of a non-empty rest gives the
same node when any text follows the input. -/
theorem parse_expr_app (w : List Char) (f : Nat)
    (r : Cursor) (e : Expr) (q : Cursor) (h : parse_expr f r = .ok e q) (hq : q ≠ []) :
    parse_expr f (r ++ w) = .ok e (q ++ w) := by
  have hl : Res.live (parse_expr f r) := by
    rw [h]; exact List.length_pos.mpr hq
  rw [(app_all w f).1 r hl, h]
  rfl

/-- The same for `parse_atom`. -/
theorem parse_atom_app (w : List Char) (f : Nat)
    (r : Cursor) (e : Expr) (q : Cursor) (h : parse_atom f r = .ok e q) (hq : q ≠ []) :
    parse_atom f (r ++ w) = .ok e (q ++ w) := by
  have hl : Res.live (parse_atom f r) := by
    rw [h]; exact List.length_pos.mpr hq
  rw [(app_all w f).2.2.2.2.2.2.1 r hl, h]
  rfl

/-! ## Match expressions with any operands -/

theorem parse_branch_trim (f : Nat) (x : Cursor) : parse_branch f (trim x) = parse_branch f x := by
  cases f with
  | zero => rfl
  | succ f => rw [parse_branch, parse_branch, trim_trim]

theorem Arm.reads_mono (a : Arm) (f k : Nat) (h : a.reads f) : a.reads (f + k) := by
  obtain ⟨g1, g2, ⟨q1, h1, t1⟩, ⟨q2, h2, t2⟩⟩ := h
  refine ⟨g1, g2, ⟨q1, ?_, t1⟩, ⟨q2, ?_, t2⟩⟩
  · rw [parse_atom_mono f k _ (by rw [h1]; simp), h1]
  · rw [parse_expr_mono f k _ (by rw [h2]; simp), h2]

theorem ne_nil_of_trim {q : Cursor} {c : Char} {cs : List Char} (h : trim q = c :: cs) :
    q ≠ [] := by
  intro e
  rw [e] at h
  simp [trim] at h

theorem trim_append_of {q : Cursor} {c : Char} {cs : List Char} (h : trim q = c :: cs)
    (w : List Char) : trim (q ++ w) = c :: (cs ++ w) := by
  rw [trim_append_pos q w (by rw [h]; simp), h]
  rfl

theorem trim_ws_append (g x : List Char) (hg : g.all is_ws = true) : trim (g ++ x) = trim x := by
  induction g with
  | nil => rfl
  | cons c cs ih =>
    simp only [List.all_cons, Bool.and_eq_true] at hg
    simp only [List.cons_append, trim, hg.1, if_true]
    exact ih hg.2

/-- An arm in front of any text is read by `parse_branch` up to the
whitespace after its closing brace. -/
theorem parse_branch_arm (a : Arm) (f : Nat) (ha : a.reads f) (rest : List Char) :
    parse_branch (f + 1) (a.text ++ rest) = .ok (a.p, a.v) (a.trail ++ rest) := by
  obtain ⟨g1, g2, ⟨q1, h1, t1⟩, ⟨q2, h2, t2⟩⟩ := ha
  have e1 : a.text ++ rest = (a.pat ++ '-' :: '>' :: []) ++
      (a.gap ++ '{' :: ((a.val ++ '}' :: []) ++ (a.trail ++ rest))) := by
    simp [Arm.text]
  have hp := parse_atom_app (a.gap ++ '{' :: ((a.val ++ '}' :: []) ++ (a.trail ++ rest)))
    f _ _ _ h1 (ne_nil_of_trim t1)
  have hv := parse_expr_app (a.trail ++ rest) f _ _ _ h2 (ne_nil_of_trim t2)
  have ht1 := trim_append_of t1 (a.gap ++ '{' :: ((a.val ++ '}' :: []) ++ (a.trail ++ rest)))
  have ht2 := trim_append_of t2 (a.trail ++ rest)
  have ht3 : trim (a.gap ++ '{' :: ((a.val ++ '}' :: []) ++ (a.trail ++ rest))) =
      '{' :: ((a.val ++ '}' :: []) ++ (a.trail ++ rest)) := by
    rw [trim_ws_append _ _ g1]; exact trim_cons_of_not_ws (by decide)
  have harrow : expect_str "->".toList ('-' :: '>' ::
      (a.gap ++ '{' :: ((a.val ++ '}' :: []) ++ (a.trail ++ rest)))) = true := rfl
  simp only [List.cons_append, List.nil_append] at ht1 ht2
  rw [e1, parse_branch, parse_atom_trim, hp]
  simp only [ht1, harrow, Bool.not_true, Bool.false_eq_true, if_false, List.drop_succ_cons,
    List.drop_zero, List.nil_append, ht3, expect_char, beq_self_eq_true, List.tail_cons,
    parse_expr_trim, hv, ht2]

theorem armsText_cons_cons (a c : Arm) (r : List Arm) (tl : List Char) :
    armsText (a :: c :: r) ++ tl = a.text ++ (',' :: (armsText (c :: r) ++ tl)) := by
  simp [armsText]

theorem Arm.text_length (a : Arm) : 4 ≤ a.text.length := by
  simp [Arm.text]
  omega

/-- The loop of `parse_match` at the closing brace, with the arms read. -/
theorem parse_match_branches_close (f : Nat) (acc : List MatchBranch) :
    parse_match_branches (f + 1) ('}' :: []) ('}' :: []) acc = .ok acc ('}' :: []) := by
  rw [parse_match_branches]
  rfl

/-- The loop of `parse_match` reads the arms in order, up to the closing
brace, with or without a comma directly before it. -/
theorem parse_match_branches_arms (f : Nat) (tl : List Char)
    (htl : tl = '}' :: [] ∨ tl = ',' :: '}' :: []) :
    ∀ (r : List Arm) (a : Arm) (acc : List MatchBranch) (fuel : Nat),
      (∀ c ∈ a :: r, c.reads f) → f + r.length + 3 ≤ fuel →
      parse_match_branches fuel ('}' :: []) (armsText (a :: r) ++ tl) acc =
        .ok (acc ++ (a :: r).map (fun c => (c.p, c.v))) ('}' :: []) := by
  intro r
  induction r with
  | nil =>
    intro a acc fuel hr hf
    obtain ⟨g, rfl⟩ : ∃ g, fuel = f + g + 1 + 1 := ⟨fuel - f - 2, by simp at hf; omega⟩
    have ha := Arm.reads_mono a f g (hr a (List.mem_cons_self _ _))
    have hlen : (armsText [a] ++ tl).length ≠ ('}' :: []).length := by
      have := a.text_length
      simp only [armsText, List.length_cons, List.length_append, List.length_nil]
      omega
    have hbr : parse_branch (f + g + 1) (trim (armsText [a] ++ tl)) =
        .ok (a.p, a.v) (a.trail ++ tl) := by
      rw [parse_branch_trim]
      exact parse_branch_arm a (f + g) ha tl
    have htr := trim_ws_append a.trail tl ha.2.1
    rw [parse_match_branches]
    simp only [bne_iff_ne, ne_eq, hlen, not_false_eq_true, if_true, hbr, htr]
    rcases htl with rfl | rfl
    · rfl
    · have ht : trim (',' :: '}' :: []) = ',' :: '}' :: [] := rfl
      simp only [ht, expect_char, beq_self_eq_true, Bool.not_true, Bool.false_eq_true, if_false,
        List.tail_cons, parse_match_branches_close, List.map_cons, List.map_nil]
  | cons c r ih =>
    intro a acc fuel hr hf
    obtain ⟨g, rfl⟩ : ∃ g, fuel = f + g + 1 + 1 := ⟨fuel - f - 2, by simp at hf; omega⟩
    have ha := Arm.reads_mono a f g (hr a (List.mem_cons_self _ _))
    have hlen : (armsText (a :: c :: r) ++ tl).length ≠ ('}' :: []).length := by
      have := a.text_length
      rw [armsText_cons_cons]
      simp only [List.length_cons, List.length_append, List.length_nil]
      omega
    have hbr : parse_branch (f + g + 1) (trim (armsText (a :: c :: r) ++ tl)) =
        .ok (a.p, a.v) (a.trail ++ ',' :: (armsText (c :: r) ++ tl)) := by
      rw [parse_branch_trim, armsText_cons_cons]
      exact parse_branch_arm a (f + g) ha _
    have ht : trim (a.trail ++ ',' :: (armsText (c :: r) ++ tl)) =
        ',' :: (armsText (c :: r) ++ tl) := by
      rw [trim_ws_append _ _ ha.2.1]; exact trim_cons_of_not_ws (by decide)
    have ih2 := ih c (acc ++ [(a.p, a.v)]) (f + g + 1)
      (fun d hd => hr d (List.mem_cons_of_mem _ hd)) (by simp at hf; omega)
    rw [parse_match_branches]
    simp only [bne_iff_ne, ne_eq, hlen, not_false_eq_true, if_true, hbr, ht, expect_char,
      beq_self_eq_true, Bool.not_true, Bool.false_eq_true, if_false, List.tail_cons, ih2,
      List.map_cons, List.append_assoc, List.singleton_append]

/-- The rule `parse_match` on a match expression with any operands. -/
theorem parse_match_arms (f : Nat) (s : List Char) (es : Expr) (hs : reads_scrutinee f s es)
    (a : Arm) (r : List Arm) (hr : ∀ c ∈ a :: r, c.reads f) (tl : List Char)
    (htl : tl = '}' :: [] ∨ tl = ',' :: '}' :: [])
    (hclose : find_braces '{' '}' ('{' :: (armsText (a :: r) ++ tl)) = '}' :: [])
    (fuel : Nat) (hf : f + r.length + 4 ≤ fuel) :
    parse_match fuel ("match".toList ++ (s ++ '{' :: (armsText (a :: r) ++ tl))) =
      .ok (.ExprMatch es ((a :: r).map (fun c => (c.p, c.v)))) [] := by
  obtain ⟨g, rfl⟩ : ∃ g, fuel = f + g + 1 := ⟨fuel - f - 1, by omega⟩
  obtain ⟨hs0, q, h1, t1⟩ := hs
  have hsep : expect is_symbol (s ++ '{' :: (armsText (a :: r) ++ tl)) = false := by
    cases s with
    | nil => simp only [List.nil_append, expect]; decide
    | cons c cs => exact hs0
  have e0 : s ++ '{' :: (armsText (a :: r) ++ tl) =
      (s ++ '{' :: []) ++ (armsText (a :: r) ++ tl) := by
    simp
  have hkw := parse_symbol_ok "match".toList (s ++ '{' :: (armsText (a :: r) ++ tl))
    (by decide) (by decide) hsep
  have h1g : parse_expr (f + g) (s ++ '{' :: []) = .ok es q := by
    rw [parse_expr_mono f g _ (by rw [h1]; simp), h1]
  have hscr := parse_expr_app (armsText (a :: r) ++ tl) (f + g) _ _ _ h1g (ne_nil_of_trim t1)
  have ht1 := trim_append_of t1 (armsText (a :: r) ++ tl)
  simp only [List.nil_append] at ht1
  have hloop := parse_match_branches_arms f tl htl r a [] (f + g) hr (by omega)
  rw [parse_match, hkw]
  simp only [bne_self_eq_false, Bool.false_eq_true, if_false, parse_expr_trim]
  rw [e0, hscr]
  simp only [ht1, expect_char, beq_self_eq_true, Bool.not_true, Bool.false_eq_true, if_false,
    hclose, List.isEmpty_cons, List.tail_cons, hloop, List.nil_append]

/-- The rule `parse_expr` on a match expression with any operands. -/
theorem parse_expr_match_arms (f : Nat) (s : List Char) (es : Expr)
    (hs : reads_scrutinee f s es) (arms : List Arm) (hne : arms ≠ [])
    (hr : ∀ c ∈ arms, c.reads f) (tl : List Char)
    (htl : tl = '}' :: [] ∨ tl = ',' :: '}' :: [])
    (hclose : find_braces '{' '}' ('{' :: (armsText arms ++ tl)) = '}' :: [])
    (fuel : Nat) (hf : f + arms.length + 8 ≤ fuel) :
    parse_expr fuel ("match".toList ++ (s ++ '{' :: (armsText arms ++ tl))) =
      .ok (.ExprMatch es (arms.map (fun c => (c.p, c.v)))) [] := by
  obtain ⟨a, r, rfl⟩ := List.exists_cons_of_ne_nil hne
  obtain ⟨g, rfl⟩ : ∃ g, fuel = g + 1 + 5 := ⟨fuel - 6, by omega⟩
  have hm := parse_match_arms f s es hs a r hr tl htl hclose (g + 1) (by simp at hf; omega)
  have hsep : expect is_symbol (s ++ '{' :: (armsText (a :: r) ++ tl)) = false := by
    cases s with
    | nil => simp only [List.nil_append, expect]; decide
    | cons c cs => exact hs.1
  have hx : trim ("match".toList ++ (s ++ '{' :: (armsText (a :: r) ++ tl))) =
      "match".toList ++ (s ++ '{' :: (armsText (a :: r) ++ tl)) :=
    trim_cons_of_not_ws (by decide)
  have hscan := scan_all is_symbol "match".toList
    (s ++ '{' :: (armsText (a :: r) ++ tl)) (by decide) hsep
  have hdig : expect is_digit
      ("match".toList ++ (s ++ '{' :: (armsText (a :: r) ++ tl))) = false := by
    simp only [String.toList, List.cons_append, expect]; decide
  have hatom : parse_atom (g + 1 + 1)
      ("match".toList ++ (s ++ '{' :: (armsText (a :: r) ++ tl))) =
      .ok (.ExprMatch es ((a :: r).map (fun c => (c.p, c.v)))) [] := by
    rw [parse_atom]
    simp only [hx, parse_number_fail _ hdig hx, hm]
  exact parse_expr_of_atom (g + 1) _ _ [] hx
    (Or.inr (by rw [hscan]; show "match".toList ≠ "func".toList; decide)) hatom
    rfl rfl rfl rfl

/-- Whitespace before and after an expression that is read to its end: the
same node, and nothing but whitespace is left. -/
theorem parse_expr_ws_around (fuel : Nat) (m : List Char) (e : Expr)
    (h : parse_expr fuel m = .ok e []) (lead trail : List Char)
    (hl : lead.all is_ws = true) (ht : trail.all is_ws = true) :
    ∃ q, parse_expr fuel (lead ++ (m ++ trail)) = .ok e q ∧ trim q = [] := by
  have hw : ∀ c ∈ trail, is_ws c = true := List.all_eq_true.mp ht
  have hx := parse_expr_ext hw fuel 0 (Or.inl rfl : Ext trail m (m ++ trail))
  rw [h] at hx
  obtain ⟨q, h1, h2⟩ := Res.Ext.ok_inv hx
  refine ⟨q, ?_, ?_⟩
  · rw [← parse_expr_trim, trim_ws_append lead _ hl, parse_expr_trim]
    exact h1
  · rcases h2 with h2 | ⟨_, h2⟩
    · rw [h2, List.nil_append]
      exact trim_all_ws trail hw
    · rw [h2]
      rfl

/-! ## C5 and C12: match expressions with any operands -/

/-- C5, amended: a match expression with `n >= 1` comma-separated arms
`pattern -> { value }` parses to `Match(scrutinee, branches)` with the
(pattern, value) pairs in source order, and the input is consumed, whenever
the depth scan from the opening brace of the match stops at its closing brace.
The scrutinee, the patterns and the values are any texts, each with the
whitespace around it: `parse_expr` reads the scrutinee as `es` up to the
opening brace, `parse_atom` reads each pattern up to its arrow and
`parse_expr` reads each value up to its closing brace. Whitespace may stand
wherever the rule skips it: around every operand, between an arrow and the
opening brace, after the closing brace of an arm, and before and after the
match expression. -/
theorem C5_match_branches (f : Nat) (s : List Char) (es : Expr) (arms : List Arm)
    (hne : arms ≠ []) (hs : reads_scrutinee f s es) (harms : ∀ a ∈ arms, a.reads f)
    (hclose : find_braces '{' '}' ('{' :: (armsText arms ++ '}' :: [])) = '}' :: [])
    (fuel : Nat) (hf : f + arms.length + 8 ≤ fuel) :
    parse_expr fuel (matchSource s arms) =
        .ok (.ExprMatch es (arms.map fun a => (a.p, a.v))) [] ∧
      (∀ lead trail : List Char, lead.all is_ws = true → trail.all is_ws = true →
        ∃ q, parse_expr fuel (lead ++ (matchSource s arms ++ trail)) =
            .ok (.ExprMatch es (arms.map fun a => (a.p, a.v))) q ∧ trim q = []) := by
  have h := parse_expr_match_arms f s es hs arms hne harms ('}' :: []) (Or.inl rfl) hclose
    fuel hf
  exact ⟨h, fun lead trail hl ht => parse_expr_ws_around fuel _ _ h lead trail hl ht⟩

/-- The examples `match x { 1 -> { 2 }, 2 -> { 3 } }`,
`match x { 1 -> { a + b }, 2 -> { f(3) } }`, the same arms without whitespace
and with other whitespace, and a match expression whose value is a match
expression. -/
theorem C5_match_branches_witness :
    parse_expr 24 "match x \x7b 1 -> \x7b 2 \x7d, 2 -> \x7b 3 \x7d \x7d".toList =
        .ok (.ExprMatch (.ExprSymbol "x".toList)
          [(.ExprNumber "1".toList, .ExprNumber "2".toList),
            (.ExprNumber "2".toList, .ExprNumber "3".toList)]) [] ∧
      parse_expr 24 "match x \x7b 1 -> \x7b a + b \x7d, 2 -> \x7b f(3) \x7d \x7d".toList =
        .ok (.ExprMatch (.ExprSymbol "x".toList)
          [(.ExprNumber "1".toList,
              .ExprOperation (.ExprSymbol "a".toList) (.ExprSymbol "b".toList) .Add),
            (.ExprNumber "2".toList,
              .ExprFnCall "f".toList [.ExprNumber "3".toList])]) [] ∧
      parse_expr 24 "match x\x7b1->\x7ba+b\x7d,2->\x7bf(3)\x7d\x7d".toList =
        .ok (.ExprMatch (.ExprSymbol "x".toList)
          [(.ExprNumber "1".toList,
              .ExprOperation (.ExprSymbol "a".toList) (.ExprSymbol "b".toList) .Add),
            (.ExprNumber "2".toList,
              .ExprFnCall "f".toList [.ExprNumber "3".toList])]) [] ∧
      parse_expr 24 "match\tx\n\x7b 1->  \x7ba + b\x7d ,\n 2  ->\n\x7b f(3)\x7d\x7d".toList =
        .ok (.ExprMatch (.ExprSymbol "x".toList)
          [(.ExprNumber "1".toList,
              .ExprOperation (.ExprSymbol "a".toList) (.ExprSymbol "b".toList) .Add),
            (.ExprNumber "2".toList,
              .ExprFnCall "f".toList [.ExprNumber "3".toList])]) [] ∧
      parse_expr 23 "match x \x7b 1 -> \x7b match y \x7b 2 -> \x7b 3 \x7d \x7d \x7d \x7d".toList =
        .ok (.ExprMatch (.ExprSymbol "x".toList)
          [(.ExprNumber "1".toList,
              .ExprMatch (.ExprSymbol "y".toList)
                [(.ExprNumber "2".toList, .ExprNumber "3".toList)])]) [] :=
  ⟨(C5_match_branches 14 " x ".toList (.ExprSymbol "x".toList)
      [⟨" 1 ".toList, " ".toList, " 2 ".toList, [], .ExprNumber "1".toList,
          .ExprNumber "2".toList⟩,
        ⟨" 2 ".toList, " ".toList, " 3 ".toList, " ".toList, .ExprNumber "2".toList,
          .ExprNumber "3".toList⟩]
      (List.cons_ne_nil _ _) ⟨rfl, _, rfl, rfl⟩
      (by
        intro a ha
        simp only [List.mem_cons, List.mem_singleton, List.not_mem_nil, or_false] at ha
        rcases ha with rfl | rfl <;> exact ⟨rfl, rfl, ⟨_, rfl, rfl⟩, ⟨_, rfl, rfl⟩⟩)
      rfl 24 (by decide)).1,
    (C5_match_branches 14 " x ".toList (.ExprSymbol "x".toList)
      [⟨" 1 ".toList, " ".toList, " a + b ".toList, [], .ExprNumber "1".toList,
          .ExprOperation (.ExprSymbol "a".toList) (.ExprSymbol "b".toList) .Add⟩,
        ⟨" 2 ".toList, " ".toList, " f(3) ".toList, " ".toList, .ExprNumber "2".toList,
          .ExprFnCall "f".toList [.ExprNumber "3".toList]⟩]
      (List.cons_ne_nil _ _) ⟨rfl, _, rfl, rfl⟩
      (by
        intro a ha
        simp only [List.mem_cons, List.mem_singleton, List.not_mem_nil, or_false] at ha
        rcases ha with rfl | rfl <;> exact ⟨rfl, rfl, ⟨_, rfl, rfl⟩, ⟨_, rfl, rfl⟩⟩)
      rfl 24 (by decide)).1,
    (C5_match_branches 14 " x".toList (.ExprSymbol "x".toList)
      [⟨"1".toList, [], "a+b".toList, [], .ExprNumber "1".toList,
          .ExprOperation (.ExprSymbol "a".toList) (.ExprSymbol "b".toList) .Add⟩,
        ⟨"2".toList, [], "f(3)".toList, [], .ExprNumber "2".toList,
          .ExprFnCall "f".toList [.ExprNumber "3".toList]⟩]
      (List.cons_ne_nil _ _) ⟨rfl, _, rfl, rfl⟩
      (by
        intro a ha
        simp only [List.mem_cons, List.mem_singleton, List.not_mem_nil, or_false] at ha
        rcases ha with rfl | rfl <;> exact ⟨rfl, rfl, ⟨_, rfl, rfl⟩, ⟨_, rfl, rfl⟩⟩)
      rfl 24 (by decide)).1,
    (C5_match_branches 14 "\tx\n".toList (.ExprSymbol "x".toList)
      [⟨" 1".toList, "  ".toList, "a + b".toList, " ".toList, .ExprNumber "1".toList,
          .ExprOperation (.ExprSymbol "a".toList) (.ExprSymbol "b".toList) .Add⟩,
        ⟨"\n 2  ".toList, "\n".toList, " f(3)".toList, [], .ExprNumber "2".toList,
          .ExprFnCall "f".toList [.ExprNumber "3".toList]⟩]
      (List.cons_ne_nil _ _) ⟨rfl, _, rfl, rfl⟩
      (by
        intro a ha
        simp only [List.mem_cons, List.mem_singleton, List.not_mem_nil, or_false] at ha
        rcases ha with rfl | rfl <;> exact ⟨rfl, rfl, ⟨_, rfl, rfl⟩, ⟨_, rfl, rfl⟩⟩)
      rfl 24 (by decide)).1,
    (C5_match_branches 14 " x ".toList (.ExprSymbol "x".toList)
      [⟨" 1 ".toList, " ".toList, " match y \x7b 2 -> \x7b 3 \x7d \x7d ".toList, " ".toList,
          .ExprNumber "1".toList,
          .ExprMatch (.ExprSymbol "y".toList)
            [(.ExprNumber "2".toList, .ExprNumber "3".toList)]⟩]
      (List.cons_ne_nil _ _) ⟨rfl, _, rfl, rfl⟩
      (by
        intro a ha
        simp only [List.mem_cons, List.mem_singleton, List.not_mem_nil, or_false] at ha
        rcases ha with rfl
        exact ⟨rfl, rfl, ⟨_, rfl, rfl⟩, ⟨_, rfl, rfl⟩⟩)
      rfl 23 (by decide)).1⟩

end Efp
